import Mathlib

/-!
# Wum+ : the knowledge base, the corner inference, the path search and the choice of action

A shallow embedding of `wumpus.c`.  The global `struct WUMPLUS game` becomes a
value that every function takes and returns.  The SQLite database becomes two
lists of rows, one per table.  C `int`s are `Int`; no value in the program
comes near the 32-bit limits, so no wraparound is modelled.  An array read or
write outside `0 .. MAP_SIZE-1` is undefined in C and is an error here.
SQL statements are taken to succeed.
-/

namespace Wumpus

/-! ## Constants -/

def MAP_SIZE : Int := 14
def MAP_MAXSTEPS : Int := 500
def MAP_PLAYER : Char := '@'
def MAP_EMPTY : Char := '.'
def MAP_WALL : Char := '#'
def MAP_PIT : Char := 'P'
def MAP_WUMPUS : Char := 'W'
def MAP_GOLD : Char := 'G'
def MAP_SUPMUW : Char := 'S'

def PERCEPT_BUMP : Int := 1
def PERCEPT_SMELL : Int := 2
def PERCEPT_BREEZE : Int := 4
def PERCEPT_MOO : Int := 8
def PERCEPT_GLITTER : Int := 16
def PERCEPT_DEAD : Int := 32
def PERCEPT_WUMPUS : Int := 64
def PERCEPT_SUPMUW : Int := 128
def PERCEPT_PIT : Int := 256
def PERCEPT_SAFE : Int := 512
def PERCEPT_VISITED : Int := 1024
def PERCEPT_DESTINATION : Int := 2048

def DIRECTION_NORTH : Int := 1
def DIRECTION_EAST : Int := 2
def DIRECTION_SOUTH : Int := 3
def DIRECTION_WEST : Int := 4

def SCORE_MOVE : Int := -1
def SCORE_DEATH : Int := -1000
def SCORE_SHOOT : Int := -10
def SCORE_KILL : Int := 500
def SCORE_GOLD : Int := 1000
def SCORE_FOOD : Int := 100
def SCORE_MIN : Int := -1000

/-! ## Data -/

/-- The `coordinate` struct: one bucket for an x and a y. -/
structure coordinate where
  x : Int
  y : Int
deriving DecidableEq, Repr

/-- One row of the table `kb (sentence INT, x INT, y INT)`. -/
structure Row where
  sentence : Int
  x : Int
  y : Int
deriving DecidableEq, Repr

/-- The in-memory SQLite database.  `kb` lists the rows of table `kb` in
insertion order; the table has no key, so nothing in the schema forbids equal
rows.  `queue` lists the coordinates of the rows of table `queue` in ascending
`id`; the program only ever uses the list name "queue", so the name column is
left out, and `id INTEGER PRIMARY KEY` numbers rows in insertion order. -/
structure Database where
  kb : List Row
  queue : List coordinate

/-- The `struct WUMPLUS`.  The four `short int` flags only ever hold 0 or 1 and
are only tested for truth, so they are `Bool`.  `map x y` is `game.map[x][y]`;
only indices in `0 .. MAP_SIZE-1` belong to the array. -/
structure WUMPLUS where
  x : Int
  y : Int
  arrows : Int
  percepts : Int
  score : Int
  steps_taken : Int
  dest_x : Int
  dest_y : Int
  has_food : Bool
  has_gold : Bool
  supmuw_neighbors_wumpus : Bool
  use_agent : Bool
  map : Int → Int → Char
  db : Database

/-- What can go wrong in a run: an array index outside the array, or the
step budget of a loop used up. -/
inductive Err where
  | out_of_bounds
  | out_of_fuel
deriving DecidableEq, Repr

/-! ## The knowledge base -/

/-- Function `kb_found`: is there a row with this sentence at this position?
(`SELECT * FROM KB WHERE x = .. AND y = .. AND sentence = .. LIMIT 1`). -/
def kb_found (g : WUMPLUS) (sentence x y : Int) : Bool :=
  g.db.kb.any (fun r => r.x == x && r.y == y && r.sentence == sentence)

/-- Function `visited`. -/
def visited (g : WUMPLUS) (x y : Int) : Bool := kb_found g PERCEPT_VISITED x y

/-- Function `safe`. -/
def safe (g : WUMPLUS) (x y : Int) : Bool := kb_found g PERCEPT_SAFE x y

/-- Function `wall`. -/
def wall (g : WUMPLUS) (x y : Int) : Bool := kb_found g PERCEPT_BUMP x y

/-- Function `glitter`. -/
def glitter (g : WUMPLUS) (x y : Int) : Bool := kb_found g PERCEPT_GLITTER x y

/-- Function `smell`. -/
def smell (g : WUMPLUS) (x y : Int) : Bool := kb_found g PERCEPT_SMELL x y

/-- The game with the rows of table `kb` replaced. -/
def set_kb (g : WUMPLUS) (rows : List Row) : WUMPLUS :=
  { g with db := { g.db with kb := rows } }

/-- Function `kb_insert`: return at once when the row is found, otherwise
`INSERT INTO KB (sentence, x, y) VALUES (..)`. -/
def kb_insert (g : WUMPLUS) (sentence x y : Int) : WUMPLUS :=
  if kb_found g sentence x y then g
  else set_kb g (g.db.kb ++ [⟨sentence, x, y⟩])

/-- Function `kb_delete`: return at once when the row is not found, otherwise
`DELETE FROM KB WHERE sentence = .. AND x = .. AND y = ..`, which removes
every matching row. -/
def kb_delete (g : WUMPLUS) (sentence x y : Int) : WUMPLUS :=
  if !kb_found g sentence x y then g
  else set_kb g (g.db.kb.filter (fun r => !(r.sentence == sentence && r.x == x && r.y == y)))

/-! ## The map and the game actions -/

/-- Is the index pair inside an array declared `[MAP_SIZE][MAP_SIZE]`? -/
def in_map (x y : Int) : Bool :=
  decide (0 ≤ x ∧ x < MAP_SIZE ∧ 0 ≤ y ∧ y < MAP_SIZE)

/-- A read of `game.map[x][y]`. -/
def map_get (g : WUMPLUS) (x y : Int) : Except Err Char :=
  if in_map x y then .ok (g.map x y) else .error .out_of_bounds

/-- The assignment `game.map[x][y] = c`, for an index pair already read. -/
def map_set (g : WUMPLUS) (x y : Int) (c : Char) : WUMPLUS :=
  { g with map := fun i j => if i = x ∧ j = y then c else g.map i j }

/-- The outcome of the calls of `rand()` in `init_game`: the coordinates each
call of `random_map_x_y` ends with, in the order of the calls.  The numbers of
pits and of interior walls are the lengths of the two lists. -/
structure Draws where
  pits : List coordinate
  walls : List coordinate
  wumpus : coordinate
  gold : coordinate
  supmuw : coordinate

/-- Function `random_map_x_y`.  Its loop draws pairs with both coordinates
`rand() % (MAP_SIZE - 2) + 1` until the pair is not (1,1) and the map cell is
empty.  The pair it ends with is given as `draw`; a pair the loop cannot end
with gives `none`. -/
def random_map_x_y (m : Int → Int → Char) (draw : coordinate) : Option coordinate :=
  if 1 ≤ draw.x ∧ draw.x ≤ MAP_SIZE - 2 ∧ 1 ≤ draw.y ∧ draw.y ≤ MAP_SIZE - 2 ∧
      ¬ (draw.x = 1 ∧ draw.y = 1) ∧ m draw.x draw.y = MAP_EMPTY
  then some draw else none

/-- One `random_map_x_y(&x, &y); game.map[x][y] = c;` of `init_game`. -/
def place (c : Char) (m : Int → Int → Char) (draw : coordinate) :
    Option (Int → Int → Char) :=
  match random_map_x_y m draw with
  | none => none
  | some p => some (fun i j => if i = p.x ∧ j = p.y then c else m i j)

/-- Function `kb_init`: an empty `kb` table and an empty `queue` table. -/
def kb_init (g : WUMPLUS) : WUMPLUS :=
  { g with db := { kb := [], queue := [] } }

/-- The loop of `init_game` that tells the knowledge base the outside walls. -/
def tell_outside_walls (g : WUMPLUS) : WUMPLUS :=
  (List.range 14).foldl (fun g n =>
    let i : Int := n
    let g := kb_insert g PERCEPT_BUMP i 0
    let g := kb_insert g PERCEPT_BUMP i (MAP_SIZE - 1)
    let g := kb_insert g PERCEPT_BUMP 0 i
    kb_insert g PERCEPT_BUMP (MAP_SIZE - 1) i) g

/-- Function `init_game`, for the value of `game.use_agent` that `main` has
set and the outcome of the random draws.  `rand() % (int)(MAP_SIZE * MAP_SIZE
* .15) + 1` is a number of pits from 1 to 29, and `rand() % (int)(MAP_SIZE *
MAP_SIZE * .10) + 1` a number of walls from 1 to 19.  The clean slate and the
perimeter loop together leave walls on the border and empty cells inside. -/
def init_game (use_agent : Bool) (r : Draws) : Option WUMPLUS :=
  if ¬ (1 ≤ r.pits.length ∧ r.pits.length ≤ 29 ∧
        1 ≤ r.walls.length ∧ r.walls.length ≤ 19) then none
  else
    let m0 : Int → Int → Char := fun i j =>
      if i = 0 ∨ i = MAP_SIZE - 1 ∨ j = 0 ∨ j = MAP_SIZE - 1 then MAP_WALL else MAP_EMPTY
    match r.pits.foldlM (place MAP_PIT) m0 with
    | none => none
    | some m1 =>
    match r.walls.foldlM (place MAP_WALL) m1 with
    | none => none
    | some m2 =>
    match place MAP_WUMPUS m2 r.wumpus with
    | none => none
    | some m3 =>
    match place MAP_GOLD m3 r.gold with
    | none => none
    | some m4 =>
    match place MAP_SUPMUW m4 r.supmuw with
    | none => none
    | some m5 =>
      let x := r.supmuw.x
      let y := r.supmuw.y
      let flag : Bool :=
        decide (m5 x (y + 1) = MAP_WUMPUS ∨ m5 x (y - 1) = MAP_WUMPUS ∨
                m5 (x + 1) y = MAP_WUMPUS ∨ m5 (x - 1) y = MAP_WUMPUS)
      let g : WUMPLUS :=
        { x := 1, y := 1, arrows := 1, percepts := 0, score := 0, steps_taken := 0,
          dest_x := -1, dest_y := -1, has_food := false, has_gold := false,
          supmuw_neighbors_wumpus := flag, use_agent := use_agent,
          map := m5, db := { kb := [], queue := [] } }
      some (if use_agent then tell_outside_walls (kb_init g) else g)

/-- Function `add_score`. -/
def add_score (g : WUMPLUS) (delta : Int) : WUMPLUS :=
  { g with score := g.score + delta }

/-- Function `delta_coordinates`: the coordinates moved one step in the
direction, and the word that is printed. -/
def delta_coordinates (x y direction : Int) : coordinate × String :=
  if direction = DIRECTION_NORTH then (⟨x, y - 1⟩, "North")
  else if direction = DIRECTION_SOUTH then (⟨x, y + 1⟩, "South")
  else if direction = DIRECTION_EAST then (⟨x + 1, y⟩, "East")
  else if direction = DIRECTION_WEST then (⟨x - 1, y⟩, "West")
  else (⟨x, y⟩, "Unknown")

/-! ## Corner inference and `kb_tell` -/

/-- Function `check_corner`.  In C `^` binds tighter than `&&`, so the
condition is: the diagonal holds the percept, the diagonal is no known wall,
and exactly one of the two side cells is Safe.  The second `if` reads the
store after the first insertion. -/
def check_corner (g : WUMPLUS) (percept known xd yd : Int) : WUMPLUS :=
  if kb_found g percept (g.x + xd) (g.y + yd) &&
      !wall g (g.x + xd) (g.y + yd) &&
      (xor (safe g (g.x + xd) g.y) (safe g g.x (g.y + yd))) then
    let g1 := if safe g (g.x + xd) g.y then kb_insert g known g.x (g.y + yd) else g
    if safe g1 g1.x (g1.y + yd) then kb_insert g1 known (g1.x + xd) g1.y else g1
  else g

/-- Function `kb_inferrances`. -/
def kb_inferrances (g : WUMPLUS) (percept known : Int) : WUMPLUS :=
  if !kb_found g percept g.x g.y then g
  else
    let g := check_corner g percept known (-1) (-1)
    let g := check_corner g percept known 1 (-1)
    let g := check_corner g percept known (-1) 1
    check_corner g percept known 1 1

/-- Function `kb_tell`. -/
def kb_tell (g : WUMPLUS) : WUMPLUS :=
  let g := kb_insert g PERCEPT_VISITED g.x g.y
  let g := if Int.land g.percepts PERCEPT_DEAD = 0 then kb_insert g PERCEPT_SAFE g.x g.y else g
  let g := if Int.land g.percepts PERCEPT_SMELL ≠ 0 then kb_insert g PERCEPT_SMELL g.x g.y else g
  let g := if Int.land g.percepts PERCEPT_BREEZE ≠ 0 then kb_insert g PERCEPT_BREEZE g.x g.y
    else g
  let g := if Int.land g.percepts PERCEPT_MOO ≠ 0 then kb_insert g PERCEPT_MOO g.x g.y else g
  let g := if Int.land g.percepts PERCEPT_GLITTER ≠ 0 then kb_insert g PERCEPT_GLITTER g.x g.y
    else g
  let g :=
    if Int.land g.percepts PERCEPT_SMELL = 0 ∧ Int.land g.percepts PERCEPT_BREEZE = 0 then
      let g := kb_insert g PERCEPT_SAFE (g.x - 1) g.y
      let g := kb_insert g PERCEPT_SAFE (g.x + 1) g.y
      let g := kb_insert g PERCEPT_SAFE g.x (g.y - 1)
      kb_insert g PERCEPT_SAFE g.x (g.y + 1)
    else g
  let g := kb_inferrances g PERCEPT_SMELL PERCEPT_WUMPUS
  let g := kb_inferrances g PERCEPT_BREEZE PERCEPT_PIT
  kb_inferrances g PERCEPT_MOO PERCEPT_SUPMUW

/-- The statement `if(c) flags |= bit;`. -/
def or_if (c : Bool) (flags bit : Int) : Int :=
  if c then Int.lor flags bit else flags

/-- Function `process_percepts`.  The five map reads come first, as in the
source; `flags` is built by the same sequence of `|=`. -/
def process_percepts (g : WUMPLUS) : Except Err WUMPLUS := do
  let north ← map_get g g.x (g.y - 1)
  let south ← map_get g g.x (g.y + 1)
  let east ← map_get g (g.x + 1) g.y
  let west ← map_get g (g.x - 1) g.y
  let here ← map_get g g.x g.y
  let flags : Int := 0
  let bumped := Int.land g.percepts PERCEPT_BUMP
  let flags := or_if (decide (bumped ≠ 0)) flags PERCEPT_BUMP
  let dead : Bool := decide (here = MAP_PIT ∨ here = MAP_WUMPUS ∨
    (here = MAP_SUPMUW ∧ g.supmuw_neighbors_wumpus = true))
  let flags := or_if dead flags PERCEPT_DEAD
  let g := if dead then add_score g SCORE_DEATH else g
  let flags := or_if (decide (north = MAP_WUMPUS ∨ south = MAP_WUMPUS ∨
    east = MAP_WUMPUS ∨ west = MAP_WUMPUS)) flags PERCEPT_SMELL
  let flags := or_if (decide (north = MAP_PIT ∨ south = MAP_PIT ∨
    east = MAP_PIT ∨ west = MAP_PIT)) flags PERCEPT_BREEZE
  let flags := or_if (decide (north = MAP_SUPMUW ∨ south = MAP_SUPMUW ∨
    east = MAP_SUPMUW ∨ west = MAP_SUPMUW)) flags PERCEPT_MOO
  let flags := or_if (decide (here = MAP_GOLD)) flags PERCEPT_GLITTER
  let flags := or_if (decide (Int.land flags PERCEPT_MOO ≠ 0 ∧
    g.supmuw_neighbors_wumpus = true)) flags PERCEPT_SMELL
  let g := { g with percepts := flags }
  pure (if g.use_agent then kb_tell g else g)

/-- Function `action_move`. -/
def action_move (g : WUMPLUS) (direction : Int) : Except Err WUMPLUS := do
  let g := add_score g SCORE_MOVE
  let g := { g with steps_taken := g.steps_taken + 1 }
  let c2 := (delta_coordinates g.x g.y direction).1
  let cell ← map_get g c2.x c2.y
  if cell = MAP_WALL then
    let g := { g with percepts := Int.lor g.percepts PERCEPT_BUMP }
    pure (if g.use_agent then kb_insert g PERCEPT_BUMP c2.x c2.y else g)
  else
    let g :=
      if cell = MAP_SUPMUW ∧ g.has_food = false ∧ g.supmuw_neighbors_wumpus = false
      then add_score { g with has_food := true } SCORE_FOOD else g
    pure { g with x := c2.x, y := c2.y }

/-- Function `action_shoot`. -/
def action_shoot (g : WUMPLUS) (direction : Int) : Except Err WUMPLUS := do
  if g.arrows = 0 then pure g
  else
    let c2 := (delta_coordinates g.x g.y direction).1
    let g := add_score g SCORE_SHOOT
    let g := { g with arrows := g.arrows - 1 }
    let cell ← map_get g c2.x c2.y
    if cell = MAP_WUMPUS ∨ cell = MAP_SUPMUW then
      let g := add_score g SCORE_KILL
      let g := map_set g c2.x c2.y MAP_EMPTY
      let g := { g with supmuw_neighbors_wumpus := false }
      if g.use_agent then
        let g := kb_delete g PERCEPT_WUMPUS c2.x c2.y
        let g := kb_delete g PERCEPT_SUPMUW c2.x c2.y
        let g := kb_delete g PERCEPT_SMELL (c2.x - 1) c2.y
        let g := kb_delete g PERCEPT_SMELL (c2.x + 1) c2.y
        let g := kb_delete g PERCEPT_SMELL c2.x (c2.y - 1)
        pure (kb_delete g PERCEPT_SMELL c2.x (c2.y + 1))
      else pure g
    else pure g

/-- Function `action_grab`. -/
def action_grab (g : WUMPLUS) : Except Err WUMPLUS := do
  let cell ← map_get g g.x g.y
  if cell = MAP_GOLD then
    let g := add_score g SCORE_GOLD
    let g := map_set g g.x g.y MAP_EMPTY
    let g := { g with has_gold := true }
    pure (if g.use_agent then kb_delete g PERCEPT_GLITTER g.x g.y else g)
  else pure g

/-! ## The path search -/

/-- Function `relative_direction`. -/
def relative_direction (g : WUMPLUS) (x y : Int) : Char :=
  if x = g.x then (if g.y < y then 's' else 'n')
  else if y = g.y then (if g.x < x then 'e' else 'w')
  else 'q'

/-- Function `queue_make_empty`. -/
def queue_make_empty (g : WUMPLUS) : WUMPLUS :=
  { g with db := { g.db with queue := [] } }

/-- Function `queue_empty`. -/
def queue_empty (g : WUMPLUS) : Bool := g.db.queue.isEmpty

/-- Function `queue_enqueue`. -/
def queue_enqueue (g : WUMPLUS) (data : coordinate) : WUMPLUS :=
  { g with db := { g.db with queue := g.db.queue ++ [data] } }

/-- Function `queue_dequeue`.  The row with the least id is read into
`result` (which keeps its value when there is no row), and then `DELETE FROM
queue WHERE name = .. AND x = .. AND y = ..` removes every row that has the
coordinates now in `result`. -/
def queue_dequeue (g : WUMPLUS) (result : coordinate) : coordinate × WUMPLUS :=
  let result := match g.db.queue with
    | [] => result
    | c :: _ => c
  (result, { g with db := { g.db with queue := g.db.queue.filter (fun c => !(c == result)) } })

/-- A local array `int a[MAP_SIZE][MAP_SIZE]`, as the function of its two
indices; only index pairs inside the map belong to it. -/
abbrev Grid := Int → Int → Int

/-- A read of `a[x][y]`. -/
def grid_get (a : Grid) (x y : Int) : Except Err Int :=
  if in_map x y then .ok (a x y) else .error .out_of_bounds

/-- The assignment `a[x][y] = v`. -/
def grid_set (a : Grid) (x y v : Int) : Except Err Grid :=
  if in_map x y then .ok (fun i j => if i = x ∧ j = y then v else a i j)
  else .error .out_of_bounds

/-- The element `possibles[x][y]`, which the first loop of `shortest_path`
sets to the coordinate (x, y). -/
def possibles (x y : Int) : Except Err coordinate :=
  if in_map x y then .ok ⟨x, y⟩ else .error .out_of_bounds

/-- One of the four `if(weights[..] == 0 || weights[..] > new_weight)
weights[..] = new_weight;` of the search loop. -/
def relax (weights : Grid) (x y new_weight : Int) : Except Err Grid := do
  let w ← grid_get weights x y
  if w = 0 ∨ w > new_weight then grid_set weights x y new_weight else pure weights

/-- The `while(!queue_empty(queue))` loop of `shortest_path`, run for at most
`fuel` iterations.  `wall(..) || !safe(..) || marked[..][..]` reads `marked`
only when the first two tests fail. -/
def search_loop : Nat → WUMPLUS → Grid → Grid → coordinate →
    Except Err (WUMPLUS × Grid × Grid × coordinate)
  | 0, g, marked, weights, temp =>
    if queue_empty g then .ok (g, marked, weights, temp) else .error .out_of_fuel
  | fuel + 1, g, marked, weights, temp =>
    if queue_empty g then .ok (g, marked, weights, temp)
    else
      let d := queue_dequeue g temp
      let temp := d.1
      let g := d.2
      if wall g temp.x temp.y || !safe g temp.x temp.y then
        search_loop fuel g marked weights temp
      else do
        let m ← grid_get marked temp.x temp.y
        if m ≠ 0 then search_loop fuel g marked weights temp
        else do
          let marked ← grid_set marked temp.x temp.y 1
          let p1 ← possibles (temp.x - 1) temp.y
          let g := queue_enqueue g p1
          let p2 ← possibles (temp.x + 1) temp.y
          let g := queue_enqueue g p2
          let p3 ← possibles temp.x (temp.y - 1)
          let g := queue_enqueue g p3
          let p4 ← possibles temp.x (temp.y + 1)
          let g := queue_enqueue g p4
          let w ← grid_get weights temp.x temp.y
          let new_weight := w + 1
          let weights ← relax weights (temp.x - 1) temp.y new_weight
          let weights ← relax weights (temp.x + 1) temp.y new_weight
          let weights ← relax weights temp.x (temp.y - 1) new_weight
          let weights ← relax weights temp.x (temp.y + 1) new_weight
          search_loop fuel g marked weights temp

/-- The double loop after the search: `weights[j][i] = 0` for every index pair
of the map that is a known wall or neither Safe nor Visited.  Each pair is
visited once and only its own element is written, so the result is given
element by element. -/
def zero_unknown (g : WUMPLUS) (weights : Grid) : Grid :=
  fun j i =>
    if in_map j i && (wall g j i || (!safe g j i && !visited g j i)) then 0 else weights j i

/-- One of the four neighbour tests at the end of `shortest_path`: the pair
(`new_weight`, `temp`) after the `if` on `weights[x][y]`. -/
def pick (weights : Grid) (x y : Int) (best : Int × coordinate) :
    Except Err (Int × coordinate) := do
  let w ← grid_get weights x y
  if (w < best.1 ∨ best.1 = 0) ∧ w ≠ 0 then pure (w, ⟨x, y⟩) else pure best

/-- The first part of `shortest_path`, up to the end of the `while` loop, with
the loop run for at most `fuel` iterations: the game with the queue as the loop
leaves it, and the array `weights`. -/
def search_weights (fuel : Nat) (g : WUMPLUS) : Except Err (WUMPLUS × Grid) := do
  let marked : Grid := fun _ _ => 0
  let weights : Grid := fun _ _ => 0
  let temp : coordinate := ⟨-1, -1⟩
  let weights ← grid_set weights g.dest_x g.dest_y 1
  let p ← possibles g.dest_x g.dest_y
  let g := queue_enqueue g p
  let r ← search_loop fuel g marked weights temp
  pure (r.1, r.2.2.1)

/-- The part of `shortest_path` up to the end of the double loop that zeroes
the weights of walls and unknown cells: the game, whose queue table
`queue_make_empty` has emptied, and the array `weights`. -/
def filtered_weights (fuel : Nat) (g : WUMPLUS) : Except Err (WUMPLUS × Grid) := do
  let r ← search_weights fuel g
  let g := queue_make_empty r.1
  pure (g, zero_unknown g r.2)

/-- Function `shortest_path` with the search loop run for at most `fuel`
iterations.  It returns the direction character and the game, whose queue
table it has emptied. -/
def shortest_path_fuel (fuel : Nat) (g : WUMPLUS) : Except Err (Char × WUMPLUS) := do
  let r ← filtered_weights fuel g
  let g := r.1
  let weights := r.2
  let best : Int × coordinate := (0, ⟨g.x, g.y⟩)
  let best ← pick weights (g.x - 1) g.y best
  let best ← pick weights (g.x + 1) g.y best
  let best ← pick weights g.x (g.y - 1) best
  let best ← pick weights g.x (g.y + 1) best
  pure (relative_direction g best.2.x best.2.y, g)

/-- The number of loop iterations that always suffices: every iteration takes
at least one row off the queue, and only the iterations that mark a new cell
of the map, at most `MAP_SIZE * MAP_SIZE` of them, add rows, four each. -/
def search_fuel : Nat := 1 + 4 * 14 * 14

/-- Function `shortest_path`. -/
def shortest_path (g : WUMPLUS) : Except Err (Char × WUMPLUS) :=
  shortest_path_fuel search_fuel g

/-- The statement `if(game.percepts & PERCEPT_BUMP) game.percepts ^= PERCEPT_BUMP;`
of the main loop. -/
def clear_bump (g : WUMPLUS) : WUMPLUS :=
  if Int.land g.percepts PERCEPT_BUMP ≠ 0 then
    { g with percepts := Int.xor g.percepts PERCEPT_BUMP }
  else g

/-! ## Notions the claims are stated with -/

/-- The map holds the character `c` at the cell (x, y) of the map. -/
def holds (g : WUMPLUS) (x y : Int) (c : Char) : Prop :=
  in_map x y = true ∧ g.map x y = c

/-- The cell holds a lethal hazard on the real map: a pit, the wumpus, or the
supmuw while the supmuw-neighbours-wumpus flag is set (the death test of
`process_percepts`). -/
def lethal (g : WUMPLUS) (x y : Int) : Prop :=
  g.map x y = MAP_PIT ∨ g.map x y = MAP_WUMPUS ∨
    (g.map x y = MAP_SUPMUW ∧ g.supmuw_neighbors_wumpus = true)

/-- Two cells are orthogonally adjacent. -/
def adjacent (a b : coordinate) : Prop :=
  (b.x = a.x ∧ (b.y = a.y + 1 ∨ b.y = a.y - 1)) ∨
  (b.y = a.y ∧ (b.x = a.x + 1 ∨ b.x = a.x - 1))

/-- A cell the search may walk through: Safe and not a known wall. -/
def passable (g : WUMPLUS) (c : coordinate) : Prop :=
  safe g c.x c.y = true ∧ wall g c.x c.y = false

/-- What one corner contributes at the cell (cx, cy): the diagonal cell at
offset (xd, yd) from the agent holds the percept and is no known wall, exactly
one of the two side cells is Safe, and (cx, cy) is the other side cell. -/
def corner_adds (g : WUMPLUS) (percept xd yd cx cy : Int) : Prop :=
  kb_found g percept (g.x + xd) (g.y + yd) = true ∧
  wall g (g.x + xd) (g.y + yd) = false ∧
  ((safe g (g.x + xd) g.y = true ∧ safe g g.x (g.y + yd) = false ∧
      cx = g.x ∧ cy = g.y + yd) ∨
   (safe g g.x (g.y + yd) = true ∧ safe g (g.x + xd) g.y = false ∧
      cx = g.x + xd ∧ cy = g.y))

/-- All perimeter cells of the map are known walls. -/
def perimeter_walls (g : WUMPLUS) : Prop :=
  ∀ i : Int, 0 ≤ i → i < MAP_SIZE →
    wall g i 0 = true ∧ wall g i (MAP_SIZE - 1) = true ∧
    wall g 0 i = true ∧ wall g (MAP_SIZE - 1) i = true

/-- `SafePath g a d n`: there is a walk of `n` orthogonal steps from `a` to `d`
all of whose cells, both ends included, are Safe and not known walls. -/
inductive SafePath (g : WUMPLUS) : coordinate → coordinate → Nat → Prop
  | here (d : coordinate) : passable g d → SafePath g d d 0
  | step (a b d : coordinate) (n : Nat) :
      passable g a → adjacent a b → SafePath g b d n → SafePath g a d (n + 1)

/-- `safe_dist g a d n`: the shortest such walk from `a` to `d` has `n` steps. -/
def safe_dist (g : WUMPLUS) (a d : coordinate) (n : Nat) : Prop :=
  SafePath g a d n ∧ ∀ m, SafePath g a d m → n ≤ m

/-- The fact store is truthful about the map as far as pits go: each Breeze
fact sits on a cell orthogonally adjacent to a pit, and each Safe fact sits on
a cell that holds no lethal hazard. -/
def truthful (g : WUMPLUS) : Prop :=
  (∀ x y, kb_found g PERCEPT_BREEZE x y = true →
    holds g x (y - 1) MAP_PIT ∨ holds g x (y + 1) MAP_PIT ∨
    holds g (x + 1) y MAP_PIT ∨ holds g (x - 1) y MAP_PIT) ∧
  (∀ x y, safe g x y = true → ¬ lethal g x y)

/-- States of a game in agent mode: what `init_game` leaves, and from any
such state what `process_percepts`, the main loop's removal of the Bump
percept, and the player actions move, shoot and grab lead to, in any order.
The choice of the action by `kb_ask_action`, which changes the Destination
marker, the target and the queue table, is left out here; `Play` below has
it, and the runs of `main` are among the states of `Play`. -/
inductive Reachable : WUMPLUS → Prop
  | init (r : Draws) (g : WUMPLUS) : init_game true r = some g → Reachable g
  | percepts (g g' : WUMPLUS) : Reachable g → process_percepts g = .ok g' → Reachable g'
  | unbump (g : WUMPLUS) : Reachable g → Reachable (clear_bump g)
  | move (g g' : WUMPLUS) (d : Int) :
      Reachable g → d = DIRECTION_NORTH ∨ d = DIRECTION_EAST ∨ d = DIRECTION_SOUTH ∨
        d = DIRECTION_WEST → action_move g d = .ok g' → Reachable g'
  | shoot (g g' : WUMPLUS) (d : Int) :
      Reachable g → d = DIRECTION_NORTH ∨ d = DIRECTION_EAST ∨ d = DIRECTION_SOUTH ∨
        d = DIRECTION_WEST → action_shoot g d = .ok g' → Reachable g'
  | grab (g g' : WUMPLUS) : Reachable g → action_grab g = .ok g' → Reachable g'

/-! ## Sample states -/

/-- A game with the given position, map and fact rows, and nothing else of
note: one arrow, no percepts, no destination, an empty queue. -/
def game_with (x y : Int) (m : Int → Int → Char) (rows : List Row) : WUMPLUS :=
  { x := x, y := y, arrows := 1, percepts := 0, score := 0, steps_taken := 0,
    dest_x := -1, dest_y := -1, has_food := false, has_gold := false,
    supmuw_neighbors_wumpus := false, use_agent := true,
    map := m, db := { kb := rows, queue := [] } }

/-- A small game state used to try the knowledge base on. -/
def sample_game : WUMPLUS :=
  game_with 1 1 (fun _ _ => MAP_EMPTY)
    [⟨PERCEPT_BUMP, 0, 0⟩, ⟨PERCEPT_BUMP, 0, 1⟩, ⟨PERCEPT_SAFE, 1, 1⟩]

/-- The corner example of the specification: the agent at (2,2), Smell at
(2,2) and (3,3), (3,2) known Safe, (2,3) unknown. -/
def corner_game : WUMPLUS :=
  game_with 2 2 (fun _ _ => MAP_EMPTY)
    [⟨PERCEPT_SMELL, 2, 2⟩, ⟨PERCEPT_SMELL, 3, 3⟩, ⟨PERCEPT_SAFE, 3, 2⟩]

/-- Two pits, at (1,2) and (4,3), and a truthful store: Breeze at (2,2) (from
the first pit) and at (3,3) (from the second), Safe at (2,2) and (3,2). -/
def two_pits_game : WUMPLUS :=
  game_with 2 2
    (fun i j => if (i = 1 ∧ j = 2) ∨ (i = 4 ∧ j = 3) then MAP_PIT else MAP_EMPTY)
    [⟨PERCEPT_SAFE, 2, 2⟩, ⟨PERCEPT_BREEZE, 2, 2⟩, ⟨PERCEPT_BREEZE, 3, 3⟩,
     ⟨PERCEPT_SAFE, 3, 2⟩]

/-- One pit, at (2,3), and a truthful store: Breeze at (2,2) and (3,3), both
from that pit, Safe at (2,2) and (3,2). -/
def one_pit_game : WUMPLUS :=
  game_with 2 2
    (fun i j => if i = 2 ∧ j = 3 then MAP_PIT else MAP_EMPTY)
    [⟨PERCEPT_SAFE, 2, 2⟩, ⟨PERCEPT_BREEZE, 2, 2⟩, ⟨PERCEPT_BREEZE, 3, 3⟩,
     ⟨PERCEPT_SAFE, 3, 2⟩]

/-- A sample outcome of the random draws: one pit at (5,5), one interior wall
at (7,7), the wumpus at (9,9), the gold at (3,3), the supmuw at (11,11). -/
def demo_draws : Draws :=
  { pits := [⟨5, 5⟩], walls := [⟨7, 7⟩], wumpus := ⟨9, 9⟩, gold := ⟨3, 3⟩,
    supmuw := ⟨11, 11⟩ }

/-- The game that `init_game` leaves in agent mode for the sample draws. -/
def demo_start : WUMPLUS :=
  (init_game true demo_draws).getD sample_game

/-- The game after `main` has called `init_game` and then `process_percepts`
for the first time, for the sample draws. -/
def demo_first : WUMPLUS :=
  match process_percepts demo_start with
  | .ok g => g
  | .error _ => demo_start

/-- The direction character of a run of `shortest_path`, if it returned. -/
def direction_of (r : Except Err (Char × WUMPLUS)) : Option Char :=
  match r with
  | .ok (c, _) => some c
  | .error _ => none

/-- The four neighbour weights that the end of `shortest_path` compares, if
the run got that far: west, east, north, south of the agent. -/
def neighbour_weights (g : WUMPLUS) : Option (Int × Int × Int × Int) :=
  match filtered_weights search_fuel g with
  | .ok (h, w) => some (w (h.x - 1) h.y, w (h.x + 1) h.y, w h.x (h.y - 1), w h.x (h.y + 1))
  | .error _ => none

/-- A game in which the destination cannot be reached: the store that
`init_game` leaves for the sample draws (the border walls), with the agent at
(2,2) on a Safe and Visited cell, and the destination (5,5) Safe but cut off,
since no cell around either is Safe.  The map is that of the sample draws. -/
def stuck_game : WUMPLUS :=
  { game_with 2 2 demo_start.map
      (demo_start.db.kb ++
        [⟨PERCEPT_VISITED, 2, 2⟩, ⟨PERCEPT_SAFE, 2, 2⟩, ⟨PERCEPT_BREEZE, 2, 2⟩,
         ⟨PERCEPT_SAFE, 5, 5⟩, ⟨PERCEPT_DESTINATION, 0, 0⟩]) with
    dest_x := 5, dest_y := 5 }

/-- The direction that `process_player_command` hands to `action_move` for a
command character: `n`/`k` north, `s`/`j` south, `e`/`l` east, `w`/`h` west;
no other character moves the player. -/
def move_direction (c : Char) : Option Int :=
  if c = 'n' ∨ c = 'k' then some DIRECTION_NORTH
  else if c = 's' ∨ c = 'j' then some DIRECTION_SOUTH
  else if c = 'e' ∨ c = 'l' then some DIRECTION_EAST
  else if c = 'w' ∨ c = 'h' then some DIRECTION_WEST
  else none

/-- The cell one step from the agent in the direction of a command character,
for the characters that move the player. -/
def target_cell (g : WUMPLUS) (c : Char) : Option coordinate :=
  match move_direction c with
  | some d => some (delta_coordinates g.x g.y d).1
  | none => none

/-- The game with the rows of table `queue` replaced. -/
def set_queue (g : WUMPLUS) (q : List coordinate) : WUMPLUS :=
  { g with db := { g.db with queue := q } }

/-- The four cells whose coordinates the search loop enqueues for a cell, in
the order of the source: west, east, north, south. -/
def neighbours (c : coordinate) : List coordinate :=
  [⟨c.x - 1, c.y⟩, ⟨c.x + 1, c.y⟩, ⟨c.x, c.y - 1⟩, ⟨c.x, c.y + 1⟩]

/-- `Semi g d c n`: there is a walk of `n` orthogonal steps from `d` to `c`
all of whose cells other than `c` itself are Safe and not known walls. -/
inductive Semi (g : WUMPLUS) (d : coordinate) : coordinate → Nat → Prop
  | start : Semi g d d 0
  | step (p c : coordinate) (n : Nat) :
      Semi g d p n → passable g p → adjacent p c → Semi g d c (n + 1)

/-- The weights after the relaxations, with the new weight `nw`, of the cells
in the list `S`, when no weight exceeds `nw`: a cell of `S` that had weight 0
gets `nw`, every other weight stays. -/
def relaxed_on (w : Grid) (S : List coordinate) (nw : Int) : Grid :=
  fun a b => if (⟨a, b⟩ : coordinate) ∈ S ∧ w a b = 0 then nw else w a b

/-- The pair (`new_weight`, `temp`) that one neighbour test of `shortest_path`
leaves, for a neighbour `n` inside the map: what `pick` returns there. -/
def better (w : Grid) (best : Int × coordinate) (n : coordinate) : Int × coordinate :=
  if (w n.x n.y < best.1 ∨ best.1 = 0) ∧ w n.x n.y ≠ 0 then (w n.x n.y, n) else best

/-- A cell that the search has weighted and will still expand: Safe, not a
known wall, not marked, with a nonzero weight. -/
def pending (g : WUMPLUS) (marked weights : Grid) (c : coordinate) : Prop :=
  passable g c ∧ marked c.x c.y = 0 ∧ weights c.x c.y ≠ 0

/-- The number of cells of the map that are not marked. -/
def unmarked (marked : Grid) : Nat :=
  ((Finset.Icc (0 : Int) 13 ×ˢ Finset.Icc (0 : Int) 13).filter
    (fun c => marked c.1 c.2 = 0)).card

/-- The invariant of the search loop, for the queue `q`, the arrays `marked`
and `weights`, and the weight `h` of the cell expanded last (1 at the start).
Weights lie between 0 and `h + 1`; queued cells are in the map and weighted;
the cells still to expand weigh `h` or `h + 1`, those of weight `h` are queued
in the front part `q1` and those of weight `h + 1` behind; a marked cell is in
the map, Safe, no wall, and its neighbours are weighted at most one more than
itself; and a weight `n + 1` comes with a walk of `n` steps from the
destination `d`. -/
structure search_inv (g : WUMPLUS) (d : coordinate) (q : List coordinate)
    (marked weights : Grid) (h : Int) : Prop where
  level : 1 ≤ h
  bounds : ∀ x y, 0 ≤ weights x y ∧ weights x y ≤ h + 1
  queued : ∀ c ∈ q, in_map c.x c.y = true ∧ weights c.x c.y ≠ 0
  split : ∃ q1 q2, q = q1 ++ q2 ∧
    (∀ c ∈ q1, pending g marked weights c → weights c.x c.y = h) ∧
    (∀ c, pending g marked weights c → weights c.x c.y = h → c ∈ q1) ∧
    (∀ c, pending g marked weights c → weights c.x c.y ≠ h → c ∈ q2)
  above : ∀ c, pending g marked weights c → h ≤ weights c.x c.y
  done : ∀ c : coordinate, marked c.x c.y ≠ 0 →
    in_map c.x c.y = true ∧ passable g c ∧ weights c.x c.y ≠ 0 ∧
    ∀ n, adjacent c n → weights n.x n.y ≠ 0 ∧ weights n.x n.y ≤ weights c.x c.y + 1
  sound : ∀ c : coordinate, weights c.x c.y ≠ 0 →
    ∃ n : Nat, Semi g d c n ∧ weights c.x c.y = n + 1
  seed : weights d.x d.y ≠ 0 ∧ weights d.x d.y ≤ 1

/-- What the weights are when the search loop ends: a cell has weight `n + 1`
exactly when the shortest walk from the destination to it, through Safe cells
that are no known walls up to but not including the cell itself, has `n`
steps, and weight 0 when there is no such walk. -/
def exact_weights (g : WUMPLUS) (d : coordinate) (weights : Grid) : Prop :=
  (∀ (c : coordinate) (n : Nat), Semi g d c n →
    weights c.x c.y ≠ 0 ∧ weights c.x c.y ≤ n + 1) ∧
  (∀ c : coordinate, weights c.x c.y ≠ 0 →
    ∃ n : Nat, Semi g d c n ∧ weights c.x c.y = n + 1)

/-- The open room of the specification inside the map: the border walls that
`init_game` records, Safe facts on the three by three cells from (1,1) to
(3,3), the agent at (1,1) and the destination at (3,3). -/
def room_game : WUMPLUS :=
  { game_with 1 1 demo_start.map
      (demo_start.db.kb ++
        [⟨PERCEPT_SAFE, 1, 1⟩, ⟨PERCEPT_SAFE, 2, 1⟩, ⟨PERCEPT_SAFE, 3, 1⟩,
         ⟨PERCEPT_SAFE, 1, 2⟩, ⟨PERCEPT_SAFE, 2, 2⟩, ⟨PERCEPT_SAFE, 3, 2⟩,
         ⟨PERCEPT_SAFE, 1, 3⟩, ⟨PERCEPT_SAFE, 2, 3⟩, ⟨PERCEPT_SAFE, 3, 3⟩,
         ⟨PERCEPT_VISITED, 1, 1⟩, ⟨PERCEPT_DESTINATION, 0, 0⟩]) with
    dest_x := 3, dest_y := 3 }

/-- The game and the weights that the cut-off game has after the search and
the zeroing of walls and unknown cells. -/
def stuck_weights : WUMPLUS × Grid :=
  match filtered_weights search_fuel stuck_game with
  | .ok r => r
  | .error _ => (stuck_game, fun _ _ => 0)

/-- A second sample outcome of the random draws, with the one interior wall
at (2,1), next to the start: a pit at (5,5), the wumpus at (9,9), the gold at
(3,3), the supmuw at (11,11). -/
def wall_draws : Draws :=
  { pits := [⟨5, 5⟩], walls := [⟨2, 1⟩], wumpus := ⟨9, 9⟩, gold := ⟨3, 3⟩,
    supmuw := ⟨11, 11⟩ }

/-- The game that `init_game` leaves in agent mode for the second draws. -/
def wall_start : WUMPLUS :=
  (init_game true wall_draws).getD sample_game

/-- The game of the second draws after the first `process_percepts`. -/
def wall_first : WUMPLUS :=
  match process_percepts wall_start with
  | .ok g => g
  | .error _ => wall_start

/-- The game of the second draws after the first `process_percepts` and then
a move east, into the wall at (2,1). -/
def wall_bumped : WUMPLUS :=
  match action_move wall_first DIRECTION_EAST with
  | .ok g => g
  | .error _ => wall_first

/-- What holds in every state of a game in agent mode: the player stands on an
interior cell, the border of the map is wall, every Safe fact sits on a cell
of the map without lethal hazard, and every Bump fact sits on a wall of the
map. -/
def game_inv (g : WUMPLUS) : Prop :=
  g.use_agent = true ∧
  (1 ≤ g.x ∧ g.x ≤ MAP_SIZE - 2 ∧ 1 ≤ g.y ∧ g.y ≤ MAP_SIZE - 2) ∧
  (∀ i j : Int, in_map i j = true →
    (i = 0 ∨ i = MAP_SIZE - 1 ∨ j = 0 ∨ j = MAP_SIZE - 1) → g.map i j = MAP_WALL) ∧
  (∀ x y : Int, safe g x y = true → in_map x y = true ∧ ¬ lethal g x y) ∧
  (∀ x y : Int, wall g x y = true → holds g x y MAP_WALL)

/-! ## The destination and the choice of action -/

/-- Function `remove_destination`. -/
def remove_destination (g : WUMPLUS) : WUMPLUS :=
  let g := kb_delete g PERCEPT_DESTINATION 0 0
  { g with dest_x := -1, dest_y := -1 }

/-- Function `set_destination`. -/
def set_destination (g : WUMPLUS) (x y : Int) : WUMPLUS :=
  let g := kb_insert g PERCEPT_DESTINATION 0 0
  { g with dest_x := x, dest_y := y }

/-- Function `has_destination`. -/
def has_destination (g : WUMPLUS) : Bool :=
  if kb_found g PERCEPT_DESTINATION 0 0 then true else false

/-- Function `at_destination`. -/
def at_destination (g : WUMPLUS) : Bool :=
  if has_destination g && decide (g.x = g.dest_x) && decide (g.y = g.dest_y) then true
  else false

/-- Function `at_start`. -/
def at_start (g : WUMPLUS) : Bool :=
  decide (g.x = 1) && decide (g.y = 1)

/-- Function `huss_callback`, on one row of the query result: `found` and the
game before, `found` and the game after.  Columns 1 and 2 of the row are its
x and y. -/
def huss_callback (st : Bool × WUMPLUS) (row : Row) : Bool × WUMPLUS :=
  let x := row.x
  let y := row.y
  if !st.1 && !visited st.2 x y && !wall st.2 x y then (true, set_destination st.2 x y)
  else st

/-- Function `has_unvisited_safe_squares`.  The query `SELECT * FROM kb WHERE
sentence = PERCEPT_SAFE ORDER BY random()` yields the Safe rows in an order
that the random numbers decide; `order` is that rearrangement of the rows.
The callback runs on each row in turn.  The result is `found` and the game. -/
def has_unvisited_safe_squares (order : List Row → List Row) (g : WUMPLUS) :
    Bool × WUMPLUS :=
  (order (g.db.kb.filter (fun r => r.sentence == PERCEPT_SAFE))).foldl huss_callback (false, g)

/-- Function `wumpus_nearby`: `found`, and the coordinate `*wumpus` after the
four tests, which starts as the value the caller put there. -/
def wumpus_nearby (g : WUMPLUS) (wumpus : coordinate) : Bool × coordinate :=
  let r : Bool × coordinate := (false, wumpus)
  let r := if kb_found g PERCEPT_WUMPUS (g.x - 1) g.y then (true, ⟨g.x - 1, g.y⟩) else r
  let r := if kb_found g PERCEPT_WUMPUS (g.x + 1) g.y then (true, ⟨g.x + 1, g.y⟩) else r
  let r := if kb_found g PERCEPT_WUMPUS g.x (g.y - 1) then (true, ⟨g.x, g.y - 1⟩) else r
  if kb_found g PERCEPT_WUMPUS g.x (g.y + 1) then (true, ⟨g.x, g.y + 1⟩) else r

/-- The statement of `kb_ask_action` that checks the destination: `if
(has_destination() && (wall(dest) || !safe(dest))) remove_destination();`. -/
def check_destination (g : WUMPLUS) : WUMPLUS :=
  if has_destination g && (wall g g.dest_x g.dest_y || !safe g g.dest_x g.dest_y)
  then remove_destination g else g

/-- The expression `(char)((int)c - 32)`, for a character from 32 on. -/
def upper_case (c : Char) : Char := Char.ofNat (c.toNat - 32)

/-- Function `kb_ask_action`: the action character and the game.  `&&` and
`||` evaluate their right side only when the left side does not decide, so
`has_unvisited_safe_squares` runs only when there is no unreached
destination. -/
def kb_ask_action (order : List Row → List Row) (g : WUMPLUS) :
    Except Err (Char × WUMPLUS) :=
  let wumpus : coordinate := ⟨g.x, g.y⟩
  if glitter g g.x g.y then
    let g := remove_destination g
    let g := set_destination g 1 1
    pure ('g', g)
  else
    let g := check_destination g
    if smell g g.x g.y && decide (g.arrows ≠ 0) && (wumpus_nearby g wumpus).1 then
      pure (upper_case (relative_direction g (wumpus_nearby g wumpus).2.x
        (wumpus_nearby g wumpus).2.y), g)
    else if has_destination g && !at_destination g then shortest_path g
    else
      let r := has_unvisited_safe_squares order g
      let g := r.2
      if r.1 then shortest_path g
      else if !at_start g then shortest_path (set_destination g 1 1)
      else pure ('q', g)

/-- Function `process_player_command`.  `action_quit` ends the program with
`exit(0)`: the result is then `none`; otherwise it is the game after the
command.  `print_help` and `unknown_action` only print. -/
def process_player_command (g : WUMPLUS) (choice : Char) : Except Err (Option WUMPLUS) :=
  if choice = '?' then pure (some g)
  else if choice = 'q' then pure none
  else if choice = 'n' ∨ choice = 'k' then do
    let g ← action_move g DIRECTION_NORTH
    pure (some g)
  else if choice = 's' ∨ choice = 'j' then do
    let g ← action_move g DIRECTION_SOUTH
    pure (some g)
  else if choice = 'e' ∨ choice = 'l' then do
    let g ← action_move g DIRECTION_EAST
    pure (some g)
  else if choice = 'w' ∨ choice = 'h' then do
    let g ← action_move g DIRECTION_WEST
    pure (some g)
  else if choice = 'N' then do
    let g ← action_shoot g DIRECTION_NORTH
    pure (some g)
  else if choice = 'S' then do
    let g ← action_shoot g DIRECTION_SOUTH
    pure (some g)
  else if choice = 'E' then do
    let g ← action_shoot g DIRECTION_EAST
    pure (some g)
  else if choice = 'W' then do
    let g ← action_shoot g DIRECTION_WEST
    pure (some g)
  else if choice = 'g' then do
    let g ← action_grab g
    pure (some g)
  else pure (some g)

/-- The direction that `process_player_command` hands to `action_shoot` for a
command character: `N` north, `S` south, `E` east, `W` west; no other
character shoots. -/
def shoot_direction (c : Char) : Option Int :=
  if c = 'N' then some DIRECTION_NORTH
  else if c = 'S' then some DIRECTION_SOUTH
  else if c = 'E' then some DIRECTION_EAST
  else if c = 'W' then some DIRECTION_WEST
  else none

/-- The search loop of `shortest_path` with a record of what it does, kept
beside the program state: `expanded` lists the cells that pass the three
tests of the loop and are marked, in the order of the turns, and `pushed`
lists the coordinates handed to `queue_enqueue`, in the order of the calls.
The program state goes through the same steps as in `search_loop`. -/
def search_loop_log : Nat → WUMPLUS → Grid → Grid → coordinate →
    List coordinate → List coordinate →
    Except Err ((WUMPLUS × Grid × Grid × coordinate) × List coordinate × List coordinate)
  | 0, g, marked, weights, temp, expanded, pushed =>
    if queue_empty g then .ok ((g, marked, weights, temp), expanded, pushed)
    else .error .out_of_fuel
  | fuel + 1, g, marked, weights, temp, expanded, pushed =>
    if queue_empty g then .ok ((g, marked, weights, temp), expanded, pushed)
    else
      let d := queue_dequeue g temp
      let temp := d.1
      let g := d.2
      if wall g temp.x temp.y || !safe g temp.x temp.y then
        search_loop_log fuel g marked weights temp expanded pushed
      else do
        let m ← grid_get marked temp.x temp.y
        if m ≠ 0 then search_loop_log fuel g marked weights temp expanded pushed
        else do
          let marked ← grid_set marked temp.x temp.y 1
          let expanded := expanded ++ [temp]
          let p1 ← possibles (temp.x - 1) temp.y
          let g := queue_enqueue g p1
          let pushed := pushed ++ [p1]
          let p2 ← possibles (temp.x + 1) temp.y
          let g := queue_enqueue g p2
          let pushed := pushed ++ [p2]
          let p3 ← possibles temp.x (temp.y - 1)
          let g := queue_enqueue g p3
          let pushed := pushed ++ [p3]
          let p4 ← possibles temp.x (temp.y + 1)
          let g := queue_enqueue g p4
          let pushed := pushed ++ [p4]
          let w ← grid_get weights temp.x temp.y
          let new_weight := w + 1
          let weights ← relax weights (temp.x - 1) temp.y new_weight
          let weights ← relax weights (temp.x + 1) temp.y new_weight
          let weights ← relax weights temp.x (temp.y - 1) new_weight
          let weights ← relax weights temp.x (temp.y + 1) new_weight
          search_loop_log fuel g marked weights temp expanded pushed

/-- The first part of `shortest_path`, as in `search_weights`, with the record
of the expanded cells and of the enqueued coordinates; the first coordinate
enqueued is the destination, before the loop. -/
def search_weights_log (fuel : Nat) (g : WUMPLUS) :
    Except Err ((WUMPLUS × Grid) × List coordinate × List coordinate) := do
  let marked : Grid := fun _ _ => 0
  let weights : Grid := fun _ _ => 0
  let temp : coordinate := ⟨-1, -1⟩
  let weights ← grid_set weights g.dest_x g.dest_y 1
  let p ← possibles g.dest_x g.dest_y
  let g := queue_enqueue g p
  let r ← search_loop_log fuel g marked weights temp [] [p]
  pure ((r.1.1, r.1.2.2.1), r.2.1, r.2.2)

/-- The number of Destination markers in the fact store: the rows
(Destination, 0, 0), which are what `has_destination` looks for. -/
def destination_markers (g : WUMPLUS) : Nat :=
  g.db.kb.count ⟨PERCEPT_DESTINATION, 0, 0⟩

/-- The marker and the target variables agree: there is a Destination marker
exactly when the target is not the unset value (-1,-1). -/
def destination_consistent (g : WUMPLUS) : Prop :=
  has_destination g = true ↔ ¬ (g.dest_x = -1 ∧ g.dest_y = -1)

/-- The walls of the map keep the player in: the player stands on an interior
cell that is no wall, and the border of the map is wall. -/
def walk_inv (g : WUMPLUS) : Prop :=
  (1 ≤ g.x ∧ g.x ≤ MAP_SIZE - 2 ∧ 1 ≤ g.y ∧ g.y ≤ MAP_SIZE - 2) ∧
  g.map g.x g.y ≠ MAP_WALL ∧
  (∀ i j : Int, in_map i j = true →
    (i = 0 ∨ i = MAP_SIZE - 1 ∨ j = 0 ∨ j = MAP_SIZE - 1) → g.map i j = MAP_WALL)

/-- What holds of the agent's own data in every state of a game in agent
mode, besides `game_inv`: the queue table is empty between two searches, the
border cells are known walls, the marker and the target agree, there is at
most one marker, an active target is a cell of the map, and the number of
arrows is not negative. -/
def agent_inv (g : WUMPLUS) : Prop :=
  g.db.queue = [] ∧ perimeter_walls g ∧ destination_consistent g ∧
  destination_markers g ≤ 1 ∧ (has_destination g = true → in_map g.dest_x g.dest_y = true) ∧
  0 ≤ g.arrows

/-- The second game has the queue table, the target variables and the number
of Destination markers of the first, knows every wall that the first knows,
and has no negative number of arrows unless the first has. -/
def keeps_agent_data (g g' : WUMPLUS) : Prop :=
  g'.db.queue = g.db.queue ∧ g'.dest_x = g.dest_x ∧ g'.dest_y = g.dest_y ∧
  destination_markers g' = destination_markers g ∧
  (∀ a b, wall g a b = true → wall g' a b = true) ∧
  (0 ≤ g.arrows → 0 ≤ g'.arrows)

/-- The states of a game in either mode: what `init_game` leaves, and from any
such state what `process_percepts`, the main loop's removal of the Bump
percept, `process_player_command` on any command character and, in agent
mode, `kb_ask_action` with any order of the Safe rows lead to, in any order.
The runs of `main` are among these. -/
inductive Play : WUMPLUS → Prop
  | init (agent : Bool) (r : Draws) (g : WUMPLUS) : init_game agent r = some g → Play g
  | percepts (g g' : WUMPLUS) : Play g → process_percepts g = .ok g' → Play g'
  | unbump (g : WUMPLUS) : Play g → Play (clear_bump g)
  | command (g g' : WUMPLUS) (c : Char) :
      Play g → process_player_command g c = .ok (some g') → Play g'
  | ask (order : List Row → List Row) (g g' : WUMPLUS) (c : Char) :
      Play g → g.use_agent = true → (∀ l, (order l).Perm l) →
      kb_ask_action order g = .ok (c, g') → Play g'

/-- The end-to-end example of the specification: the agent at (1,1), with
Glitter recorded at (1,1), while an older destination (5,5) is in force. -/
def gold_game : WUMPLUS :=
  { game_with 1 1 (fun i j => if i = 1 ∧ j = 1 then MAP_GOLD else MAP_EMPTY)
      [⟨PERCEPT_VISITED, 1, 1⟩, ⟨PERCEPT_SAFE, 1, 1⟩, ⟨PERCEPT_GLITTER, 1, 1⟩,
       ⟨PERCEPT_DESTINATION, 0, 0⟩] with
    dest_x := 5, dest_y := 5 }

/-- A game in which the agent, at (2,2) with one arrow, smells the wumpus and
knows it to be at (2,3), the cell to the south. -/
def hunt_game : WUMPLUS :=
  game_with 2 2 (fun i j => if i = 2 ∧ j = 3 then MAP_WUMPUS else MAP_EMPTY)
    [⟨PERCEPT_VISITED, 2, 2⟩, ⟨PERCEPT_SAFE, 2, 2⟩, ⟨PERCEPT_SMELL, 2, 2⟩,
     ⟨PERCEPT_WUMPUS, 2, 3⟩]

/-- A game in which nothing is left to do: the agent at the start, whose cell
is the one Safe cell and is Visited, with no destination. -/
def done_game : WUMPLUS :=
  game_with 1 1 (fun _ _ => MAP_EMPTY)
    [⟨PERCEPT_VISITED, 1, 1⟩, ⟨PERCEPT_SAFE, 1, 1⟩, ⟨PERCEPT_BREEZE, 1, 1⟩]

/-- The ten action characters: the moves `n`, `s`, `e`, `w`, the shots `N`,
`S`, `E`, `W`, the grab `g` and the quit `q`. -/
def is_action (c : Char) : Prop :=
  c = 'n' ∨ c = 's' ∨ c = 'e' ∨ c = 'w' ∨ c = 'N' ∨ c = 'S' ∨ c = 'E' ∨ c = 'W' ∨
  c = 'g' ∨ c = 'q'

/-- The game of the sample draws after the first `process_percepts` and the
first `kb_ask_action`, with the Safe rows taken in the order of the table. -/
def demo_asked : WUMPLUS :=
  match kb_ask_action id demo_first with
  | .ok r => r.2
  | .error _ => demo_first

/-- The action character of a run of `kb_ask_action`, if it returned. -/
def action_of (r : Except Err (Char × WUMPLUS)) : Option Char :=
  match r with
  | .ok (c, _) => some c
  | .error _ => none

/-- The corner example of the specification with the Smell percept present:
the state in which `process_percepts` calls `kb_tell` at (2,2). -/
def corner_sensed : WUMPLUS :=
  { corner_game with percepts := PERCEPT_SMELL }

/-- A third sample outcome of the random draws, with the one pit at (2,1),
next to the start: an interior wall at (7,7), the wumpus at (9,9), the gold
at (3,3), the supmuw at (11,11). -/
def pit_draws : Draws :=
  { pits := [⟨2, 1⟩], walls := [⟨7, 7⟩], wumpus := ⟨9, 9⟩, gold := ⟨3, 3⟩,
    supmuw := ⟨11, 11⟩ }

/-- The game that `init_game` leaves in agent mode for the third draws. -/
def pit_start : WUMPLUS :=
  (init_game true pit_draws).getD sample_game

/-- The game of the third draws after the first `process_percepts`. -/
def pit_first : WUMPLUS :=
  match process_percepts pit_start with
  | .ok g => g
  | .error _ => pit_start

/-- The game of the third draws after the first `process_percepts` and then
the command `e`: the player has stepped east, into the pit at (2,1). -/
def pit_fallen : WUMPLUS :=
  match process_player_command pit_first 'e' with
  | .ok (some g) => g
  | _ => pit_first

/-- The state in which `process_percepts` calls `kb_tell` for the player in
the pit: the Dead percept alone, and the score less the price of death. -/
def pit_sensed : WUMPLUS :=
  { pit_fallen with percepts := PERCEPT_DEAD, score := pit_fallen.score + SCORE_DEATH }

/-- The same state without the Dead percept. -/
def pit_unsensed : WUMPLUS :=
  { pit_fallen with percepts := 0, score := pit_fallen.score + SCORE_DEATH }

/-! ## Further functions and notions -/

/-- Function `neighbors`.  `abs` is the absolute value; the last of the four
tests is `xd + xd == 0`, as in the source. -/
def neighbors (x1 y1 x2 y2 : Int) : Int :=
  let xd : Int := Int.natAbs (x2 - x1)
  let yd : Int := Int.natAbs (y2 - y1)
  if xd > 1 ∨ yd > 1 ∨ xd + yd > 1 ∨ xd + xd = 0 then 0 else 1

/-- The game and the weights that the open room has after the search and the
zeroing of walls and unknown cells. -/
def room_weights : WUMPLUS × Grid :=
  match filtered_weights search_fuel room_game with
  | .ok r => r
  | .error _ => (room_game, fun _ _ => 0)

/-! ## The search loop with a count of lowered weights -/

/-- One `if(weights[..] == 0 || weights[..] > new_weight) weights[..] =
new_weight;` of the search loop, with a count kept beside the array: the count
goes up by one when the assignment overwrites a weight that was already set,
that is one other than 0, which the test admits only when it is higher than
the new weight. -/
def relax_count (weights : Grid) (x y new_weight : Int) (lowered : Nat) :
    Except Err (Grid × Nat) := do
  let w ← grid_get weights x y
  if w = 0 ∨ w > new_weight then do
    let weights ← grid_set weights x y new_weight
    pure (weights, if w = 0 then lowered else lowered + 1)
  else pure (weights, lowered)

/-- The search loop of `shortest_path` with the count of lowered weights kept
beside the program state, which goes through the same steps as in
`search_loop`. -/
def search_loop_count : Nat → WUMPLUS → Grid → Grid → coordinate → Nat →
    Except Err ((WUMPLUS × Grid × Grid × coordinate) × Nat)
  | 0, g, marked, weights, temp, lowered =>
    if queue_empty g then .ok ((g, marked, weights, temp), lowered)
    else .error .out_of_fuel
  | fuel + 1, g, marked, weights, temp, lowered =>
    if queue_empty g then .ok ((g, marked, weights, temp), lowered)
    else
      let d := queue_dequeue g temp
      let temp := d.1
      let g := d.2
      if wall g temp.x temp.y || !safe g temp.x temp.y then
        search_loop_count fuel g marked weights temp lowered
      else do
        let m ← grid_get marked temp.x temp.y
        if m ≠ 0 then search_loop_count fuel g marked weights temp lowered
        else do
          let marked ← grid_set marked temp.x temp.y 1
          let p1 ← possibles (temp.x - 1) temp.y
          let g := queue_enqueue g p1
          let p2 ← possibles (temp.x + 1) temp.y
          let g := queue_enqueue g p2
          let p3 ← possibles temp.x (temp.y - 1)
          let g := queue_enqueue g p3
          let p4 ← possibles temp.x (temp.y + 1)
          let g := queue_enqueue g p4
          let w ← grid_get weights temp.x temp.y
          let new_weight := w + 1
          let r ← relax_count weights (temp.x - 1) temp.y new_weight lowered
          let r ← relax_count r.1 (temp.x + 1) temp.y new_weight r.2
          let r ← relax_count r.1 temp.x (temp.y - 1) new_weight r.2
          let r ← relax_count r.1 temp.x (temp.y + 1) new_weight r.2
          search_loop_count fuel g marked r.1 temp r.2

/-- The first part of `shortest_path`, as in `search_weights`, with the count
of lowered weights, which starts at 0. -/
def search_weights_count (fuel : Nat) (g : WUMPLUS) : Except Err ((WUMPLUS × Grid) × Nat) := do
  let marked : Grid := fun _ _ => 0
  let weights : Grid := fun _ _ => 0
  let temp : coordinate := ⟨-1, -1⟩
  let weights ← grid_set weights g.dest_x g.dest_y 1
  let p ← possibles g.dest_x g.dest_y
  let g := queue_enqueue g p
  let r ← search_loop_count fuel g marked weights temp 0
  pure ((r.1.1, r.1.2.2.1), r.2)

/-! ## The search with a plain first-in first-out queue -/

/-- A dequeue as a plain first-in first-out queue does it: the row with the
least id is read into `result` and that one row is deleted; the later rows
with the same coordinates stay. -/
def queue_dequeue_fifo (g : WUMPLUS) (result : coordinate) : coordinate × WUMPLUS :=
  match g.db.queue with
  | [] => (result, g)
  | c :: q => (c, { g with db := { g.db with queue := q } })

/-- The search loop of `shortest_path` with `queue_dequeue_fifo` in the place
of `queue_dequeue`, and nothing else changed. -/
def search_loop_fifo : Nat → WUMPLUS → Grid → Grid → coordinate →
    Except Err (WUMPLUS × Grid × Grid × coordinate)
  | 0, g, marked, weights, temp =>
    if queue_empty g then .ok (g, marked, weights, temp) else .error .out_of_fuel
  | fuel + 1, g, marked, weights, temp =>
    if queue_empty g then .ok (g, marked, weights, temp)
    else
      let d := queue_dequeue_fifo g temp
      let temp := d.1
      let g := d.2
      if wall g temp.x temp.y || !safe g temp.x temp.y then
        search_loop_fifo fuel g marked weights temp
      else do
        let m ← grid_get marked temp.x temp.y
        if m ≠ 0 then search_loop_fifo fuel g marked weights temp
        else do
          let marked ← grid_set marked temp.x temp.y 1
          let p1 ← possibles (temp.x - 1) temp.y
          let g := queue_enqueue g p1
          let p2 ← possibles (temp.x + 1) temp.y
          let g := queue_enqueue g p2
          let p3 ← possibles temp.x (temp.y - 1)
          let g := queue_enqueue g p3
          let p4 ← possibles temp.x (temp.y + 1)
          let g := queue_enqueue g p4
          let w ← grid_get weights temp.x temp.y
          let new_weight := w + 1
          let weights ← relax weights (temp.x - 1) temp.y new_weight
          let weights ← relax weights (temp.x + 1) temp.y new_weight
          let weights ← relax weights temp.x (temp.y - 1) new_weight
          let weights ← relax weights temp.x (temp.y + 1) new_weight
          search_loop_fifo fuel g marked weights temp

/-- The first part of `shortest_path` with the plain queue. -/
def search_weights_fifo (fuel : Nat) (g : WUMPLUS) : Except Err (WUMPLUS × Grid) := do
  let marked : Grid := fun _ _ => 0
  let weights : Grid := fun _ _ => 0
  let temp : coordinate := ⟨-1, -1⟩
  let weights ← grid_set weights g.dest_x g.dest_y 1
  let p ← possibles g.dest_x g.dest_y
  let g := queue_enqueue g p
  let r ← search_loop_fifo fuel g marked weights temp
  pure (r.1, r.2.2.1)

/-- Function `shortest_path` with the plain queue: the search of
`search_weights_fifo`, and then the same emptying of the queue table, zeroing
of walls and unknown cells, and four neighbour tests as in `shortest_path`.
It returns the direction character, the game, and the weights after the
zeroing. -/
def shortest_path_fifo (g : WUMPLUS) : Except Err (Char × WUMPLUS × Grid) := do
  let r ← search_weights_fifo search_fuel g
  let g := queue_make_empty r.1
  let weights := zero_unknown g r.2
  let best : Int × coordinate := (0, ⟨g.x, g.y⟩)
  let best ← pick weights (g.x - 1) g.y best
  let best ← pick weights (g.x + 1) g.y best
  let best ← pick weights g.x (g.y - 1) best
  let best ← pick weights g.x (g.y + 1) best
  pure (relative_direction g best.2.x best.2.y, g, weights)

/-! ## The runs of the agent -/

/-- The game that `kb_ask_action` hands to `shortest_path`, when it calls it:
the branches of `kb_ask_action` in their order, with `some` of the game at
each of the three calls of `shortest_path` and `none` where the function
returns without a call. -/
def shortest_path_call (order : List Row → List Row) (g : WUMPLUS) : Option WUMPLUS :=
  let wumpus : coordinate := ⟨g.x, g.y⟩
  if glitter g g.x g.y then none
  else
    let g := check_destination g
    if smell g g.x g.y && decide (g.arrows ≠ 0) && (wumpus_nearby g wumpus).1 then none
    else if has_destination g && !at_destination g then some g
    else
      let r := has_unvisited_safe_squares order g
      let g := r.2
      if r.1 then some g
      else if !at_start g then some (set_destination g 1 1)
      else none

/-- The states of a game in agent mode at the top of the loop of `main`, each
right after a call of `process_percepts`: the first one after `init_game`, and
from any such state the one that a turn of the loop leads to, which removes
the Bump percept, takes the action that `kb_ask_action` returns, for some
order of the Safe rows, hands it to `process_player_command`, and calls
`process_percepts`.  The test that ends the loop is left out, so the runs that
`main` cuts short when the game is won or lost are among these. -/
inductive AgentRun : WUMPLUS → Prop
  | start (r : Draws) (g0 g : WUMPLUS) :
      init_game true r = some g0 → process_percepts g0 = .ok g → AgentRun g
  | turn (order : List Row → List Row) (g g1 g2 g3 : WUMPLUS) (c : Char) :
      AgentRun g → (∀ l, (order l).Perm l) →
      kb_ask_action order (clear_bump g) = .ok (c, g1) →
      process_player_command g1 c = .ok (some g2) →
      process_percepts g2 = .ok g3 → AgentRun g3

/-- A step between two orthogonally adjacent cells that are both Visited. -/
def visited_step (g : WUMPLUS) (a b : coordinate) : Prop :=
  adjacent a b ∧ visited g a.x a.y = true ∧ visited g b.x b.y = true

/-- The shape of the explored part of the map: every Visited cell is Safe and
no wall of the map, any two Visited cells are joined by steps through Visited
cells, and every Safe cell is Visited or next to a Visited cell. -/
def explored (g : WUMPLUS) : Prop :=
  (∀ x y, visited g x y = true → safe g x y = true ∧ g.map x y ≠ MAP_WALL) ∧
  (∀ a b : coordinate, visited g a.x a.y = true → visited g b.x b.y = true →
    Relation.ReflTransGen (visited_step g) a b) ∧
  (∀ x y, safe g x y = true →
    visited g x y = true ∨ ∃ v : coordinate, adjacent ⟨x, y⟩ v ∧ visited g v.x v.y = true)

/-- What holds of the agent's tour at every point of a run: the explored part
has its shape, the agent's cell holds no lethal hazard, the agent is on a
Visited cell or next to one unless no cell is Visited yet, and the start
(1,1) is Visited unless the agent stands on it. -/
def tour_inv (g : WUMPLUS) : Prop :=
  explored g ∧ ¬ lethal g g.x g.y ∧
  ((∀ x y, visited g x y = false) ∨ visited g g.x g.y = true ∨
    ∃ p : coordinate, adjacent ⟨g.x, g.y⟩ p ∧ visited g p.x p.y = true) ∧
  (visited g 1 1 = true ∨ (g.x = 1 ∧ g.y = 1))

/-- The game that `kb_ask_action` hands to `shortest_path` in the first turn
of the sample game, with the Safe rows taken in the order of the table. -/
def demo_call : WUMPLUS :=
  (shortest_path_call id (clear_bump demo_first)).getD demo_first

/-! ## Lemmas on the knowledge base -/

theorem kb_found_iff (g : WUMPLUS) (s x y : Int) :
    kb_found g s x y = true ↔ (⟨s, x, y⟩ : Row) ∈ g.db.kb := by
  unfold kb_found
  rw [List.any_eq_true]
  constructor
  · rintro ⟨r, hr, h⟩
    simp only [Bool.and_eq_true, beq_iff_eq] at h
    obtain ⟨⟨hx, hy⟩, hs⟩ := h
    cases r
    simp only at hx hy hs
    subst hx hy hs
    exact hr
  · intro h
    exact ⟨_, h, by simp⟩

theorem kb_insert_of_found (g : WUMPLUS) (s x y : Int) (h : kb_found g s x y = true) :
    kb_insert g s x y = g := by
  unfold kb_insert
  rw [if_pos h]

theorem kb_delete_of_not_found (g : WUMPLUS) (s x y : Int) (h : kb_found g s x y = false) :
    kb_delete g s x y = g := by
  unfold kb_delete
  simp [h]

theorem kb_insert_kb (g : WUMPLUS) (s x y : Int) :
    (kb_insert g s x y).db.kb =
      if (⟨s, x, y⟩ : Row) ∈ g.db.kb then g.db.kb else g.db.kb ++ [⟨s, x, y⟩] := by
  unfold kb_insert
  by_cases h : kb_found g s x y = true
  · rw [if_pos h, if_pos ((kb_found_iff g s x y).1 h)]
  · rw [if_neg h, if_neg (fun hm => h ((kb_found_iff g s x y).2 hm))]
    rfl

theorem kb_found_insert (g : WUMPLUS) (s x y s' x' y' : Int) :
    kb_found (kb_insert g s x y) s' x' y' = true ↔
      ((s' = s ∧ x' = x ∧ y' = y) ∨ kb_found g s' x' y' = true) := by
  rw [kb_found_iff, kb_found_iff, kb_insert_kb]
  by_cases h : (⟨s, x, y⟩ : Row) ∈ g.db.kb
  · rw [if_pos h]
    constructor
    · intro hm; exact Or.inr hm
    · rintro (⟨rfl, rfl, rfl⟩ | hm)
      · exact h
      · exact hm
  · rw [if_neg h]
    simp only [List.mem_append, List.mem_singleton, Row.mk.injEq]
    tauto

theorem kb_found_insert_self (g : WUMPLUS) (s x y : Int) :
    kb_found (kb_insert g s x y) s x y = true :=
  (kb_found_insert g s x y s x y).2 (Or.inl ⟨rfl, rfl, rfl⟩)

theorem kb_found_insert_of_found (g : WUMPLUS) (s x y s' x' y' : Int)
    (h : kb_found g s' x' y' = true) : kb_found (kb_insert g s x y) s' x' y' = true :=
  (kb_found_insert g s x y s' x' y').2 (Or.inr h)

theorem kb_found_insert_ne (g : WUMPLUS) (s x y s' x' y' : Int) (h : s' ≠ s) :
    kb_found (kb_insert g s x y) s' x' y' = kb_found g s' x' y' := by
  rw [Bool.eq_iff_iff, kb_found_insert]
  constructor
  · rintro (⟨hs, -, -⟩ | hm)
    · exact absurd hs h
    · exact hm
  · intro hm; exact Or.inr hm

theorem kb_delete_kb (g : WUMPLUS) (s x y : Int) :
    (kb_delete g s x y).db.kb = g.db.kb.filter (fun r => decide (r ≠ (⟨s, x, y⟩ : Row))) := by
  have hfun : (fun r : Row => !(r.sentence == s && r.x == x && r.y == y)) =
      (fun r => decide (r ≠ (⟨s, x, y⟩ : Row))) := by
    funext r
    cases r with
    | mk a b c =>
      by_cases h1 : a = s <;> by_cases h2 : b = x <;> by_cases h3 : c = y <;>
        simp [h1, h2, h3]
  unfold kb_delete
  by_cases h : kb_found g s x y = true
  · simp only [h, Bool.not_true, Bool.false_eq_true, if_false]
    rw [hfun]
    rfl
  · have hn : (⟨s, x, y⟩ : Row) ∉ g.db.kb := fun hm => h ((kb_found_iff g s x y).2 hm)
    simp only [Bool.not_eq_true] at h
    simp only [h, Bool.not_false, if_true]
    symm
    rw [List.filter_eq_self]
    intro r hr
    simp only [decide_eq_true_eq]
    rintro rfl
    exact hn hr

theorem kb_found_delete (g : WUMPLUS) (s x y s' x' y' : Int) :
    kb_found (kb_delete g s x y) s' x' y' = true ↔
      (¬ (s' = s ∧ x' = x ∧ y' = y) ∧ kb_found g s' x' y' = true) := by
  rw [kb_found_iff, kb_found_iff, kb_delete_kb, List.mem_filter]
  simp only [decide_eq_true_eq, ne_eq, Row.mk.injEq]
  tauto

/-! ## What the knowledge-base functions leave alone -/

@[simp] theorem kb_insert_x (g : WUMPLUS) (s x y : Int) : (kb_insert g s x y).x = g.x := by
  unfold kb_insert; split <;> rfl

@[simp] theorem kb_insert_y (g : WUMPLUS) (s x y : Int) : (kb_insert g s x y).y = g.y := by
  unfold kb_insert; split <;> rfl

@[simp] theorem kb_insert_percepts (g : WUMPLUS) (s x y : Int) :
    (kb_insert g s x y).percepts = g.percepts := by
  unfold kb_insert; split <;> rfl

@[simp] theorem kb_insert_map (g : WUMPLUS) (s x y : Int) : (kb_insert g s x y).map = g.map := by
  unfold kb_insert; split <;> rfl

@[simp] theorem kb_insert_flag (g : WUMPLUS) (s x y : Int) :
    (kb_insert g s x y).supmuw_neighbors_wumpus = g.supmuw_neighbors_wumpus := by
  unfold kb_insert; split <;> rfl

@[simp] theorem kb_insert_use_agent (g : WUMPLUS) (s x y : Int) :
    (kb_insert g s x y).use_agent = g.use_agent := by
  unfold kb_insert; split <;> rfl

@[simp] theorem kb_delete_x (g : WUMPLUS) (s x y : Int) : (kb_delete g s x y).x = g.x := by
  unfold kb_delete; split <;> rfl

@[simp] theorem kb_delete_y (g : WUMPLUS) (s x y : Int) : (kb_delete g s x y).y = g.y := by
  unfold kb_delete; split <;> rfl

@[simp] theorem kb_delete_map (g : WUMPLUS) (s x y : Int) : (kb_delete g s x y).map = g.map := by
  unfold kb_delete; split <;> rfl

@[simp] theorem kb_delete_flag (g : WUMPLUS) (s x y : Int) :
    (kb_delete g s x y).supmuw_neighbors_wumpus = g.supmuw_neighbors_wumpus := by
  unfold kb_delete; split <;> rfl

@[simp] theorem kb_delete_use_agent (g : WUMPLUS) (s x y : Int) :
    (kb_delete g s x y).use_agent = g.use_agent := by
  unfold kb_delete; split <;> rfl

theorem kb_found_delete_of (g : WUMPLUS) (s x y s' x' y' : Int)
    (h : kb_found (kb_delete g s x y) s' x' y' = true) : kb_found g s' x' y' = true :=
  ((kb_found_delete g s x y s' x' y').1 h).2

theorem kb_found_delete_ne (g : WUMPLUS) (s x y s' x' y' : Int) (h : s' ≠ s) :
    kb_found (kb_delete g s x y) s' x' y' = kb_found g s' x' y' := by
  rw [Bool.eq_iff_iff, kb_found_delete]
  constructor
  · rintro ⟨-, hm⟩; exact hm
  · intro hm; exact ⟨fun hc => h hc.1, hm⟩

@[simp] theorem cond_insert_x (c : Prop) [Decidable c] (g : WUMPLUS) (s x y : Int) :
    (if c then kb_insert g s x y else g).x = g.x := by
  split <;> simp

@[simp] theorem cond_insert_y (c : Prop) [Decidable c] (g : WUMPLUS) (s x y : Int) :
    (if c then kb_insert g s x y else g).y = g.y := by
  split <;> simp

@[simp] theorem cond_insert_percepts (c : Prop) [Decidable c] (g : WUMPLUS) (s x y : Int) :
    (if c then kb_insert g s x y else g).percepts = g.percepts := by
  split <;> simp

theorem cond_insert_found_ne (c : Prop) [Decidable c] (g : WUMPLUS) (s x y s' x' y' : Int)
    (h : s' ≠ s) :
    kb_found (if c then kb_insert g s x y else g) s' x' y' = kb_found g s' x' y' := by
  split
  · exact kb_found_insert_ne g s x y s' x' y' h
  · rfl

/-! ## Corner inference -/

@[simp] theorem check_corner_x (g : WUMPLUS) (p k xd yd : Int) :
    (check_corner g p k xd yd).x = g.x := by
  unfold check_corner; split
  · dsimp only; split <;> split <;> simp
  · rfl

@[simp] theorem check_corner_y (g : WUMPLUS) (p k xd yd : Int) :
    (check_corner g p k xd yd).y = g.y := by
  unfold check_corner; split
  · dsimp only; split <;> split <;> simp
  · rfl

@[simp] theorem check_corner_percepts (g : WUMPLUS) (p k xd yd : Int) :
    (check_corner g p k xd yd).percepts = g.percepts := by
  unfold check_corner; split
  · dsimp only; split <;> split <;> simp
  · rfl

@[simp] theorem check_corner_map (g : WUMPLUS) (p k xd yd : Int) :
    (check_corner g p k xd yd).map = g.map := by
  unfold check_corner; split
  · dsimp only; split <;> split <;> simp
  · rfl

@[simp] theorem check_corner_flag (g : WUMPLUS) (p k xd yd : Int) :
    (check_corner g p k xd yd).supmuw_neighbors_wumpus = g.supmuw_neighbors_wumpus := by
  unfold check_corner; split
  · dsimp only; split <;> split <;> simp
  · rfl

@[simp] theorem check_corner_use_agent (g : WUMPLUS) (p k xd yd : Int) :
    (check_corner g p k xd yd).use_agent = g.use_agent := by
  unfold check_corner; split
  · dsimp only; split <;> split <;> simp
  · rfl

/-- What `check_corner` adds: the fact `known` at the side cell opposite to the
one Safe side cell, when the diagonal holds the percept and is no known wall.
Stated for a `known` kind that is not Safe, so that the second test reads the
same Safe facts as the first. -/
theorem kb_found_check_corner (g : WUMPLUS) (p k xd yd s cx cy : Int)
    (hk : k ≠ PERCEPT_SAFE) :
    kb_found (check_corner g p k xd yd) s cx cy = true ↔
      (kb_found g s cx cy = true ∨
        (s = k ∧ kb_found g p (g.x + xd) (g.y + yd) = true ∧
          wall g (g.x + xd) (g.y + yd) = false ∧
          ((safe g (g.x + xd) g.y = true ∧ safe g g.x (g.y + yd) = false ∧
              cx = g.x ∧ cy = g.y + yd) ∨
           (safe g g.x (g.y + yd) = true ∧ safe g (g.x + xd) g.y = false ∧
              cx = g.x + xd ∧ cy = g.y)))) := by
  have hs : ∀ a b c d, safe (kb_insert g k a b) c d = safe g c d := fun a b c d =>
    kb_found_insert_ne g k a b PERCEPT_SAFE c d (Ne.symm hk)
  unfold check_corner
  cases hp : kb_found g p (g.x + xd) (g.y + yd) <;>
  cases hw : wall g (g.x + xd) (g.y + yd) <;>
  cases hA : safe g (g.x + xd) g.y <;>
  cases hB : safe g g.x (g.y + yd) <;>
  simp [hs, hA, hB, kb_found_insert] <;> exact or_comm

theorem kb_found_check_corner_ne (g : WUMPLUS) (p k xd yd s cx cy : Int) (h : s ≠ k) :
    kb_found (check_corner g p k xd yd) s cx cy = kb_found g s cx cy := by
  unfold check_corner
  split
  · dsimp only
    split <;> split <;> simp [kb_found_insert_ne _ _ _ _ _ _ _ h]
  · rfl

@[simp] theorem kb_inferrances_x (g : WUMPLUS) (p k : Int) : (kb_inferrances g p k).x = g.x := by
  unfold kb_inferrances; split <;> simp

@[simp] theorem kb_inferrances_y (g : WUMPLUS) (p k : Int) : (kb_inferrances g p k).y = g.y := by
  unfold kb_inferrances; split <;> simp

@[simp] theorem kb_inferrances_percepts (g : WUMPLUS) (p k : Int) :
    (kb_inferrances g p k).percepts = g.percepts := by
  unfold kb_inferrances; split <;> simp

@[simp] theorem kb_inferrances_map (g : WUMPLUS) (p k : Int) :
    (kb_inferrances g p k).map = g.map := by
  unfold kb_inferrances; split <;> simp

@[simp] theorem kb_inferrances_flag (g : WUMPLUS) (p k : Int) :
    (kb_inferrances g p k).supmuw_neighbors_wumpus = g.supmuw_neighbors_wumpus := by
  unfold kb_inferrances; split <;> simp

@[simp] theorem kb_inferrances_use_agent (g : WUMPLUS) (p k : Int) :
    (kb_inferrances g p k).use_agent = g.use_agent := by
  unfold kb_inferrances; split <;> simp

theorem kb_found_inferrances_ne (g : WUMPLUS) (p k s cx cy : Int) (h : s ≠ k) :
    kb_found (kb_inferrances g p k) s cx cy = kb_found g s cx cy := by
  unfold kb_inferrances
  split
  · rfl
  · simp [kb_found_check_corner_ne _ _ _ _ _ _ _ _ h]



theorem four_corners (A S T C1 C2 C3 C4 : Prop) (hT : T) :
    ((((A ∨ (S ∧ C1)) ∨ (S ∧ C2)) ∨ (S ∧ C3)) ∨ (S ∧ C4)) ↔
      (A ∨ (S ∧ T ∧ (C1 ∨ C2 ∨ C3 ∨ C4))) := by
  tauto

theorem four_sides (E1 E2 E3 E4 F : Prop) :
    (E4 ∨ E3 ∨ E2 ∨ E1 ∨ F) ↔ (F ∨ (E1 ∨ E2 ∨ E3 ∨ E4)) := by
  tauto

theorem kb_found_check_corner_from (g h : WUMPLUS) (p k xd yd s cx cy : Int)
    (hk : k ≠ PERCEPT_SAFE) (hx : h.x = g.x) (hy : h.y = g.y)
    (hp : ∀ e f, kb_found h p e f = kb_found g p e f)
    (hs : ∀ e f, safe h e f = safe g e f) (hw : ∀ e f, wall h e f = wall g e f) :
    kb_found (check_corner h p k xd yd) s cx cy = true ↔
      (kb_found h s cx cy = true ∨ (s = k ∧ corner_adds g p xd yd cx cy)) := by
  rw [kb_found_check_corner h p k xd yd s cx cy hk]
  simp only [hx, hy, hp, hs, hw, corner_adds]

theorem kb_found_inferrances (g : WUMPLUS) (p k s cx cy : Int)
    (hk1 : k ≠ PERCEPT_SAFE) (hk2 : k ≠ PERCEPT_BUMP) (hk3 : k ≠ p) :
    kb_found (kb_inferrances g p k) s cx cy = true ↔
      (kb_found g s cx cy = true ∨
        (s = k ∧ kb_found g p g.x g.y = true ∧
          (corner_adds g p (-1) (-1) cx cy ∨ corner_adds g p 1 (-1) cx cy ∨
           corner_adds g p (-1) 1 cx cy ∨ corner_adds g p 1 1 cx cy))) := by
  have keep : ∀ (h : WUMPLUS) (a b : Int),
      (∀ e f, kb_found h p e f = kb_found g p e f) ∧ (∀ e f, safe h e f = safe g e f) ∧
        (∀ e f, wall h e f = wall g e f) →
      (∀ e f, kb_found (check_corner h p k a b) p e f = kb_found g p e f) ∧
        (∀ e f, safe (check_corner h p k a b) e f = safe g e f) ∧
        (∀ e f, wall (check_corner h p k a b) e f = wall g e f) := by
    intro h a b ⟨h1, h2, h3⟩
    refine ⟨fun e f => ?_, fun e f => ?_, fun e f => ?_⟩
    · rw [kb_found_check_corner_ne h p k a b p e f (Ne.symm hk3), h1]
    · rw [safe, kb_found_check_corner_ne h p k a b PERCEPT_SAFE e f (Ne.symm hk1)]
      exact h2 e f
    · rw [wall, kb_found_check_corner_ne h p k a b PERCEPT_BUMP e f (Ne.symm hk2)]
      exact h3 e f
  unfold kb_inferrances
  by_cases hp : kb_found g p g.x g.y = true
  swap
  · simp [hp]
  · rw [if_neg (by simp [hp])]
    show kb_found (check_corner (check_corner (check_corner (check_corner g p k (-1) (-1))
      p k 1 (-1)) p k (-1) 1) p k 1 1) s cx cy = true ↔ _
    set g1 := check_corner g p k (-1) (-1) with hg1
    set g2 := check_corner g1 p k 1 (-1) with hg2
    set g3 := check_corner g2 p k (-1) 1 with hg3
    have k0 : (∀ e f, kb_found g p e f = kb_found g p e f) ∧
        (∀ e f, safe g e f = safe g e f) ∧ (∀ e f, wall g e f = wall g e f) :=
      ⟨fun _ _ => rfl, fun _ _ => rfl, fun _ _ => rfl⟩
    have k1 := keep g (-1) (-1) k0
    have k2 := keep g1 1 (-1) k1
    have k3 := keep g2 (-1) 1 k2
    have x1 : g1.x = g.x := check_corner_x _ _ _ _ _
    have y1 : g1.y = g.y := check_corner_y _ _ _ _ _
    have x2 : g2.x = g.x := (check_corner_x _ _ _ _ _).trans x1
    have y2 : g2.y = g.y := (check_corner_y _ _ _ _ _).trans y1
    have x3 : g3.x = g.x := (check_corner_x _ _ _ _ _).trans x2
    have y3 : g3.y = g.y := (check_corner_y _ _ _ _ _).trans y2
    have f1 : kb_found g1 s cx cy = true ↔
        (kb_found g s cx cy = true ∨ (s = k ∧ corner_adds g p (-1) (-1) cx cy)) :=
      kb_found_check_corner_from g g p k (-1) (-1) s cx cy hk1 rfl rfl k0.1 k0.2.1 k0.2.2
    have f2 : kb_found g2 s cx cy = true ↔
        (kb_found g1 s cx cy = true ∨ (s = k ∧ corner_adds g p 1 (-1) cx cy)) :=
      kb_found_check_corner_from g g1 p k 1 (-1) s cx cy hk1 x1 y1 k1.1 k1.2.1 k1.2.2
    have f3 : kb_found g3 s cx cy = true ↔
        (kb_found g2 s cx cy = true ∨ (s = k ∧ corner_adds g p (-1) 1 cx cy)) :=
      kb_found_check_corner_from g g2 p k (-1) 1 s cx cy hk1 x2 y2 k2.1 k2.2.1 k2.2.2
    rw [kb_found_check_corner_from g g3 p k 1 1 s cx cy hk1 x3 y3 k3.1 k3.2.1 k3.2.2,
      f3, f2, f1]
    exact four_corners _ _ _ _ _ _ _ hp

/-! ## Claims on corner inference and `kb_tell` -/

/-- C4: corner inference.  For a percept kind M with its hazard kind H, one of
(Smell, Wumpus), (Breeze, Pit), (Moo, Supmuw): when the agent cell lacks M,
`kb_inferrances` changes nothing; when it holds M and the diagonal cell at an
offset (dx, dy) of plus or minus one holds M and is no known wall, H is
found afterwards at (x, y+dy) if (x+dx, y) is Safe and (x, y+dy) is not, and at
(x+dx, y) if (x, y+dy) is Safe and (x+dx, y) is not; a corner whose two side
cells are both Safe or both not Safe leaves the store as it is; and the facts
found afterwards are exactly the facts found before and the H facts that the
corners with exactly one Safe side cell contribute. -/
theorem corner_inference_correct (g : WUMPLUS) (M H : Int)
    (hpair : (M, H) = (PERCEPT_SMELL, PERCEPT_WUMPUS) ∨
             (M, H) = (PERCEPT_BREEZE, PERCEPT_PIT) ∨
             (M, H) = (PERCEPT_MOO, PERCEPT_SUPMUW)) :
    (kb_found g M g.x g.y = false → kb_inferrances g M H = g) ∧
    (kb_found g M g.x g.y = true →
      ∀ dx dy : Int, (dx = -1 ∨ dx = 1) → (dy = -1 ∨ dy = 1) →
        kb_found g M (g.x + dx) (g.y + dy) = true → wall g (g.x + dx) (g.y + dy) = false →
        (safe g (g.x + dx) g.y = true → safe g g.x (g.y + dy) = false →
          kb_found (kb_inferrances g M H) H g.x (g.y + dy) = true) ∧
        (safe g g.x (g.y + dy) = true → safe g (g.x + dx) g.y = false →
          kb_found (kb_inferrances g M H) H (g.x + dx) g.y = true)) ∧
    (∀ dx dy : Int, safe g (g.x + dx) g.y = safe g g.x (g.y + dy) →
      check_corner g M H dx dy = g) ∧
    (∀ s cx cy : Int, kb_found (kb_inferrances g M H) s cx cy = true ↔
      (kb_found g s cx cy = true ∨
        (s = H ∧ kb_found g M g.x g.y = true ∧
          ∃ dx dy : Int, (dx = -1 ∨ dx = 1) ∧ (dy = -1 ∨ dy = 1) ∧
            corner_adds g M dx dy cx cy))) := by
  have hk : H ≠ PERCEPT_SAFE ∧ H ≠ PERCEPT_BUMP ∧ H ≠ M := by
    rcases hpair with h | h | h <;>
      (simp only [Prod.mk.injEq] at h; obtain ⟨rfl, rfl⟩ := h; decide)
  obtain ⟨hk1, hk2, hk3⟩ := hk
  have hall := fun s cx cy => kb_found_inferrances g M H s cx cy hk1 hk2 hk3
  refine ⟨?_, ?_, ?_, ?_⟩
  · intro h
    unfold kb_inferrances
    simp [h]
  · intro hM dx dy hdx hdy hdiag hwall
    constructor
    · intro hA hB
      rw [hall]
      refine Or.inr ⟨rfl, hM, ?_⟩
      have hc : corner_adds g M dx dy g.x (g.y + dy) :=
        ⟨hdiag, hwall, Or.inl ⟨hA, hB, rfl, rfl⟩⟩
      rcases hdx with rfl | rfl <;> rcases hdy with rfl | rfl <;> simp [hc]
    · intro hB hA
      rw [hall]
      refine Or.inr ⟨rfl, hM, ?_⟩
      have hc : corner_adds g M dx dy (g.x + dx) g.y :=
        ⟨hdiag, hwall, Or.inr ⟨hB, hA, rfl, rfl⟩⟩
      rcases hdx with rfl | rfl <;> rcases hdy with rfl | rfl <;> simp [hc]
  · intro dx dy h
    unfold check_corner
    rw [h]
    simp
  · intro s cx cy
    rw [hall]
    constructor
    · rintro (h | ⟨hs, hM, h1 | h2 | h3 | h4⟩)
      · exact Or.inl h
      · exact Or.inr ⟨hs, hM, -1, -1, Or.inl rfl, Or.inl rfl, h1⟩
      · exact Or.inr ⟨hs, hM, 1, -1, Or.inr rfl, Or.inl rfl, h2⟩
      · exact Or.inr ⟨hs, hM, -1, 1, Or.inl rfl, Or.inr rfl, h3⟩
      · exact Or.inr ⟨hs, hM, 1, 1, Or.inr rfl, Or.inr rfl, h4⟩
    · rintro (h | ⟨hs, hM, dx, dy, hdx, hdy, hc⟩)
      · exact Or.inl h
      · refine Or.inr ⟨hs, hM, ?_⟩
        rcases hdx with rfl | rfl <;> rcases hdy with rfl | rfl <;> simp [hc]

/-- Witness for C4, the example of the specification: Smell at (2,2) and (3,3),
(3,2) Safe and (2,3) not, gives Wumpus at (2,3). -/
theorem corner_inference_correct_witness :
    kb_found corner_game PERCEPT_SMELL 2 2 = true ∧
    kb_found corner_game PERCEPT_SMELL 3 3 = true ∧
    safe corner_game 3 2 = true ∧ safe corner_game 2 3 = false ∧
    kb_found corner_game PERCEPT_WUMPUS 2 3 = false ∧
    kb_found (kb_inferrances corner_game PERCEPT_SMELL PERCEPT_WUMPUS)
      PERCEPT_WUMPUS 2 3 = true :=
  ⟨by decide, by decide, by decide, by decide, by decide,
    ((corner_inference_correct corner_game PERCEPT_SMELL PERCEPT_WUMPUS (Or.inl rfl)).2.1
      (by decide) 1 1 (Or.inr rfl) (Or.inr rfl) (by decide) (by decide)).1
      (by decide) (by decide)⟩

/-- The Safe facts that `kb_tell` leaves, in terms of the Safe facts before
and the percept bits. -/
theorem kb_tell_safe_iff (g : WUMPLUS) (cx cy : Int) :
    safe (kb_tell g) cx cy = true ↔
      (safe g cx cy = true ∨
       (Int.land g.percepts PERCEPT_DEAD = 0 ∧ cx = g.x ∧ cy = g.y) ∨
       (Int.land g.percepts PERCEPT_SMELL = 0 ∧ Int.land g.percepts PERCEPT_BREEZE = 0 ∧
         ((cx = g.x - 1 ∧ cy = g.y) ∨ (cx = g.x + 1 ∧ cy = g.y) ∨
          (cx = g.x ∧ cy = g.y - 1) ∨ (cx = g.x ∧ cy = g.y + 1)))) := by
  have n1 : PERCEPT_SAFE ≠ PERCEPT_WUMPUS := by decide
  have n2 : PERCEPT_SAFE ≠ PERCEPT_PIT := by decide
  have n3 : PERCEPT_SAFE ≠ PERCEPT_SUPMUW := by decide
  have n4 : PERCEPT_SAFE ≠ PERCEPT_VISITED := by decide
  have n5 : PERCEPT_SAFE ≠ PERCEPT_SMELL := by decide
  have n6 : PERCEPT_SAFE ≠ PERCEPT_BREEZE := by decide
  have n7 : PERCEPT_SAFE ≠ PERCEPT_MOO := by decide
  have n8 : PERCEPT_SAFE ≠ PERCEPT_GLITTER := by decide
  unfold kb_tell
  lift_lets
  intro g1 g2 g3 g4 g5 g6 g7 g8 g9 g10 g11 g12
  have h1 : g1 = kb_insert g PERCEPT_VISITED g.x g.y := rfl
  have h2 : g2 = if Int.land g1.percepts PERCEPT_DEAD = 0
      then kb_insert g1 PERCEPT_SAFE g1.x g1.y else g1 := rfl
  have h3 : g3 = if Int.land g2.percepts PERCEPT_SMELL ≠ 0
      then kb_insert g2 PERCEPT_SMELL g2.x g2.y else g2 := rfl
  have h4 : g4 = if Int.land g3.percepts PERCEPT_BREEZE ≠ 0
      then kb_insert g3 PERCEPT_BREEZE g3.x g3.y else g3 := rfl
  have h5 : g5 = if Int.land g4.percepts PERCEPT_MOO ≠ 0
      then kb_insert g4 PERCEPT_MOO g4.x g4.y else g4 := rfl
  have h6 : g6 = if Int.land g5.percepts PERCEPT_GLITTER ≠ 0
      then kb_insert g5 PERCEPT_GLITTER g5.x g5.y else g5 := rfl
  have h7 : g7 = kb_insert g6 PERCEPT_SAFE (g6.x - 1) g6.y := rfl
  have h8 : g8 = kb_insert g7 PERCEPT_SAFE (g7.x + 1) g7.y := rfl
  have h9 : g9 = kb_insert g8 PERCEPT_SAFE g8.x (g8.y - 1) := rfl
  have h10 : g10 = if Int.land g6.percepts PERCEPT_SMELL = 0 ∧
      Int.land g6.percepts PERCEPT_BREEZE = 0
      then kb_insert g9 PERCEPT_SAFE g9.x (g9.y + 1) else g6 := rfl
  have h11 : g11 = kb_inferrances g10 PERCEPT_SMELL PERCEPT_WUMPUS := rfl
  have h12 : g12 = kb_inferrances g11 PERCEPT_BREEZE PERCEPT_PIT := rfl
  clear_value g12 g11 g10 g9 g8 g7 g6 g5 g4 g3 g2 g1
  have x1 : g1.x = g.x := by rw [h1, kb_insert_x]
  have y1 : g1.y = g.y := by rw [h1, kb_insert_y]
  have p1 : g1.percepts = g.percepts := by rw [h1, kb_insert_percepts]
  have x2 : g2.x = g.x := by rw [h2, cond_insert_x, x1]
  have y2 : g2.y = g.y := by rw [h2, cond_insert_y, y1]
  have p2 : g2.percepts = g.percepts := by rw [h2, cond_insert_percepts, p1]
  have x3 : g3.x = g.x := by rw [h3, cond_insert_x, x2]
  have y3 : g3.y = g.y := by rw [h3, cond_insert_y, y2]
  have p3 : g3.percepts = g.percepts := by rw [h3, cond_insert_percepts, p2]
  have x4 : g4.x = g.x := by rw [h4, cond_insert_x, x3]
  have y4 : g4.y = g.y := by rw [h4, cond_insert_y, y3]
  have p4 : g4.percepts = g.percepts := by rw [h4, cond_insert_percepts, p3]
  have x5 : g5.x = g.x := by rw [h5, cond_insert_x, x4]
  have y5 : g5.y = g.y := by rw [h5, cond_insert_y, y4]
  have p5 : g5.percepts = g.percepts := by rw [h5, cond_insert_percepts, p4]
  have x6 : g6.x = g.x := by rw [h6, cond_insert_x, x5]
  have y6 : g6.y = g.y := by rw [h6, cond_insert_y, y5]
  have p6 : g6.percepts = g.percepts := by rw [h6, cond_insert_percepts, p5]
  have x7 : g7.x = g.x := by rw [h7, kb_insert_x, x6]
  have y7 : g7.y = g.y := by rw [h7, kb_insert_y, y6]
  have x8 : g8.x = g.x := by rw [h8, kb_insert_x, x7]
  have y8 : g8.y = g.y := by rw [h8, kb_insert_y, y7]
  have x9 : g9.x = g.x := by rw [h9, kb_insert_x, x8]
  have y9 : g9.y = g.y := by rw [h9, kb_insert_y, y8]
  have s1 : safe g1 cx cy = safe g cx cy := by
    rw [h1]; exact kb_found_insert_ne _ _ _ _ _ _ _ n4
  have s2 : safe g2 cx cy = true ↔
      (safe g cx cy = true ∨ (Int.land g.percepts PERCEPT_DEAD = 0 ∧ cx = g.x ∧ cy = g.y)) := by
    rw [h2, p1, x1, y1, ← s1]
    unfold safe
    split
    · rename_i hd
      rw [kb_found_insert]
      simp only [hd, true_and]
      exact or_comm
    · rename_i hd
      simp only [hd, false_and, or_false]
  have s3 : safe g3 cx cy = safe g2 cx cy := by
    rw [h3]; exact cond_insert_found_ne _ _ _ _ _ _ _ _ n5
  have s4 : safe g4 cx cy = safe g3 cx cy := by
    rw [h4]; exact cond_insert_found_ne _ _ _ _ _ _ _ _ n6
  have s5 : safe g5 cx cy = safe g4 cx cy := by
    rw [h5]; exact cond_insert_found_ne _ _ _ _ _ _ _ _ n7
  have s6 : safe g6 cx cy = safe g5 cx cy := by
    rw [h6]; exact cond_insert_found_ne _ _ _ _ _ _ _ _ n8
  have s9 : safe (kb_insert g9 PERCEPT_SAFE g9.x (g9.y + 1)) cx cy = true ↔
      (safe g6 cx cy = true ∨ ((cx = g.x - 1 ∧ cy = g.y) ∨ (cx = g.x + 1 ∧ cy = g.y) ∨
          (cx = g.x ∧ cy = g.y - 1) ∨ (cx = g.x ∧ cy = g.y + 1))) := by
    unfold safe
    rw [kb_found_insert, h9, kb_found_insert, h8, kb_found_insert, h7, kb_found_insert,
      ← h7, ← h8, ← h9, x9, y9, x8, y8, x7, y7, x6, y6]
    simp only [true_and]
    exact four_sides _ _ _ _ _
  have s10 : safe g10 cx cy = true ↔
      (safe g6 cx cy = true ∨
        (Int.land g.percepts PERCEPT_SMELL = 0 ∧ Int.land g.percepts PERCEPT_BREEZE = 0 ∧
          ((cx = g.x - 1 ∧ cy = g.y) ∨ (cx = g.x + 1 ∧ cy = g.y) ∨
           (cx = g.x ∧ cy = g.y - 1) ∨ (cx = g.x ∧ cy = g.y + 1)))) := by
    rw [h10, p6]
    split
    · rename_i hc
      rw [s9]
      simp only [hc.1, hc.2, true_and]
    · rename_i hc
      constructor
      · intro h; exact Or.inl h
      · rintro (h | ⟨h1, h2, -⟩)
        · exact h
        · exact absurd ⟨h1, h2⟩ hc
  have s13 : safe (kb_inferrances g12 PERCEPT_MOO PERCEPT_SUPMUW) cx cy = safe g10 cx cy := by
    unfold safe
    rw [kb_found_inferrances_ne _ _ _ _ _ _ n3, h12, kb_found_inferrances_ne _ _ _ _ _ _ n2,
      h11, kb_found_inferrances_ne _ _ _ _ _ _ n1]
  rw [s13, s10, s6, s5, s4, s3, s2]
  exact or_assoc

/-- C6: the Safe facts after `kb_tell` are exactly the Safe facts before, the
agent's cell when the Dead percept is absent, and the four orthogonal
neighbours of the agent's cell when neither Smell nor Breeze is among the
percepts.  Moo and the other percepts play no part. -/
theorem kb_tell_safe_facts (g : WUMPLUS) (cx cy : Int) :
    safe (kb_tell g) cx cy = true ↔
      (safe g cx cy = true ∨
       (Int.land g.percepts PERCEPT_DEAD = 0 ∧ cx = g.x ∧ cy = g.y) ∨
       (Int.land g.percepts PERCEPT_SMELL = 0 ∧ Int.land g.percepts PERCEPT_BREEZE = 0 ∧
         ((cx = g.x - 1 ∧ cy = g.y) ∨ (cx = g.x + 1 ∧ cy = g.y) ∨
          (cx = g.x ∧ cy = g.y - 1) ∨ (cx = g.x ∧ cy = g.y + 1)))) :=
  kb_tell_safe_iff g cx cy

theorem two_pits_game_truthful : truthful two_pits_game := by
  constructor
  · intro x y h
    rw [kb_found_iff] at h
    simp [two_pits_game, game_with, PERCEPT_BREEZE, PERCEPT_SAFE] at h
    rcases h with ⟨rfl, rfl⟩ | ⟨rfl, rfl⟩
    · exact Or.inr (Or.inr (Or.inr ⟨by decide, by decide⟩))
    · exact Or.inr (Or.inr (Or.inl ⟨by decide, by decide⟩))
  · intro x y h
    unfold safe at h
    rw [kb_found_iff] at h
    simp [two_pits_game, game_with, PERCEPT_BREEZE, PERCEPT_SAFE] at h
    rcases h with ⟨rfl, rfl⟩ | ⟨rfl, rfl⟩ <;> unfold lethal <;> decide

theorem one_pit_game_truthful : truthful one_pit_game := by
  constructor
  · intro x y h
    rw [kb_found_iff] at h
    simp [one_pit_game, game_with, PERCEPT_BREEZE, PERCEPT_SAFE] at h
    rcases h with ⟨rfl, rfl⟩ | ⟨rfl, rfl⟩
    · exact Or.inr (Or.inl ⟨by decide, by decide⟩)
    · exact Or.inr (Or.inr (Or.inr ⟨by decide, by decide⟩))
  · intro x y h
    unfold safe at h
    rw [kb_found_iff] at h
    simp [one_pit_game, game_with, PERCEPT_BREEZE, PERCEPT_SAFE] at h
    rcases h with ⟨rfl, rfl⟩ | ⟨rfl, rfl⟩ <;> unfold lethal <;> decide

/-- C5, as stated, fails: with pits at (1,2) and (4,3) the store that holds
Breeze at (2,2) and (3,3) and Safe at (2,2) and (3,2) is truthful, the agent
at (2,2) infers a Pit fact at (2,3) that was not there before, and the map
holds no pit at (2,3). -/
theorem corner_inference_unsound :
    truthful two_pits_game ∧
    kb_found two_pits_game PERCEPT_PIT 2 3 = false ∧
    kb_found (kb_inferrances two_pits_game PERCEPT_BREEZE PERCEPT_PIT) PERCEPT_PIT 2 3 = true ∧
    two_pits_game.map 2 3 ≠ MAP_PIT :=
  ⟨two_pits_game_truthful, by decide, by decide, by decide⟩

/-- C5, amended: for a store that is truthful about the map, every Pit fact
that `kb_inferrances(Breeze, Pit)` inserts is at a cell that really holds a
pit, provided that for each corner whose diagonal cell holds Breeze some one
pit is orthogonally adjacent to both the agent's cell and that diagonal
cell. -/
theorem corner_inference_sound_one_pit (g : WUMPLUS) (ht : truthful g)
    (hone : ∀ dx dy : Int, (dx = -1 ∨ dx = 1) → (dy = -1 ∨ dy = 1) →
      kb_found g PERCEPT_BREEZE (g.x + dx) (g.y + dy) = true →
      ∃ px py : Int, holds g px py MAP_PIT ∧ adjacent ⟨px, py⟩ ⟨g.x, g.y⟩ ∧
        adjacent ⟨px, py⟩ ⟨g.x + dx, g.y + dy⟩)
    (cx cy : Int)
    (hnew : kb_found (kb_inferrances g PERCEPT_BREEZE PERCEPT_PIT) PERCEPT_PIT cx cy = true)
    (hold : kb_found g PERCEPT_PIT cx cy = false) :
    holds g cx cy MAP_PIT := by
  have key : ∀ dx dy : Int, (dx = -1 ∨ dx = 1) → (dy = -1 ∨ dy = 1) →
      corner_adds g PERCEPT_BREEZE dx dy cx cy → holds g cx cy MAP_PIT := by
    rintro dx dy hdx hdy ⟨hdiag, -, hside⟩
    obtain ⟨px, py, hpit, had1, had2⟩ := hone dx dy hdx hdy hdiag
    have hnl : ∀ a b, safe g a b = true → ¬ (g.map a b = MAP_PIT) := fun a b hs hp =>
      ht.2 a b hs (Or.inl hp)
    unfold adjacent at had1 had2
    simp only at had1 had2
    rcases hside with ⟨hA, -, rfl, rfl⟩ | ⟨hB, -, rfl, rfl⟩
    · have hcase : (px = g.x ∧ py = g.y + dy) ∨ (px = g.x + dx ∧ py = g.y) := by
        rcases hdx with rfl | rfl <;> rcases hdy with rfl | rfl <;> omega
      rcases hcase with ⟨rfl, rfl⟩ | ⟨rfl, rfl⟩
      · exact hpit
      · exact absurd hpit.2 (hnl _ _ hA)
    · have hcase : (px = g.x ∧ py = g.y + dy) ∨ (px = g.x + dx ∧ py = g.y) := by
        rcases hdx with rfl | rfl <;> rcases hdy with rfl | rfl <;> omega
      rcases hcase with ⟨rfl, rfl⟩ | ⟨rfl, rfl⟩
      · exact absurd hpit.2 (hnl _ _ hB)
      · exact hpit
  rw [kb_found_inferrances g PERCEPT_BREEZE PERCEPT_PIT PERCEPT_PIT cx cy (by decide)
    (by decide) (by decide)] at hnew
  rcases hnew with h | ⟨-, -, h | h | h | h⟩
  · rw [hold] at h; exact absurd h (by decide)
  · exact key (-1) (-1) (Or.inl rfl) (Or.inl rfl) h
  · exact key 1 (-1) (Or.inr rfl) (Or.inl rfl) h
  · exact key (-1) 1 (Or.inl rfl) (Or.inr rfl) h
  · exact key 1 1 (Or.inr rfl) (Or.inr rfl) h

/-- Witness for the amended C5: one pit at (2,3) causes the Breeze at (2,2) and
at (3,3); the Pit fact inferred at (2,3) is at a real pit. -/
theorem corner_inference_sound_one_pit_witness :
    truthful one_pit_game ∧
    kb_found (kb_inferrances one_pit_game PERCEPT_BREEZE PERCEPT_PIT) PERCEPT_PIT 2 3 = true ∧
    kb_found one_pit_game PERCEPT_PIT 2 3 = false ∧
    holds one_pit_game 2 3 MAP_PIT :=
  ⟨one_pit_game_truthful, by decide, by decide,
    corner_inference_sound_one_pit one_pit_game one_pit_game_truthful
      (by
        intro dx dy hdx hdy h
        rcases hdx with rfl | rfl <;> rcases hdy with rfl | rfl
        · exact absurd h (by decide)
        · exact absurd h (by decide)
        · exact absurd h (by decide)
        · exact ⟨2, 3, ⟨by decide, by decide⟩, by unfold adjacent; decide,
            by unfold adjacent; decide⟩)
      2 3 (by decide) (by decide)⟩


/-! ## Claims on the knowledge base -/

/-- C9: `kb_insert` is idempotent.  Inserting a triple a second time changes
nothing at all in the game state, so the stored rows and the answer of every
`kb_found` query are those after one insertion; and when the stored rows hold
no row twice, they still hold no row twice after an insertion. -/
theorem kb_insert_idempotent (g : WUMPLUS) (s x y : Int) :
    kb_insert (kb_insert g s x y) s x y = kb_insert g s x y ∧
    (kb_insert (kb_insert g s x y) s x y).db.kb = (kb_insert g s x y).db.kb ∧
    (∀ s' x' y', kb_found (kb_insert (kb_insert g s x y) s x y) s' x' y' =
      kb_found (kb_insert g s x y) s' x' y') ∧
    (g.db.kb.Nodup → (kb_insert g s x y).db.kb.Nodup) := by
  have h1 : kb_insert (kb_insert g s x y) s x y = kb_insert g s x y :=
    kb_insert_of_found _ s x y (kb_found_insert_self g s x y)
  refine ⟨h1, by rw [h1], fun s' x' y' => by rw [h1], ?_⟩
  intro hnd
  rw [kb_insert_kb]
  by_cases h : (⟨s, x, y⟩ : Row) ∈ g.db.kb
  · rw [if_pos h]; exact hnd
  · rw [if_neg h]
    exact List.Nodup.append hnd (List.nodup_singleton _)
      (by
        intro a ha hb
        rw [List.mem_singleton] at hb
        subst hb
        exact h ha)

/-- Witness for C9: the sample store holds no row twice, and still holds none
twice after a Safe fact is inserted at (2,1). -/
theorem kb_insert_idempotent_witness :
    sample_game.db.kb.Nodup ∧ (kb_insert sample_game PERCEPT_SAFE 2 1).db.kb.Nodup :=
  ⟨by decide, (kb_insert_idempotent sample_game PERCEPT_SAFE 2 1).2.2.2 (by decide)⟩

/-- C10: the fact store behaves as a set.  A query after `kb_insert` of a
triple holds exactly for that triple and for what held before; a query after
`kb_delete` of a triple holds exactly for what held before other than that
triple; and `kb_delete` of an absent triple leaves the whole state unchanged. -/
theorem kb_behaves_as_set (g : WUMPLUS) (s x y s' x' y' : Int) :
    (kb_found (kb_insert g s x y) s' x' y' = true ↔
      ((s', x', y') = (s, x, y) ∨ kb_found g s' x' y' = true)) ∧
    (kb_found (kb_delete g s x y) s' x' y' = true ↔
      ((s', x', y') ≠ (s, x, y) ∧ kb_found g s' x' y' = true)) ∧
    (kb_found g s x y = false → kb_delete g s x y = g) := by
  refine ⟨?_, ?_, ?_⟩
  · rw [kb_found_insert]; simp only [Prod.mk.injEq]
  · rw [kb_found_delete]; simp only [ne_eq, Prod.mk.injEq]
  · exact kb_delete_of_not_found g s x y

/-- Witness for C10: Pit at (5,5) is absent from the sample store, and deleting
it leaves the state as it was. -/
theorem kb_behaves_as_set_witness :
    kb_found sample_game PERCEPT_PIT 5 5 = false ∧
      kb_delete sample_game PERCEPT_PIT 5 5 = sample_game :=
  ⟨by decide, (kb_behaves_as_set sample_game PERCEPT_PIT 5 5 0 0 0).2.2 (by decide)⟩

/-! ## Running the monadic code -/

/-- A bind that returns a value ran its first part to a value and its second
part, on that value, to the result. -/
theorem bind_ok {α β : Type} (x : Except Err α) (f : α → Except Err β) (b : β)
    (h : (x >>= f) = Except.ok b) : ∃ a : α, x = Except.ok a ∧ f a = Except.ok b :=
  match x, h with
  | Except.ok a, h => ⟨a, rfl, h⟩
  | Except.error _, h => by simp [bind, Except.bind] at h

theorem map_get_ok (g : WUMPLUS) (x y : Int) (c : Char) (h : map_get g x y = .ok c) :
    in_map x y = true ∧ g.map x y = c := by
  unfold map_get at h
  split at h
  · rename_i hin
    exact ⟨hin, by injection h⟩
  · exact absurd h (by simp)

theorem map_get_of_in_map (g : WUMPLUS) (x y : Int) (h : in_map x y = true) :
    map_get g x y = .ok (g.map x y) := by
  unfold map_get
  rw [if_pos h]

theorem in_map_iff (x y : Int) :
    in_map x y = true ↔ (0 ≤ x ∧ x < 14 ∧ 0 ≤ y ∧ y < 14) := by
  unfold in_map MAP_SIZE
  simp

/-! ## The percept bits -/

theorem flags_bits : ∀ b d s z m t fl : Bool,
    (Int.land (or_if (decide (Int.land (or_if t (or_if m (or_if z (or_if s (or_if d
        (or_if b 0 PERCEPT_BUMP) PERCEPT_DEAD) PERCEPT_SMELL) PERCEPT_BREEZE) PERCEPT_MOO)
        PERCEPT_GLITTER) PERCEPT_MOO ≠ 0 ∧ fl = true))
      (or_if t (or_if m (or_if z (or_if s (or_if d
        (or_if b 0 PERCEPT_BUMP) PERCEPT_DEAD) PERCEPT_SMELL) PERCEPT_BREEZE) PERCEPT_MOO)
        PERCEPT_GLITTER) PERCEPT_SMELL) PERCEPT_DEAD = 0 ↔ d = false) ∧
    (Int.land (or_if (decide (Int.land (or_if t (or_if m (or_if z (or_if s (or_if d
        (or_if b 0 PERCEPT_BUMP) PERCEPT_DEAD) PERCEPT_SMELL) PERCEPT_BREEZE) PERCEPT_MOO)
        PERCEPT_GLITTER) PERCEPT_MOO ≠ 0 ∧ fl = true))
      (or_if t (or_if m (or_if z (or_if s (or_if d
        (or_if b 0 PERCEPT_BUMP) PERCEPT_DEAD) PERCEPT_SMELL) PERCEPT_BREEZE) PERCEPT_MOO)
        PERCEPT_GLITTER) PERCEPT_SMELL) PERCEPT_SMELL = 0 ↔
          (s = false ∧ (m = false ∨ fl = false))) ∧
    (Int.land (or_if (decide (Int.land (or_if t (or_if m (or_if z (or_if s (or_if d
        (or_if b 0 PERCEPT_BUMP) PERCEPT_DEAD) PERCEPT_SMELL) PERCEPT_BREEZE) PERCEPT_MOO)
        PERCEPT_GLITTER) PERCEPT_MOO ≠ 0 ∧ fl = true))
      (or_if t (or_if m (or_if z (or_if s (or_if d
        (or_if b 0 PERCEPT_BUMP) PERCEPT_DEAD) PERCEPT_SMELL) PERCEPT_BREEZE) PERCEPT_MOO)
        PERCEPT_GLITTER) PERCEPT_SMELL) PERCEPT_BREEZE = 0 ↔ z = false) := by
  decide

theorem cond_add_score_flag (c : Prop) [Decidable c] (g : WUMPLUS) (d : Int) :
    (if c then add_score g d else g).supmuw_neighbors_wumpus = g.supmuw_neighbors_wumpus := by
  split <;> rfl

/-- What `process_percepts` does when it returns: the five cells it reads are
in the map, and the result is `kb_tell` (in agent mode) of a game that differs
from the old one in score and percepts only, with the Dead, Smell and Breeze
bits as the map dictates. -/
theorem process_percepts_spec (g g' : WUMPLUS) (h : process_percepts g = .ok g') :
    ∃ g0 : WUMPLUS, g' = (if g0.use_agent then kb_tell g0 else g0) ∧
      (in_map g.x (g.y - 1) = true ∧ in_map g.x (g.y + 1) = true ∧
        in_map (g.x + 1) g.y = true ∧ in_map (g.x - 1) g.y = true ∧
        in_map g.x g.y = true) ∧
      (g0.x = g.x ∧ g0.y = g.y ∧ g0.map = g.map ∧
        g0.supmuw_neighbors_wumpus = g.supmuw_neighbors_wumpus ∧
        g0.use_agent = g.use_agent ∧ g0.db = g.db) ∧
      (Int.land g0.percepts PERCEPT_DEAD = 0 ↔ ¬ lethal g g.x g.y) ∧
      (Int.land g0.percepts PERCEPT_SMELL = 0 →
        (g.map g.x (g.y - 1) ≠ MAP_WUMPUS ∧ g.map g.x (g.y + 1) ≠ MAP_WUMPUS ∧
          g.map (g.x + 1) g.y ≠ MAP_WUMPUS ∧ g.map (g.x - 1) g.y ≠ MAP_WUMPUS) ∧
        (g.supmuw_neighbors_wumpus = true →
          g.map g.x (g.y - 1) ≠ MAP_SUPMUW ∧ g.map g.x (g.y + 1) ≠ MAP_SUPMUW ∧
          g.map (g.x + 1) g.y ≠ MAP_SUPMUW ∧ g.map (g.x - 1) g.y ≠ MAP_SUPMUW)) ∧
      (Int.land g0.percepts PERCEPT_BREEZE = 0 →
        g.map g.x (g.y - 1) ≠ MAP_PIT ∧ g.map g.x (g.y + 1) ≠ MAP_PIT ∧
          g.map (g.x + 1) g.y ≠ MAP_PIT ∧ g.map (g.x - 1) g.y ≠ MAP_PIT) := by
  unfold process_percepts at h
  obtain ⟨north, hn, h⟩ := bind_ok _ _ _ h
  obtain ⟨south, hs, h⟩ := bind_ok _ _ _ h
  obtain ⟨east, he, h⟩ := bind_ok _ _ _ h
  obtain ⟨west, hw, h⟩ := bind_ok _ _ _ h
  obtain ⟨here, hh, h⟩ := bind_ok _ _ _ h
  obtain ⟨in1, rfl⟩ := map_get_ok _ _ _ _ hn
  obtain ⟨in2, rfl⟩ := map_get_ok _ _ _ _ hs
  obtain ⟨in3, rfl⟩ := map_get_ok _ _ _ _ he
  obtain ⟨in4, rfl⟩ := map_get_ok _ _ _ _ hw
  obtain ⟨in5, rfl⟩ := map_get_ok _ _ _ _ hh
  have h' := Except.ok.inj h
  refine ⟨_, h'.symm, ⟨in1, in2, in3, in4, in5⟩, ?_, ?_, ?_, ?_⟩
  · dsimp only
    refine ⟨?_, ?_, ?_, ?_, ?_, ?_⟩ <;> split <;> rfl
  · dsimp only
    rw [(flags_bits _ _ _ _ _ _ _).1]
    unfold lethal
    simp only [decide_eq_false_iff_not]
  · dsimp only
    rw [(flags_bits _ _ _ _ _ _ _).2.1]
    simp only [decide_eq_false_iff_not, not_or]
    rintro ⟨⟨a1, a2, a3, a4⟩, hm⟩
    refine ⟨⟨a1, a2, a3, a4⟩, ?_⟩
    intro hfl
    rcases hm with hm | hm
    · exact hm
    · rw [cond_add_score_flag, hfl] at hm
      exact absurd hm (by decide)
  · dsimp only
    rw [(flags_bits _ _ _ _ _ _ _).2.2]
    simp only [decide_eq_false_iff_not, not_or]
    rintro ⟨a1, a2, a3, a4⟩
    exact ⟨a1, a2, a3, a4⟩

/-! ## Properties kept by the insertions of `kb_tell` -/

/-- A property that no insertion of the fact kind `k` destroys is kept by
`check_corner` when `k` is the kind it inserts. -/
theorem check_corner_keeps (P : WUMPLUS → Prop) (p k : Int)
    (hP : ∀ h x y, P h → P (kb_insert h k x y)) (g : WUMPLUS) (xd yd : Int) (hg : P g) :
    P (check_corner g p k xd yd) := by
  unfold check_corner
  split
  · dsimp only
    split <;> split
    · exact hP _ _ _ (hP _ _ _ hg)
    · exact hP _ _ _ hg
    · exact hP _ _ _ hg
    · exact hg
  · exact hg

theorem kb_inferrances_keeps (P : WUMPLUS → Prop) (p k : Int)
    (hP : ∀ h x y, P h → P (kb_insert h k x y)) (g : WUMPLUS) (hg : P g) :
    P (kb_inferrances g p k) := by
  unfold kb_inferrances
  split
  · exact hg
  · exact check_corner_keeps P p k hP _ _ _ (check_corner_keeps P p k hP _ _ _
      (check_corner_keeps P p k hP _ _ _ (check_corner_keeps P p k hP _ _ _ hg)))

theorem cond_insert_keeps (P : WUMPLUS → Prop) (c : Prop) [Decidable c] (g : WUMPLUS)
    (s x y : Int) (hP : P g → P (kb_insert g s x y)) (hg : P g) :
    P (if c then kb_insert g s x y else g) := by
  split
  · exact hP hg
  · exact hg

/-- A property that no insertion of a Visited, Safe, Smell, Breeze, Moo,
Glitter, Wumpus, Pit or Supmuw fact destroys is kept by `kb_tell`. -/
theorem kb_tell_keeps (P : WUMPLUS → Prop)
    (hP : ∀ h s x y, s = PERCEPT_VISITED ∨ s = PERCEPT_SAFE ∨ s = PERCEPT_SMELL ∨
      s = PERCEPT_BREEZE ∨ s = PERCEPT_MOO ∨ s = PERCEPT_GLITTER ∨ s = PERCEPT_WUMPUS ∨
      s = PERCEPT_PIT ∨ s = PERCEPT_SUPMUW → P h → P (kb_insert h s x y))
    (g : WUMPLUS) (hg : P g) : P (kb_tell g) := by
  unfold kb_tell
  lift_lets
  intro g1 g2 g3 g4 g5 g6 g7 g8 g9 g10 g11 g12
  have q1 : P g1 := hP _ _ _ _ (Or.inl rfl) hg
  have q2 : P g2 := cond_insert_keeps P _ _ _ _ _ (hP _ _ _ _ (Or.inr (Or.inl rfl))) q1
  have q3 : P g3 :=
    cond_insert_keeps P _ _ _ _ _ (hP _ _ _ _ (Or.inr (Or.inr (Or.inl rfl)))) q2
  have q4 : P g4 :=
    cond_insert_keeps P _ _ _ _ _ (hP _ _ _ _ (Or.inr (Or.inr (Or.inr (Or.inl rfl))))) q3
  have q5 : P g5 :=
    cond_insert_keeps P _ _ _ _ _
      (hP _ _ _ _ (Or.inr (Or.inr (Or.inr (Or.inr (Or.inl rfl)))))) q4
  have q6 : P g6 :=
    cond_insert_keeps P _ _ _ _ _
      (hP _ _ _ _ (Or.inr (Or.inr (Or.inr (Or.inr (Or.inr (Or.inl rfl))))))) q5
  have q7 : P g7 := hP _ _ _ _ (Or.inr (Or.inl rfl)) q6
  have q8 : P g8 := hP _ _ _ _ (Or.inr (Or.inl rfl)) q7
  have q9 : P g9 := hP _ _ _ _ (Or.inr (Or.inl rfl)) q8
  have q10 : P g10 := by
    show P (if _ then _ else _)
    split
    · exact hP _ _ _ _ (Or.inr (Or.inl rfl)) q9
    · exact q6
  have q11 : P g11 := kb_inferrances_keeps P _ _
    (fun h x y => hP h _ x y
      (Or.inr (Or.inr (Or.inr (Or.inr (Or.inr (Or.inr (Or.inl rfl)))))))) _ q10
  have q12 : P g12 := kb_inferrances_keeps P _ _
    (fun h x y => hP h _ x y
      (Or.inr (Or.inr (Or.inr (Or.inr (Or.inr (Or.inr (Or.inr (Or.inl rfl))))))))) _ q11
  exact kb_inferrances_keeps P _ _
    (fun h x y => hP h _ x y
      (Or.inr (Or.inr (Or.inr (Or.inr (Or.inr (Or.inr (Or.inr (Or.inr rfl))))))))) _ q12

/-- `kb_tell` changes nothing but the rows of the fact table, and leaves the
Bump facts as they are. -/
theorem kb_tell_frame (g : WUMPLUS) :
    (kb_tell g).x = g.x ∧ (kb_tell g).y = g.y ∧ (kb_tell g).map = g.map ∧
    (kb_tell g).supmuw_neighbors_wumpus = g.supmuw_neighbors_wumpus ∧
    (kb_tell g).use_agent = g.use_agent ∧
    (∀ x y, wall (kb_tell g) x y = wall g x y) := by
  refine kb_tell_keeps (fun h => h.x = g.x ∧ h.y = g.y ∧ h.map = g.map ∧
    h.supmuw_neighbors_wumpus = g.supmuw_neighbors_wumpus ∧
    h.use_agent = g.use_agent ∧ (∀ x y, wall h x y = wall g x y)) ?_ g
    ⟨rfl, rfl, rfl, rfl, rfl, fun _ _ => rfl⟩
  intro h s x y hs ⟨h1, h2, h3, h4, h5, h6⟩
  refine ⟨by rw [kb_insert_x, h1], by rw [kb_insert_y, h2], by rw [kb_insert_map, h3],
    by rw [kb_insert_flag, h4], by rw [kb_insert_use_agent, h5], ?_⟩
  intro a b
  rw [← h6 a b]
  refine kb_found_insert_ne h s x y PERCEPT_BUMP a b ?_
  rcases hs with rfl | rfl | rfl | rfl | rfl | rfl | rfl | rfl | rfl <;> decide

/-! ## The state that `init_game` leaves -/

theorem place_spec (c : Char) (m m' : Int → Int → Char) (d : coordinate)
    (h : place c m d = some m') :
    (1 ≤ d.x ∧ d.x ≤ 12 ∧ 1 ≤ d.y ∧ d.y ≤ 12 ∧ ¬ (d.x = 1 ∧ d.y = 1)) ∧
      m' = fun i j => if i = d.x ∧ j = d.y then c else m i j := by
  unfold place random_map_x_y at h
  split at h
  · exact absurd h (by simp)
  · rename_i p hp
    split at hp
    · rename_i hc
      injection hp with hp
      subst hp
      injection h with h
      unfold MAP_SIZE at hc
      exact ⟨⟨hc.1, by omega, hc.2.2.1, by omega, hc.2.2.2.2.1⟩, h.symm⟩
    · exact absurd hp (by simp)

theorem place_border (c : Char) (m m' : Int → Int → Char) (d : coordinate)
    (h : place c m d = some m') (i j : Int)
    (hb : i = 0 ∨ i = MAP_SIZE - 1 ∨ j = 0 ∨ j = MAP_SIZE - 1) : m' i j = m i j := by
  obtain ⟨hd, rfl⟩ := place_spec c m m' d h
  unfold MAP_SIZE at hb
  have : ¬ (i = d.x ∧ j = d.y) := by omega
  simp only [this, if_false]

theorem foldlM_place_border (c : Char) (l : List coordinate) :
    ∀ (m m' : Int → Int → Char), l.foldlM (place c) m = some m' → ∀ i j : Int,
      (i = 0 ∨ i = MAP_SIZE - 1 ∨ j = 0 ∨ j = MAP_SIZE - 1) → m' i j = m i j := by
  induction l with
  | nil =>
    intro m m' h i j _
    simp only [List.foldlM_nil, pure, Option.some.injEq] at h
    rw [h]
  | cons d l ih =>
    intro m m' h i j hb
    rw [List.foldlM_cons] at h
    cases hp : place c m d with
    | none => rw [hp] at h; exact absurd h (by simp)
    | some m1 =>
      rw [hp] at h
      rw [ih m1 m' h i j hb, place_border c m m1 d hp i j hb]

/-- A property that no insertion of a Bump fact at a border cell of the map
destroys is kept by the loop that tells the outside walls. -/
theorem tell_outside_walls_keeps (P : WUMPLUS → Prop)
    (hP : ∀ h x y, in_map x y = true →
      (x = 0 ∨ x = MAP_SIZE - 1 ∨ y = 0 ∨ y = MAP_SIZE - 1) →
      P h → P (kb_insert h PERCEPT_BUMP x y))
    (g : WUMPLUS) (hg : P g) : P (tell_outside_walls g) := by
  unfold tell_outside_walls
  have key : ∀ (l : List Nat), (∀ n ∈ l, n < 14) → ∀ g, P g →
      P (l.foldl (fun (g : WUMPLUS) (n : Nat) =>
        let i : Int := n
        let g := kb_insert g PERCEPT_BUMP i 0
        let g := kb_insert g PERCEPT_BUMP i (MAP_SIZE - 1)
        let g := kb_insert g PERCEPT_BUMP 0 i
        kb_insert g PERCEPT_BUMP (MAP_SIZE - 1) i) g) := by
    intro l
    induction l with
    | nil => intro _ g hg; exact hg
    | cons n l ih =>
      intro hl g hg
      rw [List.foldl_cons]
      apply ih (fun k hk => hl k (List.mem_cons_of_mem _ hk))
      have hn : n < 14 := hl n (List.mem_cons_self _ _)
      have i1 : in_map (n : Int) 0 = true := by rw [in_map_iff]; omega
      have i2 : in_map (n : Int) (MAP_SIZE - 1) = true := by
        rw [in_map_iff]; unfold MAP_SIZE; omega
      have i3 : in_map 0 (n : Int) = true := by rw [in_map_iff]; omega
      have i4 : in_map (MAP_SIZE - 1) (n : Int) = true := by
        rw [in_map_iff]; unfold MAP_SIZE; omega
      exact hP _ _ _ i4 (Or.inr (Or.inl rfl))
        (hP _ _ _ i3 (Or.inl rfl)
          (hP _ _ _ i2 (Or.inr (Or.inr (Or.inr rfl)))
            (hP _ _ _ i1 (Or.inr (Or.inr (Or.inl rfl))) hg)))
  exact key _ (fun n hn => List.mem_range.1 hn) g hg

/-- What `init_game` leaves in agent mode: the player at (1,1), a map whose
border is wall, and a fact table that holds nothing but Bump facts at border
cells of the map. -/
theorem init_game_spec (r : Draws) (g : WUMPLUS) (h : init_game true r = some g) :
    g.use_agent = true ∧ g.x = 1 ∧ g.y = 1 ∧
    (∀ i j : Int, (i = 0 ∨ i = MAP_SIZE - 1 ∨ j = 0 ∨ j = MAP_SIZE - 1) →
      g.map i j = MAP_WALL) ∧
    (∀ s x y : Int, kb_found g s x y = true →
      s = PERCEPT_BUMP ∧ in_map x y = true ∧
        (x = 0 ∨ x = MAP_SIZE - 1 ∨ y = 0 ∨ y = MAP_SIZE - 1)) := by
  unfold init_game at h
  by_cases hlen : ¬ (1 ≤ r.pits.length ∧ r.pits.length ≤ 29 ∧
        1 ≤ r.walls.length ∧ r.walls.length ≤ 19)
  · rw [if_pos hlen] at h
    exact absurd h (by simp)
  rw [if_neg hlen] at h
  dsimp only at h
  cases h1 : List.foldlM (place MAP_PIT) (fun i j : Int =>
      if i = 0 ∨ i = MAP_SIZE - 1 ∨ j = 0 ∨ j = MAP_SIZE - 1 then MAP_WALL else MAP_EMPTY)
      r.pits with
  | none => rw [h1] at h; exact absurd h (by simp)
  | some m1 =>
  rw [h1] at h
  dsimp only at h
  cases h2 : List.foldlM (place MAP_WALL) m1 r.walls with
  | none => rw [h2] at h; exact absurd h (by simp)
  | some m2 =>
  rw [h2] at h
  dsimp only at h
  cases h3 : place MAP_WUMPUS m2 r.wumpus with
  | none => rw [h3] at h; exact absurd h (by simp)
  | some m3 =>
  rw [h3] at h
  dsimp only at h
  cases h4 : place MAP_GOLD m3 r.gold with
  | none => rw [h4] at h; exact absurd h (by simp)
  | some m4 =>
  rw [h4] at h
  dsimp only at h
  cases h5 : place MAP_SUPMUW m4 r.supmuw with
  | none => rw [h5] at h; exact absurd h (by simp)
  | some m5 =>
  rw [h5] at h
  dsimp only at h
  have hborder : ∀ i j : Int, (i = 0 ∨ i = MAP_SIZE - 1 ∨ j = 0 ∨ j = MAP_SIZE - 1) →
      m5 i j = MAP_WALL := by
    intro i j hb
    rw [place_border _ _ _ _ h5 i j hb, place_border _ _ _ _ h4 i j hb,
      place_border _ _ _ _ h3 i j hb, foldlM_place_border _ _ _ _ h2 i j hb,
      foldlM_place_border _ _ _ _ h1 i j hb]
    simp only [hb, if_true]
  have h' := Option.some.inj h
  simp only [if_true] at h'
  rw [← h']
  refine tell_outside_walls_keeps (fun h => h.use_agent = true ∧ h.x = 1 ∧ h.y = 1 ∧
    (∀ i j : Int, (i = 0 ∨ i = MAP_SIZE - 1 ∨ j = 0 ∨ j = MAP_SIZE - 1) →
      h.map i j = MAP_WALL) ∧
    (∀ s x y : Int, kb_found h s x y = true →
      s = PERCEPT_BUMP ∧ in_map x y = true ∧
        (x = 0 ∨ x = MAP_SIZE - 1 ∨ y = 0 ∨ y = MAP_SIZE - 1))) ?_ _ ?_
  · intro h a b hin hb ⟨q1, q2, q3, q4, q5⟩
    refine ⟨by rw [kb_insert_use_agent, q1], by rw [kb_insert_x, q2],
      by rw [kb_insert_y, q3], by rw [kb_insert_map]; exact q4, ?_⟩
    intro s x y hf
    rw [kb_found_insert] at hf
    rcases hf with ⟨rfl, rfl, rfl⟩ | hf
    · exact ⟨rfl, hin, hb⟩
    · exact q5 s x y hf
  · refine ⟨rfl, rfl, rfl, hborder, ?_⟩
    intro s x y hf
    exact absurd hf (by simp [kb_found, kb_init])

/-! ## The player actions -/

theorem kb_found_congr (g h : WUMPLUS) (e : h.db.kb = g.db.kb) (s x y : Int) :
    kb_found h s x y = kb_found g s x y := by
  unfold kb_found
  rw [e]

theorem delta_coordinates_cases (x y d : Int)
    (hd : d = DIRECTION_NORTH ∨ d = DIRECTION_EAST ∨ d = DIRECTION_SOUTH ∨ d = DIRECTION_WEST) :
    (delta_coordinates x y d).1 = ⟨x, y - 1⟩ ∨ (delta_coordinates x y d).1 = ⟨x + 1, y⟩ ∨
    (delta_coordinates x y d).1 = ⟨x, y + 1⟩ ∨ (delta_coordinates x y d).1 = ⟨x - 1, y⟩ := by
  rcases hd with rfl | rfl | rfl | rfl
  · exact Or.inl rfl
  · exact Or.inr (Or.inl rfl)
  · exact Or.inr (Or.inr (Or.inl rfl))
  · exact Or.inr (Or.inr (Or.inr rfl))

/-- What `action_move` does when it returns: the target cell is in the map;
into a wall the player stays and, in agent mode, a Bump fact for the target is
the one new fact; into any other cell the player goes there and the fact
table stays as it is.  The map and the flags stay as they are. -/
theorem action_move_spec (g g' : WUMPLUS) (d : Int) (h : action_move g d = .ok g') :
    in_map (delta_coordinates g.x g.y d).1.x (delta_coordinates g.x g.y d).1.y = true ∧
    g'.use_agent = g.use_agent ∧ g'.map = g.map ∧
    g'.supmuw_neighbors_wumpus = g.supmuw_neighbors_wumpus ∧
    ((g.map (delta_coordinates g.x g.y d).1.x (delta_coordinates g.x g.y d).1.y = MAP_WALL ∧
        g'.x = g.x ∧ g'.y = g.y ∧
        (∀ s x y, kb_found g' s x y = true ↔ (kb_found g s x y = true ∨
          (g.use_agent = true ∧ s = PERCEPT_BUMP ∧ x = (delta_coordinates g.x g.y d).1.x ∧
            y = (delta_coordinates g.x g.y d).1.y)))) ∨
     (g.map (delta_coordinates g.x g.y d).1.x (delta_coordinates g.x g.y d).1.y ≠ MAP_WALL ∧
        g'.x = (delta_coordinates g.x g.y d).1.x ∧ g'.y = (delta_coordinates g.x g.y d).1.y ∧
        g'.db = g.db)) := by
  unfold action_move at h
  dsimp only [add_score] at h
  obtain ⟨cell, hc, h1⟩ := bind_ok _ _ _ h
  clear h
  obtain ⟨hin, hcell⟩ := map_get_ok _ _ _ _ hc
  clear hc
  subst hcell
  refine ⟨hin, ?_⟩
  by_cases hw : g.map (delta_coordinates g.x g.y d).1.x (delta_coordinates g.x g.y d).1.y
      = MAP_WALL
  · rw [if_pos hw] at h1
    have h' := Except.ok.inj h1
    clear h1
    subst h'
    by_cases hu : g.use_agent = true
    · rw [if_pos hu]
      simp only [kb_insert_use_agent, kb_insert_map, kb_insert_flag, kb_insert_x,
        kb_insert_y, true_and]
      refine Or.inl ⟨hw, fun s x y => ?_⟩
      rw [kb_found_insert]
      simp only [hu, true_and]
      exact or_comm
    · rw [if_neg hu]
      refine ⟨rfl, rfl, rfl, Or.inl ⟨hw, rfl, rfl, fun s x y => ⟨fun hf => Or.inl hf, ?_⟩⟩⟩
      rintro (hf | ⟨hu', -⟩)
      · exact hf
      · exact absurd hu' hu
  · rw [if_neg hw] at h1
    have h' := Except.ok.inj h1
    clear h1
    subst h'
    dsimp only
    refine ⟨?_, ?_, ?_, Or.inr ⟨hw, rfl, rfl, ?_⟩⟩ <;> split <;> rfl

/-- What `action_shoot` does when it returns: the player stays, no fact is
added, and either the map and the flag stay as they are, or one cell of the
map that held the wumpus or the supmuw becomes empty and the flag is
cleared. -/
theorem action_shoot_spec (g g' : WUMPLUS) (d : Int) (h : action_shoot g d = .ok g') :
    g'.use_agent = g.use_agent ∧ g'.x = g.x ∧ g'.y = g.y ∧
    (∀ s x y, kb_found g' s x y = true → kb_found g s x y = true) ∧
    ((g'.map = g.map ∧ g'.supmuw_neighbors_wumpus = g.supmuw_neighbors_wumpus) ∨
     (∃ cx cy : Int, in_map cx cy = true ∧
        (g.map cx cy = MAP_WUMPUS ∨ g.map cx cy = MAP_SUPMUW) ∧
        g'.map = (fun i j => if i = cx ∧ j = cy then MAP_EMPTY else g.map i j) ∧
        g'.supmuw_neighbors_wumpus = false)) := by
  unfold action_shoot at h
  by_cases ha : g.arrows = 0
  · rw [if_pos ha] at h
    have h' := Except.ok.inj h
    subst h'
    exact ⟨rfl, rfl, rfl, fun _ _ _ hf => hf, Or.inl ⟨rfl, rfl⟩⟩
  · rw [if_neg ha] at h
    dsimp only [add_score] at h
    obtain ⟨cell, hc, h1⟩ := bind_ok _ _ _ h
    clear h
    obtain ⟨hin, hcell⟩ := map_get_ok _ _ _ _ hc
    clear hc
    dsimp only at hcell
    subst hcell
    by_cases hk : g.map (delta_coordinates g.x g.y d).1.x (delta_coordinates g.x g.y d).1.y
        = MAP_WUMPUS ∨
        g.map (delta_coordinates g.x g.y d).1.x (delta_coordinates g.x g.y d).1.y = MAP_SUPMUW
    · rw [if_pos hk] at h1
      dsimp only [map_set] at h1
      by_cases hu : g.use_agent = true
      · rw [if_pos hu] at h1
        have h' := Except.ok.inj h1
        clear h1
        subst h'
        refine ⟨?_, ?_, ?_, ?_, Or.inr ⟨(delta_coordinates g.x g.y d).1.x,
          (delta_coordinates g.x g.y d).1.y, hin, hk, ?_, ?_⟩⟩
        · simp only [kb_delete_use_agent]
        · simp only [kb_delete_x]
        · simp only [kb_delete_y]
        · intro s x y hf
          have hf' := kb_found_delete_of _ _ _ _ _ _ _ (kb_found_delete_of _ _ _ _ _ _ _
            (kb_found_delete_of _ _ _ _ _ _ _ (kb_found_delete_of _ _ _ _ _ _ _
              (kb_found_delete_of _ _ _ _ _ _ _ (kb_found_delete_of _ _ _ _ _ _ _ hf)))))
          exact hf'
        · simp only [kb_delete_map]
        · simp only [kb_delete_flag]
      · rw [if_neg hu] at h1
        have h' := Except.ok.inj h1
        clear h1
        subst h'
        exact ⟨rfl, rfl, rfl, fun _ _ _ hf => hf, Or.inr ⟨_, _, hin, hk, rfl, rfl⟩⟩
    · rw [if_neg hk] at h1
      have h' := Except.ok.inj h1
      clear h1
      subst h'
      exact ⟨rfl, rfl, rfl, fun _ _ _ hf => hf, Or.inl ⟨rfl, rfl⟩⟩

/-- What `action_grab` does when it returns: the player stays, no fact is
added, the flag stays, and either the map stays as it is or the player's
cell, which held the gold, becomes empty. -/
theorem action_grab_spec (g g' : WUMPLUS) (h : action_grab g = .ok g') :
    g'.use_agent = g.use_agent ∧ g'.x = g.x ∧ g'.y = g.y ∧
    g'.supmuw_neighbors_wumpus = g.supmuw_neighbors_wumpus ∧
    (∀ s x y, kb_found g' s x y = true → kb_found g s x y = true) ∧
    (g'.map = g.map ∨
     (g.map g.x g.y = MAP_GOLD ∧
        g'.map = (fun i j => if i = g.x ∧ j = g.y then MAP_EMPTY else g.map i j))) := by
  unfold action_grab at h
  obtain ⟨cell, hc, h1⟩ := bind_ok _ _ _ h
  clear h
  obtain ⟨hin, hcell⟩ := map_get_ok _ _ _ _ hc
  clear hc
  subst hcell
  by_cases hg : g.map g.x g.y = MAP_GOLD
  · rw [if_pos hg] at h1
    dsimp only [map_set, add_score] at h1
    have h' := Except.ok.inj h1
    clear h1
    subst h'
    by_cases hu : g.use_agent = true
    · rw [if_pos hu]
      simp only [kb_delete_use_agent, kb_delete_x, kb_delete_y, kb_delete_flag,
        kb_delete_map, true_and]
      refine ⟨fun s x y hf => ?_, Or.inr ⟨hg, trivial⟩⟩
      have hf' := kb_found_delete_of _ _ _ _ _ _ _ hf
      exact hf'
    · rw [if_neg hu]
      exact ⟨rfl, rfl, rfl, rfl, fun _ _ _ hf => hf, Or.inr ⟨hg, rfl⟩⟩
  · rw [if_neg hg] at h1
    have h' := Except.ok.inj h1
    subst h'
    exact ⟨rfl, rfl, rfl, rfl, fun _ _ _ hf => hf, Or.inl rfl⟩

/-! ## The invariant of the game in agent mode -/

theorem lethal_of_map_set (g g' : WUMPLUS) (cx cy : Int)
    (hm : g'.map = (fun i j => if i = cx ∧ j = cy then MAP_EMPTY else g.map i j))
    (hf : g'.supmuw_neighbors_wumpus = true → g.supmuw_neighbors_wumpus = true)
    (x y : Int) (h : lethal g' x y) : lethal g x y := by
  unfold lethal at h ⊢
  rw [hm] at h
  by_cases hc : x = cx ∧ y = cy
  · simp only [hc, and_self, if_true] at h
    rcases h with h | h | ⟨h, -⟩ <;> exact absurd h (by decide)
  · simp only [hc, if_false] at h
    rcases h with h | h | ⟨h, h2⟩
    · exact Or.inl h
    · exact Or.inr (Or.inl h)
    · exact Or.inr (Or.inr ⟨h, hf h2⟩)

theorem init_game_inv (r : Draws) (g : WUMPLUS) (h : init_game true r = some g) :
    game_inv g := by
  obtain ⟨h1, h2, h3, h4, h5⟩ := init_game_spec r g h
  refine ⟨h1, ?_, fun i j _ hb => h4 i j hb, ?_, ?_⟩
  · rw [h2, h3]; decide
  · intro x y hs
    exact absurd (h5 _ x y hs).1 (by decide)
  · intro x y hw
    obtain ⟨-, hin, hb⟩ := h5 _ x y hw
    exact ⟨hin, h4 x y hb⟩

theorem process_percepts_inv (g g' : WUMPLUS) (hi : game_inv g)
    (h : process_percepts g = .ok g') : game_inv g' := by
  obtain ⟨hu, hpos, hborder, hsafe, hwall⟩ := hi
  obtain ⟨g0, rfl, ⟨in1, in2, in3, in4, in5⟩, ⟨e1, e2, e3, e4, e5, e6⟩, hdead, hsmell,
    hbreeze⟩ := process_percepts_spec g g' h
  rw [e5, hu, if_pos rfl]
  obtain ⟨f1, f2, f3, f4, f5, f6⟩ := kb_tell_frame g0
  have hl : ∀ x y, lethal (kb_tell g0) x y ↔ lethal g x y := by
    intro x y
    unfold lethal
    rw [f3, f4, e3, e4]
  have hk : ∀ s x y, kb_found g0 s x y = kb_found g s x y := fun s x y =>
    kb_found_congr g g0 (by rw [e6]) s x y
  refine ⟨by rw [f5, e5, hu], by rw [f1, f2, e1, e2]; exact hpos,
    by rw [f3, e3]; exact hborder, ?_, ?_⟩
  · intro x y hs
    rw [hl]
    rw [kb_tell_safe_iff] at hs
    rcases hs with hs | ⟨hd, rfl, rfl⟩ | ⟨hsm, hbr, hn⟩
    · exact hsafe x y (by unfold safe at hs ⊢; rw [← hk]; exact hs)
    · rw [e1, e2]
      exact ⟨in5, hdead.1 hd⟩
    · obtain ⟨⟨w1, w2, w3, w4⟩, hsup⟩ := hsmell hsm
      obtain ⟨p1, p2, p3, p4⟩ := hbreeze hbr
      rw [e1, e2] at hn
      unfold lethal
      rcases hn with ⟨rfl, rfl⟩ | ⟨rfl, rfl⟩ | ⟨rfl, rfl⟩ | ⟨rfl, rfl⟩
      · refine ⟨in4, ?_⟩
        rintro (hp | hp | ⟨hp, hfl⟩)
        · exact p4 hp
        · exact w4 hp
        · exact (hsup hfl).2.2.2 hp
      · refine ⟨in3, ?_⟩
        rintro (hp | hp | ⟨hp, hfl⟩)
        · exact p3 hp
        · exact w3 hp
        · exact (hsup hfl).2.2.1 hp
      · refine ⟨in1, ?_⟩
        rintro (hp | hp | ⟨hp, hfl⟩)
        · exact p1 hp
        · exact w1 hp
        · exact (hsup hfl).1 hp
      · refine ⟨in2, ?_⟩
        rintro (hp | hp | ⟨hp, hfl⟩)
        · exact p2 hp
        · exact w2 hp
        · exact (hsup hfl).2.1 hp
  · intro x y hw
    rw [f6] at hw
    unfold holds
    rw [f3, e3]
    exact hwall x y (by unfold wall at hw ⊢; rw [← hk]; exact hw)

theorem clear_bump_inv (g : WUMPLUS) (hi : game_inv g) : game_inv (clear_bump g) := by
  unfold clear_bump
  split
  · exact hi
  · exact hi

theorem action_move_inv (g g' : WUMPLUS) (d : Int) (hi : game_inv g)
    (_hd : d = DIRECTION_NORTH ∨ d = DIRECTION_EAST ∨ d = DIRECTION_SOUTH ∨ d = DIRECTION_WEST)
    (h : action_move g d = .ok g') : game_inv g' := by
  obtain ⟨hu, hpos, hborder, hsafe, hwall⟩ := hi
  obtain ⟨hin, e1, e2, e3, hcase⟩ := action_move_spec g g' d h
  have hl : ∀ x y, lethal g' x y ↔ lethal g x y := by
    intro x y
    unfold lethal
    rw [e2, e3]
  rcases hcase with ⟨hw, ex, ey, hkb⟩ | ⟨hw, ex, ey, hdb⟩
  · refine ⟨by rw [e1, hu], by rw [ex, ey]; exact hpos, by rw [e2]; exact hborder, ?_, ?_⟩
    · intro x y hs
      rw [hl]
      unfold safe at hs
      rw [hkb] at hs
      rcases hs with hs | ⟨-, hs, -⟩
      · exact hsafe x y hs
      · exact absurd hs (by decide)
    · intro x y hw'
      unfold wall at hw'
      rw [hkb] at hw'
      unfold holds
      rw [e2]
      rcases hw' with hw' | ⟨-, -, rfl, rfl⟩
      · exact hwall x y hw'
      · exact ⟨hin, hw⟩
  · have hk : ∀ s x y, kb_found g' s x y = kb_found g s x y := fun s x y =>
      kb_found_congr g g' (by rw [hdb]) s x y
    refine ⟨by rw [e1, hu], ?_, by rw [e2]; exact hborder, ?_, ?_⟩
    · rw [ex, ey]
      rw [in_map_iff] at hin
      have hnb : ¬ ((delta_coordinates g.x g.y d).1.x = 0 ∨
          (delta_coordinates g.x g.y d).1.x = MAP_SIZE - 1 ∨
          (delta_coordinates g.x g.y d).1.y = 0 ∨
          (delta_coordinates g.x g.y d).1.y = MAP_SIZE - 1) := fun hb =>
        hw (hborder _ _ ((in_map_iff _ _).2 hin) hb)
      unfold MAP_SIZE at hnb ⊢
      omega
    · intro x y hs
      rw [hl]
      exact hsafe x y (by unfold safe at hs ⊢; rw [← hk]; exact hs)
    · intro x y hw'
      unfold holds
      rw [e2]
      exact hwall x y (by unfold wall at hw' ⊢; rw [← hk]; exact hw')

theorem action_shoot_inv (g g' : WUMPLUS) (d : Int) (hi : game_inv g)
    (h : action_shoot g d = .ok g') : game_inv g' := by
  obtain ⟨hu, hpos, hborder, hsafe, hwall⟩ := hi
  obtain ⟨e1, ex, ey, hkb, hcase⟩ := action_shoot_spec g g' d h
  rcases hcase with ⟨em, ef⟩ | ⟨cx, cy, hin, hcell, em, ef⟩
  · refine ⟨by rw [e1, hu], by rw [ex, ey]; exact hpos, by rw [em]; exact hborder, ?_, ?_⟩
    · intro x y hs
      have := hsafe x y (hkb _ x y hs)
      unfold lethal at this ⊢
      rw [em, ef]
      exact this
    · intro x y hw
      unfold holds
      rw [em]
      exact hwall x y (hkb _ x y hw)
  · have hnw : g.map cx cy ≠ MAP_WALL := by
      rcases hcell with hc | hc <;> rw [hc] <;> decide
    have hkeep : ∀ i j, g.map i j = MAP_WALL → g'.map i j = MAP_WALL := by
      intro i j hij
      rw [em]
      by_cases hc : i = cx ∧ j = cy
      · obtain ⟨rfl, rfl⟩ := hc
        exact absurd hij hnw
      · simp only [hc, if_false]
        exact hij
    refine ⟨by rw [e1, hu], by rw [ex, ey]; exact hpos,
      fun i j hij hb => hkeep i j (hborder i j hij hb), ?_, ?_⟩
    · intro x y hs
      obtain ⟨hxy, hnl⟩ := hsafe x y (hkb _ x y hs)
      exact ⟨hxy, fun hl => hnl (lethal_of_map_set g g' cx cy em
        (fun hf => by rw [ef] at hf; exact absurd hf (by decide)) x y hl)⟩
    · intro x y hw
      obtain ⟨hxy, hm⟩ := hwall x y (hkb _ x y hw)
      exact ⟨hxy, hkeep x y hm⟩

theorem action_grab_inv (g g' : WUMPLUS) (hi : game_inv g)
    (h : action_grab g = .ok g') : game_inv g' := by
  obtain ⟨hu, hpos, hborder, hsafe, hwall⟩ := hi
  obtain ⟨e1, ex, ey, ef, hkb, hcase⟩ := action_grab_spec g g' h
  rcases hcase with em | ⟨hgold, em⟩
  · refine ⟨by rw [e1, hu], by rw [ex, ey]; exact hpos, by rw [em]; exact hborder, ?_, ?_⟩
    · intro x y hs
      have := hsafe x y (hkb _ x y hs)
      unfold lethal at this ⊢
      rw [em, ef]
      exact this
    · intro x y hw
      unfold holds
      rw [em]
      exact hwall x y (hkb _ x y hw)
  · have hnw : g.map g.x g.y ≠ MAP_WALL := by rw [hgold]; decide
    have hkeep : ∀ i j, g.map i j = MAP_WALL → g'.map i j = MAP_WALL := by
      intro i j hij
      rw [em]
      by_cases hc : i = g.x ∧ j = g.y
      · obtain ⟨rfl, rfl⟩ := hc
        exact absurd hij hnw
      · simp only [hc, if_false]
        exact hij
    refine ⟨by rw [e1, hu], by rw [ex, ey]; exact hpos,
      fun i j hij hb => hkeep i j (hborder i j hij hb), ?_, ?_⟩
    · intro x y hs
      obtain ⟨hxy, hnl⟩ := hsafe x y (hkb _ x y hs)
      exact ⟨hxy, fun hl => hnl (lethal_of_map_set g g' g.x g.y em
        (fun hf => by rw [ef] at hf; exact hf) x y hl)⟩
    · intro x y hw
      obtain ⟨hxy, hm⟩ := hwall x y (hkb _ x y hw)
      exact ⟨hxy, hkeep x y hm⟩

/-- Every state of a game in agent mode satisfies the invariant. -/
theorem reachable_inv (g : WUMPLUS) (h : Reachable g) : game_inv g := by
  induction h with
  | init r g h => exact init_game_inv r g h
  | percepts g g' _ h ih => exact process_percepts_inv g g' ih h
  | unbump g _ ih => exact clear_bump_inv g ih
  | move g g' d _ hd h ih => exact action_move_inv g g' d ih hd h
  | shoot g g' d _ _ h ih => exact action_shoot_inv g g' d ih h
  | grab g g' _ h ih => exact action_grab_inv g g' ih h

/-! ## The sample run -/

theorem getD_of_isSome {α : Type} (o : Option α) (d : α) (h : o.isSome = true) :
    o = some (o.getD d) := by
  cases o with
  | none => exact absurd h (by simp)
  | some a => rfl

theorem demo_start_eq : init_game true demo_draws = some demo_start :=
  getD_of_isSome _ _ (by decide!)

theorem demo_first_eq : process_percepts demo_start = .ok demo_first := by
  have h : (match process_percepts demo_start with
      | .ok _ => true
      | .error _ => false) = true := by decide!
  unfold demo_first
  cases hp : process_percepts demo_start with
  | error e => rw [hp] at h; exact absurd h (by simp)
  | ok g => rfl

theorem demo_first_reachable : Reachable demo_first :=
  Reachable.percepts demo_start demo_first
    (Reachable.init demo_draws demo_start demo_start_eq) demo_first_eq

/-! ## A second sample run -/

theorem wall_start_eq : init_game true wall_draws = some wall_start :=
  getD_of_isSome _ _ (by decide!)

theorem wall_first_eq : process_percepts wall_start = .ok wall_first := by
  have h : (match process_percepts wall_start with
      | .ok _ => true
      | .error _ => false) = true := by decide!
  unfold wall_first
  cases hp : process_percepts wall_start with
  | error e => rw [hp] at h; exact absurd h (by simp)
  | ok g => rfl

theorem wall_bumped_eq : action_move wall_first DIRECTION_EAST = .ok wall_bumped := by
  have h : (match action_move wall_first DIRECTION_EAST with
      | .ok _ => true
      | .error _ => false) = true := by decide!
  unfold wall_bumped
  cases hp : action_move wall_first DIRECTION_EAST with
  | error e => rw [hp] at h; exact absurd h (by simp)
  | ok g => rfl

theorem wall_bumped_reachable : Reachable wall_bumped :=
  Reachable.move wall_first wall_bumped DIRECTION_EAST
    (Reachable.percepts wall_start wall_first
      (Reachable.init wall_draws wall_start wall_start_eq) wall_first_eq)
    (Or.inr (Or.inl rfl)) wall_bumped_eq

/-! ## The queue and the local arrays -/

@[simp] theorem set_queue_self (g : WUMPLUS) : set_queue g g.db.queue = g := rfl

@[simp] theorem set_queue_set_queue (g : WUMPLUS) (q q' : List coordinate) :
    set_queue (set_queue g q) q' = set_queue g q' := rfl

@[simp] theorem set_queue_queue (g : WUMPLUS) (q : List coordinate) :
    (set_queue g q).db.queue = q := rfl

@[simp] theorem kb_found_set_queue (g : WUMPLUS) (q : List coordinate) (s x y : Int) :
    kb_found (set_queue g q) s x y = kb_found g s x y := rfl

@[simp] theorem wall_set_queue (g : WUMPLUS) (q : List coordinate) (x y : Int) :
    wall (set_queue g q) x y = wall g x y := rfl

@[simp] theorem safe_set_queue (g : WUMPLUS) (q : List coordinate) (x y : Int) :
    safe (set_queue g q) x y = safe g x y := rfl

@[simp] theorem visited_set_queue (g : WUMPLUS) (q : List coordinate) (x y : Int) :
    visited (set_queue g q) x y = visited g x y := rfl

@[simp] theorem queue_enqueue_set_queue (g : WUMPLUS) (q : List coordinate) (c : coordinate) :
    queue_enqueue (set_queue g q) c = set_queue g (q ++ [c]) := rfl

@[simp] theorem queue_make_empty_set_queue (g : WUMPLUS) (q : List coordinate) :
    queue_make_empty (set_queue g q) = set_queue g [] := rfl

@[simp] theorem queue_empty_set_queue (g : WUMPLUS) (q : List coordinate) :
    queue_empty (set_queue g q) = q.isEmpty := rfl

theorem queue_dequeue_set_queue (g : WUMPLUS) (c : coordinate) (q : List coordinate)
    (t : coordinate) :
    queue_dequeue (set_queue g (c :: q)) t =
      (c, set_queue g ((c :: q).filter (fun e => !(e == c)))) := rfl

theorem grid_get_of_in_map (a : Grid) (x y : Int) (h : in_map x y = true) :
    grid_get a x y = .ok (a x y) := by
  unfold grid_get
  rw [if_pos h]

theorem grid_set_of_in_map (a : Grid) (x y v : Int) (h : in_map x y = true) :
    grid_set a x y v = .ok (fun i j => if i = x ∧ j = y then v else a i j) := by
  unfold grid_set
  rw [if_pos h]

theorem possibles_of_in_map (x y : Int) (h : in_map x y = true) :
    possibles x y = .ok ⟨x, y⟩ := by
  unfold possibles
  rw [if_pos h]

theorem grid_set_ok (a a' : Grid) (x y v : Int) (h : grid_set a x y v = .ok a') :
    in_map x y = true := by
  unfold grid_set at h
  by_cases hin : in_map x y = true
  · exact hin
  · rw [if_neg hin] at h
    exact absurd h (by simp)

/-- One relaxation, on weights that do not exceed the new weight: a cell in
the map gets the new weight exactly when its weight was 0. -/
theorem relax_spec (w : Grid) (x y nw : Int) (hin : in_map x y = true)
    (hle : ∀ a b, w a b ≤ nw) :
    relax w x y nw = .ok (fun a b => if (a = x ∧ b = y) ∧ w a b = 0 then nw else w a b) := by
  unfold relax
  rw [grid_get_of_in_map w x y hin]
  show (if w x y = 0 ∨ w x y > nw then grid_set w x y nw else pure w) = _
  by_cases h0 : w x y = 0
  · rw [if_pos (Or.inl h0), grid_set_of_in_map w x y nw hin]
    congr 1
    funext a b
    by_cases hab : a = x ∧ b = y
    · obtain ⟨rfl, rfl⟩ := hab
      simp only [and_self, if_true, h0]
    · simp only [hab, if_false, false_and]
  · have hng : ¬ (w x y = 0 ∨ w x y > nw) := by
      rintro (h | h)
      · exact h0 h
      · have := hle x y
        omega
    rw [if_neg hng]
    show Except.ok w = _
    congr 1
    funext a b
    by_cases hab : a = x ∧ b = y
    · obtain ⟨rfl, rfl⟩ := hab
      simp only [and_self, h0, and_false, if_false]
    · simp only [hab, if_false, false_and]

theorem relaxed_on_nil (w : Grid) (nw : Int) : relaxed_on w [] nw = w := by
  funext a b
  unfold relaxed_on
  simp

theorem relaxed_on_le (w : Grid) (S : List coordinate) (nw : Int)
    (hle : ∀ a b, w a b ≤ nw) (a b : Int) : relaxed_on w S nw a b ≤ nw := by
  unfold relaxed_on
  split
  · exact le_refl nw
  · exact hle a b

theorem relax_relaxed_on (w : Grid) (S : List coordinate) (x y nw : Int)
    (hin : in_map x y = true) (hle : ∀ a b, w a b ≤ nw) (hnw : nw ≠ 0) :
    relax (relaxed_on w S nw) x y nw = .ok (relaxed_on w (S ++ [⟨x, y⟩]) nw) := by
  rw [relax_spec _ x y nw hin (relaxed_on_le w S nw hle)]
  congr 1
  funext a b
  unfold relaxed_on
  simp only [List.mem_append, List.mem_singleton, coordinate.mk.injEq]
  by_cases h0 : w a b = 0
  · by_cases hS : (⟨a, b⟩ : coordinate) ∈ S
    · simp [h0, hS, hnw]
    · by_cases hxy : a = x ∧ b = y
      · obtain ⟨rfl, rfl⟩ := hxy
        simp [h0, hS]
      · simp [h0, hS, hxy]
  · simp [h0]

/-! ## One turn of the search loop -/

theorem search_loop_nil (g : WUMPLUS) (fuel : Nat) (M W : Grid) (t : coordinate) :
    search_loop fuel (set_queue g []) M W t = .ok (set_queue g [], M, W, t) := by
  cases fuel <;> rfl

theorem search_loop_skip (g : WUMPLUS) (fuel : Nat) (c : coordinate) (q : List coordinate)
    (M W : Grid) (t : coordinate) (hin : in_map c.x c.y = true)
    (h : ¬ passable g c ∨ M c.x c.y ≠ 0) :
    search_loop (fuel + 1) (set_queue g (c :: q)) M W t =
      search_loop fuel (set_queue g ((c :: q).filter (fun e => !(e == c)))) M W c := by
  rw [search_loop]
  simp only [queue_empty_set_queue, List.isEmpty_cons, Bool.false_eq_true, if_false,
    queue_dequeue_set_queue, wall_set_queue, safe_set_queue]
  by_cases hp : (wall g c.x c.y || !safe g c.x c.y) = true
  · rw [if_pos hp]
  · rw [if_neg hp, grid_get_of_in_map M c.x c.y hin]
    have hm : M c.x c.y ≠ 0 := by
      rcases h with h | h
      · exfalso
        apply h
        unfold passable
        cases hw : wall g c.x c.y <;> cases hs : safe g c.x c.y <;> simp_all
      · exact h
    show (if M c.x c.y ≠ 0 then _ else _) = _
    rw [if_pos hm]

theorem mem_neighbours (c n : coordinate) : n ∈ neighbours c ↔ adjacent c n := by
  unfold neighbours adjacent
  cases n with
  | mk a b =>
    simp only [List.mem_cons, coordinate.mk.injEq, List.mem_singleton, List.not_mem_nil,
      or_false]
    constructor
    · rintro (⟨rfl, rfl⟩ | ⟨rfl, rfl⟩ | ⟨rfl, rfl⟩ | ⟨rfl, rfl⟩)
      · exact Or.inr ⟨rfl, Or.inr rfl⟩
      · exact Or.inr ⟨rfl, Or.inl rfl⟩
      · exact Or.inl ⟨rfl, Or.inr rfl⟩
      · exact Or.inl ⟨rfl, Or.inl rfl⟩
    · rintro (⟨rfl, rfl | rfl⟩ | ⟨rfl, rfl | rfl⟩)
      · exact Or.inr (Or.inr (Or.inr ⟨rfl, rfl⟩))
      · exact Or.inr (Or.inr (Or.inl ⟨rfl, rfl⟩))
      · exact Or.inr (Or.inl ⟨rfl, rfl⟩)
      · exact Or.inl ⟨rfl, rfl⟩

theorem search_loop_expand (g : WUMPLUS) (fuel : Nat) (c : coordinate) (q : List coordinate)
    (M W : Grid) (t : coordinate) (hp : passable g c)
    (hin : 1 ≤ c.x ∧ c.x ≤ 12 ∧ 1 ≤ c.y ∧ c.y ≤ 12)
    (hm : M c.x c.y = 0) (hle : ∀ a b, W a b ≤ W c.x c.y + 1) (hnn : 0 ≤ W c.x c.y) :
    search_loop (fuel + 1) (set_queue g (c :: q)) M W t =
      search_loop fuel
        (set_queue g ((c :: q).filter (fun e => !(e == c)) ++ neighbours c))
        (fun i j => if i = c.x ∧ j = c.y then 1 else M i j)
        (relaxed_on W (neighbours c) (W c.x c.y + 1)) c := by
  have i0 : in_map c.x c.y = true := by rw [in_map_iff]; omega
  have i1 : in_map (c.x - 1) c.y = true := by rw [in_map_iff]; omega
  have i2 : in_map (c.x + 1) c.y = true := by rw [in_map_iff]; omega
  have i3 : in_map c.x (c.y - 1) = true := by rw [in_map_iff]; omega
  have i4 : in_map c.x (c.y + 1) = true := by rw [in_map_iff]; omega
  have hnw : W c.x c.y + 1 ≠ 0 := by omega
  rw [search_loop]
  simp only [queue_empty_set_queue, List.isEmpty_cons, Bool.false_eq_true, if_false,
    queue_dequeue_set_queue, wall_set_queue, safe_set_queue]
  have hnp : ¬ ((wall g c.x c.y || !safe g c.x c.y) = true) := by
    unfold passable at hp
    simp [hp.1, hp.2]
  rw [if_neg hnp, grid_get_of_in_map M c.x c.y i0]
  show (if M c.x c.y ≠ 0 then _ else _) = _
  rw [if_neg (by rw [hm]; simp)]
  rw [grid_set_of_in_map M c.x c.y 1 i0, possibles_of_in_map _ _ i1,
    possibles_of_in_map _ _ i2, possibles_of_in_map _ _ i3, possibles_of_in_map _ _ i4,
    grid_get_of_in_map W c.x c.y i0]
  simp only [bind, Except.bind, queue_enqueue_set_queue]
  have e0 : relax W (c.x - 1) c.y (W c.x c.y + 1) =
      .ok (relaxed_on W ([] ++ [⟨c.x - 1, c.y⟩]) (W c.x c.y + 1)) := by
    have := relax_relaxed_on W [] (c.x - 1) c.y _ i1 hle hnw
    rwa [relaxed_on_nil] at this
  rw [e0]
  simp only []
  rw [relax_relaxed_on W _ (c.x + 1) c.y _ i2 hle hnw]
  simp only []
  rw [relax_relaxed_on W _ c.x (c.y - 1) _ i3 hle hnw]
  simp only []
  rw [relax_relaxed_on W _ c.x (c.y + 1) _ i4 hle hnw]
  simp only []
  have hq : ∀ l : List coordinate, l ++ [⟨c.x - 1, c.y⟩] ++ [⟨c.x + 1, c.y⟩] ++
      [⟨c.x, c.y - 1⟩] ++ [⟨c.x, c.y + 1⟩] = l ++ neighbours c := by
    intro l
    simp [neighbours]
  rw [hq, hq, List.nil_append]

/-! ## The invariant of the search loop -/

theorem relaxed_on_apply (w : Grid) (S : List coordinate) (nw : Int) (e : coordinate) :
    relaxed_on w S nw e.x e.y = if e ∈ S ∧ w e.x e.y = 0 then nw else w e.x e.y := rfl

theorem relaxed_on_of_ne (w : Grid) (S : List coordinate) (nw : Int) (e : coordinate)
    (h : w e.x e.y ≠ 0) : relaxed_on w S nw e.x e.y = w e.x e.y := by
  rw [relaxed_on_apply, if_neg (fun hc => h hc.2)]

theorem relaxed_on_of_mem (w : Grid) (S : List coordinate) (nw : Int) (e : coordinate)
    (h : w e.x e.y = 0) (hm : e ∈ S) : relaxed_on w S nw e.x e.y = nw := by
  rw [relaxed_on_apply, if_pos ⟨hm, h⟩]

theorem relaxed_on_of_not_mem (w : Grid) (S : List coordinate) (nw : Int) (e : coordinate)
    (h : w e.x e.y = 0) (hm : e ∉ S) : relaxed_on w S nw e.x e.y = 0 := by
  rw [relaxed_on_apply, if_neg (fun hc => hm hc.1), h]

theorem mem_filter_ne (l : List coordinate) (c e : coordinate) :
    e ∈ l.filter (fun e => !(e == c)) ↔ (e ∈ l ∧ e ≠ c) := by
  rw [List.mem_filter]
  simp

theorem filter_ne_cons_self (l : List coordinate) (c : coordinate) :
    (c :: l).filter (fun e => !(e == c)) = l.filter (fun e => !(e == c)) := by
  rw [List.filter_cons]
  simp

theorem passable_interior (g : WUMPLUS) (hper : perimeter_walls g) (c : coordinate)
    (hin : in_map c.x c.y = true) (hp : passable g c) :
    1 ≤ c.x ∧ c.x ≤ 12 ∧ 1 ≤ c.y ∧ c.y ≤ 12 := by
  rw [in_map_iff] at hin
  obtain ⟨h1, h2, h3, h4⟩ := hin
  have hw := hp.2
  have e1 : c.x ≠ 0 := by
    intro h
    have := (hper c.y h3 (by unfold MAP_SIZE; omega)).2.2.1
    rw [← h, hw] at this
    exact absurd this (by decide)
  have e2 : c.x ≠ 13 := by
    intro h
    have := (hper c.y h3 (by unfold MAP_SIZE; omega)).2.2.2
    unfold MAP_SIZE at this
    rw [show (14 : Int) - 1 = 13 by norm_num, ← h, hw] at this
    exact absurd this (by decide)
  have e3 : c.y ≠ 0 := by
    intro h
    have := (hper c.x h1 (by unfold MAP_SIZE; omega)).1
    rw [← h, hw] at this
    exact absurd this (by decide)
  have e4 : c.y ≠ 13 := by
    intro h
    have := (hper c.x h1 (by unfold MAP_SIZE; omega)).2.1
    unfold MAP_SIZE at this
    rw [show (14 : Int) - 1 = 13 by norm_num, ← h, hw] at this
    exact absurd this (by decide)
  omega

theorem search_inv_init (g : WUMPLUS) (d : coordinate) (hin : in_map d.x d.y = true) :
    search_inv g d [d] (fun _ _ => 0) (fun i j => if i = d.x ∧ j = d.y then 1 else 0) 1 := by
  have hnz : ∀ e : coordinate, (if e.x = d.x ∧ e.y = d.y then (1 : Int) else 0) ≠ 0 → e = d := by
    intro e he
    by_cases h : e.x = d.x ∧ e.y = d.y
    · cases e; cases d; simp only at h; obtain ⟨rfl, rfl⟩ := h; rfl
    · rw [if_neg h] at he; exact absurd rfl he
  have hd : (if d.x = d.x ∧ d.y = d.y then (1 : Int) else 0) = 1 := by simp
  refine ⟨le_refl 1, ?_, ?_, ⟨[d], [], rfl, ?_, ?_, ?_⟩, ?_, ?_, ?_, ?_⟩
  · intro x y
    dsimp only
    split <;> omega
  · intro c hc
    rw [List.mem_singleton] at hc
    subst hc
    exact ⟨hin, by rw [hd]; decide⟩
  · intro c hc _
    rw [List.mem_singleton] at hc
    subst hc
    exact hd
  · intro c hp _
    rw [List.mem_singleton]
    exact hnz c hp.2.2
  · intro c hp hne
    have := hnz c hp.2.2
    subst this
    exact absurd hd hne
  · intro c hp
    have := hnz c hp.2.2
    subst this
    rw [hd]
  · intro c hc
    exact absurd rfl hc
  · intro c hc
    have := hnz c hc
    subst this
    exact ⟨0, Semi.start, by rw [hd]; rfl⟩
  · dsimp only
    rw [hd]
    exact ⟨by decide, le_refl 1⟩

theorem search_inv_skip (g : WUMPLUS) (d c : coordinate) (q : List coordinate)
    (M W : Grid) (h : Int) (hinv : search_inv g d (c :: q) M W h)
    (hn : ¬ pending g M W c) :
    search_inv g d ((c :: q).filter (fun e => !(e == c))) M W h := by
  obtain ⟨q1, q2, hq, ha, hb, hc⟩ := hinv.split
  refine ⟨hinv.level, hinv.bounds, ?_, ⟨q1.filter (fun e => !(e == c)),
    q2.filter (fun e => !(e == c)), ?_, ?_, ?_, ?_⟩, hinv.above, hinv.done, hinv.sound,
    hinv.seed⟩
  · intro e he
    exact hinv.queued e ((mem_filter_ne _ _ _).1 he).1
  · rw [hq, List.filter_append]
  · intro e he hp
    exact ha e ((mem_filter_ne _ _ _).1 he).1 hp
  · intro e hp hw
    exact (mem_filter_ne _ _ _).2 ⟨hb e hp hw, fun hec => hn (hec ▸ hp)⟩
  · intro e hp hw
    exact (mem_filter_ne _ _ _).2 ⟨hc e hp hw, fun hec => hn (hec ▸ hp)⟩

theorem coordinate_eq_iff (e c : coordinate) : e = c ↔ (e.x = c.x ∧ e.y = c.y) := by
  cases e; cases c
  simp

theorem adjacent_in_map (c n : coordinate) (hin : 1 ≤ c.x ∧ c.x ≤ 12 ∧ 1 ≤ c.y ∧ c.y ≤ 12)
    (ha : adjacent c n) : in_map n.x n.y = true := by
  rw [in_map_iff]
  unfold adjacent at ha
  omega

theorem search_inv_expand (g : WUMPLUS) (hper : perimeter_walls g) (d c : coordinate)
    (q : List coordinate) (M W : Grid) (h : Int) (hinv : search_inv g d (c :: q) M W h)
    (hp : passable g c) (hm : M c.x c.y = 0) :
    search_inv g d ((c :: q).filter (fun e => !(e == c)) ++ neighbours c)
      (fun i j => if i = c.x ∧ j = c.y then 1 else M i j)
      (relaxed_on W (neighbours c) (W c.x c.y + 1)) (W c.x c.y) := by
  have hq0 := hinv.queued c (List.mem_cons_self _ _)
  have hpend : pending g M W c := ⟨hp, hm, hq0.2⟩
  have hab := hinv.above c hpend
  have hbd := hinv.bounds
  have hlev := hinv.level
  have hint := passable_interior g hper c hq0.1 hp
  have hnw : W c.x c.y + 1 ≠ 0 := by omega
  -- the new marks
  have hM0 : ∀ e : coordinate, (if e.x = c.x ∧ e.y = c.y then (1 : Int) else M e.x e.y) = 0 →
      e ≠ c ∧ M e.x e.y = 0 := by
    intro e he
    by_cases hec : e.x = c.x ∧ e.y = c.y
    · rw [if_pos hec] at he
      exact absurd he (by decide)
    · rw [if_neg hec] at he
      exact ⟨fun h' => hec ((coordinate_eq_iff e c).1 h'), he⟩
  -- a cell still to expand afterwards
  have hpen : ∀ e : coordinate,
      pending g (fun i j => if i = c.x ∧ j = c.y then 1 else M i j)
        (relaxed_on W (neighbours c) (W c.x c.y + 1)) e →
      e ≠ c ∧ ((W e.x e.y ≠ 0 ∧ pending g M W e ∧
          relaxed_on W (neighbours c) (W c.x c.y + 1) e.x e.y = W e.x e.y) ∨
        (W e.x e.y = 0 ∧ e ∈ neighbours c ∧
          relaxed_on W (neighbours c) (W c.x c.y + 1) e.x e.y = W c.x c.y + 1)) := by
    intro e ⟨hpe, hme, hwe⟩
    obtain ⟨hne, hme'⟩ := hM0 e hme
    refine ⟨hne, ?_⟩
    by_cases h0 : W e.x e.y = 0
    · by_cases hmem : e ∈ neighbours c
      · exact Or.inr ⟨h0, hmem, relaxed_on_of_mem _ _ _ _ h0 hmem⟩
      · exact absurd (relaxed_on_of_not_mem _ _ _ _ h0 hmem) hwe
    · exact Or.inl ⟨h0, ⟨hpe, hme', h0⟩, relaxed_on_of_ne _ _ _ _ h0⟩
  obtain ⟨q1, q2, hq, ha, hb, hc⟩ := hinv.split
  refine ⟨by omega, ?_, ?_, ?_, ?_, ?_, ?_, ?_⟩
  · -- bounds
    intro x y
    unfold relaxed_on
    split
    · omega
    · have := hbd x y
      omega
  · -- queued
    intro e he
    rw [List.mem_append] at he
    rcases he with he | he
    · have := hinv.queued e ((mem_filter_ne _ _ _).1 he).1
      exact ⟨this.1, by rw [relaxed_on_of_ne _ _ _ _ this.2]; exact this.2⟩
    · refine ⟨adjacent_in_map c e hint ((mem_neighbours c e).1 he), ?_⟩
      by_cases h0 : W e.x e.y = 0
      · rw [relaxed_on_of_mem _ _ _ _ h0 he]; exact hnw
      · rw [relaxed_on_of_ne _ _ _ _ h0]; exact h0
  · -- split
    cases q1 with
    | nil =>
      -- the head is the first cell of the next level
      have hq2 : q2 = c :: q := by rw [hq]; rfl
      have hWc : W c.x c.y = h + 1 := by
        have hne : W c.x c.y ≠ h := fun h' => by
          have := hb c hpend h'
          exact absurd this (List.not_mem_nil _)
        have := (hbd c.x c.y).2
        omega
      have hold : ∀ e, pending g M W e → W e.x e.y = h + 1 := by
        intro e hpe
        have hne : W e.x e.y ≠ h := fun h' => absurd (hb e hpe h') (List.not_mem_nil _)
        have h1 := hinv.above e hpe
        have h2 := (hbd e.x e.y).2
        omega
      refine ⟨(c :: q).filter (fun e => !(e == c)), neighbours c, rfl, ?_, ?_, ?_⟩
      · intro e he hpe
        obtain ⟨-, hcase⟩ := hpen e hpe
        rcases hcase with ⟨-, hpo, hre⟩ | ⟨h0, -, -⟩
        · rw [hre, hold e hpo, hWc]
        · exact absurd h0 (hinv.queued e ((mem_filter_ne _ _ _).1 he).1).2
      · intro e hpe hwe
        obtain ⟨hne, hcase⟩ := hpen e hpe
        rcases hcase with ⟨-, hpo, hre⟩ | ⟨-, -, hre⟩
        · have hne' : W e.x e.y ≠ h := by rw [hold e hpo]; omega
          have := hc e hpo hne'
          rw [hq2] at this
          exact (mem_filter_ne _ _ _).2 ⟨this, hne⟩
        · rw [hre] at hwe
          omega
      · intro e hpe hwe
        obtain ⟨hne, hcase⟩ := hpen e hpe
        rcases hcase with ⟨-, hpo, hre⟩ | ⟨-, hmem, -⟩
        · rw [hre, hold e hpo, hWc] at hwe
          exact absurd rfl hwe
        · exact hmem
    | cons c' q1r =>
      have hcc : c' = c := by
        have := congrArg List.head? hq
        simp only [List.head?_cons, List.cons_append, Option.some.injEq] at this
        exact this.symm
      subst hcc
      have hqq : q = q1r ++ q2 := by
        have := congrArg List.tail hq
        simpa using this
      have hWc : W c'.x c'.y = h := ha c' (List.mem_cons_self _ _) hpend
      refine ⟨q1r.filter (fun e => !(e == c')),
        q2.filter (fun e => !(e == c')) ++ neighbours c', ?_, ?_, ?_, ?_⟩
      · rw [filter_ne_cons_self, hqq, List.filter_append, List.append_assoc]
      · intro e he hpe
        obtain ⟨-, hcase⟩ := hpen e hpe
        have hmem := ((mem_filter_ne _ _ _).1 he).1
        rcases hcase with ⟨-, hpo, hre⟩ | ⟨h0, -, -⟩
        · rw [hre, hWc]
          exact ha e (List.mem_cons_of_mem _ hmem) hpo
        · have : e ∈ c' :: q := by rw [hq]; exact List.mem_append_left _ (List.mem_cons_of_mem _ hmem)
          exact absurd h0 (hinv.queued e this).2
      · intro e hpe hwe
        obtain ⟨hne, hcase⟩ := hpen e hpe
        rcases hcase with ⟨-, hpo, hre⟩ | ⟨-, -, hre⟩
        · rw [hre, hWc] at hwe
          have := hb e hpo hwe
          rw [List.mem_cons] at this
          rcases this with this | this
          · exact absurd this hne
          · exact (mem_filter_ne _ _ _).2 ⟨this, hne⟩
        · rw [hre] at hwe
          omega
      · intro e hpe hwe
        obtain ⟨hne, hcase⟩ := hpen e hpe
        rw [List.mem_append]
        rcases hcase with ⟨-, hpo, hre⟩ | ⟨-, hmem, -⟩
        · rw [hre, hWc] at hwe
          exact Or.inl ((mem_filter_ne _ _ _).2 ⟨hc e hpo hwe, hne⟩)
        · exact Or.inr hmem
  · -- above
    intro e hpe
    obtain ⟨-, hcase⟩ := hpen e hpe
    rcases hcase with ⟨-, hpo, hre⟩ | ⟨-, -, hre⟩
    · rw [hre]
      have h1 := hinv.above e hpo
      by_cases hh : W c.x c.y = h
      · omega
      · -- the head weighs h + 1, so no cell still to expand weighs h
        have hc2 : c ∈ q2 := hc c hpend hh
        have hq1 : ∀ e', e' ∈ q1 → False := by
          intro e' he'
          cases q1 with
          | nil => exact absurd he' (List.not_mem_nil _)
          | cons c' q1r =>
            have hcc : c' = c := by
              have := congrArg List.head? hq
              simp only [List.head?_cons, List.cons_append, Option.some.injEq] at this
              exact this.symm
            exact hh (hcc ▸ ha c' (List.mem_cons_self _ _) (hcc ▸ hpend))
        have hne : W e.x e.y ≠ h := fun h' => hq1 e (hb e hpo h')
        have := (hbd c.x c.y).2
        omega
    · rw [hre]
      omega
  · -- done
    intro e he
    by_cases hec : e.x = c.x ∧ e.y = c.y
    · have hec' : e = c := (coordinate_eq_iff e c).2 hec
      subst hec'
      refine ⟨hq0.1, hp, by rw [relaxed_on_of_ne _ _ _ _ hq0.2]; exact hq0.2, ?_⟩
      intro n hn
      have hmem : n ∈ neighbours e := (mem_neighbours e n).2 hn
      rw [relaxed_on_of_ne _ _ _ e hq0.2]
      by_cases h0 : W n.x n.y = 0
      · rw [relaxed_on_of_mem _ _ _ _ h0 hmem]
        exact ⟨hnw, le_refl _⟩
      · rw [relaxed_on_of_ne _ _ _ _ h0]
        have := (hbd n.x n.y).2
        exact ⟨h0, by omega⟩
    · rw [if_neg hec] at he
      obtain ⟨o1, o2, o3, o4⟩ := hinv.done e he
      refine ⟨o1, o2, by rw [relaxed_on_of_ne _ _ _ _ o3]; exact o3, ?_⟩
      intro n hn
      obtain ⟨n1, n2⟩ := o4 n hn
      rw [relaxed_on_of_ne _ _ _ _ n1, relaxed_on_of_ne _ _ _ _ o3]
      exact ⟨n1, n2⟩
  · -- sound
    intro e he
    by_cases h0 : W e.x e.y = 0
    · by_cases hmem : e ∈ neighbours c
      · rw [relaxed_on_of_mem _ _ _ _ h0 hmem]
        obtain ⟨k, hk, hkw⟩ := hinv.sound c hq0.2
        refine ⟨k + 1, Semi.step c e k hk hp ((mem_neighbours c e).1 hmem), ?_⟩
        rw [hkw]
        push_cast
        ring
      · exact absurd (relaxed_on_of_not_mem _ _ _ _ h0 hmem) he
    · rw [relaxed_on_of_ne _ _ _ _ h0]
      exact hinv.sound e h0
  · -- seed
    rw [relaxed_on_of_ne _ _ _ _ hinv.seed.1]
    exact hinv.seed

/-! ## Termination and the result of the search loop -/

theorem unmarked_init : unmarked (fun _ _ => 0) = 196 := by
  unfold unmarked
  simp

theorem unmarked_mark (M : Grid) (c : coordinate) (hin : in_map c.x c.y = true)
    (hm : M c.x c.y = 0) :
    unmarked (fun i j => if i = c.x ∧ j = c.y then 1 else M i j) + 1 = unmarked M := by
  unfold unmarked
  rw [in_map_iff] at hin
  have hmem : (c.x, c.y) ∈ (Finset.Icc (0 : Int) 13 ×ˢ Finset.Icc (0 : Int) 13).filter
      (fun p => M p.1 p.2 = 0) := by
    rw [Finset.mem_filter, Finset.mem_product, Finset.mem_Icc, Finset.mem_Icc]
    exact ⟨⟨⟨hin.1, by omega⟩, ⟨hin.2.2.1, by omega⟩⟩, hm⟩
  have heq : (Finset.Icc (0 : Int) 13 ×ˢ Finset.Icc (0 : Int) 13).filter
      (fun p => (if p.1 = c.x ∧ p.2 = c.y then (1 : Int) else M p.1 p.2) = 0) =
      ((Finset.Icc (0 : Int) 13 ×ˢ Finset.Icc (0 : Int) 13).filter
        (fun p => M p.1 p.2 = 0)).erase (c.x, c.y) := by
    ext p
    rw [Finset.mem_erase, Finset.mem_filter, Finset.mem_filter]
    by_cases hp : p.1 = c.x ∧ p.2 = c.y
    · have : p = (c.x, c.y) := Prod.ext hp.1 hp.2
      simp [hp, this]
    · have : p ≠ (c.x, c.y) := fun h => hp ⟨by rw [h], by rw [h]⟩
      simp [hp, this]
  rw [heq, Finset.card_erase_of_mem hmem]
  have : 0 < ((Finset.Icc (0 : Int) 13 ×ˢ Finset.Icc (0 : Int) 13).filter
      (fun p => M p.1 p.2 = 0)).card := Finset.card_pos.2 ⟨_, hmem⟩
  omega

theorem length_filter_ne_cons (q : List coordinate) (c : coordinate) :
    ((c :: q).filter (fun e => !(e == c))).length ≤ q.length := by
  rw [filter_ne_cons_self]
  exact List.length_filter_le _ _

theorem exact_weights_of_inv (g : WUMPLUS) (d : coordinate) (M W : Grid) (h : Int)
    (hinv : search_inv g d [] M W h) : exact_weights g d W := by
  have hnp : ∀ e, ¬ pending g M W e := by
    intro e hpe
    obtain ⟨q1, q2, hq, -, hb, hc⟩ := hinv.split
    have hq' := hq.symm
    rw [List.append_eq_nil] at hq'
    by_cases hw : W e.x e.y = h
    · have := hb e hpe hw
      rw [hq'.1] at this
      exact absurd this (List.not_mem_nil _)
    · have := hc e hpe hw
      rw [hq'.2] at this
      exact absurd this (List.not_mem_nil _)
  refine ⟨?_, hinv.sound⟩
  intro c n hs
  induction hs with
  | start => exact ⟨hinv.seed.1, by have := hinv.seed.2; simpa using this⟩
  | step p c n _ hp ha ih =>
    have hmk : M p.x p.y ≠ 0 := fun hm0 => hnp p ⟨hp, hm0, ih.1⟩
    obtain ⟨-, -, -, hn⟩ := hinv.done p hmk
    obtain ⟨n1, n2⟩ := hn c ha
    refine ⟨n1, ?_⟩
    have := ih.2
    push_cast
    omega

/-- With the border of the map known as wall, the search loop, started in a
state that satisfies its invariant and given a turn for each row it can still
take off the queue, ends with an empty queue and exact weights. -/
theorem search_loop_correct (g : WUMPLUS) (hper : perimeter_walls g) (d : coordinate) :
    ∀ (fuel : Nat) (q : List coordinate) (M W : Grid) (t : coordinate) (h : Int),
      search_inv g d q M W h → 4 * unmarked M + q.length ≤ fuel →
      ∃ M' W' t', search_loop fuel (set_queue g q) M W t = .ok (set_queue g [], M', W', t') ∧
        exact_weights g d W' := by
  intro fuel
  induction fuel with
  | zero =>
    intro q M W t h hinv hfuel
    have hq : q = [] := List.length_eq_zero.1 (by omega)
    subst hq
    exact ⟨M, W, t, search_loop_nil g 0 M W t, exact_weights_of_inv g d M W h hinv⟩
  | succ fuel ih =>
    intro q M W t h hinv hfuel
    cases q with
    | nil => exact ⟨M, W, t, search_loop_nil g _ M W t, exact_weights_of_inv g d M W h hinv⟩
    | cons c q =>
      have hq0 := hinv.queued c (List.mem_cons_self _ _)
      have hlen := length_filter_ne_cons q c
      rw [List.length_cons] at hfuel
      by_cases hpen : passable g c ∧ M c.x c.y = 0
      · obtain ⟨hp, hm⟩ := hpen
        have hab := hinv.above c ⟨hp, hm, hq0.2⟩
        have hbd := hinv.bounds
        have hint := passable_interior g hper c hq0.1 hp
        rw [search_loop_expand g fuel c q M W t hp hint hm
          (fun a b => by have := (hbd a b).2; omega) (hbd c.x c.y).1]
        apply ih _ _ _ _ _ (search_inv_expand g hper d c q M W h hinv hp hm)
        have hu := unmarked_mark M c hq0.1 hm
        rw [List.length_append]
        have : (neighbours c).length = 4 := rfl
        omega
      · have hn : ¬ passable g c ∨ M c.x c.y ≠ 0 := by
          by_cases hp : passable g c
          · exact Or.inr (fun hm => hpen ⟨hp, hm⟩)
          · exact Or.inl hp
        rw [search_loop_skip g fuel c q M W t hq0.1 hn]
        apply ih _ _ _ _ _ (search_inv_skip g d c q M W h hinv
          (fun hpe => hpen ⟨hpe.1, hpe.2.1⟩))
        omega

theorem queue_enqueue_eq (g : WUMPLUS) (c : coordinate) :
    queue_enqueue g c = set_queue g (g.db.queue ++ [c]) := rfl

/-- The first part of `shortest_path`, on an empty queue table, with the
border known as wall and the destination in the map: it returns, with an empty
queue and exact weights. -/
theorem search_weights_correct (g : WUMPLUS) (hq : g.db.queue = [])
    (hper : perimeter_walls g) (hin : in_map g.dest_x g.dest_y = true) :
    ∃ W, search_weights search_fuel g = .ok (set_queue g [], W) ∧
      exact_weights g ⟨g.dest_x, g.dest_y⟩ W := by
  unfold search_weights
  dsimp only
  rw [grid_set_of_in_map _ _ _ _ hin, possibles_of_in_map _ _ hin]
  simp only [bind, Except.bind]
  rw [queue_enqueue_eq, hq, List.nil_append]
  obtain ⟨M', W', t', hrun, hex⟩ := search_loop_correct g hper ⟨g.dest_x, g.dest_y⟩
    search_fuel [⟨g.dest_x, g.dest_y⟩] (fun _ _ => 0)
    (fun i j => if i = g.dest_x ∧ j = g.dest_y then 1 else 0) ⟨-1, -1⟩ 1
    (search_inv_init g ⟨g.dest_x, g.dest_y⟩ hin)
    (by rw [unmarked_init]; unfold search_fuel; simp)
  rw [hrun]
  exact ⟨W', rfl, hex⟩

theorem filtered_weights_correct (g : WUMPLUS) (hq : g.db.queue = [])
    (hper : perimeter_walls g) (hin : in_map g.dest_x g.dest_y = true) :
    ∃ W, filtered_weights search_fuel g = .ok (set_queue g [], zero_unknown g W) ∧
      exact_weights g ⟨g.dest_x, g.dest_y⟩ W := by
  obtain ⟨W, hW, hex⟩ := search_weights_correct g hq hper hin
  unfold filtered_weights
  rw [hW]
  exact ⟨W, rfl, hex⟩

/-! ## The choice among the four neighbours -/

theorem pick_of_in_map (w : Grid) (x y : Int) (best : Int × coordinate)
    (hin : in_map x y = true) : pick w x y best = .ok (better w best ⟨x, y⟩) := by
  unfold pick better
  rw [grid_get_of_in_map w x y hin]
  show (if _ then _ else _) = _
  split <;> rfl

/-- The pair kept after the tests on a list of cells, started from weight 0 at
the cell `a`: when it still has weight 0 all the cells weigh 0 and the cell is
`a`; otherwise its cell is one of the list, its weight is that cell's, and no
cell of the list has a smaller nonzero weight. -/
theorem foldl_better (w : Grid) (a : coordinate) :
    ∀ (L seen : List coordinate) (best : Int × coordinate),
      ((best.1 = 0 → best.2 = a ∧ ∀ n ∈ seen, w n.x n.y = 0) ∧
       (best.1 ≠ 0 → best.2 ∈ seen ∧ w best.2.x best.2.y = best.1 ∧
          ∀ n ∈ seen, w n.x n.y ≠ 0 → best.1 ≤ w n.x n.y)) →
      (((L.foldl (better w) best).1 = 0 →
          (L.foldl (better w) best).2 = a ∧ ∀ n ∈ seen ++ L, w n.x n.y = 0) ∧
       ((L.foldl (better w) best).1 ≠ 0 →
          (L.foldl (better w) best).2 ∈ seen ++ L ∧
          w (L.foldl (better w) best).2.x (L.foldl (better w) best).2.y =
            (L.foldl (better w) best).1 ∧
          ∀ n ∈ seen ++ L, w n.x n.y ≠ 0 → (L.foldl (better w) best).1 ≤ w n.x n.y)) := by
  intro L
  induction L with
  | nil =>
    intro seen best h
    simpa using h
  | cons m L ih =>
    intro seen best h
    rw [List.foldl_cons]
    have hstep := ih (seen ++ [m]) (better w best m) (by
      obtain ⟨h0, h1⟩ := h
      unfold better
      by_cases hc : (w m.x m.y < best.1 ∨ best.1 = 0) ∧ w m.x m.y ≠ 0
      · rw [if_pos hc]
        refine ⟨fun hz => absurd hz hc.2, fun _ => ⟨by simp, rfl, ?_⟩⟩
        intro n hn hnz
        rw [List.mem_append, List.mem_singleton] at hn
        rcases hn with hn | hn
        · by_cases hb : best.1 = 0
          · exact absurd ((h0 hb).2 n hn) hnz
          · have := (h1 hb).2.2 n hn hnz
            rcases hc.1 with hlt | hz
            · exact le_trans (le_of_lt hlt) this
            · exact absurd hz hb
        · rw [hn]
      · rw [if_neg hc]
        refine ⟨fun hz => ⟨(h0 hz).1, ?_⟩, fun hnz => ⟨?_, (h1 hnz).2.1, ?_⟩⟩
        · intro n hn
          rw [List.mem_append, List.mem_singleton] at hn
          rcases hn with hn | hn
          · exact (h0 hz).2 n hn
          · rw [hn]
            by_contra hm
            exact hc ⟨Or.inr hz, hm⟩
        · exact List.mem_append_left _ (h1 hnz).1
        · intro n hn hn0
          rw [List.mem_append, List.mem_singleton] at hn
          rcases hn with hn | hn
          · exact (h1 hnz).2.2 n hn hn0
          · rw [hn] at hn0 ⊢
            by_contra hlt
            exact hc ⟨Or.inl (lt_of_not_le hlt), hn0⟩)
    rw [List.append_assoc, List.singleton_append] at hstep
    exact hstep

theorem relative_direction_neighbour (g : WUMPLUS) (n : coordinate)
    (hn : n ∈ neighbours ⟨g.x, g.y⟩) :
    target_cell g (relative_direction g n.x n.y) = some n := by
  unfold neighbours at hn
  simp only [List.mem_cons, List.mem_singleton, List.not_mem_nil, or_false] at hn
  unfold relative_direction target_cell move_direction delta_coordinates
  rcases hn with rfl | rfl | rfl | rfl
  · have h1 : ¬ (g.x - 1 = g.x) := by omega
    have h2 : ¬ (g.x < g.x - 1) := by omega
    simp [h1, h2, DIRECTION_NORTH, DIRECTION_SOUTH, DIRECTION_EAST, DIRECTION_WEST]
  · have h1 : ¬ (g.x + 1 = g.x) := by omega
    have h2 : g.x < g.x + 1 := by omega
    simp [h1, h2, DIRECTION_NORTH, DIRECTION_SOUTH, DIRECTION_EAST, DIRECTION_WEST]
  · have h2 : ¬ (g.y < g.y - 1) := by omega
    simp [h2, DIRECTION_NORTH, DIRECTION_SOUTH, DIRECTION_EAST, DIRECTION_WEST]
  · have h2 : g.y < g.y + 1 := by omega
    simp [h2, DIRECTION_NORTH, DIRECTION_SOUTH, DIRECTION_EAST, DIRECTION_WEST]

/-- The end of `shortest_path`, for an agent on an interior cell: the four
neighbour tests keep `foldl better` over the four neighbours. -/
theorem shortest_path_of_weights (g h : WUMPLUS) (w : Grid)
    (hw : filtered_weights search_fuel g = .ok (h, w))
    (hin : 1 ≤ h.x ∧ h.x ≤ 12 ∧ 1 ≤ h.y ∧ h.y ≤ 12) :
    shortest_path g = .ok (relative_direction h
      ((neighbours ⟨h.x, h.y⟩).foldl (better w) (0, ⟨h.x, h.y⟩)).2.x
      ((neighbours ⟨h.x, h.y⟩).foldl (better w) (0, ⟨h.x, h.y⟩)).2.y, h) := by
  have i1 : in_map (h.x - 1) h.y = true := by rw [in_map_iff]; omega
  have i2 : in_map (h.x + 1) h.y = true := by rw [in_map_iff]; omega
  have i3 : in_map h.x (h.y - 1) = true := by rw [in_map_iff]; omega
  have i4 : in_map h.x (h.y + 1) = true := by rw [in_map_iff]; omega
  unfold shortest_path shortest_path_fuel
  rw [hw]
  simp only [bind, Except.bind]
  rw [pick_of_in_map _ _ _ _ i1]
  simp only []
  rw [pick_of_in_map _ _ _ _ i2]
  simp only []
  rw [pick_of_in_map _ _ _ _ i3]
  simp only []
  rw [pick_of_in_map _ _ _ _ i4]
  rfl

/-! ## Walks and distances -/

theorem adjacent_symm (a b : coordinate) (h : adjacent a b) : adjacent b a := by
  unfold adjacent at h ⊢
  omega

theorem SafePath.first_passable (g : WUMPLUS) (a d : coordinate) (n : Nat)
    (h : SafePath g a d n) : passable g a := by
  cases h with
  | here _ hp => exact hp
  | step _ b _ n hp _ _ => exact hp

theorem SafePath.inv (g : WUMPLUS) (a d : coordinate) (n : Nat) (h : SafePath g a d n) :
    (n = 0 ∧ a = d) ∨
    (∃ (b : coordinate) (m : Nat), n = m + 1 ∧ adjacent a b ∧ SafePath g b d m) := by
  cases h with
  | here _ hp => exact Or.inl ⟨rfl, rfl⟩
  | step _ b _ m hp hadj hb => exact Or.inr ⟨b, m, rfl, hadj, hb⟩

theorem SafePath.to_semi (g : WUMPLUS) (a d : coordinate) (n : Nat)
    (h : SafePath g a d n) : Semi g d a n := by
  induction h with
  | here d _ => exact Semi.start
  | step a b d n _ hadj hpath ih =>
    exact Semi.step b a n ih (SafePath.first_passable g b d n hpath) (adjacent_symm a b hadj)

theorem Semi.to_path (g : WUMPLUS) (d c : coordinate) (n : Nat) (h : Semi g d c n) :
    passable g c → SafePath g c d n := by
  induction h with
  | start => exact fun hp => SafePath.here d hp
  | step p c n _ hpp hadj ih =>
    exact fun hpc => SafePath.step c p d n hpc (adjacent_symm p c hadj) (ih hpp)

theorem SafePath.in_map (g : WUMPLUS) (hper : perimeter_walls g) (a d : coordinate) (n : Nat)
    (h : SafePath g a d n) : in_map a.x a.y = true → in_map d.x d.y = true := by
  induction h with
  | here d _ => exact fun hin => hin
  | step a b d n hp hadj _ ih =>
    exact fun hin => ih (adjacent_in_map a b (passable_interior g hper a hin hp) hadj)

/-- With exact weights, a Safe cell that is no known wall and has a nonzero
weight `k + 1` is at distance `k` from the destination. -/
theorem safe_dist_of_weight (g : WUMPLUS) (d c : coordinate) (W : Grid)
    (hex : exact_weights g d W) (hp : passable g c) (hw : W c.x c.y ≠ 0) :
    ∃ k : Nat, W c.x c.y = k + 1 ∧ safe_dist g c d k := by
  obtain ⟨k, hk, hkw⟩ := hex.2 c hw
  refine ⟨k, hkw, Semi.to_path g d c k hk hp, ?_⟩
  intro m hm
  have := (hex.1 c m (SafePath.to_semi g c d m hm)).2
  rw [hkw] at this
  omega

theorem zero_unknown_apply (g : WUMPLUS) (W : Grid) (n : coordinate)
    (hin : in_map n.x n.y = true) (hvs : ∀ x y, visited g x y = true → safe g x y = true) :
    (zero_unknown g W n.x n.y ≠ 0 ↔ (passable g n ∧ W n.x n.y ≠ 0)) ∧
    (passable g n → zero_unknown g W n.x n.y = W n.x n.y) := by
  unfold zero_unknown passable
  rw [hin]
  have hv := hvs n.x n.y
  cases hw : wall g n.x n.y <;> cases hs : safe g n.x n.y <;>
    cases hvv : visited g n.x n.y <;> simp_all

/-! ## Claims on the path search -/

/-- C1: for a fact store in which all perimeter cells are known walls and
every Visited cell is Safe, an agent on a cell of the map, and a destination
other than the agent's cell that a walk through cells that are Safe and no
known walls joins to it, `shortest_path` (entered, as always, with an empty
queue table) returns the direction character of an orthogonal neighbour of the
agent's cell that is Safe, is no known wall, and is one step nearer to the
destination than the agent's cell, in shortest walks through such cells. -/
theorem shortest_path_steps_toward_destination (g : WUMPLUS)
    (hq : g.db.queue = []) (hper : perimeter_walls g)
    (hvs : ∀ x y, visited g x y = true → safe g x y = true)
    (hin : in_map g.x g.y = true)
    (hne : (⟨g.x, g.y⟩ : coordinate) ≠ ⟨g.dest_x, g.dest_y⟩)
    (k : Nat) (hpath : SafePath g ⟨g.x, g.y⟩ ⟨g.dest_x, g.dest_y⟩ k) :
    ∃ (c : Char) (n : coordinate) (j : Nat),
      shortest_path g = .ok (c, g) ∧ target_cell g c = some n ∧
      adjacent ⟨g.x, g.y⟩ n ∧ safe g n.x n.y = true ∧ wall g n.x n.y = false ∧
      safe_dist g n ⟨g.dest_x, g.dest_y⟩ j ∧
      safe_dist g ⟨g.x, g.y⟩ ⟨g.dest_x, g.dest_y⟩ (j + 1) := by
  have hpa := SafePath.first_passable g _ _ k hpath
  have hint := passable_interior g hper ⟨g.x, g.y⟩ hin hpa
  have hind := SafePath.in_map g hper _ _ k hpath hin
  obtain ⟨W, hw, hex⟩ := filtered_weights_correct g hq hper hind
  have hg : set_queue g [] = g := by rw [← hq]; rfl
  rw [hg] at hw
  have hsp := shortest_path_of_weights g g (zero_unknown g W) hw hint
  have hr := foldl_better (zero_unknown g W) ⟨g.x, g.y⟩ (neighbours ⟨g.x, g.y⟩) []
    (0, ⟨g.x, g.y⟩)
    ⟨fun _ => ⟨rfl, fun n hn => absurd hn (List.not_mem_nil _)⟩, fun h => absurd rfl h⟩
  rw [List.nil_append] at hr
  -- the agent's own cell
  have hWa := (hex.1 _ k (SafePath.to_semi g _ _ k hpath)).1
  obtain ⟨K, -, hK⟩ := safe_dist_of_weight g _ _ W hex hpa hWa
  -- the first step of a shortest walk
  rcases SafePath.inv g _ _ K hK.1 with ⟨-, h0⟩ | ⟨b, j, rfl, hadj, hb⟩
  · exact absurd h0 hne
  have hpb := SafePath.first_passable g b _ j hb
  have hWb := hex.1 b j (SafePath.to_semi g b _ j hb)
  have hbmem : b ∈ neighbours ⟨g.x, g.y⟩ := (mem_neighbours _ b).2 hadj
  have hbin := adjacent_in_map _ b hint hadj
  have hzb := zero_unknown_apply g W b hbin hvs
  have hr1 : ((neighbours ⟨g.x, g.y⟩).foldl (better (zero_unknown g W))
      (0, ⟨g.x, g.y⟩)).1 ≠ 0 := by
    intro h0
    have := (hr.1 h0).2 b hbmem
    exact (hzb.1.2 ⟨hpb, hWb.1⟩) this
  obtain ⟨hmem, hval, hmin⟩ := hr.2 hr1
  generalize (neighbours ⟨g.x, g.y⟩).foldl (better (zero_unknown g W))
      (0, ⟨g.x, g.y⟩) = r at hsp hr1 hmem hval hmin
  have hadjn := (mem_neighbours _ r.2).1 hmem
  have hnin := adjacent_in_map _ r.2 hint hadjn
  have hzn := zero_unknown_apply g W r.2 hnin hvs
  obtain ⟨hpn, hWn⟩ := hzn.1.1 (by rw [hval]; exact hr1)
  obtain ⟨kn, hkn, hdn⟩ := safe_dist_of_weight g _ _ W hex hpn hWn
  have hle : r.1 ≤ zero_unknown g W b.x b.y := hmin b hbmem (hzb.1.2 ⟨hpb, hWb.1⟩)
  rw [hzb.2 hpb] at hle
  rw [← hval, hzn.2 hpn, hkn] at hle
  have hup := hWb.2
  have hlow := hK.2 (kn + 1) (SafePath.step _ r.2 _ kn hpa hadjn hdn.1)
  have hkj : kn = j := by omega
  subst hkj
  exact ⟨relative_direction g r.2.x r.2.y, r.2, kn, hsp,
    relative_direction_neighbour g r.2 hmem, hadjn, hpn.1, hpn.2, hdn, hK⟩

theorem visited_safe_of_all (g : WUMPLUS)
    (h : g.db.kb.all (fun r => r.sentence != PERCEPT_VISITED ||
      kb_found g PERCEPT_SAFE r.x r.y) = true) :
    ∀ x y, visited g x y = true → safe g x y = true := by
  intro x y hv
  unfold visited at hv
  rw [kb_found_iff] at hv
  rw [List.all_eq_true] at h
  have := h _ hv
  simpa [safe] using this

theorem room_game_perimeter : perimeter_walls room_game := by
  intro i h0 h1
  unfold MAP_SIZE at h1
  interval_cases i <;> decide!

theorem room_game_path : SafePath room_game ⟨1, 1⟩ ⟨3, 3⟩ 4 :=
  SafePath.step ⟨1, 1⟩ ⟨2, 1⟩ ⟨3, 3⟩ 3 ⟨by decide!, by decide!⟩ (by unfold adjacent; decide)
    (SafePath.step ⟨2, 1⟩ ⟨3, 1⟩ ⟨3, 3⟩ 2 ⟨by decide!, by decide!⟩ (by unfold adjacent; decide)
      (SafePath.step ⟨3, 1⟩ ⟨3, 2⟩ ⟨3, 3⟩ 1 ⟨by decide!, by decide!⟩
        (by unfold adjacent; decide)
        (SafePath.step ⟨3, 2⟩ ⟨3, 3⟩ ⟨3, 3⟩ 0 ⟨by decide!, by decide!⟩
          (by unfold adjacent; decide)
          (SafePath.here ⟨3, 3⟩ ⟨by decide!, by decide!⟩))))

/-- Witness for C1, the open room of the specification: destination (3,3),
agent at (1,1).  The direction returned is that of a Safe neighbour one step
nearer to (3,3); the run of the code gives east. -/
theorem shortest_path_steps_toward_destination_witness :
    room_game.db.queue = [] ∧ perimeter_walls room_game ∧
    (∀ x y, visited room_game x y = true → safe room_game x y = true) ∧
    in_map room_game.x room_game.y = true ∧
    SafePath room_game ⟨room_game.x, room_game.y⟩ ⟨room_game.dest_x, room_game.dest_y⟩ 4 ∧
    direction_of (shortest_path room_game) = some 'e' ∧
    (∃ (c : Char) (n : coordinate) (j : Nat),
      shortest_path room_game = .ok (c, room_game) ∧ target_cell room_game c = some n ∧
      adjacent ⟨room_game.x, room_game.y⟩ n ∧ safe room_game n.x n.y = true ∧
      wall room_game n.x n.y = false ∧
      safe_dist room_game n ⟨room_game.dest_x, room_game.dest_y⟩ j ∧
      safe_dist room_game ⟨room_game.x, room_game.y⟩
        ⟨room_game.dest_x, room_game.dest_y⟩ (j + 1)) :=
  ⟨rfl, room_game_perimeter, visited_safe_of_all room_game (by decide!), by decide!,
    room_game_path, by decide!,
    shortest_path_steps_toward_destination room_game rfl room_game_perimeter
      (visited_safe_of_all room_game (by decide!)) (by decide!) (by decide!) 4 room_game_path⟩

/-- The cut-off game is built by hand and is outside the runs (see
`stuck_game_not_called`): its destination (5,5) cannot be reached from the
agent's cell (2,2), `shortest_path` returns `n`, and the cell one step north
of the agent, (2,1), is neither Safe nor Visited. -/
theorem shortest_path_points_at_unknown_cell :
    direction_of (shortest_path stuck_game) = some 'n' ∧
    target_cell stuck_game 'n' = some ⟨2, 1⟩ ∧
    safe stuck_game 2 1 = false ∧ visited stuck_game 2 1 = false := by
  decide!

theorem stuck_weights_eq :
    filtered_weights search_fuel stuck_game = .ok (stuck_weights.1, stuck_weights.2) := by
  have h : (match filtered_weights search_fuel stuck_game with
      | .ok _ => true
      | .error _ => false) = true := by decide!
  rw [Prod.mk.eta]
  unfold stuck_weights
  cases hp : filtered_weights search_fuel stuck_game with
  | error e => rw [hp] at h; exact absurd h (by simp)
  | ok r => rfl

theorem filtered_weights_form (fuel : Nat) (g h : WUMPLUS) (w : Grid)
    (hw : filtered_weights fuel g = .ok (h, w)) : ∃ W, w = zero_unknown h W := by
  unfold filtered_weights at hw
  obtain ⟨r, -, hr⟩ := bind_ok _ _ _ hw
  have h' := Except.ok.inj hr
  simp only [Prod.mk.injEq] at h'
  obtain ⟨rfl, rfl⟩ := h'
  exact ⟨r.2, rfl⟩

/-- When the search has left some neighbour of the agent a nonzero weight,
the direction that `shortest_path` returns leads to a cell that is no known
wall and is Safe or Visited. -/
theorem shortest_path_target_is_known (g h : WUMPLUS) (w : Grid)
    (hw : filtered_weights search_fuel g = .ok (h, w))
    (hin : 1 ≤ h.x ∧ h.x ≤ 12 ∧ 1 ≤ h.y ∧ h.y ≤ 12)
    (hsome : ∃ n ∈ neighbours ⟨h.x, h.y⟩, w n.x n.y ≠ 0) :
    ∃ (c : Char) (n : coordinate), shortest_path g = .ok (c, h) ∧
      target_cell h c = some n ∧ wall h n.x n.y = false ∧
      (safe h n.x n.y = true ∨ visited h n.x n.y = true) := by
  obtain ⟨W, rfl⟩ := filtered_weights_form _ g h w hw
  have hsp := shortest_path_of_weights g h _ hw hin
  have hr := foldl_better (zero_unknown h W) ⟨h.x, h.y⟩ (neighbours ⟨h.x, h.y⟩) []
    (0, ⟨h.x, h.y⟩)
    ⟨fun _ => ⟨rfl, fun n hn => absurd hn (List.not_mem_nil _)⟩, fun h' => absurd rfl h'⟩
  rw [List.nil_append] at hr
  obtain ⟨m, hm, hmw⟩ := hsome
  have hr1 : ((neighbours ⟨h.x, h.y⟩).foldl (better (zero_unknown h W))
      (0, ⟨h.x, h.y⟩)).1 ≠ 0 := fun h0 => hmw ((hr.1 h0).2 m hm)
  obtain ⟨hmem, hval, -⟩ := hr.2 hr1
  generalize (neighbours ⟨h.x, h.y⟩).foldl (better (zero_unknown h W))
      (0, ⟨h.x, h.y⟩) = r at hsp hr1 hmem hval
  have hnz : zero_unknown h W r.2.x r.2.y ≠ 0 := by rw [hval]; exact hr1
  have hnin : in_map r.2.x r.2.y = true :=
    adjacent_in_map ⟨h.x, h.y⟩ r.2 hin ((mem_neighbours _ r.2).1 hmem)
  refine ⟨_, r.2, hsp, relative_direction_neighbour h r.2 hmem, ?_⟩
  unfold zero_unknown at hnz
  rw [hnin] at hnz
  clear hr hw hsp hval hmw hm
  cases hwl : wall h r.2.x r.2.y <;> cases hs : safe h r.2.x r.2.y <;>
    cases hv : visited h r.2.x r.2.y <;> simp_all

/-- The function on a game in which the search has left none of the agent's
four neighbours a nonzero weight: `shortest_path` returns the character `n`,
which `process_player_command` takes as the command to move north.  No call
of `shortest_path` in a run in agent mode is on such a game: there some
neighbour has a nonzero weight. -/
theorem shortest_path_no_route_returns_north (g h : WUMPLUS) (w : Grid)
    (hw : filtered_weights search_fuel g = .ok (h, w))
    (hin : 1 ≤ h.x ∧ h.x ≤ 12 ∧ 1 ≤ h.y ∧ h.y ≤ 12)
    (h0 : w (h.x - 1) h.y = 0 ∧ w (h.x + 1) h.y = 0 ∧ w h.x (h.y - 1) = 0 ∧
      w h.x (h.y + 1) = 0) :
    shortest_path g = .ok ('n', h) ∧ move_direction 'n' = some DIRECTION_NORTH := by
  refine ⟨?_, by decide⟩
  rw [shortest_path_of_weights g h w hw hin]
  have hb : (neighbours ⟨h.x, h.y⟩).foldl (better w) (0, ⟨h.x, h.y⟩) = (0, ⟨h.x, h.y⟩) := by
    simp [neighbours, better, h0.1, h0.2.1, h0.2.2.1, h0.2.2.2]
  rw [hb]
  simp [relative_direction]

/-- In the cut-off game, built by hand, the four neighbour weights are 0,
`shortest_path` returns `n`, and moving north takes the agent from (2,2) to
(2,1). -/
theorem shortest_path_no_route_returns_north_witness :
    neighbour_weights stuck_game = some (0, 0, 0, 0) ∧
    (shortest_path stuck_game = .ok ('n', stuck_weights.1) ∧
      move_direction 'n' = some DIRECTION_NORTH) ∧
    (match action_move stuck_game DIRECTION_NORTH with
      | .ok g => some (g.x, g.y)
      | .error _ => none) = some (2, 1) :=
  ⟨by decide!,
    shortest_path_no_route_returns_north stuck_game stuck_weights.1 stuck_weights.2
      stuck_weights_eq (by decide!) (by decide!),
    by decide!⟩

/-! ## The destination -/

theorem has_destination_eq (g : WUMPLUS) :
    has_destination g = kb_found g PERCEPT_DESTINATION 0 0 := by
  unfold has_destination
  cases kb_found g PERCEPT_DESTINATION 0 0 <;> rfl

theorem at_destination_iff (g : WUMPLUS) :
    at_destination g = true ↔ (has_destination g = true ∧ g.x = g.dest_x ∧ g.y = g.dest_y) := by
  unfold at_destination
  cases has_destination g <;> simp [and_assoc]

theorem at_start_iff (g : WUMPLUS) : at_start g = true ↔ (g.x = 1 ∧ g.y = 1) := by
  unfold at_start
  simp

theorem set_destination_found (g : WUMPLUS) (x y s a b : Int) :
    kb_found (set_destination g x y) s a b = true ↔
      ((s = PERCEPT_DESTINATION ∧ a = 0 ∧ b = 0) ∨ kb_found g s a b = true) :=
  kb_found_insert g PERCEPT_DESTINATION 0 0 s a b

theorem set_destination_found_ne (g : WUMPLUS) (x y s a b : Int)
    (h : s ≠ PERCEPT_DESTINATION) :
    kb_found (set_destination g x y) s a b = kb_found g s a b :=
  kb_found_insert_ne g PERCEPT_DESTINATION 0 0 s a b h

theorem remove_destination_found (g : WUMPLUS) (s a b : Int) :
    kb_found (remove_destination g) s a b = true ↔
      (¬ (s = PERCEPT_DESTINATION ∧ a = 0 ∧ b = 0) ∧ kb_found g s a b = true) :=
  kb_found_delete g PERCEPT_DESTINATION 0 0 s a b

theorem remove_destination_found_ne (g : WUMPLUS) (s a b : Int)
    (h : s ≠ PERCEPT_DESTINATION) :
    kb_found (remove_destination g) s a b = kb_found g s a b :=
  kb_found_delete_ne g PERCEPT_DESTINATION 0 0 s a b h

theorem has_destination_set (g : WUMPLUS) (x y : Int) :
    has_destination (set_destination g x y) = true := by
  rw [has_destination_eq, set_destination_found]
  exact Or.inl ⟨rfl, rfl, rfl⟩

theorem has_destination_remove (g : WUMPLUS) :
    has_destination (remove_destination g) = false := by
  rw [has_destination_eq, ← Bool.not_eq_true, remove_destination_found]
  exact fun h => h.1 ⟨rfl, rfl, rfl⟩

/-- What `set_destination` leaves alone: everything but the target variables
and the rows of the fact table. -/
theorem set_destination_frame (g : WUMPLUS) (x y : Int) :
    (set_destination g x y).x = g.x ∧ (set_destination g x y).y = g.y ∧
    (set_destination g x y).map = g.map ∧
    (set_destination g x y).supmuw_neighbors_wumpus = g.supmuw_neighbors_wumpus ∧
    (set_destination g x y).use_agent = g.use_agent ∧
    (set_destination g x y).arrows = g.arrows ∧
    (set_destination g x y).db.queue = g.db.queue ∧
    (set_destination g x y).dest_x = x ∧ (set_destination g x y).dest_y = y := by
  unfold set_destination kb_insert
  dsimp only
  split <;> exact ⟨rfl, rfl, rfl, rfl, rfl, rfl, rfl, rfl, rfl⟩

/-- What `remove_destination` leaves alone. -/
theorem remove_destination_frame (g : WUMPLUS) :
    (remove_destination g).x = g.x ∧ (remove_destination g).y = g.y ∧
    (remove_destination g).map = g.map ∧
    (remove_destination g).supmuw_neighbors_wumpus = g.supmuw_neighbors_wumpus ∧
    (remove_destination g).use_agent = g.use_agent ∧
    (remove_destination g).arrows = g.arrows ∧
    (remove_destination g).db.queue = g.db.queue ∧
    (remove_destination g).dest_x = -1 ∧ (remove_destination g).dest_y = -1 := by
  unfold remove_destination kb_delete
  dsimp only
  split <;> exact ⟨rfl, rfl, rfl, rfl, rfl, rfl, rfl, rfl, rfl⟩

/-! ## Counting the Destination markers -/

theorem markers_insert_destination (g : WUMPLUS) :
    destination_markers (kb_insert g PERCEPT_DESTINATION 0 0) =
      max 1 (destination_markers g) := by
  unfold destination_markers
  rw [kb_insert_kb]
  by_cases h : (⟨PERCEPT_DESTINATION, 0, 0⟩ : Row) ∈ g.db.kb
  · rw [if_pos h]
    have := List.count_pos_iff.2 h
    omega
  · rw [if_neg h, List.count_append, List.count_eq_zero_of_not_mem h]
    simp

theorem markers_insert_other (g : WUMPLUS) (s x y : Int) (h : s ≠ PERCEPT_DESTINATION) :
    destination_markers (kb_insert g s x y) = destination_markers g := by
  unfold destination_markers
  rw [kb_insert_kb]
  split
  · rfl
  · rw [List.count_append]
    have : List.count (⟨PERCEPT_DESTINATION, 0, 0⟩ : Row) [⟨s, x, y⟩] = 0 := by
      rw [List.count_eq_zero]
      simp only [List.mem_singleton, Row.mk.injEq, not_and]
      intro hs
      exact absurd hs.symm h
    omega

theorem markers_delete_destination (g : WUMPLUS) :
    destination_markers (kb_delete g PERCEPT_DESTINATION 0 0) = 0 := by
  unfold destination_markers
  rw [kb_delete_kb, List.count_eq_zero, List.mem_filter]
  simp

theorem markers_delete_le (g : WUMPLUS) (s x y : Int) :
    destination_markers (kb_delete g s x y) ≤ destination_markers g := by
  unfold destination_markers
  rw [kb_delete_kb]
  exact List.Sublist.count_le (List.filter_sublist _) _

theorem markers_set_destination (g : WUMPLUS) (x y : Int) :
    destination_markers (set_destination g x y) = max 1 (destination_markers g) :=
  markers_insert_destination g

theorem markers_remove_destination (g : WUMPLUS) :
    destination_markers (remove_destination g) = 0 :=
  markers_delete_destination g

/-! ## What the path search leaves alone -/

theorem set_queue_enqueue (g : WUMPLUS) (c : coordinate) (q : List coordinate) :
    set_queue (queue_enqueue g c) q = set_queue g q := rfl

theorem set_queue_dequeue (g : WUMPLUS) (t : coordinate) (q : List coordinate) :
    set_queue (queue_dequeue g t).2 q = set_queue g q := rfl

/-- The search loop changes nothing of the game but the queue table. -/
theorem search_loop_frame : ∀ (fuel : Nat) (g : WUMPLUS) (M W : Grid) (t : coordinate)
    (r : WUMPLUS × Grid × Grid × coordinate),
    search_loop fuel g M W t = .ok r → ∃ q, r.1 = set_queue g q := by
  intro fuel
  induction fuel with
  | zero =>
    intro g M W t r h
    rw [search_loop] at h
    split at h
    · have h' := Except.ok.inj h
      subst h'
      exact ⟨g.db.queue, rfl⟩
    · exact absurd h (by simp)
  | succ fuel ih =>
    intro g M W t r h
    rw [search_loop] at h
    split at h
    · have h' := Except.ok.inj h
      subst h'
      exact ⟨g.db.queue, rfl⟩
    · dsimp only at h
      split at h
      · obtain ⟨q, hq⟩ := ih _ _ _ _ _ h
        rw [set_queue_dequeue] at hq
        exact ⟨q, hq⟩
      · obtain ⟨m, -, h⟩ := bind_ok _ _ _ h
        split at h
        · obtain ⟨q, hq⟩ := ih _ _ _ _ _ h
          rw [set_queue_dequeue] at hq
          exact ⟨q, hq⟩
        · obtain ⟨M1, -, h⟩ := bind_ok _ _ _ h
          obtain ⟨p1, -, h⟩ := bind_ok _ _ _ h
          obtain ⟨p2, -, h⟩ := bind_ok _ _ _ h
          obtain ⟨p3, -, h⟩ := bind_ok _ _ _ h
          obtain ⟨p4, -, h⟩ := bind_ok _ _ _ h
          obtain ⟨w, -, h⟩ := bind_ok _ _ _ h
          obtain ⟨W1, -, h⟩ := bind_ok _ _ _ h
          obtain ⟨W2, -, h⟩ := bind_ok _ _ _ h
          obtain ⟨W3, -, h⟩ := bind_ok _ _ _ h
          obtain ⟨W4, -, h⟩ := bind_ok _ _ _ h
          obtain ⟨q, hq⟩ := ih _ _ _ _ _ h
          clear h
          rw [set_queue_enqueue, set_queue_enqueue, set_queue_enqueue, set_queue_enqueue,
            set_queue_dequeue] at hq
          exact ⟨q, hq⟩

theorem pick_cases (w : Grid) (x y : Int) (best b : Int × coordinate)
    (h : pick w x y best = .ok b) : in_map x y = true ∧ (b.2 = ⟨x, y⟩ ∨ b = best) := by
  unfold pick at h
  obtain ⟨v, hv, h⟩ := bind_ok _ _ _ h
  have hin : in_map x y = true := by
    unfold grid_get at hv
    split at hv
    · assumption
    · exact absurd hv (by simp)
  refine ⟨hin, ?_⟩
  split at h
  · have h' := Except.ok.inj h
    subst h'
    exact Or.inl rfl
  · have h' := Except.ok.inj h
    subst h'
    exact Or.inr rfl

/-- The direction of a cell in the player's row or column is one of the four
move characters. -/
theorem relative_direction_row_or_column (g : WUMPLUS) (x y : Int)
    (h : x = g.x ∨ y = g.y) :
    relative_direction g x y = 'n' ∨ relative_direction g x y = 's' ∨
    relative_direction g x y = 'e' ∨ relative_direction g x y = 'w' := by
  unfold relative_direction
  by_cases hx : x = g.x
  · rw [if_pos hx]
    split
    · exact Or.inr (Or.inl rfl)
    · exact Or.inl rfl
  · rw [if_neg hx]
    have hy : y = g.y := by
      rcases h with h | h
      · exact absurd h hx
      · exact h
    rw [if_pos hy]
    split
    · exact Or.inr (Or.inr (Or.inl rfl))
    · exact Or.inr (Or.inr (Or.inr rfl))

/-- When `shortest_path` returns, the game it leaves is the old one with the
queue table emptied, the player's four neighbour cells are in the map, and the
character it returns is one of `n`, `s`, `e`, `w`. -/
theorem shortest_path_fuel_frame (fuel : Nat) (g g' : WUMPLUS) (c : Char)
    (h : shortest_path_fuel fuel g = .ok (c, g')) :
    g' = set_queue g [] ∧ in_map g.dest_x g.dest_y = true ∧
    (in_map (g.x - 1) g.y = true ∧ in_map (g.x + 1) g.y = true ∧
      in_map g.x (g.y - 1) = true ∧ in_map g.x (g.y + 1) = true) ∧
    (c = 'n' ∨ c = 's' ∨ c = 'e' ∨ c = 'w') := by
  unfold shortest_path_fuel at h
  obtain ⟨r, hr, h⟩ := bind_ok _ _ _ h
  unfold filtered_weights at hr
  obtain ⟨r0, hr0, hr⟩ := bind_ok _ _ _ hr
  unfold search_weights at hr0
  obtain ⟨W0, hW0, hr0⟩ := bind_ok _ _ _ hr0
  obtain ⟨p, hp, hr0⟩ := bind_ok _ _ _ hr0
  obtain ⟨r1, hr1, hr0⟩ := bind_ok _ _ _ hr0
  obtain ⟨q, hq⟩ := search_loop_frame _ _ _ _ _ _ hr1
  have hdest : in_map g.dest_x g.dest_y = true := by
    unfold possibles at hp
    split at hp
    · assumption
    · exact absurd hp (by simp)
  clear hr1 hW0 hp
  have e0 := Except.ok.inj hr0
  clear hr0
  have e1 := Except.ok.inj hr
  clear hr
  have hg : r.1 = set_queue g [] := by
    rw [← e1, ← e0]
    show queue_make_empty r1.1 = _
    rw [hq]
    rfl
  obtain ⟨b1, hb1, h⟩ := bind_ok _ _ _ h
  obtain ⟨b2, hb2, h⟩ := bind_ok _ _ _ h
  obtain ⟨b3, hb3, h⟩ := bind_ok _ _ _ h
  obtain ⟨b4, hb4, h⟩ := bind_ok _ _ _ h
  have e2 := Except.ok.inj h
  clear h
  obtain ⟨i1, c1⟩ := pick_cases _ _ _ _ _ hb1
  obtain ⟨i2, c2⟩ := pick_cases _ _ _ _ _ hb2
  obtain ⟨i3, c3⟩ := pick_cases _ _ _ _ _ hb3
  obtain ⟨i4, c4⟩ := pick_cases _ _ _ _ _ hb4
  clear hb1 hb2 hb3 hb4
  have hx : r.1.x = g.x := by rw [hg]; rfl
  have hy : r.1.y = g.y := by rw [hg]; rfl
  rw [hx, hy] at i1 i2 i3 i4
  have hb : b4.2.x = r.1.x ∨ b4.2.y = r.1.y := by
    rcases c4 with c4 | c4
    · rw [c4]; exact Or.inl rfl
    · rw [c4]
      rcases c3 with c3 | c3
      · rw [c3]; exact Or.inl rfl
      · rw [c3]
        rcases c2 with c2 | c2
        · rw [c2]; exact Or.inr rfl
        · rw [c2]
          rcases c1 with c1 | c1
          · rw [c1]; exact Or.inr rfl
          · rw [c1]; exact Or.inl rfl
  have hc := relative_direction_row_or_column r.1 b4.2.x b4.2.y hb
  rw [Prod.mk.injEq] at e2
  obtain ⟨ec, eg⟩ := e2
  rw [ec] at hc
  exact ⟨by rw [← eg, hg], hdest, ⟨i1, i2, i3, i4⟩, hc⟩

/-! ## The search for an unvisited Safe cell -/

theorem visited_set_destination (g : WUMPLUS) (x y a b : Int) :
    visited (set_destination g x y) a b = visited g a b :=
  set_destination_found_ne g x y PERCEPT_VISITED a b (by decide)

theorem wall_set_destination (g : WUMPLUS) (x y a b : Int) :
    wall (set_destination g x y) a b = wall g a b :=
  set_destination_found_ne g x y PERCEPT_BUMP a b (by decide)

theorem safe_set_destination (g : WUMPLUS) (x y a b : Int) :
    safe (set_destination g x y) a b = safe g a b :=
  set_destination_found_ne g x y PERCEPT_SAFE a b (by decide)

theorem foldl_huss_found (L : List Row) (h : WUMPLUS) :
    L.foldl huss_callback (true, h) = (true, h) := by
  induction L with
  | nil => rfl
  | cons r L ih =>
    rw [List.foldl_cons]
    have : huss_callback (true, h) r = (true, h) := by
      unfold huss_callback
      simp
    rw [this, ih]

/-- The callback, run over the rows of the query from `found = 0`: the first
row whose cell is neither Visited nor a known wall becomes the destination,
and without such a row nothing changes. -/
theorem foldl_huss (g : WUMPLUS) (L : List Row) :
    L.foldl huss_callback (false, g) =
      match L.find? (fun r => !visited g r.x r.y && !wall g r.x r.y) with
      | some r => (true, set_destination g r.x r.y)
      | none => (false, g) := by
  induction L with
  | nil => rfl
  | cons r L ih =>
    rw [List.foldl_cons, List.find?_cons]
    by_cases hp : (!visited g r.x r.y && !wall g r.x r.y) = true
    · have : huss_callback (false, g) r = (true, set_destination g r.x r.y) := by
        unfold huss_callback
        simp only [Bool.not_false, Bool.true_and]
        rw [if_pos hp]
      rw [this, foldl_huss_found, hp]
    · have : huss_callback (false, g) r = (false, g) := by
        unfold huss_callback
        simp only [Bool.not_false, Bool.true_and]
        rw [if_neg hp]
      rw [this, ih]
      simp only [Bool.not_eq_true] at hp
      rw [hp]

/-- Function `has_unvisited_safe_squares` returns true exactly when some cell
holds a Safe fact and neither a Visited nor a Bump fact. -/
theorem has_unvisited_safe_squares_iff (order : List Row → List Row)
    (hord : ∀ l, (order l).Perm l) (g : WUMPLUS) :
    (has_unvisited_safe_squares order g).1 = true ↔
      ∃ x y, safe g x y = true ∧ visited g x y = false ∧ wall g x y = false := by
  unfold has_unvisited_safe_squares
  rw [foldl_huss]
  cases hf : List.find? (fun r => !visited g r.x r.y && !wall g r.x r.y)
      (order (g.db.kb.filter (fun r => r.sentence == PERCEPT_SAFE))) with
  | none =>
    simp only [Bool.false_eq_true, false_iff, not_exists]
    intro x y ⟨hs, hv, hw⟩
    rw [List.find?_eq_none] at hf
    have hm : (⟨PERCEPT_SAFE, x, y⟩ : Row) ∈
        order (g.db.kb.filter (fun r => r.sentence == PERCEPT_SAFE)) := by
      rw [(hord _).mem_iff, List.mem_filter]
      exact ⟨(kb_found_iff g _ _ _).1 hs, by simp⟩
    have := hf _ hm
    simp [hv, hw] at this
  | some r =>
    simp only [true_iff]
    have hm := List.mem_of_find?_eq_some hf
    have hp := List.find?_some hf
    rw [(hord _).mem_iff, List.mem_filter] at hm
    simp only [beq_iff_eq] at hm
    simp only [Bool.and_eq_true, Bool.not_eq_true'] at hp
    refine ⟨r.x, r.y, ?_, hp.1, hp.2⟩
    rw [safe, kb_found_iff]
    have : (⟨PERCEPT_SAFE, r.x, r.y⟩ : Row) = r := by
      cases r
      simp only at hm
      simp [hm.2]
    rw [this]
    exact hm.1

/-- When `has_unvisited_safe_squares` returns true it has set the destination
to a cell that is Safe, not Visited and no known wall; when it returns false
it has changed nothing. -/
theorem has_unvisited_safe_squares_game (order : List Row → List Row)
    (hord : ∀ l, (order l).Perm l) (g : WUMPLUS) :
    ((has_unvisited_safe_squares order g).1 = true →
      ∃ x y, safe g x y = true ∧ visited g x y = false ∧ wall g x y = false ∧
        (has_unvisited_safe_squares order g).2 = set_destination g x y) ∧
    ((has_unvisited_safe_squares order g).1 = false →
      (has_unvisited_safe_squares order g).2 = g) := by
  unfold has_unvisited_safe_squares
  rw [foldl_huss]
  cases hf : List.find? (fun r => !visited g r.x r.y && !wall g r.x r.y)
      (order (g.db.kb.filter (fun r => r.sentence == PERCEPT_SAFE))) with
  | none => exact ⟨fun h => absurd h (by simp), fun _ => rfl⟩
  | some r =>
    refine ⟨fun _ => ?_, fun h => absurd h (by simp)⟩
    have hm := List.mem_of_find?_eq_some hf
    have hp := List.find?_some hf
    rw [(hord _).mem_iff, List.mem_filter] at hm
    simp only [beq_iff_eq] at hm
    simp only [Bool.and_eq_true, Bool.not_eq_true'] at hp
    refine ⟨r.x, r.y, ?_, hp.1, hp.2, rfl⟩
    rw [safe, kb_found_iff]
    have : (⟨PERCEPT_SAFE, r.x, r.y⟩ : Row) = r := by
      cases r
      simp only at hm
      simp [hm.2]
    rw [this]
    exact hm.1

/-! ## The wumpus next to the player -/

/-- Function `wumpus_nearby` finds a wumpus exactly when one of the four
neighbour cells holds a Wumpus fact, and then the coordinate it leaves is such
a neighbour. -/
theorem wumpus_nearby_spec (g : WUMPLUS) (w : coordinate) :
    ((wumpus_nearby g w).1 = true ↔
      ∃ n, n ∈ neighbours ⟨g.x, g.y⟩ ∧ kb_found g PERCEPT_WUMPUS n.x n.y = true) ∧
    ((wumpus_nearby g w).1 = true →
      (wumpus_nearby g w).2 ∈ neighbours ⟨g.x, g.y⟩ ∧
      kb_found g PERCEPT_WUMPUS (wumpus_nearby g w).2.x (wumpus_nearby g w).2.y = true) := by
  unfold wumpus_nearby neighbours
  cases h1 : kb_found g PERCEPT_WUMPUS (g.x - 1) g.y <;>
  cases h2 : kb_found g PERCEPT_WUMPUS (g.x + 1) g.y <;>
  cases h3 : kb_found g PERCEPT_WUMPUS g.x (g.y - 1) <;>
  cases h4 : kb_found g PERCEPT_WUMPUS g.x (g.y + 1) <;>
  simp [h1, h2, h3, h4]

theorem upper_case_values :
    upper_case 'n' = 'N' ∧ upper_case 's' = 'S' ∧ upper_case 'e' = 'E' ∧
    upper_case 'w' = 'W' ∧ upper_case 'q' = 'Q' := by
  decide

/-- The shot that the upper-case direction of a neighbour cell stands for goes
to that cell. -/
theorem shoot_direction_neighbour (g : WUMPLUS) (n : coordinate)
    (hn : n ∈ neighbours ⟨g.x, g.y⟩) :
    ∃ d, shoot_direction (upper_case (relative_direction g n.x n.y)) = some d ∧
      (delta_coordinates g.x g.y d).1 = n := by
  unfold neighbours at hn
  simp only [List.mem_cons, List.mem_singleton, List.not_mem_nil, or_false] at hn
  obtain ⟨u1, u2, u3, u4, -⟩ := upper_case_values
  rcases hn with rfl | rfl | rfl | rfl
  · refine ⟨DIRECTION_WEST, ?_, rfl⟩
    have h1 : ¬ (g.x - 1 = g.x) := by omega
    have h2 : ¬ (g.x < g.x - 1) := by omega
    unfold relative_direction
    simp only [h1, h2, if_false, if_true, u4]
    decide
  · refine ⟨DIRECTION_EAST, ?_, rfl⟩
    have h1 : ¬ (g.x + 1 = g.x) := by omega
    have h2 : g.x < g.x + 1 := by omega
    unfold relative_direction
    simp only [h1, h2, if_false, if_true, u3]
    decide
  · refine ⟨DIRECTION_NORTH, ?_, rfl⟩
    have h2 : ¬ (g.y < g.y - 1) := by omega
    unfold relative_direction
    simp only [h2, if_false, if_true, u1]
    decide
  · refine ⟨DIRECTION_SOUTH, ?_, rfl⟩
    have h2 : g.y < g.y + 1 := by omega
    unfold relative_direction
    simp only [h2, if_true, u2]
    decide

/-! ## The choice of action -/

/-- What `check_destination` leaves alone, and what it does to the facts. -/
theorem check_destination_frame (g : WUMPLUS) :
    (check_destination g).x = g.x ∧ (check_destination g).y = g.y ∧
    (check_destination g).map = g.map ∧
    (check_destination g).supmuw_neighbors_wumpus = g.supmuw_neighbors_wumpus ∧
    (check_destination g).use_agent = g.use_agent ∧
    (check_destination g).arrows = g.arrows ∧
    (check_destination g).db.queue = g.db.queue ∧
    (∀ s a b, s ≠ PERCEPT_DESTINATION →
      kb_found (check_destination g) s a b = kb_found g s a b) := by
  unfold check_destination
  split
  · obtain ⟨h1, h2, h3, h4, h5, h6, h7, -, -⟩ := remove_destination_frame g
    exact ⟨h1, h2, h3, h4, h5, h6, h7, fun s a b hs => remove_destination_found_ne g s a b hs⟩
  · exact ⟨rfl, rfl, rfl, rfl, rfl, rfl, rfl, fun _ _ _ _ => rfl⟩

/-- After `check_destination` an active destination is Safe and no known
wall. -/
theorem check_destination_active (g : WUMPLUS) (h : has_destination (check_destination g) = true) :
    check_destination g = g ∧ safe g g.dest_x g.dest_y = true ∧
      wall g g.dest_x g.dest_y = false := by
  unfold check_destination at h ⊢
  by_cases hc : (has_destination g &&
      (wall g g.dest_x g.dest_y || !safe g g.dest_x g.dest_y)) = true
  · rw [if_pos hc, has_destination_remove] at h
    exact absurd h (by simp)
  · rw [if_neg hc] at h ⊢
    rw [h] at hc
    cases hw : wall g g.dest_x g.dest_y <;> cases hs : safe g g.dest_x g.dest_y <;>
      simp [hw, hs] at hc ⊢

/-- The decision tree of `kb_ask_action`. -/
theorem kb_ask_action_eq (order : List Row → List Row) (g : WUMPLUS) :
    kb_ask_action order g =
      if glitter g g.x g.y = true then
        .ok ('g', set_destination (remove_destination g) 1 1)
      else if (smell (check_destination g) (check_destination g).x (check_destination g).y &&
          decide ((check_destination g).arrows ≠ 0) &&
          (wumpus_nearby (check_destination g) ⟨g.x, g.y⟩).1) = true then
        .ok (upper_case (relative_direction (check_destination g)
          (wumpus_nearby (check_destination g) ⟨g.x, g.y⟩).2.x
          (wumpus_nearby (check_destination g) ⟨g.x, g.y⟩).2.y), check_destination g)
      else if (has_destination (check_destination g) &&
          !at_destination (check_destination g)) = true then
        shortest_path (check_destination g)
      else if (has_unvisited_safe_squares order (check_destination g)).1 = true then
        shortest_path (has_unvisited_safe_squares order (check_destination g)).2
      else if (!at_start (has_unvisited_safe_squares order (check_destination g)).2) = true then
        shortest_path (set_destination
          (has_unvisited_safe_squares order (check_destination g)).2 1 1)
      else .ok ('q', (has_unvisited_safe_squares order (check_destination g)).2) := rfl

/-- The test of `kb_ask_action` for a shot, on the facts of the game: Smell at
the player's cell, an arrow count other than 0, and a Wumpus fact at one of
the four neighbour cells. -/
theorem shoot_test_iff (g : WUMPLUS) :
    (smell (check_destination g) (check_destination g).x (check_destination g).y &&
        decide ((check_destination g).arrows ≠ 0) &&
        (wumpus_nearby (check_destination g) ⟨g.x, g.y⟩).1) = true ↔
      (smell g g.x g.y = true ∧ g.arrows ≠ 0 ∧
        ∃ n, adjacent ⟨g.x, g.y⟩ n ∧ kb_found g PERCEPT_WUMPUS n.x n.y = true) := by
  obtain ⟨h1, h2, -, -, -, h6, -, h8⟩ := check_destination_frame g
  have hw := (wumpus_nearby_spec (check_destination g) ⟨g.x, g.y⟩).1
  rw [h1, h2] at hw
  rw [Bool.and_eq_true, Bool.and_eq_true, hw, h1, h2, h6, smell,
    h8 _ _ _ (by decide), decide_eq_true_eq]
  constructor
  · rintro ⟨⟨a, b⟩, n, hn, hf⟩
    rw [h8 _ _ _ (by decide)] at hf
    exact ⟨a, b, n, (mem_neighbours _ _).1 hn, hf⟩
  · rintro ⟨a, b, n, hn, hf⟩
    refine ⟨⟨a, b⟩, n, (mem_neighbours _ _).2 hn, ?_⟩
    rw [h8 _ _ _ (by decide)]
    exact hf

/-- The five ways in which `kb_ask_action` returns: the grab, the shot, a step
of the path search (towards the destination in force, a fresh one, or the
start), and the quit. -/
theorem kb_ask_action_cases (order : List Row → List Row) (g g' : WUMPLUS) (c : Char)
    (h : kb_ask_action order g = .ok (c, g')) :
    (glitter g g.x g.y = true ∧ c = 'g' ∧
      g' = set_destination (remove_destination g) 1 1) ∨
    (glitter g g.x g.y = false ∧
      (smell g g.x g.y = true ∧ g.arrows ≠ 0 ∧
        ∃ n, adjacent ⟨g.x, g.y⟩ n ∧ kb_found g PERCEPT_WUMPUS n.x n.y = true) ∧
      (∃ n, adjacent ⟨g.x, g.y⟩ n ∧ kb_found g PERCEPT_WUMPUS n.x n.y = true ∧
        c = upper_case (relative_direction g n.x n.y)) ∧
      g' = check_destination g) ∨
    (glitter g g.x g.y = false ∧
      ¬ (smell g g.x g.y = true ∧ g.arrows ≠ 0 ∧
        ∃ n, adjacent ⟨g.x, g.y⟩ n ∧ kb_found g PERCEPT_WUMPUS n.x n.y = true) ∧
      ∃ s : WUMPLUS, shortest_path s = .ok (c, g') ∧
        ((s = check_destination g ∧ has_destination s = true ∧ at_destination s = false) ∨
         (¬ (has_destination (check_destination g) = true ∧
              at_destination (check_destination g) = false) ∧
            (has_unvisited_safe_squares order (check_destination g)).1 = true ∧
            s = (has_unvisited_safe_squares order (check_destination g)).2) ∨
         (¬ (has_destination (check_destination g) = true ∧
              at_destination (check_destination g) = false) ∧
            (has_unvisited_safe_squares order (check_destination g)).1 = false ∧
            ¬ (g.x = 1 ∧ g.y = 1) ∧ s = set_destination (check_destination g) 1 1))) ∨
    (glitter g g.x g.y = false ∧
      ¬ (smell g g.x g.y = true ∧ g.arrows ≠ 0 ∧
        ∃ n, adjacent ⟨g.x, g.y⟩ n ∧ kb_found g PERCEPT_WUMPUS n.x n.y = true) ∧
      ¬ (has_destination (check_destination g) = true ∧
          at_destination (check_destination g) = false) ∧
      (has_unvisited_safe_squares order (check_destination g)).1 = false ∧
      (g.x = 1 ∧ g.y = 1) ∧ c = 'q' ∧ g' = check_destination g) := by
  obtain ⟨fx, fy, -, -, -, -, -, f8⟩ := check_destination_frame g
  rw [kb_ask_action_eq] at h
  by_cases hg : glitter g g.x g.y = true
  · rw [if_pos hg] at h
    have h' := Except.ok.inj h
    rw [Prod.mk.injEq] at h'
    exact Or.inl ⟨hg, h'.1.symm, h'.2.symm⟩
  rw [if_neg hg] at h
  simp only [Bool.not_eq_true] at hg
  by_cases hs : (smell (check_destination g) (check_destination g).x (check_destination g).y &&
      decide ((check_destination g).arrows ≠ 0) &&
      (wumpus_nearby (check_destination g) ⟨g.x, g.y⟩).1) = true
  · rw [if_pos hs] at h
    have h' := Except.ok.inj h
    rw [Prod.mk.injEq] at h'
    have hnear : (wumpus_nearby (check_destination g) ⟨g.x, g.y⟩).1 = true := by
      rw [Bool.and_eq_true] at hs
      exact hs.2
    obtain ⟨hm, hf⟩ := (wumpus_nearby_spec (check_destination g) ⟨g.x, g.y⟩).2 hnear
    rw [fx, fy] at hm
    rw [f8 _ _ _ (by decide)] at hf
    refine Or.inr (Or.inl ⟨hg, (shoot_test_iff g).1 hs, ⟨_, (mem_neighbours _ _).1 hm, hf, ?_⟩,
      h'.2.symm⟩)
    rw [← h'.1]
    unfold relative_direction
    rw [fx, fy]
  rw [if_neg hs] at h
  rw [shoot_test_iff] at hs
  by_cases hd : (has_destination (check_destination g) &&
      !at_destination (check_destination g)) = true
  · rw [if_pos hd] at h
    simp only [Bool.and_eq_true, Bool.not_eq_true'] at hd
    exact Or.inr (Or.inr (Or.inl ⟨hg, hs, _, h, Or.inl ⟨rfl, hd.1, hd.2⟩⟩))
  rw [if_neg hd] at h
  simp only [Bool.and_eq_true, Bool.not_eq_true'] at hd
  by_cases hu : (has_unvisited_safe_squares order (check_destination g)).1 = true
  · rw [if_pos hu] at h
    exact Or.inr (Or.inr (Or.inl ⟨hg, hs, _, h, Or.inr (Or.inl ⟨hd, hu, rfl⟩)⟩))
  rw [if_neg hu] at h
  simp only [Bool.not_eq_true] at hu
  have hg2 : (has_unvisited_safe_squares order (check_destination g)).2 =
      check_destination g := by
    unfold has_unvisited_safe_squares at hu ⊢
    rw [foldl_huss] at hu ⊢
    cases hf : List.find? (fun r => !visited (check_destination g) r.x r.y &&
        !wall (check_destination g) r.x r.y)
        (order ((check_destination g).db.kb.filter (fun r => r.sentence == PERCEPT_SAFE))) with
    | none => rfl
    | some r => rw [hf] at hu; exact absurd hu (by simp)
  rw [hg2] at h
  by_cases ha : (!at_start (check_destination g)) = true
  · rw [if_pos ha] at h
    simp only [Bool.not_eq_true'] at ha
    have hns : ¬ (g.x = 1 ∧ g.y = 1) := by
      rw [← fx, ← fy, ← at_start_iff, ha]
      simp
    exact Or.inr (Or.inr (Or.inl ⟨hg, hs, _, h, Or.inr (Or.inr ⟨hd, hu, hns, rfl⟩)⟩))
  rw [if_neg ha] at h
  simp only [Bool.not_eq_true', Bool.not_eq_false] at ha
  rw [at_start_iff, fx, fy] at ha
  have h' := Except.ok.inj h
  rw [Prod.mk.injEq] at h'
  exact Or.inr (Or.inr (Or.inr ⟨hg, hs, hd, hu, ha, h'.1.symm, h'.2.symm⟩))

/-! ## Claims on the choice of action -/

/-- C14: when the fact store holds Glitter at the agent's cell,
`kb_ask_action` returns the grab character `g`, which
`process_player_command` runs as `action_grab`, and in the game it leaves
there is exactly one Destination marker and the target is (1,1), whatever the
destination, the Smell and Wumpus facts and the arrow count were before. -/
theorem glitter_means_grab (order : List Row → List Row) (g : WUMPLUS)
    (hg : glitter g g.x g.y = true) :
    ∃ g', kb_ask_action order g = .ok ('g', g') ∧
      process_player_command g' 'g' = (action_grab g' >>= fun h => pure (some h)) ∧
      has_destination g' = true ∧ destination_markers g' = 1 ∧
      g'.dest_x = 1 ∧ g'.dest_y = 1 ∧ g'.x = g.x ∧ g'.y = g.y := by
  refine ⟨set_destination (remove_destination g) 1 1, ?_, rfl, has_destination_set _ _ _, ?_,
    ?_⟩
  · rw [kb_ask_action_eq, if_pos hg]
  · rw [markers_set_destination, markers_remove_destination]
    rfl
  · obtain ⟨h1, h2, -, -, -, -, -, h8, h9⟩ := set_destination_frame (remove_destination g) 1 1
    obtain ⟨k1, k2, -⟩ := remove_destination_frame g
    exact ⟨h8, h9, h1.trans k1, h2.trans k2⟩

/-- Witness for C14, the example of the specification: the agent at (1,1)
with Glitter at (1,1) and an older destination (5,5). -/
theorem glitter_means_grab_witness :
    glitter gold_game gold_game.x gold_game.y = true ∧ gold_game.dest_x = 5 ∧
    ∃ g', kb_ask_action id gold_game = .ok ('g', g') ∧
      process_player_command g' 'g' = (action_grab g' >>= fun h => pure (some h)) ∧
      has_destination g' = true ∧ destination_markers g' = 1 ∧
      g'.dest_x = 1 ∧ g'.dest_y = 1 ∧ g'.x = gold_game.x ∧ g'.y = gold_game.y :=
  ⟨by decide, rfl, glitter_means_grab id gold_game (by decide)⟩

theorem shoot_direction_none_of_move (c : Char)
    (h : c = 'n' ∨ c = 's' ∨ c = 'e' ∨ c = 'w' ∨ c = 'q' ∨ c = 'g') :
    shoot_direction c = none := by
  rcases h with rfl | rfl | rfl | rfl | rfl | rfl <;> decide

/-- C15: in a state without Glitter at the agent's cell, and with an arrow
count that is not negative, `kb_ask_action` returns a shot, one of `N`, `S`,
`E`, `W`, exactly when the agent's cell holds Smell, at least one arrow remains
and some orthogonal neighbour holds a Wumpus fact; and the cell that a
returned shot goes to is an orthogonal neighbour that holds a Wumpus fact. -/
theorem shoot_iff_wumpus_known (order : List Row → List Row) (g : WUMPLUS)
    (hg : glitter g g.x g.y = false) (harr : 0 ≤ g.arrows) :
    ((∃ c g' d, kb_ask_action order g = .ok (c, g') ∧ shoot_direction c = some d) ↔
      (smell g g.x g.y = true ∧ 1 ≤ g.arrows ∧
        ∃ n, adjacent ⟨g.x, g.y⟩ n ∧ kb_found g PERCEPT_WUMPUS n.x n.y = true)) ∧
    (∀ c g' d, kb_ask_action order g = .ok (c, g') → shoot_direction c = some d →
      adjacent ⟨g.x, g.y⟩ (delta_coordinates g.x g.y d).1 ∧
      kb_found g PERCEPT_WUMPUS (delta_coordinates g.x g.y d).1.x
        (delta_coordinates g.x g.y d).1.y = true) := by
  have key : ∀ c g' d, kb_ask_action order g = .ok (c, g') → shoot_direction c = some d →
      (smell g g.x g.y = true ∧ g.arrows ≠ 0 ∧
        ∃ n, adjacent ⟨g.x, g.y⟩ n ∧ kb_found g PERCEPT_WUMPUS n.x n.y = true) ∧
      adjacent ⟨g.x, g.y⟩ (delta_coordinates g.x g.y d).1 ∧
      kb_found g PERCEPT_WUMPUS (delta_coordinates g.x g.y d).1.x
        (delta_coordinates g.x g.y d).1.y = true := by
    intro c g' d h hd
    rcases kb_ask_action_cases order g g' c h with
      ⟨hg', -⟩ | ⟨-, hs, ⟨n, hn, hf, hc⟩, -⟩ | ⟨-, -, s, hsp, -⟩ | ⟨-, -, -, -, -, hc, -⟩
    · rw [hg] at hg'
      exact absurd hg' (by simp)
    · obtain ⟨d', hd', hcell⟩ := shoot_direction_neighbour g n ((mem_neighbours _ _).2 hn)
      rw [← hc, hd] at hd'
      have hdd := Option.some.inj hd'
      subst hdd
      rw [hcell]
      exact ⟨hs, hn, hf⟩
    · obtain ⟨-, -, -, hc⟩ := shortest_path_fuel_frame _ _ _ _ hsp
      rw [shoot_direction_none_of_move c (by tauto)] at hd
      exact absurd hd (by simp)
    · rw [shoot_direction_none_of_move c (by tauto)] at hd
      exact absurd hd (by simp)
  refine ⟨⟨?_, ?_⟩, fun c g' d h hd => (key c g' d h hd).2⟩
  · rintro ⟨c, g', d, h, hd⟩
    obtain ⟨⟨h1, h2, h3⟩, -⟩ := key c g' d h hd
    exact ⟨h1, by omega, h3⟩
  · rintro ⟨h1, h2, h3⟩
    have hs : smell g g.x g.y = true ∧ g.arrows ≠ 0 ∧
        ∃ n, adjacent ⟨g.x, g.y⟩ n ∧ kb_found g PERCEPT_WUMPUS n.x n.y = true :=
      ⟨h1, by omega, h3⟩
    have ht := (shoot_test_iff g).2 hs
    obtain ⟨fx, fy, -, -, -, -, -, -⟩ := check_destination_frame g
    have hnear : (wumpus_nearby (check_destination g) ⟨g.x, g.y⟩).1 = true := by
      rw [Bool.and_eq_true] at ht
      exact ht.2
    obtain ⟨hm, -⟩ := (wumpus_nearby_spec (check_destination g) ⟨g.x, g.y⟩).2 hnear
    rw [fx, fy] at hm
    obtain ⟨d, hd, -⟩ := shoot_direction_neighbour g _ hm
    refine ⟨_, check_destination g, d, ?_, hd⟩
    rw [kb_ask_action_eq, if_neg (by rw [hg]; simp), if_pos ht]
    unfold relative_direction
    rw [fx, fy]

/-- Witness for C15: the agent at (2,2) with Smell there, one arrow and a
Wumpus fact at (2,3) shoots south. -/
theorem shoot_iff_wumpus_known_witness :
    glitter hunt_game hunt_game.x hunt_game.y = false ∧ (0 : Int) ≤ hunt_game.arrows ∧
    (∃ c g' d, kb_ask_action id hunt_game = .ok (c, g') ∧ shoot_direction c = some d) :=
  ⟨by decide, by decide,
    (shoot_iff_wumpus_known id hunt_game (by decide) (by decide)).1.2
      ⟨by decide, by decide, ⟨2, 3⟩, Or.inl ⟨rfl, Or.inl rfl⟩, by decide⟩⟩

/-- C16: `kb_ask_action` returns the quit character `q` exactly when there is
no Glitter at the agent's cell, the test for a shot fails, after
`check_destination` has dropped a destination that is a known wall or not Safe
there is no destination in force that the agent has not reached, no cell
holds a Safe fact without a Visited or a Bump fact, and the agent is at the
start (1,1).  Stated for an order of the Safe rows that is a rearrangement,
and an arrow count that is not negative. -/
theorem quit_iff_nothing_left (order : List Row → List Row)
    (hord : ∀ l, (order l).Perm l) (g : WUMPLUS) (harr : 0 ≤ g.arrows) :
    (∃ g', kb_ask_action order g = .ok ('q', g')) ↔
      (glitter g g.x g.y = false ∧
       ¬ (smell g g.x g.y = true ∧ 1 ≤ g.arrows ∧
          ∃ n, adjacent ⟨g.x, g.y⟩ n ∧ kb_found g PERCEPT_WUMPUS n.x n.y = true) ∧
       ¬ (has_destination (check_destination g) = true ∧
          at_destination (check_destination g) = false) ∧
       (¬ ∃ x y, safe g x y = true ∧ visited g x y = false ∧ wall g x y = false) ∧
       (g.x = 1 ∧ g.y = 1)) := by
  obtain ⟨fx, fy, -, -, -, -, -, f8⟩ := check_destination_frame g
  have harr' : (1 ≤ g.arrows) ↔ g.arrows ≠ 0 := by omega
  have hfree : (∃ x y, safe g x y = true ∧ visited g x y = false ∧ wall g x y = false) ↔
      (has_unvisited_safe_squares order (check_destination g)).1 = true := by
    rw [has_unvisited_safe_squares_iff order hord]
    simp only [safe, visited, wall, f8 _ _ _ (show PERCEPT_SAFE ≠ PERCEPT_DESTINATION by decide),
      f8 _ _ _ (show PERCEPT_VISITED ≠ PERCEPT_DESTINATION by decide),
      f8 _ _ _ (show PERCEPT_BUMP ≠ PERCEPT_DESTINATION by decide)]
  rw [harr', hfree]
  constructor
  · rintro ⟨g', h⟩
    rcases kb_ask_action_cases order g g' 'q' h with
      ⟨-, hc, -⟩ | ⟨-, -, ⟨n, hn, -, hc⟩, -⟩ | ⟨-, -, s, hsp, -⟩ | ⟨h1, h2, h3, h4, h5, -, -⟩
    · exact absurd hc (by decide)
    · exfalso
      have hrow : n.x = g.x ∨ n.y = g.y := by
        rcases hn with ⟨h, -⟩ | ⟨h, -⟩
        · exact Or.inl h
        · exact Or.inr h
      obtain ⟨u1, u2, u3, u4, -⟩ := upper_case_values
      rcases relative_direction_row_or_column g n.x n.y hrow with e | e | e | e <;>
        rw [e] at hc
      · rw [u1] at hc; exact absurd hc (by decide)
      · rw [u2] at hc; exact absurd hc (by decide)
      · rw [u3] at hc; exact absurd hc (by decide)
      · rw [u4] at hc; exact absurd hc (by decide)
    · exfalso
      obtain ⟨-, -, -, hc⟩ := shortest_path_fuel_frame _ _ _ _ hsp
      rcases hc with hc | hc | hc | hc <;> exact absurd hc (by decide)
    · refine ⟨h1, h2, h3, ?_, h5⟩
      rw [h4]
      simp
  · rintro ⟨h1, h2, h3, h4, h5⟩
    refine ⟨(has_unvisited_safe_squares order (check_destination g)).2, ?_⟩
    rw [kb_ask_action_eq, if_neg (by rw [h1]; simp),
      if_neg (fun ht => h2 ((shoot_test_iff g).1 ht)),
      if_neg (by
        intro hd
        simp only [Bool.and_eq_true, Bool.not_eq_true'] at hd
        exact h3 hd),
      if_neg h4]
    simp only [Bool.not_eq_true] at h4
    have hg2 := (has_unvisited_safe_squares_game order hord (check_destination g)).2 h4
    rw [if_neg]
    rw [hg2]
    simp only [Bool.not_eq_true', Bool.not_eq_false, at_start_iff, fx, fy]
    exact h5

/-- Witness for C16: at the start, with the one Safe cell Visited and no
destination, the agent quits. -/
theorem quit_iff_nothing_left_witness :
    ∃ g', kb_ask_action id done_game = .ok ('q', g') :=
  (quit_iff_nothing_left id (fun _ => List.Perm.refl _) done_game (by decide)).2
    ⟨by decide, fun h => absurd h.1 (by decide), by decide, by
      rintro ⟨x, y, hs, hv, -⟩
      have hs' := (kb_found_iff done_game _ _ _).1 hs
      have hv' : ¬ (⟨PERCEPT_VISITED, x, y⟩ : Row) ∈ done_game.db.kb := fun hm =>
        absurd ((kb_found_iff done_game _ _ _).2 hm) (by rw [← visited, hv]; simp)
      simp [done_game, game_with, PERCEPT_SAFE, PERCEPT_VISITED, PERCEPT_BREEZE] at hs' hv'
      exact hv' hs'.1 hs'.2, ⟨rfl, rfl⟩⟩

/-- With an empty queue table, the border known as wall, the destination in
the map and the agent on an interior cell, `shortest_path` returns one of the
four move characters and leaves the game as it was. -/
theorem shortest_path_returns (g : WUMPLUS) (hq : g.db.queue = [])
    (hper : perimeter_walls g) (hin : in_map g.dest_x g.dest_y = true)
    (hint : 1 ≤ g.x ∧ g.x ≤ 12 ∧ 1 ≤ g.y ∧ g.y ≤ 12) :
    ∃ c, shortest_path g = .ok (c, g) ∧ (c = 'n' ∨ c = 's' ∨ c = 'e' ∨ c = 'w') := by
  obtain ⟨W, hW, -⟩ := filtered_weights_correct g hq hper hin
  have hg : set_queue g [] = g := by
    rw [← hq]
    rfl
  rw [hg] at hW
  have hsp := shortest_path_of_weights g g _ hW hint
  exact ⟨_, hsp, (shortest_path_fuel_frame _ _ _ _ hsp).2.2.2⟩

theorem perimeter_walls_congr (g h : WUMPLUS) (e : ∀ a b, wall h a b = wall g a b)
    (hper : perimeter_walls g) : perimeter_walls h := by
  intro i h0 h1
  rw [e, e, e, e]
  exact hper i h0 h1

theorem perimeter_walls_set_destination (g : WUMPLUS) (x y : Int)
    (hper : perimeter_walls g) : perimeter_walls (set_destination g x y) :=
  perimeter_walls_congr g _ (fun a b => wall_set_destination g x y a b) hper

theorem is_action_of_move (c : Char) (h : c = 'n' ∨ c = 's' ∨ c = 'e' ∨ c = 'w') :
    is_action c := by
  unfold is_action
  tauto

/-- Whenever `kb_ask_action` returns, the character is one of the ten
actions, and a `q` is the quit of its last line: the agent is at the start
and the game is the one that `check_destination` left. -/
theorem kb_ask_action_char (order : List Row → List Row) (g g' : WUMPLUS) (c : Char)
    (h : kb_ask_action order g = .ok (c, g')) :
    is_action c ∧ (c = 'q' → g' = check_destination g ∧ g.x = 1 ∧ g.y = 1) := by
  rcases kb_ask_action_cases order g g' c h with
    ⟨-, hc, -⟩ | ⟨-, -, ⟨n, hn, -, hc⟩, -⟩ | ⟨-, -, s, hsp, -⟩ | ⟨-, -, -, -, hs, hc, e⟩
  · refine ⟨by unfold is_action; tauto, fun hq => ?_⟩
    rw [hc] at hq
    exact absurd hq (by decide)
  · have hrow : n.x = g.x ∨ n.y = g.y := by
      rcases hn with ⟨h, -⟩ | ⟨h, -⟩
      · exact Or.inl h
      · exact Or.inr h
    obtain ⟨u1, u2, u3, u4, -⟩ := upper_case_values
    unfold is_action
    rcases relative_direction_row_or_column g n.x n.y hrow with e | e | e | e <;>
      rw [e] at hc
    · rw [u1] at hc
      refine ⟨by tauto, fun hq => ?_⟩
      rw [hc] at hq
      exact absurd hq (by decide)
    · rw [u2] at hc
      refine ⟨by tauto, fun hq => ?_⟩
      rw [hc] at hq
      exact absurd hq (by decide)
    · rw [u3] at hc
      refine ⟨by tauto, fun hq => ?_⟩
      rw [hc] at hq
      exact absurd hq (by decide)
    · rw [u4] at hc
      refine ⟨by tauto, fun hq => ?_⟩
      rw [hc] at hq
      exact absurd hq (by decide)
  · have hm := (shortest_path_fuel_frame _ _ _ _ hsp).2.2.2
    refine ⟨is_action_of_move c hm, fun hq => ?_⟩
    rw [hq] at hm
    rcases hm with hm | hm | hm | hm <;> exact absurd hm (by decide)
  · exact ⟨by unfold is_action; tauto, fun _ => ⟨e, hs⟩⟩

/-- Function `kb_ask_action` returns, for an agent on an interior cell, in a
state as the game keeps it: the queue table empty, the border cells known
walls, the Safe facts on cells of the map, and the Safe rows enumerated in an
order that is a rearrangement. -/
theorem kb_ask_action_total (order : List Row → List Row)
    (hord : ∀ l, (order l).Perm l) (g : WUMPLUS)
    (hint : 1 ≤ g.x ∧ g.x ≤ MAP_SIZE - 2 ∧ 1 ≤ g.y ∧ g.y ≤ MAP_SIZE - 2)
    (hq : g.db.queue = []) (hper : perimeter_walls g)
    (hsafe : ∀ x y, safe g x y = true → in_map x y = true) :
    ∃ c g', kb_ask_action order g = .ok (c, g') := by
  obtain ⟨fx, fy, -, -, -, -, fq, f8⟩ := check_destination_frame g
  have hint1 : 1 ≤ (check_destination g).x ∧ (check_destination g).x ≤ 12 ∧
      1 ≤ (check_destination g).y ∧ (check_destination g).y ≤ 12 := by
    rw [fx, fy]
    unfold MAP_SIZE at hint
    omega
  have hper1 : perimeter_walls (check_destination g) :=
    perimeter_walls_congr g _ (fun a b => f8 _ a b (by decide)) hper
  have hq1 : (check_destination g).db.queue = [] := fq.trans hq
  have hsafe1 : ∀ x y, safe (check_destination g) x y = true → in_map x y = true := by
    intro x y hs
    rw [safe, f8 _ _ _ (by decide)] at hs
    exact hsafe x y hs
  rw [kb_ask_action_eq]
  by_cases hg : glitter g g.x g.y = true
  · rw [if_pos hg]
    exact ⟨_, _, rfl⟩
  rw [if_neg hg]
  split
  · exact ⟨_, _, rfl⟩
  by_cases hd : (has_destination (check_destination g) &&
      !at_destination (check_destination g)) = true
  · rw [if_pos hd]
    simp only [Bool.and_eq_true, Bool.not_eq_true'] at hd
    obtain ⟨e, hs, -⟩ := check_destination_active g hd.1
    have hin : in_map (check_destination g).dest_x (check_destination g).dest_y = true := by
      rw [e]
      exact hsafe _ _ hs
    obtain ⟨c, hc, -⟩ := shortest_path_returns _ hq1 hper1 hin hint1
    exact ⟨_, _, hc⟩
  rw [if_neg hd]
  by_cases hu : (has_unvisited_safe_squares order (check_destination g)).1 = true
  · rw [if_pos hu]
    obtain ⟨x, y, hs, -, -, e⟩ :=
      (has_unvisited_safe_squares_game order hord (check_destination g)).1 hu
    rw [e]
    obtain ⟨s1, s2, -, -, -, -, s7, s8, s9⟩ := set_destination_frame (check_destination g) x y
    obtain ⟨c, hc, -⟩ := shortest_path_returns (set_destination (check_destination g) x y)
      (s7.trans hq1) (perimeter_walls_set_destination _ _ _ hper1)
      (by rw [s8, s9]; exact hsafe1 x y hs) (by rw [s1, s2]; exact hint1)
    exact ⟨_, _, hc⟩
  rw [if_neg hu]
  simp only [Bool.not_eq_true] at hu
  rw [(has_unvisited_safe_squares_game order hord (check_destination g)).2 hu]
  split
  · obtain ⟨s1, s2, -, -, -, -, s7, s8, s9⟩ := set_destination_frame (check_destination g) 1 1
    obtain ⟨c, hc, -⟩ := shortest_path_returns (set_destination (check_destination g) 1 1)
      (s7.trans hq1) (perimeter_walls_set_destination _ _ _ hper1)
      (by rw [s8, s9]; decide) (by rw [s1, s2]; exact hint1)
    exact ⟨_, _, hc⟩
  · exact ⟨_, _, rfl⟩

theorem safe_in_map_of_all (g : WUMPLUS)
    (h : g.db.kb.all (fun r => r.sentence != PERCEPT_SAFE || in_map r.x r.y) = true) :
    ∀ x y, safe g x y = true → in_map x y = true := by
  intro x y hs
  rw [safe, kb_found_iff] at hs
  rw [List.all_eq_true] at h
  have := h _ hs
  simpa using this

/-! ## What the game steps leave of the agent's data -/

theorem has_destination_iff_markers (g : WUMPLUS) :
    has_destination g = true ↔ 0 < destination_markers g := by
  rw [has_destination_eq, kb_found_iff]
  unfold destination_markers
  exact List.count_pos_iff.symm

theorem keeps_refl (g : WUMPLUS) : keeps_agent_data g g :=
  ⟨rfl, rfl, rfl, rfl, fun _ _ h => h, fun h => h⟩

theorem keeps_trans (g h k : WUMPLUS) (a : keeps_agent_data g h) (b : keeps_agent_data h k) :
    keeps_agent_data g k :=
  ⟨b.1.trans a.1, b.2.1.trans a.2.1, b.2.2.1.trans a.2.2.1, b.2.2.2.1.trans a.2.2.2.1,
    fun x y hw => b.2.2.2.2.1 x y (a.2.2.2.2.1 x y hw), fun h0 => b.2.2.2.2.2 (a.2.2.2.2.2 h0)⟩

theorem keeps_insert (g : WUMPLUS) (s x y : Int) (hs : s ≠ PERCEPT_DESTINATION) :
    keeps_agent_data g (kb_insert g s x y) := by
  refine ⟨?_, ?_, ?_, markers_insert_other g s x y hs,
    fun a b hw => kb_found_insert_of_found g s x y _ a b hw, ?_⟩
  all_goals (unfold kb_insert; split)
  all_goals first | rfl | exact fun h => h

theorem markers_delete_other (g : WUMPLUS) (s x y : Int) (hs : s ≠ PERCEPT_DESTINATION) :
    destination_markers (kb_delete g s x y) = destination_markers g := by
  unfold destination_markers
  rw [kb_delete_kb]
  apply List.count_filter
  simp only [ne_eq, Row.mk.injEq, not_and, decide_eq_true_eq]
  intro h
  exact absurd h.symm hs

theorem keeps_delete (g : WUMPLUS) (s x y : Int) (hs : s ≠ PERCEPT_DESTINATION)
    (hb : s ≠ PERCEPT_BUMP) : keeps_agent_data g (kb_delete g s x y) := by
  refine ⟨?_, ?_, ?_, markers_delete_other g s x y hs, ?_, ?_⟩
  · unfold kb_delete; split <;> rfl
  · unfold kb_delete; split <;> rfl
  · unfold kb_delete; split <;> rfl
  · intro a b hw
    unfold wall at hw ⊢
    rw [kb_found_delete_ne g s x y PERCEPT_BUMP a b (Ne.symm hb)]
    exact hw
  · unfold kb_delete; split <;> exact fun h => h

theorem keeps_kb_tell (g : WUMPLUS) : keeps_agent_data g (kb_tell g) := by
  refine kb_tell_keeps (fun h => keeps_agent_data g h) ?_ g (keeps_refl g)
  intro h s x y hs hk
  refine keeps_trans g h _ hk (keeps_insert h s x y ?_)
  rcases hs with rfl | rfl | rfl | rfl | rfl | rfl | rfl | rfl | rfl <;> decide

theorem keeps_of_eq (g h : WUMPLUS) (hdb : h.db = g.db) (hx : h.dest_x = g.dest_x)
    (hy : h.dest_y = g.dest_y) (ha : 0 ≤ g.arrows → 0 ≤ h.arrows) : keeps_agent_data g h := by
  refine ⟨by rw [hdb], hx, hy, by unfold destination_markers; rw [hdb], ?_, ha⟩
  intro a b hw
  unfold wall at hw ⊢
  rw [kb_found_congr g h (by rw [hdb])]
  exact hw

theorem process_percepts_rest (g g' : WUMPLUS) (h : process_percepts g = .ok g') :
    ∃ g0 : WUMPLUS, g' = (if g0.use_agent then kb_tell g0 else g0) ∧
      g0.arrows = g.arrows ∧ g0.dest_x = g.dest_x ∧ g0.dest_y = g.dest_y ∧ g0.db = g.db := by
  unfold process_percepts at h
  obtain ⟨north, -, h⟩ := bind_ok _ _ _ h
  obtain ⟨south, -, h⟩ := bind_ok _ _ _ h
  obtain ⟨east, -, h⟩ := bind_ok _ _ _ h
  obtain ⟨west, -, h⟩ := bind_ok _ _ _ h
  obtain ⟨here, -, h⟩ := bind_ok _ _ _ h
  have h' := Except.ok.inj h
  refine ⟨_, h'.symm, ?_⟩
  dsimp only
  refine ⟨?_, ?_, ?_, ?_⟩ <;> split <;> rfl

theorem keeps_process_percepts (g g' : WUMPLUS) (h : process_percepts g = .ok g') :
    keeps_agent_data g g' := by
  obtain ⟨g0, rfl, h1, h2, h3, h4⟩ := process_percepts_rest g g' h
  have k0 : keeps_agent_data g g0 := keeps_of_eq g g0 h4 h2 h3 (by rw [h1]; exact fun h => h)
  split
  · exact keeps_trans _ _ _ k0 (keeps_kb_tell _)
  · exact k0

theorem keeps_clear_bump (g : WUMPLUS) : keeps_agent_data g (clear_bump g) := by
  unfold clear_bump
  split
  · exact keeps_refl g
  · exact keeps_refl g

theorem keeps_action_move (g g' : WUMPLUS) (d : Int) (h : action_move g d = .ok g') :
    keeps_agent_data g g' := by
  unfold action_move at h
  dsimp only [add_score] at h
  obtain ⟨cell, -, h⟩ := bind_ok _ _ _ h
  split at h
  · have h' := Except.ok.inj h
    clear h
    rw [← h']
    split
    · exact keeps_trans g _ _ (keeps_refl g) (keeps_insert _ _ _ _ (by decide))
    · exact keeps_refl g
  · have h' := Except.ok.inj h
    clear h
    rw [← h']
    split
    · exact keeps_refl g
    · exact keeps_refl g

theorem keeps_delete_after (g h : WUMPLUS) (s x y : Int) (hs : s ≠ PERCEPT_DESTINATION)
    (hb : s ≠ PERCEPT_BUMP) (k : keeps_agent_data g h) :
    keeps_agent_data g (kb_delete h s x y) :=
  keeps_trans g h _ k (keeps_delete h s x y hs hb)

theorem keeps_action_shoot (g g' : WUMPLUS) (d : Int) (h : action_shoot g d = .ok g') :
    keeps_agent_data g g' := by
  unfold action_shoot at h
  by_cases ha : g.arrows = 0
  · rw [if_pos ha] at h
    have h' := Except.ok.inj h
    rw [← h']
    exact keeps_refl g
  · rw [if_neg ha] at h
    dsimp only [add_score, map_set] at h
    obtain ⟨cell, -, h⟩ := bind_ok _ _ _ h
    have k0 : ∀ h : WUMPLUS, h.db = g.db → h.dest_x = g.dest_x → h.dest_y = g.dest_y →
        h.arrows = g.arrows - 1 → keeps_agent_data g h :=
      fun h e1 e2 e3 e4 => keeps_of_eq g h e1 e2 e3 (fun h0 => by rw [e4]; omega)
    split at h
    · split at h
      · have h' := Except.ok.inj h
        clear h
        rw [← h']
        refine keeps_delete_after _ _ _ _ _ (by decide) (by decide) ?_
        refine keeps_delete_after _ _ _ _ _ (by decide) (by decide) ?_
        refine keeps_delete_after _ _ _ _ _ (by decide) (by decide) ?_
        refine keeps_delete_after _ _ _ _ _ (by decide) (by decide) ?_
        refine keeps_delete_after _ _ _ _ _ (by decide) (by decide) ?_
        refine keeps_delete_after _ _ _ _ _ (by decide) (by decide) ?_
        apply k0 <;> rfl
      · have h' := Except.ok.inj h
        clear h
        rw [← h']
        apply k0 <;> rfl
    · have h' := Except.ok.inj h
      clear h
      rw [← h']
      apply k0 <;> rfl

theorem keeps_action_grab (g g' : WUMPLUS) (h : action_grab g = .ok g') :
    keeps_agent_data g g' := by
  unfold action_grab at h
  obtain ⟨cell, -, h⟩ := bind_ok _ _ _ h
  split at h
  · dsimp only [add_score, map_set] at h
    have h' := Except.ok.inj h
    clear h
    rw [← h']
    split
    · exact keeps_trans g _ _ (keeps_refl g) (keeps_delete _ _ _ _ (by decide) (by decide))
    · exact keeps_refl g
  · have h' := Except.ok.inj h
    rw [← h']
    exact keeps_refl g

/-- The agent's own invariant goes over to a game that keeps the agent's
data. -/
theorem agent_inv_of_keeps (g g' : WUMPLUS) (k : keeps_agent_data g g') (hi : agent_inv g) :
    agent_inv g' := by
  obtain ⟨kq, kx, ky, km, kw, ka⟩ := k
  obtain ⟨iq, iper, icons, imk, iin, iarr⟩ := hi
  have hd : has_destination g' = has_destination g := by
    rw [Bool.eq_iff_iff, has_destination_iff_markers, has_destination_iff_markers, km]
  refine ⟨kq.trans iq, ?_, ?_, by rw [km]; exact imk, ?_, ka iarr⟩
  · intro i h0 h1
    obtain ⟨w1, w2, w3, w4⟩ := iper i h0 h1
    exact ⟨kw _ _ w1, kw _ _ w2, kw _ _ w3, kw _ _ w4⟩
  · unfold destination_consistent at icons ⊢
    rw [hd, kx, ky]
    exact icons
  · rw [hd, kx, ky]
    exact iin

/-! ## The start of a game in either mode -/

theorem place_start (c : Char) (m m' : Int → Int → Char) (d : coordinate)
    (h : place c m d = some m') : m' 1 1 = m 1 1 := by
  obtain ⟨hd, rfl⟩ := place_spec c m m' d h
  have : ¬ ((1 : Int) = d.x ∧ (1 : Int) = d.y) := by omega
  simp only [this, if_false]

theorem foldlM_place_start (c : Char) (l : List coordinate) :
    ∀ (m m' : Int → Int → Char), l.foldlM (place c) m = some m' → m' 1 1 = m 1 1 := by
  induction l with
  | nil =>
    intro m m' h
    simp only [List.foldlM_nil, pure, Option.some.injEq] at h
    rw [h]
  | cons d l ih =>
    intro m m' h
    rw [List.foldlM_cons] at h
    cases hp : place c m d with
    | none => rw [hp] at h; exact absurd h (by simp)
    | some m1 =>
      rw [hp] at h
      rw [ih m1 m' h, place_start c m m1 d hp]

/-- What `init_game` leaves in either mode: the player at (1,1) with one arrow
and no destination, on a map whose border is wall and whose cell (1,1) is
empty; in agent mode the fact table is then filled with the outside walls. -/
theorem init_game_shape (agent : Bool) (r : Draws) (g : WUMPLUS)
    (h : init_game agent r = some g) :
    ∃ g0 : WUMPLUS, g = (if agent = true then tell_outside_walls (kb_init g0) else g0) ∧
      g0.x = 1 ∧ g0.y = 1 ∧ g0.arrows = 1 ∧ g0.dest_x = -1 ∧ g0.dest_y = -1 ∧
      g0.use_agent = agent ∧ g0.db.kb = [] ∧ g0.db.queue = [] ∧
      (∀ i j : Int, (i = 0 ∨ i = MAP_SIZE - 1 ∨ j = 0 ∨ j = MAP_SIZE - 1) →
        g0.map i j = MAP_WALL) ∧
      g0.map 1 1 = MAP_EMPTY := by
  unfold init_game at h
  by_cases hlen : ¬ (1 ≤ r.pits.length ∧ r.pits.length ≤ 29 ∧
        1 ≤ r.walls.length ∧ r.walls.length ≤ 19)
  · rw [if_pos hlen] at h
    exact absurd h (by simp)
  rw [if_neg hlen] at h
  dsimp only at h
  cases h1 : List.foldlM (place MAP_PIT) (fun i j : Int =>
      if i = 0 ∨ i = MAP_SIZE - 1 ∨ j = 0 ∨ j = MAP_SIZE - 1 then MAP_WALL else MAP_EMPTY)
      r.pits with
  | none => rw [h1] at h; exact absurd h (by simp)
  | some m1 =>
  rw [h1] at h
  dsimp only at h
  cases h2 : List.foldlM (place MAP_WALL) m1 r.walls with
  | none => rw [h2] at h; exact absurd h (by simp)
  | some m2 =>
  rw [h2] at h
  dsimp only at h
  cases h3 : place MAP_WUMPUS m2 r.wumpus with
  | none => rw [h3] at h; exact absurd h (by simp)
  | some m3 =>
  rw [h3] at h
  dsimp only at h
  cases h4 : place MAP_GOLD m3 r.gold with
  | none => rw [h4] at h; exact absurd h (by simp)
  | some m4 =>
  rw [h4] at h
  dsimp only at h
  cases h5 : place MAP_SUPMUW m4 r.supmuw with
  | none => rw [h5] at h; exact absurd h (by simp)
  | some m5 =>
  rw [h5] at h
  dsimp only at h
  have hborder : ∀ i j : Int, (i = 0 ∨ i = MAP_SIZE - 1 ∨ j = 0 ∨ j = MAP_SIZE - 1) →
      m5 i j = MAP_WALL := by
    intro i j hb
    rw [place_border _ _ _ _ h5 i j hb, place_border _ _ _ _ h4 i j hb,
      place_border _ _ _ _ h3 i j hb, foldlM_place_border _ _ _ _ h2 i j hb,
      foldlM_place_border _ _ _ _ h1 i j hb]
    simp only [hb, if_true]
  have hstart : m5 1 1 = MAP_EMPTY := by
    rw [place_start _ _ _ _ h5, place_start _ _ _ _ h4, place_start _ _ _ _ h3,
      foldlM_place_start _ _ _ _ h2, foldlM_place_start _ _ _ _ h1]
    decide
  exact ⟨_, (Option.some.inj h).symm, rfl, rfl, rfl, rfl, rfl, rfl, rfl, rfl, hborder, hstart⟩

theorem kb_insert_use_and_position (g : WUMPLUS) (s x y : Int) :
    (kb_insert g s x y).x = g.x ∧ (kb_insert g s x y).y = g.y ∧
    (kb_insert g s x y).map = g.map ∧ (kb_insert g s x y).use_agent = g.use_agent :=
  ⟨kb_insert_x _ _ _ _, kb_insert_y _ _ _ _, kb_insert_map _ _ _ _, kb_insert_use_agent _ _ _ _⟩

theorem tell_outside_walls_frame (g : WUMPLUS) :
    (tell_outside_walls g).x = g.x ∧ (tell_outside_walls g).y = g.y ∧
    (tell_outside_walls g).map = g.map ∧ (tell_outside_walls g).use_agent = g.use_agent ∧
    keeps_agent_data g (tell_outside_walls g) := by
  refine tell_outside_walls_keeps (fun h => h.x = g.x ∧ h.y = g.y ∧ h.map = g.map ∧
    h.use_agent = g.use_agent ∧ keeps_agent_data g h) ?_ g ⟨rfl, rfl, rfl, rfl, keeps_refl g⟩
  intro h x y _ _ ⟨h1, h2, h3, h4, h5⟩
  obtain ⟨i1, i2, i3, i4⟩ := kb_insert_use_and_position h PERCEPT_BUMP x y
  exact ⟨i1.trans h1, i2.trans h2, i3.trans h3, i4.trans h4,
    keeps_trans g h _ h5 (keeps_insert h _ x y (by decide))⟩

/-- The loop that tells the outside walls leaves a Bump fact on every border
cell of the map. -/
theorem tell_outside_walls_perimeter (g : WUMPLUS) : perimeter_walls (tell_outside_walls g) := by
  have mono : ∀ (l : List Nat) (g : WUMPLUS) (a b : Int), wall g a b = true →
      wall (l.foldl (fun (g : WUMPLUS) (n : Nat) =>
        let i : Int := n
        let g := kb_insert g PERCEPT_BUMP i 0
        let g := kb_insert g PERCEPT_BUMP i (MAP_SIZE - 1)
        let g := kb_insert g PERCEPT_BUMP 0 i
        kb_insert g PERCEPT_BUMP (MAP_SIZE - 1) i) g) a b = true := by
    intro l
    induction l with
    | nil => intro g a b h; exact h
    | cons n l ih =>
      intro g a b h
      rw [List.foldl_cons]
      apply ih
      exact kb_found_insert_of_found _ _ _ _ _ _ _ (kb_found_insert_of_found _ _ _ _ _ _ _
        (kb_found_insert_of_found _ _ _ _ _ _ _ (kb_found_insert_of_found _ _ _ _ _ _ _ h)))
  have key : ∀ (l : List Nat) (g : WUMPLUS) (n : Nat), n ∈ l →
      wall (l.foldl (fun (g : WUMPLUS) (n : Nat) =>
        let i : Int := n
        let g := kb_insert g PERCEPT_BUMP i 0
        let g := kb_insert g PERCEPT_BUMP i (MAP_SIZE - 1)
        let g := kb_insert g PERCEPT_BUMP 0 i
        kb_insert g PERCEPT_BUMP (MAP_SIZE - 1) i) g) n 0 = true ∧
      wall (l.foldl (fun (g : WUMPLUS) (n : Nat) =>
        let i : Int := n
        let g := kb_insert g PERCEPT_BUMP i 0
        let g := kb_insert g PERCEPT_BUMP i (MAP_SIZE - 1)
        let g := kb_insert g PERCEPT_BUMP 0 i
        kb_insert g PERCEPT_BUMP (MAP_SIZE - 1) i) g) n (MAP_SIZE - 1) = true ∧
      wall (l.foldl (fun (g : WUMPLUS) (n : Nat) =>
        let i : Int := n
        let g := kb_insert g PERCEPT_BUMP i 0
        let g := kb_insert g PERCEPT_BUMP i (MAP_SIZE - 1)
        let g := kb_insert g PERCEPT_BUMP 0 i
        kb_insert g PERCEPT_BUMP (MAP_SIZE - 1) i) g) 0 n = true ∧
      wall (l.foldl (fun (g : WUMPLUS) (n : Nat) =>
        let i : Int := n
        let g := kb_insert g PERCEPT_BUMP i 0
        let g := kb_insert g PERCEPT_BUMP i (MAP_SIZE - 1)
        let g := kb_insert g PERCEPT_BUMP 0 i
        kb_insert g PERCEPT_BUMP (MAP_SIZE - 1) i) g) (MAP_SIZE - 1) n = true := by
    intro l
    induction l with
    | nil => intro g n hn; exact absurd hn (List.not_mem_nil _)
    | cons m l ih =>
      intro g n hn
      rw [List.foldl_cons]
      rcases List.mem_cons.1 hn with rfl | hn
      · refine ⟨mono _ _ _ _ ?_, mono _ _ _ _ ?_, mono _ _ _ _ ?_, mono _ _ _ _ ?_⟩
        · exact kb_found_insert_of_found _ _ _ _ _ _ _ (kb_found_insert_of_found _ _ _ _ _ _ _
            (kb_found_insert_of_found _ _ _ _ _ _ _ (kb_found_insert_self _ _ _ _)))
        · exact kb_found_insert_of_found _ _ _ _ _ _ _ (kb_found_insert_of_found _ _ _ _ _ _ _
            (kb_found_insert_self _ _ _ _))
        · exact kb_found_insert_of_found _ _ _ _ _ _ _ (kb_found_insert_self _ _ _ _)
        · exact kb_found_insert_self _ _ _ _
      · exact ih _ n hn
  intro i h0 h1
  unfold MAP_SIZE at h1
  have hi : ((i.toNat : Nat) : Int) = i := Int.toNat_of_nonneg h0
  have hm : i.toNat ∈ List.range 14 := by
    rw [List.mem_range]
    omega
  have := key (List.range 14) g i.toNat hm
  rw [hi] at this
  exact this

/-! ## The walls keep the player in -/

theorem walk_inv_of_same (g g' : WUMPLUS) (hx : g'.x = g.x) (hy : g'.y = g.y)
    (hm : g'.map = g.map) (h : walk_inv g) : walk_inv g' := by
  unfold walk_inv at h ⊢
  rw [hx, hy, hm]
  exact h

theorem walk_inv_process_percepts (g g' : WUMPLUS) (hw : walk_inv g)
    (h : process_percepts g = .ok g') : walk_inv g' ∧ g'.use_agent = g.use_agent := by
  obtain ⟨g0, rfl, -, ⟨e1, e2, e3, -, e5, -⟩, -⟩ := process_percepts_spec g g' h
  obtain ⟨f1, f2, f3, -, f5, -⟩ := kb_tell_frame g0
  split
  · exact ⟨walk_inv_of_same g _ (f1.trans e1) (f2.trans e2) (f3.trans e3) hw, f5.trans e5⟩
  · exact ⟨walk_inv_of_same g _ e1 e2 e3 hw, e5⟩

theorem walk_inv_action_move (g g' : WUMPLUS) (d : Int) (hw : walk_inv g)
    (h : action_move g d = .ok g') : walk_inv g' := by
  obtain ⟨hpos, hnw, hborder⟩ := hw
  obtain ⟨hin, -, e2, -, hcase⟩ := action_move_spec g g' d h
  rcases hcase with ⟨-, ex, ey, -⟩ | ⟨hw, ex, ey, -⟩
  · exact walk_inv_of_same g g' ex ey e2 ⟨hpos, hnw, hborder⟩
  · unfold walk_inv
    rw [ex, ey, e2]
    refine ⟨?_, hw, hborder⟩
    have hnb : ¬ ((delta_coordinates g.x g.y d).1.x = 0 ∨
        (delta_coordinates g.x g.y d).1.x = MAP_SIZE - 1 ∨
        (delta_coordinates g.x g.y d).1.y = 0 ∨
        (delta_coordinates g.x g.y d).1.y = MAP_SIZE - 1) := fun hb =>
      hw (hborder _ _ hin hb)
    rw [in_map_iff] at hin
    unfold MAP_SIZE at hnb ⊢
    omega

theorem walk_inv_of_cleared (g g' : WUMPLUS) (cx cy : Int) (hx : g'.x = g.x) (hy : g'.y = g.y)
    (hc : g.map cx cy ≠ MAP_WALL)
    (hm : g'.map = (fun i j => if i = cx ∧ j = cy then MAP_EMPTY else g.map i j))
    (hw : walk_inv g) : walk_inv g' := by
  obtain ⟨hpos, hnw, hborder⟩ := hw
  unfold walk_inv
  rw [hx, hy, hm]
  refine ⟨hpos, ?_, ?_⟩
  · show (if g.x = cx ∧ g.y = cy then MAP_EMPTY else g.map g.x g.y) ≠ MAP_WALL
    split
    · decide
    · exact hnw
  · intro i j hin hb
    show (if i = cx ∧ j = cy then MAP_EMPTY else g.map i j) = MAP_WALL
    by_cases hcc : i = cx ∧ j = cy
    · obtain ⟨rfl, rfl⟩ := hcc
      exact absurd (hborder _ _ hin hb) hc
    · rw [if_neg hcc]
      exact hborder i j hin hb

theorem walk_inv_action_shoot (g g' : WUMPLUS) (d : Int) (hw : walk_inv g)
    (h : action_shoot g d = .ok g') : walk_inv g' := by
  obtain ⟨-, ex, ey, -, hcase⟩ := action_shoot_spec g g' d h
  rcases hcase with ⟨em, -⟩ | ⟨cx, cy, -, hcell, em, -⟩
  · exact walk_inv_of_same g g' ex ey em hw
  · refine walk_inv_of_cleared g g' cx cy ex ey ?_ em hw
    rcases hcell with hc | hc <;> rw [hc] <;> decide

theorem walk_inv_action_grab (g g' : WUMPLUS) (hw : walk_inv g)
    (h : action_grab g = .ok g') : walk_inv g' := by
  obtain ⟨-, ex, ey, -, -, hcase⟩ := action_grab_spec g g' h
  rcases hcase with em | ⟨hgold, em⟩
  · exact walk_inv_of_same g g' ex ey em hw
  · refine walk_inv_of_cleared g g' g.x g.y ex ey ?_ em hw
    rw [hgold]
    decide

/-- The four kinds of step that `process_player_command` can take when the
program goes on: none, a move, a shot, the grab. -/
theorem process_player_command_cases (g g' : WUMPLUS) (c : Char)
    (h : process_player_command g c = .ok (some g')) :
    g' = g ∨
    (∃ d, (d = DIRECTION_NORTH ∨ d = DIRECTION_EAST ∨ d = DIRECTION_SOUTH ∨
      d = DIRECTION_WEST) ∧ action_move g d = .ok g') ∨
    (∃ d, (d = DIRECTION_NORTH ∨ d = DIRECTION_EAST ∨ d = DIRECTION_SOUTH ∨
      d = DIRECTION_WEST) ∧ action_shoot g d = .ok g') ∨
    action_grab g = .ok g' := by
  have step : ∀ (x : Except Err WUMPLUS),
      (x >>= fun k => pure (some k)) = Except.ok (some g') → x = .ok g' := by
    intro x hx
    obtain ⟨k, hk, hx⟩ := bind_ok _ _ _ hx
    have e := Option.some.inj (Except.ok.inj hx)
    rw [hk, e]
  unfold process_player_command at h
  by_cases c1 : c = '?'
  · rw [if_pos c1] at h
    exact Or.inl (Option.some.inj (Except.ok.inj h)).symm
  rw [if_neg c1] at h
  by_cases c2 : c = 'q'
  · rw [if_pos c2] at h
    exact Option.noConfusion (Except.ok.inj h)
  rw [if_neg c2] at h
  by_cases c3 : c = 'n' ∨ c = 'k'
  · rw [if_pos c3] at h
    exact Or.inr (Or.inl ⟨_, Or.inl rfl, step _ h⟩)
  rw [if_neg c3] at h
  by_cases c4 : c = 's' ∨ c = 'j'
  · rw [if_pos c4] at h
    exact Or.inr (Or.inl ⟨_, Or.inr (Or.inr (Or.inl rfl)), step _ h⟩)
  rw [if_neg c4] at h
  by_cases c5 : c = 'e' ∨ c = 'l'
  · rw [if_pos c5] at h
    exact Or.inr (Or.inl ⟨_, Or.inr (Or.inl rfl), step _ h⟩)
  rw [if_neg c5] at h
  by_cases c6 : c = 'w' ∨ c = 'h'
  · rw [if_pos c6] at h
    exact Or.inr (Or.inl ⟨_, Or.inr (Or.inr (Or.inr rfl)), step _ h⟩)
  rw [if_neg c6] at h
  by_cases c7 : c = 'N'
  · rw [if_pos c7] at h
    exact Or.inr (Or.inr (Or.inl ⟨_, Or.inl rfl, step _ h⟩))
  rw [if_neg c7] at h
  by_cases c8 : c = 'S'
  · rw [if_pos c8] at h
    exact Or.inr (Or.inr (Or.inl ⟨_, Or.inr (Or.inr (Or.inl rfl)), step _ h⟩))
  rw [if_neg c8] at h
  by_cases c9 : c = 'E'
  · rw [if_pos c9] at h
    exact Or.inr (Or.inr (Or.inl ⟨_, Or.inr (Or.inl rfl), step _ h⟩))
  rw [if_neg c9] at h
  by_cases c10 : c = 'W'
  · rw [if_pos c10] at h
    exact Or.inr (Or.inr (Or.inl ⟨_, Or.inr (Or.inr (Or.inr rfl)), step _ h⟩))
  rw [if_neg c10] at h
  by_cases c11 : c = 'g'
  · rw [if_pos c11] at h
    exact Or.inr (Or.inr (Or.inr (step _ h)))
  rw [if_neg c11] at h
  exact Or.inl (Option.some.inj (Except.ok.inj h)).symm

/-! ## The invariant of a game in either mode -/

/-- The invariant of the game in agent mode goes over to a game with the same
position, map, flags, Safe facts and Bump facts. -/
theorem game_inv_transfer (g g' : WUMPLUS) (hu : g'.use_agent = g.use_agent)
    (hx : g'.x = g.x) (hy : g'.y = g.y) (hm : g'.map = g.map)
    (hf : g'.supmuw_neighbors_wumpus = g.supmuw_neighbors_wumpus)
    (hs : ∀ a b, safe g' a b = safe g a b) (hw : ∀ a b, wall g' a b = wall g a b)
    (hi : game_inv g) : game_inv g' := by
  obtain ⟨i1, i2, i3, i4, i5⟩ := hi
  refine ⟨hu.trans i1, by rw [hx, hy]; exact i2, by rw [hm]; exact i3, ?_, ?_⟩
  · intro x y h
    rw [hs] at h
    unfold lethal
    rw [hm, hf]
    exact i4 x y h
  · intro x y h
    rw [hw] at h
    unfold holds
    rw [hm]
    exact i5 x y h

theorem agent_inv_set_destination (g : WUMPLUS) (a b : Int) (hin : in_map a b = true)
    (hi : agent_inv g) : agent_inv (set_destination g a b) := by
  obtain ⟨iq, iper, -, imk, -, iarr⟩ := hi
  obtain ⟨-, -, -, -, -, s6, s7, s8, s9⟩ := set_destination_frame g a b
  refine ⟨s7.trans iq, perimeter_walls_set_destination g a b iper, ?_, ?_, ?_, ?_⟩
  · unfold destination_consistent
    rw [has_destination_set, s8, s9]
    rw [in_map_iff] at hin
    simp only [true_iff, not_and]
    omega
  · rw [markers_set_destination]
    omega
  · intro _
    rw [s8, s9]
    exact hin
  · rw [s6]
    exact iarr

theorem agent_inv_remove_destination (g : WUMPLUS) (hi : agent_inv g) :
    agent_inv (remove_destination g) := by
  obtain ⟨iq, iper, -, -, -, iarr⟩ := hi
  obtain ⟨-, -, -, -, -, s6, s7, s8, s9⟩ := remove_destination_frame g
  refine ⟨s7.trans iq, ?_, ?_, ?_, ?_, ?_⟩
  · exact perimeter_walls_congr g _
      (fun a b => remove_destination_found_ne g PERCEPT_BUMP a b (by decide)) iper
  · unfold destination_consistent
    rw [has_destination_remove, s8, s9]
    simp
  · rw [markers_remove_destination]
    omega
  · intro h
    rw [has_destination_remove] at h
    exact absurd h (by simp)
  · rw [s6]
    exact iarr

theorem agent_inv_check_destination (g : WUMPLUS) (hi : agent_inv g) :
    agent_inv (check_destination g) := by
  unfold check_destination
  split
  · exact agent_inv_remove_destination g hi
  · exact hi

theorem agent_inv_set_queue (g : WUMPLUS) (hi : agent_inv g) : agent_inv (set_queue g []) := by
  obtain ⟨-, iper, icons, imk, iin, iarr⟩ := hi
  exact ⟨rfl, iper, icons, imk, iin, iarr⟩

/-- What a game step needs to keep all three invariants: the walls keep the
player in, the facts are true of the map, and the agent's data are in order. -/
theorem inv_set_destination (g : WUMPLUS) (a b : Int) (hin : in_map a b = true)
    (hi : walk_inv g ∧ game_inv g ∧ agent_inv g) :
    walk_inv (set_destination g a b) ∧ game_inv (set_destination g a b) ∧
      agent_inv (set_destination g a b) := by
  obtain ⟨s1, s2, s3, s4, s5, -⟩ := set_destination_frame g a b
  exact ⟨walk_inv_of_same g _ s1 s2 s3 hi.1,
    game_inv_transfer g _ s5 s1 s2 s3 s4 (fun x y => safe_set_destination g a b x y)
      (fun x y => wall_set_destination g a b x y) hi.2.1,
    agent_inv_set_destination g a b hin hi.2.2⟩

theorem inv_remove_destination (g : WUMPLUS) (hi : walk_inv g ∧ game_inv g ∧ agent_inv g) :
    walk_inv (remove_destination g) ∧ game_inv (remove_destination g) ∧
      agent_inv (remove_destination g) := by
  obtain ⟨s1, s2, s3, s4, s5, -⟩ := remove_destination_frame g
  exact ⟨walk_inv_of_same g _ s1 s2 s3 hi.1,
    game_inv_transfer g _ s5 s1 s2 s3 s4
      (fun x y => remove_destination_found_ne g PERCEPT_SAFE x y (by decide))
      (fun x y => remove_destination_found_ne g PERCEPT_BUMP x y (by decide)) hi.2.1,
    agent_inv_remove_destination g hi.2.2⟩

theorem inv_check_destination (g : WUMPLUS) (hi : walk_inv g ∧ game_inv g ∧ agent_inv g) :
    walk_inv (check_destination g) ∧ game_inv (check_destination g) ∧
      agent_inv (check_destination g) := by
  unfold check_destination
  split
  · exact inv_remove_destination g hi
  · exact hi

theorem inv_set_queue (g : WUMPLUS) (hi : walk_inv g ∧ game_inv g ∧ agent_inv g) :
    walk_inv (set_queue g []) ∧ game_inv (set_queue g []) ∧ agent_inv (set_queue g []) :=
  ⟨hi.1, hi.2.1, agent_inv_set_queue g hi.2.2⟩

/-- The three invariants are kept by `kb_ask_action`. -/
theorem inv_kb_ask_action (order : List Row → List Row) (hord : ∀ l, (order l).Perm l)
    (g g' : WUMPLUS) (c : Char) (hi : walk_inv g ∧ game_inv g ∧ agent_inv g)
    (h : kb_ask_action order g = .ok (c, g')) :
    walk_inv g' ∧ game_inv g' ∧ agent_inv g' := by
  have i1 : in_map 1 1 = true := by decide
  rcases kb_ask_action_cases order g g' c h with
    ⟨-, -, e⟩ | ⟨-, -, -, e⟩ | ⟨-, -, s, hsp, hs⟩ | ⟨-, -, -, -, -, -, e⟩
  · rw [e]
    exact inv_set_destination _ 1 1 i1 (inv_remove_destination g hi)
  · rw [e]
    exact inv_check_destination g hi
  · obtain ⟨e, -⟩ := shortest_path_fuel_frame _ _ _ _ hsp
    rw [e]
    apply inv_set_queue
    rcases hs with ⟨rfl, -, -⟩ | ⟨-, hu, rfl⟩ | ⟨-, -, -, rfl⟩
    · exact inv_check_destination g hi
    · obtain ⟨x, y, hsafe, -, -, e2⟩ :=
        (has_unvisited_safe_squares_game order hord (check_destination g)).1 hu
      rw [e2]
      have hc := inv_check_destination g hi
      exact inv_set_destination _ x y (hc.2.1.2.2.2.1 x y hsafe).1 hc
    · exact inv_set_destination _ 1 1 i1 (inv_check_destination g hi)
  · rw [e]
    exact inv_check_destination g hi

theorem kb_ask_action_use_agent (order : List Row → List Row) (g g' : WUMPLUS) (c : Char)
    (h : kb_ask_action order g = .ok (c, g')) : g'.use_agent = g.use_agent := by
  obtain ⟨-, -, -, -, c5, -⟩ := check_destination_frame g
  rcases kb_ask_action_cases order g g' c h with
    ⟨-, -, e⟩ | ⟨-, -, -, e⟩ | ⟨-, -, s, hsp, hs⟩ | ⟨-, -, -, -, -, -, e⟩
  · rw [e, (set_destination_frame _ 1 1).2.2.2.2.1, (remove_destination_frame g).2.2.2.2.1]
  · rw [e, c5]
  · obtain ⟨e, -⟩ := shortest_path_fuel_frame _ _ _ _ hsp
    rw [e]
    show s.use_agent = g.use_agent
    rcases hs with ⟨rfl, -, -⟩ | ⟨-, hu, rfl⟩ | ⟨-, -, -, rfl⟩
    · exact c5
    · unfold has_unvisited_safe_squares
      rw [foldl_huss]
      split
      · exact ((set_destination_frame _ _ _).2.2.2.2.1).trans c5
      · exact c5
    · exact ((set_destination_frame _ _ _).2.2.2.2.1).trans c5
  · rw [e, c5]

/-- Every state of a game, in either mode: the walls keep the player in; and
in agent mode the facts are true of the map and the agent's data are in
order. -/
theorem play_inv (g : WUMPLUS) (h : Play g) :
    walk_inv g ∧ (g.use_agent = true → game_inv g ∧ agent_inv g) := by
  induction h with
  | init agent r g h =>
    obtain ⟨g0, e, h1, h2, h3, h4, h5, h6, h7, h8, h9, h10⟩ := init_game_shape agent r g h
    have hw0 : walk_inv g0 := by
      unfold walk_inv
      rw [h1, h2, h10]
      exact ⟨by decide, by decide, fun i j _ hb => h9 i j hb⟩
    cases agent with
    | false =>
      simp only [Bool.false_eq_true, if_false] at e
      rw [e]
      refine ⟨hw0, fun hu => ?_⟩
      rw [h6] at hu
      exact absurd hu (by simp)
    | true =>
      simp only [if_true] at e
      obtain ⟨f1, f2, f3, -, fk⟩ := tell_outside_walls_frame (kb_init g0)
      refine ⟨by rw [e]; exact walk_inv_of_same g0 _ f1 f2 f3 hw0, fun _ => ⟨init_game_inv r g h, ?_⟩⟩
      rw [e]
      obtain ⟨kq, kx, ky, km, -, ka⟩ := fk
      have hmk : destination_markers (tell_outside_walls (kb_init g0)) = 0 := by
        rw [km]
        rfl
      have hnd : has_destination (tell_outside_walls (kb_init g0)) = false := by
        rw [← Bool.not_eq_true, has_destination_iff_markers, hmk]
        omega
      refine ⟨kq, tell_outside_walls_perimeter _, ?_, by rw [hmk]; omega, ?_, ?_⟩
      · unfold destination_consistent
        rw [hnd, kx, ky]
        show _ ↔ ¬ (g0.dest_x = -1 ∧ g0.dest_y = -1)
        rw [h4, h5]
        simp
      · intro hd
        rw [hnd] at hd
        exact absurd hd (by simp)
      · apply ka
        show 0 ≤ g0.arrows
        rw [h3]
        decide
  | percepts g g' _ h ih =>
    obtain ⟨hw, hu⟩ := walk_inv_process_percepts g g' ih.1 h
    refine ⟨hw, fun hu' => ?_⟩
    obtain ⟨hg, ha⟩ := ih.2 (hu.symm.trans hu')
    exact ⟨process_percepts_inv g g' hg h, agent_inv_of_keeps g g' (keeps_process_percepts g g' h) ha⟩
  | unbump g _ ih =>
    have hw : walk_inv (clear_bump g) := by
      unfold clear_bump
      split
      · exact ih.1
      · exact ih.1
    have hu : (clear_bump g).use_agent = g.use_agent := by
      unfold clear_bump
      split <;> rfl
    refine ⟨hw, fun hu' => ?_⟩
    obtain ⟨hg, ha⟩ := ih.2 (hu.symm.trans hu')
    exact ⟨clear_bump_inv g hg, agent_inv_of_keeps g _ (keeps_clear_bump g) ha⟩
  | command g g' c _ h ih =>
    rcases process_player_command_cases g g' c h with rfl | ⟨d, hd, hm⟩ | ⟨d, -, hs⟩ | hgr
    · exact ih
    · refine ⟨walk_inv_action_move g g' d ih.1 hm, fun hu' => ?_⟩
      have hu := (action_move_spec g g' d hm).2.1
      obtain ⟨hg, ha⟩ := ih.2 (hu.symm.trans hu')
      exact ⟨action_move_inv g g' d hg hd hm,
        agent_inv_of_keeps g g' (keeps_action_move g g' d hm) ha⟩
    · refine ⟨walk_inv_action_shoot g g' d ih.1 hs, fun hu' => ?_⟩
      have hu := (action_shoot_spec g g' d hs).1
      obtain ⟨hg, ha⟩ := ih.2 (hu.symm.trans hu')
      exact ⟨action_shoot_inv g g' d hg hs,
        agent_inv_of_keeps g g' (keeps_action_shoot g g' d hs) ha⟩
    · refine ⟨walk_inv_action_grab g g' ih.1 hgr, fun hu' => ?_⟩
      have hu := (action_grab_spec g g' hgr).1
      obtain ⟨hg, ha⟩ := ih.2 (hu.symm.trans hu')
      exact ⟨action_grab_inv g g' hg hgr,
        agent_inv_of_keeps g g' (keeps_action_grab g g' hgr) ha⟩
  | ask order g g' c _ hu hord h ih =>
    obtain ⟨hg, ha⟩ := ih.2 hu
    obtain ⟨r1, r2, r3⟩ := inv_kb_ask_action order hord g g' c ⟨ih.1, hg, ha⟩ h
    exact ⟨r1, fun _ => ⟨r2, r3⟩⟩

/-! ## The sample run, continued -/

theorem demo_first_play : Play demo_first :=
  Play.percepts _ _ (Play.init true demo_draws demo_start demo_start_eq) demo_first_eq

theorem demo_asked_eq :
    kb_ask_action id demo_first = .ok ('e', demo_asked) := by
  have h : action_of (kb_ask_action id demo_first) = some 'e' := by decide!
  unfold demo_asked
  cases hp : kb_ask_action id demo_first with
  | error e => rw [hp] at h; exact absurd h (by simp [action_of])
  | ok r =>
    rw [hp] at h
    obtain ⟨c, k⟩ := r
    simp only [action_of, Option.some.injEq] at h
    rw [h]

theorem demo_asked_play : Play demo_asked :=
  Play.ask id demo_first demo_asked 'e' demo_first_play (by decide!)
    (fun _ => List.Perm.refl _) demo_asked_eq

/-! ## Claims on the reachable states -/

theorem command_of_move (g g' : WUMPLUS) (d : Int)
    (hd : d = DIRECTION_NORTH ∨ d = DIRECTION_EAST ∨ d = DIRECTION_SOUTH ∨ d = DIRECTION_WEST)
    (h : action_move g d = .ok g') : ∃ c, process_player_command g c = .ok (some g') := by
  have e1 : process_player_command g 'n' =
      (action_move g DIRECTION_NORTH >>= fun k => pure (some k)) := rfl
  have e2 : process_player_command g 'e' =
      (action_move g DIRECTION_EAST >>= fun k => pure (some k)) := rfl
  have e3 : process_player_command g 's' =
      (action_move g DIRECTION_SOUTH >>= fun k => pure (some k)) := rfl
  have e4 : process_player_command g 'w' =
      (action_move g DIRECTION_WEST >>= fun k => pure (some k)) := rfl
  rcases hd with rfl | rfl | rfl | rfl
  · exact ⟨'n', by rw [e1, h]; rfl⟩
  · exact ⟨'e', by rw [e2, h]; rfl⟩
  · exact ⟨'s', by rw [e3, h]; rfl⟩
  · exact ⟨'w', by rw [e4, h]; rfl⟩

theorem command_of_shoot (g g' : WUMPLUS) (d : Int)
    (hd : d = DIRECTION_NORTH ∨ d = DIRECTION_EAST ∨ d = DIRECTION_SOUTH ∨ d = DIRECTION_WEST)
    (h : action_shoot g d = .ok g') : ∃ c, process_player_command g c = .ok (some g') := by
  have e1 : process_player_command g 'N' =
      (action_shoot g DIRECTION_NORTH >>= fun k => pure (some k)) := rfl
  have e2 : process_player_command g 'E' =
      (action_shoot g DIRECTION_EAST >>= fun k => pure (some k)) := rfl
  have e3 : process_player_command g 'S' =
      (action_shoot g DIRECTION_SOUTH >>= fun k => pure (some k)) := rfl
  have e4 : process_player_command g 'W' =
      (action_shoot g DIRECTION_WEST >>= fun k => pure (some k)) := rfl
  rcases hd with rfl | rfl | rfl | rfl
  · exact ⟨'N', by rw [e1, h]; rfl⟩
  · exact ⟨'E', by rw [e2, h]; rfl⟩
  · exact ⟨'S', by rw [e3, h]; rfl⟩
  · exact ⟨'W', by rw [e4, h]; rfl⟩

/-- The states reached without `kb_ask_action` are states of a game. -/
theorem reachable_play (g : WUMPLUS) (h : Reachable g) : Play g := by
  induction h with
  | init r g h => exact Play.init true r g h
  | percepts g g' _ h ih => exact Play.percepts g g' ih h
  | unbump g _ ih => exact Play.unbump g ih
  | move g g' d _ hd h ih =>
    obtain ⟨c, hc⟩ := command_of_move g g' d hd h
    exact Play.command g g' c ih hc
  | shoot g g' d _ hd h ih =>
    obtain ⟨c, hc⟩ := command_of_shoot g g' d hd h
    exact Play.command g g' c ih hc
  | grab g g' _ h ih =>
    have e : process_player_command g 'g' = (action_grab g >>= fun k => pure (some k)) := rfl
    exact Play.command g g' 'g' ih (by rw [e, h]; rfl)

/-- C7: in every state of a game in agent mode, reached from `init_game`
through `process_percepts`, the player commands and `kb_ask_action`, every
cell that carries a Safe fact is a cell of the map that holds no pit, no
wumpus, and no supmuw while the supmuw-neighbours-wumpus flag is set. -/
theorem safe_cells_hold_no_lethal_hazard (g : WUMPLUS) (h : Play g)
    (hu : g.use_agent = true) (x y : Int) (hs : safe g x y = true) :
    in_map x y = true ∧ g.map x y ≠ MAP_PIT ∧ g.map x y ≠ MAP_WUMPUS ∧
      ¬ (g.map x y = MAP_SUPMUW ∧ g.supmuw_neighbors_wumpus = true) := by
  obtain ⟨hin, hnl⟩ := ((play_inv g h).2 hu).1.2.2.2.1 x y hs
  unfold lethal at hnl
  exact ⟨hin, fun hp => hnl (Or.inl hp), fun hp => hnl (Or.inr (Or.inl hp)),
    fun hp => hnl (Or.inr (Or.inr hp))⟩

/-- Witness for C7: after `init_game`, the first `process_percepts` and the
first `kb_ask_action` of the sample run the cell (2,1) carries a Safe fact,
and it holds no lethal hazard. -/
theorem safe_cells_hold_no_lethal_hazard_witness :
    Play demo_asked ∧ safe demo_asked 2 1 = true ∧
    (in_map 2 1 = true ∧ demo_asked.map 2 1 ≠ MAP_PIT ∧ demo_asked.map 2 1 ≠ MAP_WUMPUS ∧
      ¬ (demo_asked.map 2 1 = MAP_SUPMUW ∧ demo_asked.supmuw_neighbors_wumpus = true)) :=
  ⟨demo_asked_play, by decide!,
    safe_cells_hold_no_lethal_hazard demo_asked demo_asked_play (by decide!) 2 1 (by decide!)⟩

/-- C8, as stated, fails: with the interior wall at (2,1), after `init_game`
and the first `process_percepts` the cell (2,1) carries a Safe fact, as a
neighbour of (1,1) where nothing is smelt or felt, and no Bump fact; the move
east then bumps into it and adds the Bump fact, and the Safe fact stays. -/
theorem safe_and_bump_together :
    (Play wall_bumped ∧ wall_bumped.use_agent = true) ∧
    (safe wall_first 2 1 = true ∧ wall wall_first 2 1 = false) ∧
    (safe wall_bumped 2 1 = true ∧ wall wall_bumped 2 1 = true) :=
  ⟨⟨reachable_play wall_bumped wall_bumped_reachable, by decide!⟩, by decide!, by decide!⟩

/-- C8, amended: in every state of a game in agent mode, a cell that carries
both a Safe fact and a Bump fact is a wall on the real map. -/
theorem safe_and_bump_only_on_walls (g : WUMPLUS) (h : Play g) (hu : g.use_agent = true)
    (x y : Int) (_hs : safe g x y = true) (hw : wall g x y = true) : holds g x y MAP_WALL :=
  ((play_inv g h).2 hu).1.2.2.2.2 x y hw

/-- Witness for the amended C8: the cell (2,1) that the move east bumped into
carries both facts and is a wall on the map. -/
theorem safe_and_bump_only_on_walls_witness :
    Play wall_bumped ∧ safe wall_bumped 2 1 = true ∧ wall wall_bumped 2 1 = true ∧
      holds wall_bumped 2 1 MAP_WALL :=
  ⟨reachable_play wall_bumped wall_bumped_reachable, by decide!, by decide!,
    safe_and_bump_only_on_walls wall_bumped (reachable_play wall_bumped wall_bumped_reachable)
      (by decide!) 2 1 (by decide!) (by decide!)⟩

/-! ## Claims on the destination -/

/-- C11: after `set_destination(x1,y1)` and then `set_destination(x2,y2)`, in
any state, `has_destination` holds, the target is (x2,y2), and
`at_destination` holds exactly when the agent is at (x2,y2); the fact store
then holds exactly one Destination marker if and only if it held at most one
before, which is so in every state of a game in agent mode. -/
theorem set_destination_twice (g : WUMPLUS) (x1 y1 x2 y2 : Int) :
    has_destination (set_destination (set_destination g x1 y1) x2 y2) = true ∧
    (set_destination (set_destination g x1 y1) x2 y2).dest_x = x2 ∧
    (set_destination (set_destination g x1 y1) x2 y2).dest_y = y2 ∧
    (at_destination (set_destination (set_destination g x1 y1) x2 y2) = true ↔
      (g.x = x2 ∧ g.y = y2)) ∧
    ((set_destination (set_destination g x1 y1) x2 y2).x = g.x ∧
      (set_destination (set_destination g x1 y1) x2 y2).y = g.y) ∧
    (destination_markers (set_destination (set_destination g x1 y1) x2 y2) = 1 ↔
      destination_markers g ≤ 1) ∧
    (Play g → g.use_agent = true →
      destination_markers (set_destination (set_destination g x1 y1) x2 y2) = 1) := by
  obtain ⟨a1, a2, -, -, -, -, -, a8, a9⟩ := set_destination_frame (set_destination g x1 y1) x2 y2
  obtain ⟨b1, b2, -⟩ := set_destination_frame g x1 y1
  have hm : destination_markers (set_destination (set_destination g x1 y1) x2 y2) = 1 ↔
      destination_markers g ≤ 1 := by
    rw [markers_set_destination, markers_set_destination]
    omega
  refine ⟨has_destination_set _ _ _, a8, a9, ?_, ⟨a1.trans b1, a2.trans b2⟩, hm, ?_⟩
  · rw [at_destination_iff, has_destination_set, a1, a2, a8, a9, b1, b2]
    simp
  · intro hp hu
    exact hm.2 ((play_inv g hp).2 hu).2.2.2.2.1

/-- Witness for C11: in the sample game, after the agent has chosen the
destination (2,1), the destinations (3,3) and then (1,2) are set. -/
theorem set_destination_twice_witness :
    destination_markers demo_asked = 1 ∧
    destination_markers (set_destination (set_destination demo_asked 3 3) 1 2) = 1 ∧
    (set_destination (set_destination demo_asked 3 3) 1 2).dest_x = 1 ∧
    (set_destination (set_destination demo_asked 3 3) 1 2).dest_y = 2 :=
  ⟨by decide!,
    (set_destination_twice demo_asked 3 3 1 2).2.2.2.2.2.2 demo_asked_play (by decide!),
    (set_destination_twice demo_asked 3 3 1 2).2.1,
    (set_destination_twice demo_asked 3 3 1 2).2.2.1⟩

/-- C12: in every state of a game in agent mode the Destination marker and the
target variables agree: `has_destination` holds exactly when the target is not
the unset value (-1,-1), and then the target is a cell of the map.
`remove_destination` leaves them in agreement, and `set_destination(x,y)`
does so exactly when (x,y) is not (-1,-1); the program calls it with (1,1)
and with the cell of a Safe fact only. -/
theorem destination_marker_consistent (g : WUMPLUS) :
    (Play g → g.use_agent = true →
      destination_consistent g ∧
      (has_destination g = true → in_map g.dest_x g.dest_y = true)) ∧
    (∀ x y : Int, destination_consistent (set_destination g x y) ↔ ¬ (x = -1 ∧ y = -1)) ∧
    destination_consistent (remove_destination g) := by
  refine ⟨fun hp hu => ?_, fun x y => ?_, ?_⟩
  · obtain ⟨-, -, hc, -, hin, -⟩ := ((play_inv g hp).2 hu).2
    exact ⟨hc, hin⟩
  · obtain ⟨-, -, -, -, -, -, -, s8, s9⟩ := set_destination_frame g x y
    unfold destination_consistent
    rw [has_destination_set, s8, s9]
    simp
  · obtain ⟨-, -, -, -, -, -, -, s8, s9⟩ := remove_destination_frame g
    unfold destination_consistent
    rw [has_destination_remove, s8, s9]
    simp

/-- Witness for C12: the sample game before the agent's first choice has no
marker and the unset target; after it, a marker and the target (2,1). -/
theorem destination_marker_consistent_witness :
    (has_destination demo_first = false ∧ demo_first.dest_x = -1 ∧ demo_first.dest_y = -1) ∧
    (has_destination demo_asked = true ∧ demo_asked.dest_x = 2 ∧ demo_asked.dest_y = 1) ∧
    destination_consistent demo_asked :=
  ⟨by decide!, by decide!,
    ((destination_marker_consistent demo_asked).1 demo_asked_play (by decide!)).1⟩

/-! ## Claims on the player's position -/

theorem delta_in_map (x y d : Int) (h : 1 ≤ x ∧ x ≤ 12 ∧ 1 ≤ y ∧ y ≤ 12) :
    in_map (delta_coordinates x y d).1.x (delta_coordinates x y d).1.y = true := by
  unfold delta_coordinates
  split
  · rw [in_map_iff]; dsimp only; omega
  split
  · rw [in_map_iff]; dsimp only; omega
  split
  · rw [in_map_iff]; dsimp only; omega
  split
  · rw [in_map_iff]; dsimp only; omega
  · rw [in_map_iff]; dsimp only; omega

theorem bind_of_ok {α β : Type} (a : α) (f : α → Except Err β) :
    ((Except.ok a : Except Err α) >>= f) = f a := rfl

theorem process_percepts_total (g : WUMPLUS) (h : 1 ≤ g.x ∧ g.x ≤ 12 ∧ 1 ≤ g.y ∧ g.y ≤ 12) :
    ∃ g', process_percepts g = .ok g' := by
  have i1 : in_map g.x (g.y - 1) = true := by rw [in_map_iff]; omega
  have i2 : in_map g.x (g.y + 1) = true := by rw [in_map_iff]; omega
  have i3 : in_map (g.x + 1) g.y = true := by rw [in_map_iff]; omega
  have i4 : in_map (g.x - 1) g.y = true := by rw [in_map_iff]; omega
  have i5 : in_map g.x g.y = true := by rw [in_map_iff]; omega
  unfold process_percepts
  rw [map_get_of_in_map g _ _ i1, map_get_of_in_map g _ _ i2, map_get_of_in_map g _ _ i3,
    map_get_of_in_map g _ _ i4, map_get_of_in_map g _ _ i5]
  exact ⟨_, rfl⟩

theorem action_move_total (g : WUMPLUS) (d : Int)
    (h : 1 ≤ g.x ∧ g.x ≤ 12 ∧ 1 ≤ g.y ∧ g.y ≤ 12) : ∃ g', action_move g d = .ok g' := by
  have hin := delta_in_map g.x g.y d h
  unfold action_move
  dsimp only [add_score]
  rw [map_get_of_in_map _ _ _ hin, bind_of_ok]
  split
  · exact ⟨_, rfl⟩
  · exact ⟨_, rfl⟩

theorem action_shoot_total (g : WUMPLUS) (d : Int)
    (h : 1 ≤ g.x ∧ g.x ≤ 12 ∧ 1 ≤ g.y ∧ g.y ≤ 12) : ∃ g', action_shoot g d = .ok g' := by
  have hin := delta_in_map g.x g.y d h
  unfold action_shoot
  split
  · exact ⟨_, rfl⟩
  · dsimp only [add_score]
    rw [map_get_of_in_map _ _ _ hin, bind_of_ok]
    split
    · split
      · exact ⟨_, rfl⟩
      · exact ⟨_, rfl⟩
    · exact ⟨_, rfl⟩

/-- C20: in every state of a game, in either mode and whatever the commands
were, the player stands on an interior cell, with both coordinates from 1 to
`MAP_SIZE - 2`, and that cell of the map is no wall; so the four neighbour
cells are in the map, and `process_percepts`, `action_move` and `action_shoot`
in any direction read the map inside its bounds and return. -/
theorem player_stays_inside (g : WUMPLUS) (h : Play g) :
    (1 ≤ g.x ∧ g.x ≤ MAP_SIZE - 2 ∧ 1 ≤ g.y ∧ g.y ≤ MAP_SIZE - 2) ∧
    g.map g.x g.y ≠ MAP_WALL ∧
    (in_map (g.x - 1) g.y = true ∧ in_map (g.x + 1) g.y = true ∧
      in_map g.x (g.y - 1) = true ∧ in_map g.x (g.y + 1) = true) ∧
    (∃ g', process_percepts g = .ok g') ∧
    (∀ d, ∃ g', action_move g d = .ok g') ∧
    (∀ d, ∃ g', action_shoot g d = .ok g') := by
  obtain ⟨hpos, hnw, -⟩ := (play_inv g h).1
  have hp : 1 ≤ g.x ∧ g.x ≤ 12 ∧ 1 ≤ g.y ∧ g.y ≤ 12 := by
    unfold MAP_SIZE at hpos
    omega
  refine ⟨hpos, hnw, ⟨?_, ?_, ?_, ?_⟩, process_percepts_total g hp,
    fun d => action_move_total g d hp, fun d => action_shoot_total g d hp⟩ <;>
  (rw [in_map_iff]; omega)

/-- Witness for C20: the sample game after the agent's first choice. -/
theorem player_stays_inside_witness :
    (demo_asked.x = 1 ∧ demo_asked.y = 1) ∧
    (∃ g', process_percepts demo_asked = .ok g') ∧
    (∃ g', action_move demo_asked DIRECTION_WEST = .ok g') :=
  ⟨by decide!, (player_stays_inside demo_asked demo_asked_play).2.2.2.1,
    (player_stays_inside demo_asked demo_asked_play).2.2.2.2.1 DIRECTION_WEST⟩

/-! ## The facts that `kb_tell` records -/

theorem cond_insert_found (c : Prop) [Decidable c] (g : WUMPLUS) (s x y s' a b : Int) :
    kb_found (if c then kb_insert g s x y else g) s' a b = true ↔
      ((c ∧ s' = s ∧ a = x ∧ b = y) ∨ kb_found g s' a b = true) := by
  split
  · rename_i hc
    rw [kb_found_insert]
    simp only [hc, true_and]
  · rename_i hc
    simp only [hc, false_and, false_or]

theorem six_inserts (F V D S B M G : Prop) :
    ((G ∨ (M ∨ (B ∨ (S ∨ (D ∨ (V ∨ F)))))) ↔ (F ∨ (V ∨ D ∨ S ∨ B ∨ M ∨ G))) := by
  tauto

/-- The two stages of `kb_tell` before the inferences.  The first records, at
the agent's cell, the visit, Safe unless the Dead percept is present, and each
of Smell, Breeze, Moo and Glitter that is among the percepts.  The second
marks the four neighbours Safe when neither Smell nor Breeze is among the
percepts.  The three inferences run on the result. -/
theorem kb_tell_stages (g : WUMPLUS) :
    ∃ g6 g10 : WUMPLUS,
      (∀ s a b, kb_found g6 s a b = true ↔
        (kb_found g s a b = true ∨
          ((s = PERCEPT_VISITED ∧ a = g.x ∧ b = g.y) ∨
           (Int.land g.percepts PERCEPT_DEAD = 0 ∧ s = PERCEPT_SAFE ∧ a = g.x ∧ b = g.y) ∨
           (Int.land g.percepts PERCEPT_SMELL ≠ 0 ∧ s = PERCEPT_SMELL ∧ a = g.x ∧ b = g.y) ∨
           (Int.land g.percepts PERCEPT_BREEZE ≠ 0 ∧ s = PERCEPT_BREEZE ∧ a = g.x ∧ b = g.y) ∨
           (Int.land g.percepts PERCEPT_MOO ≠ 0 ∧ s = PERCEPT_MOO ∧ a = g.x ∧ b = g.y) ∨
           (Int.land g.percepts PERCEPT_GLITTER ≠ 0 ∧ s = PERCEPT_GLITTER ∧
              a = g.x ∧ b = g.y)))) ∧
      (∀ s a b, kb_found g10 s a b = true ↔
        (kb_found g6 s a b = true ∨
          ((Int.land g.percepts PERCEPT_SMELL = 0 ∧ Int.land g.percepts PERCEPT_BREEZE = 0) ∧
            s = PERCEPT_SAFE ∧
            ((a = g.x - 1 ∧ b = g.y) ∨ (a = g.x + 1 ∧ b = g.y) ∨
             (a = g.x ∧ b = g.y - 1) ∨ (a = g.x ∧ b = g.y + 1))))) ∧
      g10.x = g.x ∧ g10.y = g.y ∧
      kb_tell g = kb_inferrances (kb_inferrances (kb_inferrances g10
        PERCEPT_SMELL PERCEPT_WUMPUS) PERCEPT_BREEZE PERCEPT_PIT) PERCEPT_MOO PERCEPT_SUPMUW := by
  unfold kb_tell
  lift_lets
  intro g1 g2 g3 g4 g5 g6 g7 g8 g9 g10 g11 g12
  have h1 : g1 = kb_insert g PERCEPT_VISITED g.x g.y := rfl
  have h2 : g2 = if Int.land g1.percepts PERCEPT_DEAD = 0
      then kb_insert g1 PERCEPT_SAFE g1.x g1.y else g1 := rfl
  have h3 : g3 = if Int.land g2.percepts PERCEPT_SMELL ≠ 0
      then kb_insert g2 PERCEPT_SMELL g2.x g2.y else g2 := rfl
  have h4 : g4 = if Int.land g3.percepts PERCEPT_BREEZE ≠ 0
      then kb_insert g3 PERCEPT_BREEZE g3.x g3.y else g3 := rfl
  have h5 : g5 = if Int.land g4.percepts PERCEPT_MOO ≠ 0
      then kb_insert g4 PERCEPT_MOO g4.x g4.y else g4 := rfl
  have h6 : g6 = if Int.land g5.percepts PERCEPT_GLITTER ≠ 0
      then kb_insert g5 PERCEPT_GLITTER g5.x g5.y else g5 := rfl
  have h7 : g7 = kb_insert g6 PERCEPT_SAFE (g6.x - 1) g6.y := rfl
  have h8 : g8 = kb_insert g7 PERCEPT_SAFE (g7.x + 1) g7.y := rfl
  have h9 : g9 = kb_insert g8 PERCEPT_SAFE g8.x (g8.y - 1) := rfl
  have h10 : g10 = if Int.land g6.percepts PERCEPT_SMELL = 0 ∧
      Int.land g6.percepts PERCEPT_BREEZE = 0
      then kb_insert g9 PERCEPT_SAFE g9.x (g9.y + 1) else g6 := rfl
  have h11 : g11 = kb_inferrances g10 PERCEPT_SMELL PERCEPT_WUMPUS := rfl
  have h12 : g12 = kb_inferrances g11 PERCEPT_BREEZE PERCEPT_PIT := rfl
  clear_value g12 g11 g10 g9 g8 g7 g6 g5 g4 g3 g2 g1
  have x1 : g1.x = g.x := by rw [h1, kb_insert_x]
  have y1 : g1.y = g.y := by rw [h1, kb_insert_y]
  have p1 : g1.percepts = g.percepts := by rw [h1, kb_insert_percepts]
  have x2 : g2.x = g.x := by rw [h2, cond_insert_x, x1]
  have y2 : g2.y = g.y := by rw [h2, cond_insert_y, y1]
  have p2 : g2.percepts = g.percepts := by rw [h2, cond_insert_percepts, p1]
  have x3 : g3.x = g.x := by rw [h3, cond_insert_x, x2]
  have y3 : g3.y = g.y := by rw [h3, cond_insert_y, y2]
  have p3 : g3.percepts = g.percepts := by rw [h3, cond_insert_percepts, p2]
  have x4 : g4.x = g.x := by rw [h4, cond_insert_x, x3]
  have y4 : g4.y = g.y := by rw [h4, cond_insert_y, y3]
  have p4 : g4.percepts = g.percepts := by rw [h4, cond_insert_percepts, p3]
  have x5 : g5.x = g.x := by rw [h5, cond_insert_x, x4]
  have y5 : g5.y = g.y := by rw [h5, cond_insert_y, y4]
  have p5 : g5.percepts = g.percepts := by rw [h5, cond_insert_percepts, p4]
  have x6 : g6.x = g.x := by rw [h6, cond_insert_x, x5]
  have y6 : g6.y = g.y := by rw [h6, cond_insert_y, y5]
  have p6 : g6.percepts = g.percepts := by rw [h6, cond_insert_percepts, p5]
  have x7 : g7.x = g.x := by rw [h7, kb_insert_x, x6]
  have y7 : g7.y = g.y := by rw [h7, kb_insert_y, y6]
  have x8 : g8.x = g.x := by rw [h8, kb_insert_x, x7]
  have y8 : g8.y = g.y := by rw [h8, kb_insert_y, y7]
  have x9 : g9.x = g.x := by rw [h9, kb_insert_x, x8]
  have y9 : g9.y = g.y := by rw [h9, kb_insert_y, y8]
  refine ⟨g6, g10, ?_, ?_, ?_, ?_, by rw [h12, h11]⟩
  · intro s a b
    rw [h6, cond_insert_found, h5, cond_insert_found, h4, cond_insert_found, h3,
      cond_insert_found, h2, cond_insert_found, h1, kb_found_insert,
      ← h1, ← h2, ← h3, ← h4, ← h5, p5, p4, p3, p2, p1, x5, y5, x4, y4, x3, y3, x2, y2, x1, y1]
    exact six_inserts _ _ _ _ _ _ _
  · intro s a b
    rw [h10, p6]
    split
    · rename_i hc
      rw [kb_found_insert, h9, kb_found_insert, h8, kb_found_insert, h7, kb_found_insert,
        ← h7, ← h8, ← h9, x9, y9, x8, y8, x7, y7, x6, y6]
      simp only [hc, and_self, true_and]
      constructor
      · rintro (⟨hs, h⟩ | ⟨hs, h⟩ | ⟨hs, h⟩ | ⟨hs, h⟩ | h)
        · exact Or.inr ⟨hs, Or.inr (Or.inr (Or.inr h))⟩
        · exact Or.inr ⟨hs, Or.inr (Or.inr (Or.inl h))⟩
        · exact Or.inr ⟨hs, Or.inr (Or.inl h)⟩
        · exact Or.inr ⟨hs, Or.inl h⟩
        · exact Or.inl h
      · rintro (h | ⟨hs, h | h | h | h⟩)
        · exact Or.inr (Or.inr (Or.inr (Or.inr h)))
        · exact Or.inr (Or.inr (Or.inr (Or.inl ⟨hs, h⟩)))
        · exact Or.inr (Or.inr (Or.inl ⟨hs, h⟩))
        · exact Or.inr (Or.inl ⟨hs, h⟩)
        · exact Or.inl ⟨hs, h⟩
    · rename_i hc
      constructor
      · intro h; exact Or.inl h
      · rintro (h | ⟨hc', -⟩)
        · exact h
        · exact absurd hc' hc
  · rw [h10]
    split
    · rw [kb_insert_x, x9]
    · exact x6
  · rw [h10]
    split
    · rw [kb_insert_y, y9]
    · exact y6

/-! ## The hazard facts that `kb_tell` infers -/

theorem corner_adds_congr (g h : WUMPLUS) (p dx dy cx cy : Int) (hx : h.x = g.x)
    (hy : h.y = g.y) (hp : ∀ a b, kb_found h p a b = kb_found g p a b)
    (hs : ∀ a b, safe h a b = safe g a b) (hw : ∀ a b, wall h a b = wall g a b) :
    corner_adds h p dx dy cx cy ↔ corner_adds g p dx dy cx cy := by
  unfold corner_adds
  simp only [hx, hy, hp, hs, hw]

/-- One inference of a chain: the hazard kind `k` is found after it exactly
when it was found before or a corner adds it, where the corner is read in any
game `f` that has the same position and the same percept, Safe and Bump facts
as the game before the inference. -/
theorem kb_found_inferrances_in (g f : WUMPLUS) (p k cx cy : Int)
    (hk1 : k ≠ PERCEPT_SAFE) (hk2 : k ≠ PERCEPT_BUMP) (hk3 : k ≠ p)
    (hx : f.x = g.x) (hy : f.y = g.y) (hp : ∀ a b, kb_found f p a b = kb_found g p a b)
    (hs : ∀ a b, safe f a b = safe g a b) (hw : ∀ a b, wall f a b = wall g a b) :
    kb_found (kb_inferrances g p k) k cx cy = true ↔
      (kb_found g k cx cy = true ∨
        (kb_found f p f.x f.y = true ∧
          (corner_adds f p (-1) (-1) cx cy ∨ corner_adds f p 1 (-1) cx cy ∨
           corner_adds f p (-1) 1 cx cy ∨ corner_adds f p 1 1 cx cy))) := by
  rw [kb_found_inferrances g p k k cx cy hk1 hk2 hk3, hp, hx, hy,
    corner_adds_congr g f p _ _ cx cy hx hy hp hs hw,
    corner_adds_congr g f p _ _ cx cy hx hy hp hs hw,
    corner_adds_congr g f p _ _ cx cy hx hy hp hs hw,
    corner_adds_congr g f p _ _ cx cy hx hy hp hs hw]
  simp only [true_and]

/-- The hazard facts after `kb_tell`: a Wumpus, Pit or Supmuw fact is found
afterwards exactly when it was found before, or the agent's cell holds the
matching percept fact and one of the four corners adds it; the corner is read
in the store that `kb_tell` leaves. -/
theorem kb_tell_hazard_iff (g : WUMPLUS) (M H : Int)
    (hpair : (M, H) = (PERCEPT_SMELL, PERCEPT_WUMPUS) ∨
             (M, H) = (PERCEPT_BREEZE, PERCEPT_PIT) ∨
             (M, H) = (PERCEPT_MOO, PERCEPT_SUPMUW)) (cx cy : Int) :
    kb_found (kb_tell g) H cx cy = true ↔
      (kb_found g H cx cy = true ∨
        (kb_found (kb_tell g) M g.x g.y = true ∧
          (corner_adds (kb_tell g) M (-1) (-1) cx cy ∨ corner_adds (kb_tell g) M 1 (-1) cx cy ∨
           corner_adds (kb_tell g) M (-1) 1 cx cy ∨ corner_adds (kb_tell g) M 1 1 cx cy))) := by
  obtain ⟨g6, g10, h6, h10, hx, hy, e⟩ := kb_tell_stages g
  have hold : ∀ s, (s = PERCEPT_WUMPUS ∨ s = PERCEPT_PIT ∨ s = PERCEPT_SUPMUW) →
      ∀ a b, kb_found g10 s a b = kb_found g s a b := by
    intro s hs a b
    rw [Bool.eq_iff_iff, h10, h6]
    constructor
    · rintro ((h | h) | h)
      · exact h
      · exfalso
        rcases hs with rfl | rfl | rfl <;>
          rcases h with ⟨h, -⟩ | ⟨-, h, -⟩ | ⟨-, h, -⟩ | ⟨-, h, -⟩ | ⟨-, h, -⟩ | ⟨-, h, -⟩ <;>
          exact absurd h (by decide)
      · exfalso
        rcases hs with rfl | rfl | rfl <;> exact absurd h.2.1 (by decide)
    · intro h
      exact Or.inl (Or.inl h)
  rw [e]
  set g11 := kb_inferrances g10 PERCEPT_SMELL PERCEPT_WUMPUS with hg11
  set g12 := kb_inferrances g11 PERCEPT_BREEZE PERCEPT_PIT with hg12
  set g13 := kb_inferrances g12 PERCEPT_MOO PERCEPT_SUPMUW with hg13
  have x11 : g11.x = g10.x := kb_inferrances_x _ _ _
  have y11 : g11.y = g10.y := kb_inferrances_y _ _ _
  have x12 : g12.x = g10.x := (kb_inferrances_x _ _ _).trans x11
  have y12 : g12.y = g10.y := (kb_inferrances_y _ _ _).trans y11
  have x13 : g13.x = g10.x := (kb_inferrances_x _ _ _).trans x12
  have y13 : g13.y = g10.y := (kb_inferrances_y _ _ _).trans y12
  have k11 : ∀ s a b, s ≠ PERCEPT_WUMPUS → kb_found g11 s a b = kb_found g10 s a b :=
    fun s a b hs => kb_found_inferrances_ne g10 _ _ s a b hs
  have k12 : ∀ s a b, s ≠ PERCEPT_PIT → kb_found g12 s a b = kb_found g11 s a b :=
    fun s a b hs => kb_found_inferrances_ne g11 _ _ s a b hs
  have k13 : ∀ s a b, s ≠ PERCEPT_SUPMUW → kb_found g13 s a b = kb_found g12 s a b :=
    fun s a b hs => kb_found_inferrances_ne g12 _ _ s a b hs
  have hxg : g13.x = g.x := x13.trans hx
  have hyg : g13.y = g.y := y13.trans hy
  rw [← hxg, ← hyg]
  rcases hpair with hp | hp | hp <;>
    (simp only [Prod.mk.injEq] at hp; obtain ⟨rfl, rfl⟩ := hp)
  · rw [k13 _ _ _ (by decide), k12 _ _ _ (by decide), ← hold _ (Or.inl rfl)]
    refine kb_found_inferrances_in g10 g13 _ _ cx cy (by decide) (by decide) (by decide)
      x13 y13 (fun a b => ?_) (fun a b => ?_) (fun a b => ?_)
    · rw [k13 _ _ _ (by decide), k12 _ _ _ (by decide), k11 _ _ _ (by decide)]
    · rw [safe, k13 _ _ _ (by decide), k12 _ _ _ (by decide), k11 _ _ _ (by decide)]
      rfl
    · rw [wall, k13 _ _ _ (by decide), k12 _ _ _ (by decide), k11 _ _ _ (by decide)]
      rfl
  · rw [k13 _ _ _ (by decide), ← hold _ (Or.inr (Or.inl rfl)), ← k11 _ _ _ (by decide)]
    refine kb_found_inferrances_in g11 g13 _ _ cx cy (by decide) (by decide) (by decide)
      (x13.trans x11.symm) (y13.trans y11.symm) (fun a b => ?_) (fun a b => ?_) (fun a b => ?_)
    · rw [k13 _ _ _ (by decide), k12 _ _ _ (by decide)]
    · rw [safe, k13 _ _ _ (by decide), k12 _ _ _ (by decide)]
      rfl
    · rw [wall, k13 _ _ _ (by decide), k12 _ _ _ (by decide)]
      rfl
  · rw [← hold _ (Or.inr (Or.inr rfl)), ← k11 _ _ _ (by decide), ← k12 _ _ _ (by decide)]
    refine kb_found_inferrances_in g12 g13 _ _ cx cy (by decide) (by decide) (by decide)
      (x13.trans x12.symm) (y13.trans y12.symm) (fun a b => ?_) (fun a b => ?_) (fun a b => ?_)
    · rw [k13 _ _ _ (by decide)]
    · rw [safe, k13 _ _ _ (by decide)]
      rfl
    · rw [wall, k13 _ _ _ (by decide)]
      rfl

/-- A cell that a corner adds is an orthogonal neighbour of the agent's cell,
is not Safe, and is an orthogonal neighbour of the diagonal cell, which holds
the percept. -/
theorem corner_adds_cell (g : WUMPLUS) (p dx dy cx cy : Int)
    (hdx : dx = -1 ∨ dx = 1) (hdy : dy = -1 ∨ dy = 1) (h : corner_adds g p dx dy cx cy) :
    adjacent ⟨g.x, g.y⟩ ⟨cx, cy⟩ ∧ safe g cx cy = false ∧
    kb_found g p (g.x + dx) (g.y + dy) = true ∧
    adjacent ⟨g.x + dx, g.y + dy⟩ ⟨cx, cy⟩ := by
  obtain ⟨hd, -, hc⟩ := h
  unfold adjacent
  rcases hc with ⟨-, hs, rfl, rfl⟩ | ⟨-, hs, rfl, rfl⟩
  · refine ⟨Or.inl ⟨rfl, ?_⟩, hs, hd, Or.inr ⟨rfl, ?_⟩⟩
    · rcases hdy with rfl | rfl
      · exact Or.inr rfl
      · exact Or.inl rfl
    · dsimp only
      rcases hdx with rfl | rfl
      · exact Or.inl (by omega)
      · exact Or.inr (by omega)
  · refine ⟨Or.inr ⟨rfl, ?_⟩, hs, hd, Or.inl ⟨rfl, ?_⟩⟩
    · rcases hdx with rfl | rfl
      · exact Or.inr rfl
      · exact Or.inl rfl
    · dsimp only
      rcases hdy with rfl | rfl
      · exact Or.inl (by omega)
      · exact Or.inr (by omega)

/-- Function `kb_ask_action` changes no fact other than the Destination
marker. -/
theorem kb_ask_action_found (order : List Row → List Row) (g g' : WUMPLUS) (c : Char)
    (h : kb_ask_action order g = .ok (c, g')) (s : Int) (hs : s ≠ PERCEPT_DESTINATION)
    (a b : Int) : kb_found g' s a b = kb_found g s a b := by
  obtain ⟨-, -, -, -, -, -, -, c8⟩ := check_destination_frame g
  rcases kb_ask_action_cases order g g' c h with
    ⟨-, -, e⟩ | ⟨-, -, -, e⟩ | ⟨-, -, k, hsp, hk⟩ | ⟨-, -, -, -, -, -, e⟩
  · rw [e, set_destination_found_ne _ _ _ _ _ _ hs, remove_destination_found_ne _ _ _ _ hs]
  · rw [e, c8 _ _ _ hs]
  · obtain ⟨e, -⟩ := shortest_path_fuel_frame _ _ _ _ hsp
    rw [e, kb_found_set_queue]
    rcases hk with ⟨rfl, -, -⟩ | ⟨-, hu, rfl⟩ | ⟨-, -, -, rfl⟩
    · exact c8 _ _ _ hs
    · unfold has_unvisited_safe_squares
      rw [foldl_huss]
      split
      · rw [set_destination_found_ne _ _ _ _ _ _ hs, c8 _ _ _ hs]
      · exact c8 _ _ _ hs
    · rw [set_destination_found_ne _ _ _ _ _ _ hs, c8 _ _ _ hs]
  · rw [e, c8 _ _ _ hs]

/-- The facts of the other kinds after `kb_tell`: a fact that is no Wumpus,
Pit or Supmuw fact is found afterwards exactly when it was found before, or
it is one of the facts recorded at the agent's cell, or it is Safe at one of
the four neighbours and neither Smell nor Breeze is among the percepts. -/
theorem kb_tell_fact_iff (g : WUMPLUS) (s a b : Int)
    (hs : s ≠ PERCEPT_WUMPUS ∧ s ≠ PERCEPT_PIT ∧ s ≠ PERCEPT_SUPMUW) :
    kb_found (kb_tell g) s a b = true ↔
      ((kb_found g s a b = true ∨
        ((s = PERCEPT_VISITED ∧ a = g.x ∧ b = g.y) ∨
         (Int.land g.percepts PERCEPT_DEAD = 0 ∧ s = PERCEPT_SAFE ∧ a = g.x ∧ b = g.y) ∨
         (Int.land g.percepts PERCEPT_SMELL ≠ 0 ∧ s = PERCEPT_SMELL ∧ a = g.x ∧ b = g.y) ∨
         (Int.land g.percepts PERCEPT_BREEZE ≠ 0 ∧ s = PERCEPT_BREEZE ∧ a = g.x ∧ b = g.y) ∨
         (Int.land g.percepts PERCEPT_MOO ≠ 0 ∧ s = PERCEPT_MOO ∧ a = g.x ∧ b = g.y) ∨
         (Int.land g.percepts PERCEPT_GLITTER ≠ 0 ∧ s = PERCEPT_GLITTER ∧
            a = g.x ∧ b = g.y))) ∨
       ((Int.land g.percepts PERCEPT_SMELL = 0 ∧ Int.land g.percepts PERCEPT_BREEZE = 0) ∧
          s = PERCEPT_SAFE ∧
          ((a = g.x - 1 ∧ b = g.y) ∨ (a = g.x + 1 ∧ b = g.y) ∨
           (a = g.x ∧ b = g.y - 1) ∨ (a = g.x ∧ b = g.y + 1)))) := by
  obtain ⟨g6, g10, h6, h10, -, -, e⟩ := kb_tell_stages g
  rw [e, kb_found_inferrances_ne _ _ _ _ _ _ hs.2.2, kb_found_inferrances_ne _ _ _ _ _ _ hs.2.1,
    kb_found_inferrances_ne _ _ _ _ _ _ hs.1, h10, h6]

/-! ## Claims on `kb_tell` -/

/-- C19: a Wumpus, Pit or Supmuw fact that is found after `kb_tell` and was
not found before is at an orthogonal neighbour of the agent's cell that is not
Safe, the agent's cell holds the matching percept fact, and a diagonal cell
next to that neighbour holds it too (all read in the store that `kb_tell`
leaves); and `kb_ask_action`, `set_destination`, `remove_destination`,
`action_move` and `action_grab` add no Wumpus, Pit or Supmuw fact. -/
theorem hazards_only_from_corners (g : WUMPLUS) (M H : Int)
    (hpair : (M, H) = (PERCEPT_SMELL, PERCEPT_WUMPUS) ∨
             (M, H) = (PERCEPT_BREEZE, PERCEPT_PIT) ∨
             (M, H) = (PERCEPT_MOO, PERCEPT_SUPMUW)) :
    (∀ cx cy : Int, kb_found (kb_tell g) H cx cy = true → kb_found g H cx cy = false →
      adjacent ⟨g.x, g.y⟩ ⟨cx, cy⟩ ∧ safe (kb_tell g) cx cy = false ∧
      kb_found (kb_tell g) M g.x g.y = true ∧
      ∃ dx dy : Int, (dx = -1 ∨ dx = 1) ∧ (dy = -1 ∨ dy = 1) ∧
        kb_found (kb_tell g) M (g.x + dx) (g.y + dy) = true ∧
        adjacent ⟨g.x + dx, g.y + dy⟩ ⟨cx, cy⟩) ∧
    (∀ (order : List Row → List Row) (c : Char) (g' : WUMPLUS),
      kb_ask_action order g = .ok (c, g') →
      ∀ a b, kb_found g' H a b = true → kb_found g H a b = true) ∧
    (∀ x y a b, kb_found (set_destination g x y) H a b = true → kb_found g H a b = true) ∧
    (∀ a b, kb_found (remove_destination g) H a b = true → kb_found g H a b = true) ∧
    (∀ (d : Int) (g' : WUMPLUS), action_move g d = .ok g' →
      ∀ a b, kb_found g' H a b = true → kb_found g H a b = true) ∧
    (∀ g' : WUMPLUS, action_grab g = .ok g' →
      ∀ a b, kb_found g' H a b = true → kb_found g H a b = true) := by
  have hH : H ≠ PERCEPT_DESTINATION ∧ H ≠ PERCEPT_BUMP := by
    rcases hpair with h | h | h <;>
      (simp only [Prod.mk.injEq] at h; obtain ⟨rfl, rfl⟩ := h; decide)
  refine ⟨?_, ?_, ?_, ?_, ?_, ?_⟩
  · intro cx cy hnew hold
    rw [kb_tell_hazard_iff g M H hpair] at hnew
    have hx : (kb_tell g).x = g.x := (kb_tell_frame g).1
    have hy : (kb_tell g).y = g.y := (kb_tell_frame g).2.1
    rcases hnew with h | ⟨hM, hc⟩
    · rw [hold] at h
      exact absurd h (by simp)
    · have key : ∀ dx dy : Int, (dx = -1 ∨ dx = 1) → (dy = -1 ∨ dy = 1) →
          corner_adds (kb_tell g) M dx dy cx cy →
          adjacent ⟨g.x, g.y⟩ ⟨cx, cy⟩ ∧ safe (kb_tell g) cx cy = false ∧
          kb_found (kb_tell g) M g.x g.y = true ∧
          ∃ dx dy : Int, (dx = -1 ∨ dx = 1) ∧ (dy = -1 ∨ dy = 1) ∧
            kb_found (kb_tell g) M (g.x + dx) (g.y + dy) = true ∧
            adjacent ⟨g.x + dx, g.y + dy⟩ ⟨cx, cy⟩ := by
        intro dx dy hdx hdy hca
        obtain ⟨q1, q2, q3, q4⟩ := corner_adds_cell (kb_tell g) M dx dy cx cy hdx hdy hca
        rw [hx, hy] at q1 q3 q4
        exact ⟨q1, q2, hM, dx, dy, hdx, hdy, q3, q4⟩
      rcases hc with hc | hc | hc | hc
      · exact key (-1) (-1) (Or.inl rfl) (Or.inl rfl) hc
      · exact key 1 (-1) (Or.inr rfl) (Or.inl rfl) hc
      · exact key (-1) 1 (Or.inl rfl) (Or.inr rfl) hc
      · exact key 1 1 (Or.inr rfl) (Or.inr rfl) hc
  · intro order c g' h a b hf
    rw [kb_ask_action_found order g g' c h H hH.1] at hf
    exact hf
  · intro x y a b hf
    rw [set_destination_found_ne g x y H a b hH.1] at hf
    exact hf
  · intro a b hf
    rw [remove_destination_found_ne g H a b hH.1] at hf
    exact hf
  · intro d g' h a b hf
    obtain ⟨-, -, -, -, hcase⟩ := action_move_spec g g' d h
    rcases hcase with ⟨-, -, -, hkb⟩ | ⟨-, -, -, hdb⟩
    · rw [hkb] at hf
      rcases hf with hf | ⟨-, hb, -⟩
      · exact hf
      · exact absurd hb hH.2
    · rw [kb_found_congr g g' (by rw [hdb])] at hf
      exact hf
  · intro g' h a b hf
    exact (action_grab_spec g g' h).2.2.2.2.1 H a b hf

/-- Witness for C19, the corner example of the specification with the Smell
percept present: `kb_tell` adds the Wumpus fact at (2,3), a neighbour of the
agent's cell (2,2) that is not Safe, next to the diagonal cell (3,3). -/
theorem hazards_only_from_corners_witness :
    kb_found (kb_tell corner_sensed) PERCEPT_WUMPUS 2 3 = true ∧
    kb_found corner_sensed PERCEPT_WUMPUS 2 3 = false ∧
    (adjacent ⟨corner_sensed.x, corner_sensed.y⟩ ⟨2, 3⟩ ∧
      safe (kb_tell corner_sensed) 2 3 = false ∧
      kb_found (kb_tell corner_sensed) PERCEPT_SMELL corner_sensed.x corner_sensed.y = true ∧
      ∃ dx dy : Int, (dx = -1 ∨ dx = 1) ∧ (dy = -1 ∨ dy = 1) ∧
        kb_found (kb_tell corner_sensed) PERCEPT_SMELL (corner_sensed.x + dx)
          (corner_sensed.y + dy) = true ∧
        adjacent ⟨corner_sensed.x + dx, corner_sensed.y + dy⟩ ⟨2, 3⟩) :=
  ⟨by decide!, by decide!,
    (hazards_only_from_corners corner_sensed PERCEPT_SMELL PERCEPT_WUMPUS (Or.inl rfl)).1 2 3
      (by decide!) (by decide!)⟩

/-! ## The Dead percept in `kb_tell` -/

theorem pit_start_eq : init_game true pit_draws = some pit_start :=
  getD_of_isSome (init_game true pit_draws) sample_game (by decide!)

theorem pit_first_eq : process_percepts pit_start = .ok pit_first := by
  unfold pit_first
  cases hp : process_percepts pit_start with
  | ok g => rfl
  | error e =>
    obtain ⟨g', hg'⟩ := process_percepts_total pit_start (by decide!)
    rw [hp] at hg'
    exact absurd hg' (by simp)

theorem pit_fallen_eq : process_player_command pit_first 'e' = .ok (some pit_fallen) := by
  have hmove : process_player_command pit_first 'e' =
      (action_move pit_first DIRECTION_EAST >>= fun k => pure (some k)) := rfl
  obtain ⟨g', hg'⟩ := action_move_total pit_first DIRECTION_EAST (by decide!)
  unfold pit_fallen
  rw [hmove, hg']
  rfl

theorem pit_fallen_play : Play pit_fallen :=
  Play.command _ _ 'e'
    (Play.percepts _ _ (Play.init true pit_draws pit_start pit_start_eq) pit_first_eq)
    pit_fallen_eq

/-- The function `kb_tell` on a state with the Dead percept.  In the game of
the third sample draws the command `e` takes the player east from the start
into the pit at (2,1), and `process_percepts` then raises Dead.  On that
state, with Dead the one percept, `kb_tell` marks the neighbours (3,1) and
(2,2), which were not Safe, as Safe.  In a run in agent mode `kb_tell` is
not handed the Dead percept (see `kb_tell_alive_in_runs`). -/
theorem kb_tell_goes_on_when_dead :
    (Play pit_fallen ∧ pit_fallen.use_agent = true ∧
      pit_fallen.map pit_fallen.x pit_fallen.y = MAP_PIT ∧
      pit_sensed.x = 2 ∧ pit_sensed.y = 1) ∧
    Int.land pit_sensed.percepts PERCEPT_DEAD ≠ 0 ∧
    (safe pit_sensed 3 1 = false ∧ safe (kb_tell pit_sensed) 3 1 = true) ∧
    (safe pit_sensed 2 2 = false ∧ safe (kb_tell pit_sensed) 2 2 = true) :=
  ⟨⟨pit_fallen_play, by decide!, by decide!, by decide!, by decide!⟩, by decide,
    ⟨by decide!, by decide!⟩, ⟨by decide!, by decide!⟩⟩

/-- The function `kb_tell` on any state with the Dead percept: it leaves out
the Safe fact at the agent's own cell and nothing else: it records
the visit, and every fact other than Safe at the agent's cell is found
afterwards exactly when it is found after `kb_tell` on the same state without
the Dead percept, so the Smell, Breeze, Moo and Glitter facts are inserted, the
neighbours are marked Safe and the corner inference runs as they do without
Dead.  The state `h` is `g` with the Dead bit cleared: the same position and
fact table and the same Smell, Breeze, Moo and Glitter bits. -/
theorem kb_tell_dead_skips_only_own_safe (g h : WUMPLUS)
    (hdead : Int.land g.percepts PERCEPT_DEAD ≠ 0)
    (halive : Int.land h.percepts PERCEPT_DEAD = 0)
    (hdb : h.db = g.db) (hx : h.x = g.x) (hy : h.y = g.y)
    (hb : Int.land h.percepts PERCEPT_SMELL = Int.land g.percepts PERCEPT_SMELL ∧
      Int.land h.percepts PERCEPT_BREEZE = Int.land g.percepts PERCEPT_BREEZE ∧
      Int.land h.percepts PERCEPT_MOO = Int.land g.percepts PERCEPT_MOO ∧
      Int.land h.percepts PERCEPT_GLITTER = Int.land g.percepts PERCEPT_GLITTER) :
    visited (kb_tell g) g.x g.y = true ∧
    safe (kb_tell g) g.x g.y = safe g g.x g.y ∧
    safe (kb_tell h) g.x g.y = true ∧
    (∀ s a b : Int, ¬ (s = PERCEPT_SAFE ∧ a = g.x ∧ b = g.y) →
      kb_found (kb_tell g) s a b = kb_found (kb_tell h) s a b) := by
  obtain ⟨hb2, hb4, hb8, hb16⟩ := hb
  have hk : ∀ s a b, kb_found h s a b = kb_found g s a b := fun s a b =>
    kb_found_congr g h (by rw [hdb]) s a b
  have other : ∀ s a b : Int,
      (s ≠ PERCEPT_WUMPUS ∧ s ≠ PERCEPT_PIT ∧ s ≠ PERCEPT_SUPMUW) →
      ¬ (s = PERCEPT_SAFE ∧ a = g.x ∧ b = g.y) →
      kb_found (kb_tell g) s a b = kb_found (kb_tell h) s a b := by
    intro s a b hs hne
    have c1 : ¬ (Int.land g.percepts PERCEPT_DEAD = 0 ∧ s = PERCEPT_SAFE ∧
        a = g.x ∧ b = g.y) := fun q => hdead q.1
    have c2 : ¬ (Int.land h.percepts PERCEPT_DEAD = 0 ∧ s = PERCEPT_SAFE ∧
        a = g.x ∧ b = g.y) := fun q => hne q.2
    rw [Bool.eq_iff_iff, kb_tell_fact_iff g s a b hs, kb_tell_fact_iff h s a b hs,
      hx, hy, hb2, hb4, hb8, hb16, hk]
    simp only [c1, c2, false_or]
  refine ⟨?_, ?_, ?_, ?_⟩
  · rw [visited, kb_tell_fact_iff g _ _ _ (by decide)]
    exact Or.inl (Or.inr (Or.inl ⟨rfl, rfl, rfl⟩))
  · rw [Bool.eq_iff_iff, safe, kb_tell_fact_iff g _ _ _ (by decide)]
    constructor
    · rintro ((q | q | q | q | q | q | q) | ⟨-, -, q⟩)
      · exact q
      · exact absurd q.1 (by decide)
      · exact absurd q.1 hdead
      · exact absurd q.2.1 (by decide)
      · exact absurd q.2.1 (by decide)
      · exact absurd q.2.1 (by decide)
      · exact absurd q.2.1 (by decide)
      · exfalso; omega
    · intro q
      exact Or.inl (Or.inl q)
  · rw [safe, kb_tell_fact_iff h _ _ _ (by decide)]
    exact Or.inl (Or.inr (Or.inr (Or.inl ⟨halive, rfl, hx.symm, hy.symm⟩)))
  · intro s a b hne
    by_cases hs : s ≠ PERCEPT_WUMPUS ∧ s ≠ PERCEPT_PIT ∧ s ≠ PERCEPT_SUPMUW
    · exact other s a b hs hne
    · have hpair : ∃ M, ((M, s) = (PERCEPT_SMELL, PERCEPT_WUMPUS) ∨
          (M, s) = (PERCEPT_BREEZE, PERCEPT_PIT) ∨ (M, s) = (PERCEPT_MOO, PERCEPT_SUPMUW)) ∧
          (M ≠ PERCEPT_WUMPUS ∧ M ≠ PERCEPT_PIT ∧ M ≠ PERCEPT_SUPMUW) ∧ M ≠ PERCEPT_SAFE := by
        by_cases h1 : s = PERCEPT_WUMPUS
        · exact ⟨PERCEPT_SMELL, Or.inl (by rw [h1]), by decide, by decide⟩
        by_cases h2 : s = PERCEPT_PIT
        · exact ⟨PERCEPT_BREEZE, Or.inr (Or.inl (by rw [h2])), by decide, by decide⟩
        by_cases h3 : s = PERCEPT_SUPMUW
        · exact ⟨PERCEPT_MOO, Or.inr (Or.inr (by rw [h3])), by decide, by decide⟩
        exact absurd ⟨h1, h2, h3⟩ hs
      obtain ⟨M, hp, hM, hMs⟩ := hpair
      have xg : (kb_tell g).x = g.x := (kb_tell_frame g).1
      have yg : (kb_tell g).y = g.y := (kb_tell_frame g).2.1
      have xh : (kb_tell h).x = g.x := (kb_tell_frame h).1.trans hx
      have yh : (kb_tell h).y = g.y := (kb_tell_frame h).2.1.trans hy
      have eM : ∀ u v, kb_found (kb_tell g) M u v = kb_found (kb_tell h) M u v :=
        fun u v => other M u v hM (fun q => hMs q.1)
      have eW : ∀ u v, wall (kb_tell g) u v = wall (kb_tell h) u v :=
        fun u v => other _ u v (by decide) (fun q => absurd q.1 (by decide))
      have corner : ∀ dx dy : Int, (dx = -1 ∨ dx = 1) → (dy = -1 ∨ dy = 1) →
          (corner_adds (kb_tell g) M dx dy a b ↔ corner_adds (kb_tell h) M dx dy a b) := by
        intro dx dy hdx hdy
        have s1 : safe (kb_tell g) (g.x + dx) g.y = safe (kb_tell h) (g.x + dx) g.y :=
          other _ _ _ (by decide) (fun q => by
            have := q.2.1
            omega)
        have s2 : safe (kb_tell g) g.x (g.y + dy) = safe (kb_tell h) g.x (g.y + dy) :=
          other _ _ _ (by decide) (fun q => by
            have := q.2.2
            omega)
        unfold corner_adds
        rw [xg, yg, xh, yh, eM, eW, s1, s2]
      rw [Bool.eq_iff_iff, kb_tell_hazard_iff g M s hp, kb_tell_hazard_iff h M s hp,
        hx, hy, hk, eM, corner _ _ (Or.inl rfl) (Or.inl rfl),
        corner _ _ (Or.inr rfl) (Or.inl rfl), corner _ _ (Or.inl rfl) (Or.inr rfl),
        corner _ _ (Or.inr rfl) (Or.inr rfl)]

/-- The player in the pit at (2,1), with the Dead percept and without it: the
Safe fact at (2,1) is left out, the neighbour (3,1) is marked Safe in both. -/
theorem kb_tell_dead_skips_only_own_safe_witness :
    Int.land pit_sensed.percepts PERCEPT_DEAD ≠ 0 ∧
    safe (kb_tell pit_sensed) 2 1 = false ∧ safe (kb_tell pit_unsensed) 2 1 = true ∧
    safe (kb_tell pit_sensed) 3 1 = safe (kb_tell pit_unsensed) 3 1 ∧
    visited (kb_tell pit_sensed) pit_sensed.x pit_sensed.y = true :=
  ⟨by decide, by decide!, by decide!,
    (kb_tell_dead_skips_only_own_safe pit_sensed pit_unsensed (by decide) (by decide) rfl rfl
      rfl ⟨by decide, by decide, by decide, by decide⟩).2.2.2 _ 3 1
      (fun q => absurd q.2.1 (by decide!)),
    (kb_tell_dead_skips_only_own_safe pit_sensed pit_unsensed (by decide) (by decide) rfl rfl
      rfl ⟨by decide, by decide, by decide, by decide⟩).1⟩

/-! ## The record of the search loop -/

theorem map_bind_congr {α β γ : Type} (π : β → γ) (x : Except Err α)
    (f : α → Except Err β) (f' : α → Except Err γ)
    (h : ∀ a, Except.map π (f a) = f' a) : Except.map π (x >>= f) = (x >>= f') := by
  cases x with
  | error e => rfl
  | ok a => exact h a

/-- The search loop with the record goes through the same program states as
the search loop without it. -/
theorem search_loop_log_erase : ∀ (fuel : Nat) (g : WUMPLUS) (M W : Grid) (t : coordinate)
    (e p : List coordinate),
    Except.map Prod.fst (search_loop_log fuel g M W t e p) = search_loop fuel g M W t := by
  intro fuel
  induction fuel with
  | zero =>
    intro g M W t e p
    rw [search_loop_log, search_loop]
    split <;> rfl
  | succ fuel ih =>
    intro g M W t e p
    rw [search_loop_log, search_loop]
    by_cases hq : queue_empty g = true
    · rw [if_pos hq, if_pos hq]
      rfl
    rw [if_neg hq, if_neg hq]
    dsimp only
    by_cases hw : (wall (queue_dequeue g t).2 (queue_dequeue g t).1.x (queue_dequeue g t).1.y ||
        !safe (queue_dequeue g t).2 (queue_dequeue g t).1.x (queue_dequeue g t).1.y) = true
    · rw [if_pos hw, if_pos hw]
      exact ih _ _ _ _ _ _
    rw [if_neg hw, if_neg hw]
    refine map_bind_congr _ _ _ _ (fun m => ?_)
    by_cases hm : m ≠ 0
    · rw [if_pos hm, if_pos hm]
      exact ih _ _ _ _ _ _
    rw [if_neg hm, if_neg hm]
    refine map_bind_congr _ _ _ _ (fun M1 => ?_)
    refine map_bind_congr _ _ _ _ (fun p1 => ?_)
    refine map_bind_congr _ _ _ _ (fun p2 => ?_)
    refine map_bind_congr _ _ _ _ (fun p3 => ?_)
    refine map_bind_congr _ _ _ _ (fun p4 => ?_)
    refine map_bind_congr _ _ _ _ (fun w => ?_)
    refine map_bind_congr _ _ _ _ (fun W1 => ?_)
    refine map_bind_congr _ _ _ _ (fun W2 => ?_)
    refine map_bind_congr _ _ _ _ (fun W3 => ?_)
    refine map_bind_congr _ _ _ _ (fun W4 => ?_)
    exact ih _ _ _ _ _ _

theorem grid_get_ok (a : Grid) (x y v : Int) (h : grid_get a x y = .ok v) :
    in_map x y = true ∧ v = a x y := by
  unfold grid_get at h
  split at h
  · rename_i hin
    exact ⟨hin, (Except.ok.inj h).symm⟩
  · exact absurd h (by simp)

theorem grid_set_value (a a' : Grid) (x y v : Int) (h : grid_set a x y v = .ok a') :
    a' = fun i j => if i = x ∧ j = y then v else a i j := by
  unfold grid_set at h
  split at h
  · exact (Except.ok.inj h).symm
  · exact absurd h (by simp)

theorem possibles_ok (x y : Int) (c : coordinate) (h : possibles x y = .ok c) :
    c = ⟨x, y⟩ := by
  unfold possibles at h
  split at h
  · exact (Except.ok.inj h).symm
  · exact absurd h (by simp)

/-- What the record holds when the loop ends: no cell is listed twice among
the expanded cells, each of them is a cell of the map, and four coordinates
were enqueued for each of them. -/
theorem search_loop_log_record : ∀ (fuel : Nat) (g : WUMPLUS) (M W : Grid) (t : coordinate)
    (e p : List coordinate) (r : WUMPLUS × Grid × Grid × coordinate) (e' p' : List coordinate),
    search_loop_log fuel g M W t e p = .ok (r, e', p') →
    (∀ c ∈ e, M c.x c.y ≠ 0 ∧ in_map c.x c.y = true) → e.Nodup →
    e'.Nodup ∧ (∀ c ∈ e', in_map c.x c.y = true) ∧
      p'.length + 4 * e.length = p.length + 4 * e'.length := by
  intro fuel
  induction fuel with
  | zero =>
    intro g M W t e p r e' p' h hM hn
    rw [search_loop_log] at h
    split at h
    · have h' := Except.ok.inj h
      rw [Prod.mk.injEq, Prod.mk.injEq] at h'
      obtain ⟨-, rfl, rfl⟩ := h'
      exact ⟨hn, fun c hc => (hM c hc).2, rfl⟩
    · exact absurd h (by simp)
  | succ fuel ih =>
    intro g M W t e p r e' p' h hM hn
    rw [search_loop_log] at h
    split at h
    · have h' := Except.ok.inj h
      rw [Prod.mk.injEq, Prod.mk.injEq] at h'
      obtain ⟨-, rfl, rfl⟩ := h'
      exact ⟨hn, fun c hc => (hM c hc).2, rfl⟩
    · dsimp only at h
      split at h
      · exact ih _ _ _ _ _ _ _ _ _ h hM hn
      · obtain ⟨m, hm, h⟩ := bind_ok _ _ _ h
        obtain ⟨hin, rfl⟩ := grid_get_ok _ _ _ _ hm
        clear hm
        split at h
        · exact ih _ _ _ _ _ _ _ _ _ h hM hn
        · rename_i hm0
          obtain ⟨M1, hM1, h⟩ := bind_ok _ _ _ h
          have hM1' := grid_set_value _ _ _ _ _ hM1
          clear hM1
          subst hM1'
          obtain ⟨p1, -, h⟩ := bind_ok _ _ _ h
          obtain ⟨p2, -, h⟩ := bind_ok _ _ _ h
          obtain ⟨p3, -, h⟩ := bind_ok _ _ _ h
          obtain ⟨p4, -, h⟩ := bind_ok _ _ _ h
          obtain ⟨w, -, h⟩ := bind_ok _ _ _ h
          obtain ⟨W1, -, h⟩ := bind_ok _ _ _ h
          obtain ⟨W2, -, h⟩ := bind_ok _ _ _ h
          obtain ⟨W3, -, h⟩ := bind_ok _ _ _ h
          obtain ⟨W4, -, h⟩ := bind_ok _ _ _ h
          have hm0' : M (queue_dequeue g t).1.x (queue_dequeue g t).1.y = 0 := by
            by_contra hne
            exact hm0 hne
          have hnew := ih _ _ _ _ _ _ _ _ _ h (by
            intro c hc
            rw [List.mem_append, List.mem_singleton] at hc
            rcases hc with hc | rfl
            · refine ⟨?_, (hM c hc).2⟩
              dsimp only
              split
              · decide
              · exact (hM c hc).1
            · refine ⟨?_, hin⟩
              dsimp only
              rw [if_pos ⟨rfl, rfl⟩]
              decide) (by
            rw [List.nodup_append]
            refine ⟨hn, List.nodup_singleton _, ?_⟩
            intro c hc hc'
            rw [List.mem_singleton] at hc'
            subst hc'
            exact (hM _ hc).1 hm0')
          clear h
          obtain ⟨q1, q2, q3⟩ := hnew
          refine ⟨q1, q2, ?_⟩
          simp only [List.length_append, List.length_singleton] at q3
          omega

theorem length_le_of_in_map (l : List coordinate) (hn : l.Nodup)
    (h : ∀ c ∈ l, in_map c.x c.y = true) : l.length ≤ 14 * 14 := by
  have hc : l.toFinset.card ≤ (Finset.Icc (0 : Int) 13 ×ˢ Finset.Icc (0 : Int) 13).card := by
    apply Finset.card_le_card_of_injOn (fun c : coordinate => (c.x, c.y))
    · intro c hc
      have := h c (List.mem_toFinset.1 hc)
      rw [in_map_iff] at this
      simp only [Finset.mem_product, Finset.mem_Icc]
      omega
    · intro a _ b _ hab
      simp only [Prod.mk.injEq] at hab
      cases a
      cases b
      simp only at hab
      rw [hab.1, hab.2]
  rw [List.toFinset_card_of_nodup hn] at hc
  simpa using hc

/-! ## Claim on the termination of the search -/

/-- C17: with an empty queue table on entry, all border cells known walls and
the destination in the map, the search loop of `shortest_path` ends within
`1 + 4 * 14 * 14` turns; the loop with the record goes through the same
states; no cell is expanded, that is marked and its four neighbours enqueued,
more than once; and the coordinates enqueued are the destination and four for
each expanded cell, at most `1 + 4 * MAP_SIZE * MAP_SIZE` in all. -/
theorem search_terminates_and_expands_once (g : WUMPLUS) (hq : g.db.queue = [])
    (hper : perimeter_walls g) (hin : in_map g.dest_x g.dest_y = true) :
    ∃ (W : Grid) (expanded pushed : List coordinate),
      search_weights_log search_fuel g = .ok ((set_queue g [], W), expanded, pushed) ∧
      search_weights search_fuel g = .ok (set_queue g [], W) ∧
      expanded.Nodup ∧ (∀ c ∈ expanded, in_map c.x c.y = true) ∧
      pushed.length = 1 + 4 * expanded.length ∧
      (pushed.length : Int) ≤ 1 + 4 * MAP_SIZE * MAP_SIZE := by
  obtain ⟨M', W', t', hrun, -⟩ := search_loop_correct g hper ⟨g.dest_x, g.dest_y⟩
    search_fuel [⟨g.dest_x, g.dest_y⟩] (fun _ _ => 0)
    (fun i j => if i = g.dest_x ∧ j = g.dest_y then 1 else 0) ⟨-1, -1⟩ 1
    (search_inv_init g ⟨g.dest_x, g.dest_y⟩ hin)
    (by rw [unmarked_init]; unfold search_fuel; simp)
  have her := search_loop_log_erase search_fuel (set_queue g [⟨g.dest_x, g.dest_y⟩])
    (fun _ _ => 0) (fun i j => if i = g.dest_x ∧ j = g.dest_y then 1 else 0) ⟨-1, -1⟩
    [] [⟨g.dest_x, g.dest_y⟩]
  rw [hrun] at her
  cases hlog : search_loop_log search_fuel (set_queue g [⟨g.dest_x, g.dest_y⟩])
      (fun _ _ => 0) (fun i j => if i = g.dest_x ∧ j = g.dest_y then 1 else 0) ⟨-1, -1⟩
      [] [⟨g.dest_x, g.dest_y⟩] with
  | error e =>
    rw [hlog] at her
    exact absurd her (by simp [Except.map])
  | ok x =>
    rw [hlog] at her
    have hx1 : x.1 = (set_queue g [], M', W', t') := Except.ok.inj her
    clear her
    obtain ⟨r, e', p'⟩ := x
    simp only at hx1
    subst hx1
    obtain ⟨q1, q2, q3⟩ := search_loop_log_record _ _ _ _ _ _ _ _ _ _ hlog
      (fun c hc => absurd hc (List.not_mem_nil _)) List.nodup_nil
    have hs : search_weights search_fuel g = .ok (set_queue g [], W') := by
      unfold search_weights
      dsimp only
      rw [grid_set_of_in_map _ _ _ _ hin, possibles_of_in_map _ _ hin]
      simp only [bind, Except.bind]
      rw [queue_enqueue_eq, hq, List.nil_append, hrun]
      rfl
    have hl : search_weights_log search_fuel g = .ok ((set_queue g [], W'), e', p') := by
      unfold search_weights_log
      dsimp only
      rw [grid_set_of_in_map _ _ _ _ hin, possibles_of_in_map _ _ hin]
      simp only [bind, Except.bind]
      rw [queue_enqueue_eq, hq, List.nil_append, hlog]
      rfl
    have hlen := length_le_of_in_map e' q1 q2
    simp only [List.length_nil, List.length_singleton, Nat.mul_zero, Nat.add_zero] at q3
    refine ⟨W', e', p', hl, hs, q1, q2, by omega, ?_⟩
    unfold MAP_SIZE
    omega

/-- Witness for C17: the open room, with the destination (3,3). -/
theorem search_terminates_and_expands_once_witness :
    room_game.db.queue = [] ∧ in_map room_game.dest_x room_game.dest_y = true ∧
    ∃ (W : Grid) (expanded pushed : List coordinate),
      search_weights_log search_fuel room_game =
        .ok ((set_queue room_game [], W), expanded, pushed) ∧
      search_weights search_fuel room_game = .ok (set_queue room_game [], W) ∧
      expanded.Nodup ∧ (∀ c ∈ expanded, in_map c.x c.y = true) ∧
      pushed.length = 1 + 4 * expanded.length ∧
      (pushed.length : Int) ≤ 1 + 4 * MAP_SIZE * MAP_SIZE :=
  ⟨rfl, by decide,
    search_terminates_and_expands_once room_game rfl room_game_perimeter (by decide)⟩

/-! ## Claim on the actions that the agent chooses -/

/-- C13: whenever `kb_ask_action` returns, the character is one of the ten
actions `n`, `s`, `e`, `w`, `N`, `S`, `E`, `W`, `g`, `q`, so never the `Q`
that `relative_direction` could give for a cell off the player's row and
column, and a `q` it returns is the quit of its last line, with the agent at
the start.  And it does return, for an agent on an interior cell, in a state
as the game keeps it: the queue table empty, the border cells known walls and
the Safe facts on cells of the map; so it returns an action in every state of
a game in agent mode.  The Safe rows are enumerated in an order that is a
rearrangement. -/
theorem kb_ask_action_returns_action (order : List Row → List Row)
    (hord : ∀ l, (order l).Perm l) (g : WUMPLUS) :
    (∀ c g', kb_ask_action order g = .ok (c, g') →
      is_action c ∧ (c = 'q' → g' = check_destination g ∧ g.x = 1 ∧ g.y = 1)) ∧
    ((1 ≤ g.x ∧ g.x ≤ MAP_SIZE - 2 ∧ 1 ≤ g.y ∧ g.y ≤ MAP_SIZE - 2) →
      g.db.queue = [] → perimeter_walls g →
      (∀ x y, safe g x y = true → in_map x y = true) →
      ∃ c g', kb_ask_action order g = .ok (c, g') ∧ is_action c) ∧
    (Play g → g.use_agent = true →
      ∃ c g', kb_ask_action order g = .ok (c, g') ∧ is_action c) := by
  refine ⟨fun c g' h => kb_ask_action_char order g g' c h, ?_, ?_⟩
  · intro hint hq hper hsafe
    obtain ⟨c, g', h⟩ := kb_ask_action_total order hord g hint hq hper hsafe
    exact ⟨c, g', h, (kb_ask_action_char order g g' c h).1⟩
  · intro hp hu
    obtain ⟨⟨hint, -, -⟩, hag⟩ := play_inv g hp
    obtain ⟨hg, hq, hper, -⟩ := hag hu
    obtain ⟨c, g', h⟩ := kb_ask_action_total order hord g hint hq hper
      (fun x y hs => (hg.2.2.2.1 x y hs).1)
    exact ⟨c, g', h, (kb_ask_action_char order g g' c h).1⟩

/-- Witness for C13: the agent at (1,1) of the open room, with the destination
(3,3) in force, and the sample game after the first percepts: each is given
an action. -/
theorem kb_ask_action_returns_action_witness :
    (∃ c g', kb_ask_action id room_game = .ok (c, g') ∧ is_action c) ∧
    (∃ c g', kb_ask_action id demo_first = .ok (c, g') ∧ is_action c) :=
  ⟨(kb_ask_action_returns_action id (fun _ => List.Perm.refl _) room_game).2.1
      (by decide) rfl room_game_perimeter (safe_in_map_of_all room_game (by decide!)),
    (kb_ask_action_returns_action id (fun _ => List.Perm.refl _) demo_first).2.2
      demo_first_play (by decide!)⟩

/-- Claim C30: `neighbors` does not tell whether two squares are neighbours.
For the vertically adjacent squares (1,1) and (1,2), whose coordinate delta is
one, it returns 0; over all integer coordinates it returns 1 exactly for the
pairs that differ by one in x and not at all in y. -/
theorem neighbors_rejects_vertical_pairs :
    neighbors 1 1 1 2 = 0 ∧
    ((Int.natAbs (1 - 1) : Int) + (Int.natAbs (2 - 1) : Int) = 1) ∧
    (∀ x1 y1 x2 y2 : Int, neighbors x1 y1 x2 y2 = 1 ↔
      ((Int.natAbs (x2 - x1) : Int) = 1 ∧ y2 = y1)) ∧
    (∀ x1 y1 x2 y2 : Int, neighbors x1 y1 x2 y2 = 0 ∨ neighbors x1 y1 x2 y2 = 1) ∧
    (∀ x y : Int, neighbors x y x (y + 1) = 0 ∧ neighbors x y x (y - 1) = 0 ∧
      neighbors x y (x + 1) y = 1 ∧ neighbors x y (x - 1) y = 1) := by
  refine ⟨by decide, by decide, ?_, ?_, ?_⟩
  · intro x1 y1 x2 y2
    unfold neighbors
    dsimp only
    split <;> omega
  · intro x1 y1 x2 y2
    unfold neighbors
    dsimp only
    split <;> simp
  · intro x y
    unfold neighbors
    dsimp only
    refine ⟨?_, ?_, ?_, ?_⟩ <;> split <;> omega

/-! ## The commands of the player -/

/-- The direction character of each of the four neighbour cells. -/
theorem relative_direction_of_neighbour (g : WUMPLUS) (n : coordinate)
    (hn : n ∈ neighbours ⟨g.x, g.y⟩) :
    (n = ⟨g.x - 1, g.y⟩ ∧ relative_direction g n.x n.y = 'w') ∨
    (n = ⟨g.x + 1, g.y⟩ ∧ relative_direction g n.x n.y = 'e') ∨
    (n = ⟨g.x, g.y - 1⟩ ∧ relative_direction g n.x n.y = 'n') ∨
    (n = ⟨g.x, g.y + 1⟩ ∧ relative_direction g n.x n.y = 's') := by
  unfold neighbours at hn
  simp only [List.mem_cons, List.mem_singleton, List.not_mem_nil, or_false] at hn
  unfold relative_direction
  rcases hn with rfl | rfl | rfl | rfl
  · have h1 : ¬ (g.x - 1 = g.x) := by omega
    have h2 : ¬ (g.x < g.x - 1) := by omega
    exact Or.inl ⟨rfl, by simp only [h1, h2, if_false, if_true]⟩
  · have h1 : ¬ (g.x + 1 = g.x) := by omega
    have h2 : g.x < g.x + 1 := by omega
    exact Or.inr (Or.inl ⟨rfl, by simp only [h1, h2, if_false, if_true]⟩)
  · have h2 : ¬ (g.y < g.y - 1) := by omega
    exact Or.inr (Or.inr (Or.inl ⟨rfl, by simp only [h2, if_false, if_true]⟩))
  · have h2 : g.y < g.y + 1 := by omega
    exact Or.inr (Or.inr (Or.inr ⟨rfl, by simp only [h2, if_true]⟩))

/-- The lower-case direction character of a neighbour cell makes
`process_player_command` call `action_move` with the direction of that cell,
and the upper-case one makes it call `action_shoot` with it. -/
theorem command_of_neighbour (g : WUMPLUS) (n : coordinate)
    (hn : n ∈ neighbours ⟨g.x, g.y⟩) :
    ∃ d, (delta_coordinates g.x g.y d).1 = n ∧
      process_player_command g (relative_direction g n.x n.y) =
        (action_move g d >>= fun k => pure (some k)) ∧
      process_player_command g (upper_case (relative_direction g n.x n.y)) =
        (action_shoot g d >>= fun k => pure (some k)) ∧
      shoot_direction (upper_case (relative_direction g n.x n.y)) = some d := by
  obtain ⟨u1, u2, u3, u4, -⟩ := upper_case_values
  rcases relative_direction_of_neighbour g n hn with ⟨rfl, e⟩ | ⟨rfl, e⟩ | ⟨rfl, e⟩ | ⟨rfl, e⟩
  · rw [e, u4]
    exact ⟨DIRECTION_WEST, rfl, rfl, rfl, rfl⟩
  · rw [e, u3]
    exact ⟨DIRECTION_EAST, rfl, rfl, rfl, rfl⟩
  · rw [e, u1]
    exact ⟨DIRECTION_NORTH, rfl, rfl, rfl, rfl⟩
  · rw [e, u2]
    exact ⟨DIRECTION_SOUTH, rfl, rfl, rfl, rfl⟩

/-- The Bump bit is set in a percept word into which it has been or-ed. -/
theorem land_lor_bump (p : Int) : Int.land (Int.lor p PERCEPT_BUMP) PERCEPT_BUMP ≠ 0 := by
  intro h
  have h1 := congrArg (fun z => Int.testBit z 0) h
  have a : Int.testBit PERCEPT_BUMP 0 = true := by decide
  have b : Int.testBit 0 0 = false := by decide
  simp only [Int.testBit_land, Int.testBit_lor, a, b, Bool.or_true, Bool.and_true] at h1
  exact Bool.noConfusion h1

/-- What `action_move` returns, written out, for a target cell in the map. -/
theorem action_move_eq (g : WUMPLUS) (d : Int)
    (hin : in_map (delta_coordinates g.x g.y d).1.x (delta_coordinates g.x g.y d).1.y = true) :
    action_move g d = .ok
      (if g.map (delta_coordinates g.x g.y d).1.x (delta_coordinates g.x g.y d).1.y = MAP_WALL
       then
        (if g.use_agent = true then
          kb_insert { g with score := g.score + SCORE_MOVE, steps_taken := g.steps_taken + 1,
                             percepts := Int.lor g.percepts PERCEPT_BUMP }
            PERCEPT_BUMP (delta_coordinates g.x g.y d).1.x (delta_coordinates g.x g.y d).1.y
         else { g with score := g.score + SCORE_MOVE, steps_taken := g.steps_taken + 1,
                       percepts := Int.lor g.percepts PERCEPT_BUMP })
       else
        (if g.map (delta_coordinates g.x g.y d).1.x (delta_coordinates g.x g.y d).1.y
              = MAP_SUPMUW ∧ g.has_food = false ∧ g.supmuw_neighbors_wumpus = false then
          { g with score := g.score + SCORE_MOVE + SCORE_FOOD,
                   steps_taken := g.steps_taken + 1, has_food := true,
                   x := (delta_coordinates g.x g.y d).1.x,
                   y := (delta_coordinates g.x g.y d).1.y }
         else
          { g with score := g.score + SCORE_MOVE, steps_taken := g.steps_taken + 1,
                   x := (delta_coordinates g.x g.y d).1.x,
                   y := (delta_coordinates g.x g.y d).1.y })) := by
  unfold action_move
  dsimp only [add_score]
  have hm : map_get { g with score := g.score + SCORE_MOVE, steps_taken := g.steps_taken + 1 }
      (delta_coordinates g.x g.y d).1.x (delta_coordinates g.x g.y d).1.y =
      .ok (g.map (delta_coordinates g.x g.y d).1.x (delta_coordinates g.x g.y d).1.y) :=
    map_get_of_in_map _ _ _ hin
  rw [hm, bind_of_ok]
  by_cases hw : g.map (delta_coordinates g.x g.y d).1.x (delta_coordinates g.x g.y d).1.y
      = MAP_WALL
  · rw [if_pos hw, if_pos hw]
    rfl
  · rw [if_neg hw, if_neg hw]
    by_cases hf : g.map (delta_coordinates g.x g.y d).1.x (delta_coordinates g.x g.y d).1.y
        = MAP_SUPMUW ∧ g.has_food = false ∧ g.supmuw_neighbors_wumpus = false
    · rw [if_pos hf, if_pos hf]
      rfl
    · rw [if_neg hf, if_neg hf]
      rfl

/-- What `action_shoot` returns, written out, for a target cell in the map. -/
theorem action_shoot_eq (g : WUMPLUS) (d : Int)
    (hin : in_map (delta_coordinates g.x g.y d).1.x (delta_coordinates g.x g.y d).1.y = true) :
    action_shoot g d = .ok
      (if g.arrows = 0 then g
       else if g.map (delta_coordinates g.x g.y d).1.x (delta_coordinates g.x g.y d).1.y
            = MAP_WUMPUS ∨
          g.map (delta_coordinates g.x g.y d).1.x (delta_coordinates g.x g.y d).1.y
            = MAP_SUPMUW then
        (if g.use_agent = true then
          kb_delete (kb_delete (kb_delete (kb_delete (kb_delete (kb_delete
            { g with score := g.score + SCORE_SHOOT + SCORE_KILL, arrows := g.arrows - 1,
                     supmuw_neighbors_wumpus := false,
                     map := fun i j =>
                       if i = (delta_coordinates g.x g.y d).1.x ∧
                          j = (delta_coordinates g.x g.y d).1.y then MAP_EMPTY
                       else g.map i j }
            PERCEPT_WUMPUS (delta_coordinates g.x g.y d).1.x (delta_coordinates g.x g.y d).1.y)
            PERCEPT_SUPMUW (delta_coordinates g.x g.y d).1.x (delta_coordinates g.x g.y d).1.y)
            PERCEPT_SMELL ((delta_coordinates g.x g.y d).1.x - 1)
              (delta_coordinates g.x g.y d).1.y)
            PERCEPT_SMELL ((delta_coordinates g.x g.y d).1.x + 1)
              (delta_coordinates g.x g.y d).1.y)
            PERCEPT_SMELL (delta_coordinates g.x g.y d).1.x
              ((delta_coordinates g.x g.y d).1.y - 1))
            PERCEPT_SMELL (delta_coordinates g.x g.y d).1.x
              ((delta_coordinates g.x g.y d).1.y + 1)
         else
          { g with score := g.score + SCORE_SHOOT + SCORE_KILL, arrows := g.arrows - 1,
                   supmuw_neighbors_wumpus := false,
                   map := fun i j =>
                     if i = (delta_coordinates g.x g.y d).1.x ∧
                        j = (delta_coordinates g.x g.y d).1.y then MAP_EMPTY
                     else g.map i j })
       else { g with score := g.score + SCORE_SHOOT, arrows := g.arrows - 1 }) := by
  unfold action_shoot
  by_cases ha : g.arrows = 0
  · rw [if_pos ha, if_pos ha]
    rfl
  · rw [if_neg ha, if_neg ha]
    dsimp only [add_score]
    have hm : map_get { g with score := g.score + SCORE_SHOOT, arrows := g.arrows - 1 }
        (delta_coordinates g.x g.y d).1.x (delta_coordinates g.x g.y d).1.y =
        .ok (g.map (delta_coordinates g.x g.y d).1.x (delta_coordinates g.x g.y d).1.y) :=
      map_get_of_in_map _ _ _ hin
    rw [hm, bind_of_ok]
    by_cases hk : g.map (delta_coordinates g.x g.y d).1.x (delta_coordinates g.x g.y d).1.y
        = MAP_WUMPUS ∨
        g.map (delta_coordinates g.x g.y d).1.x (delta_coordinates g.x g.y d).1.y = MAP_SUPMUW
    · rw [if_pos hk, if_pos hk]
      dsimp only [map_set]
      by_cases hu : g.use_agent = true
      · rw [if_pos hu, if_pos hu]
        rfl
      · rw [if_neg hu, if_neg hu]
        rfl
    · rw [if_neg hk, if_neg hk]
      rfl

theorem six_deletes (S2 S64 S128 X Y Xp Xm Yp Ym F : Prop) :
    (¬ (S2 ∧ X ∧ Yp) ∧ (¬ (S2 ∧ X ∧ Ym) ∧ (¬ (S2 ∧ Xp ∧ Y) ∧ (¬ (S2 ∧ Xm ∧ Y) ∧
      (¬ (S128 ∧ X ∧ Y) ∧ (¬ (S64 ∧ X ∧ Y) ∧ F)))))) ↔
    (F ∧ ¬ ((S64 ∨ S128) ∧ X ∧ Y) ∧
      ¬ (S2 ∧ ((X ∧ (Yp ∨ Ym)) ∨ (Y ∧ (Xp ∨ Xm))))) := by
  by_cases hF : F <;> by_cases hS : S2 <;> by_cases hX : X <;> by_cases hY : Y <;>
    simp only [hF, hS, hX, hY, true_and, false_and, and_true, and_false, not_true_eq_false,
      not_false_eq_true, or_false, false_or, true_or, or_true] <;> tauto

theorem kb_delete_arrows (g : WUMPLUS) (s x y : Int) :
    (kb_delete g s x y).arrows = g.arrows := by
  unfold kb_delete; split <;> rfl

theorem kb_insert_arrows (g : WUMPLUS) (s x y : Int) :
    (kb_insert g s x y).arrows = g.arrows := by
  unfold kb_insert; split <;> rfl

/-- Claim C24: in agent mode, for a target cell `t` in the map, `action_shoot`
with an arrow count other than 0 returns with one arrow less; when `t` holds
the wumpus or the supmuw, the facts afterwards are the facts before without
the Wumpus and Supmuw facts at `t` and without the Smell facts at the four
orthogonal neighbours of `t`; when `t` holds neither, the fact store is the
same; and with no arrow the call returns the game as it was. -/
theorem action_shoot_deletes_facts (g : WUMPLUS) (d : Int) (hu : g.use_agent = true)
    (hin : in_map (delta_coordinates g.x g.y d).1.x (delta_coordinates g.x g.y d).1.y = true) :
    (g.arrows ≠ 0 → ∃ g', action_shoot g d = .ok g' ∧ g'.arrows = g.arrows - 1 ∧
      ((g.map (delta_coordinates g.x g.y d).1.x (delta_coordinates g.x g.y d).1.y = MAP_WUMPUS ∨
        g.map (delta_coordinates g.x g.y d).1.x (delta_coordinates g.x g.y d).1.y = MAP_SUPMUW) →
        ∀ s x y, kb_found g' s x y = true ↔
          (kb_found g s x y = true ∧
            ¬ ((s = PERCEPT_WUMPUS ∨ s = PERCEPT_SUPMUW) ∧
              x = (delta_coordinates g.x g.y d).1.x ∧ y = (delta_coordinates g.x g.y d).1.y) ∧
            ¬ (s = PERCEPT_SMELL ∧ adjacent (delta_coordinates g.x g.y d).1 ⟨x, y⟩))) ∧
      (¬ (g.map (delta_coordinates g.x g.y d).1.x (delta_coordinates g.x g.y d).1.y = MAP_WUMPUS ∨
        g.map (delta_coordinates g.x g.y d).1.x (delta_coordinates g.x g.y d).1.y = MAP_SUPMUW) →
        g'.db = g.db)) ∧
    (g.arrows = 0 → action_shoot g d = .ok g) := by
  have he := action_shoot_eq g d hin
  constructor
  · intro ha
    rw [if_neg ha] at he
    by_cases hk : g.map (delta_coordinates g.x g.y d).1.x (delta_coordinates g.x g.y d).1.y
        = MAP_WUMPUS ∨
        g.map (delta_coordinates g.x g.y d).1.x (delta_coordinates g.x g.y d).1.y = MAP_SUPMUW
    · rw [if_pos hk, if_pos hu] at he
      refine ⟨_, he, ?_, fun _ s x y => ?_, fun hn => absurd hk hn⟩
      · simp only [kb_delete_arrows]
      · rw [kb_found_delete, kb_found_delete, kb_found_delete, kb_found_delete,
          kb_found_delete, kb_found_delete]
        unfold adjacent kb_found
        dsimp only
        exact six_deletes _ _ _ _ _ _ _ _ _ _
    · rw [if_neg hk] at he
      exact ⟨_, he, rfl, fun hk' => absurd hk' hk, fun _ => rfl⟩
  · intro ha
    rw [if_pos ha] at he
    exact he

theorem action_shoot_deletes_facts_witness :
    hunt_game.use_agent = true ∧
    in_map (delta_coordinates hunt_game.x hunt_game.y DIRECTION_SOUTH).1.x
      (delta_coordinates hunt_game.x hunt_game.y DIRECTION_SOUTH).1.y = true ∧
    hunt_game.arrows ≠ 0 ∧
    (delta_coordinates hunt_game.x hunt_game.y DIRECTION_SOUTH).1 = ⟨2, 3⟩ ∧
    hunt_game.map 2 3 = MAP_WUMPUS ∧
    (∃ g', action_shoot hunt_game DIRECTION_SOUTH = .ok g' ∧ g'.arrows = 0 ∧
      kb_found hunt_game PERCEPT_WUMPUS 2 3 = true ∧
      ¬ (kb_found g' PERCEPT_WUMPUS 2 3 = true) ∧
      kb_found hunt_game PERCEPT_SMELL 2 2 = true ∧
      ¬ (kb_found g' PERCEPT_SMELL 2 2 = true) ∧
      kb_found g' PERCEPT_SAFE 2 2 = true) := by
  refine ⟨rfl, by decide, by decide, by decide, by decide, ?_⟩
  obtain ⟨g', h1, h2, h3, -⟩ :=
    (action_shoot_deletes_facts hunt_game DIRECTION_SOUTH rfl (by decide)).1 (by decide)
  have h4 := h3 (Or.inl (by decide))
  refine ⟨g', h1, h2, by decide, ?_, by decide, ?_, ?_⟩
  · intro hf
    exact ((h4 _ _ _).1 hf).2.1 ⟨Or.inl rfl, by decide, by decide⟩
  · intro hf
    exact ((h4 _ _ _).1 hf).2.2 ⟨rfl, by unfold adjacent; decide⟩
  · exact (h4 _ _ _).2 ⟨by decide, fun h => absurd h.1 (by decide),
      fun h => absurd h.1 (by decide)⟩

/-- Claim C25: for a target cell in the map, `action_move` returns and counts
one step.  Into a map wall the position stays, the Bump percept is set, the
score goes down by one and, in agent mode, the facts afterwards are the facts
before and the Bump fact at the wall cell (outside agent mode the store is the
same).  Into any other cell the position becomes that cell, the percepts and
the fact store are the same, and the score goes down by one, with the price of
the supmuw's food added when the cell holds the supmuw that gives food. -/
theorem action_move_wall_or_step (g : WUMPLUS) (d : Int)
    (hin : in_map (delta_coordinates g.x g.y d).1.x (delta_coordinates g.x g.y d).1.y = true) :
    ∃ g', action_move g d = .ok g' ∧ g'.steps_taken = g.steps_taken + 1 ∧
      (g.map (delta_coordinates g.x g.y d).1.x (delta_coordinates g.x g.y d).1.y = MAP_WALL →
        g'.x = g.x ∧ g'.y = g.y ∧ Int.land g'.percepts PERCEPT_BUMP ≠ 0 ∧
        g'.score = g.score - 1 ∧
        (g.use_agent = true → ∀ s x y, kb_found g' s x y = true ↔
          (kb_found g s x y = true ∨
            (s = PERCEPT_BUMP ∧ x = (delta_coordinates g.x g.y d).1.x ∧
              y = (delta_coordinates g.x g.y d).1.y))) ∧
        (g.use_agent = false → g'.db = g.db)) ∧
      (g.map (delta_coordinates g.x g.y d).1.x (delta_coordinates g.x g.y d).1.y ≠ MAP_WALL →
        g'.x = (delta_coordinates g.x g.y d).1.x ∧ g'.y = (delta_coordinates g.x g.y d).1.y ∧
        g'.percepts = g.percepts ∧ g'.db = g.db ∧
        g'.score = g.score - 1 +
          (if g.map (delta_coordinates g.x g.y d).1.x (delta_coordinates g.x g.y d).1.y
              = MAP_SUPMUW ∧ g.has_food = false ∧ g.supmuw_neighbors_wumpus = false
           then SCORE_FOOD else 0)) := by
  have he := action_move_eq g d hin
  by_cases hw : g.map (delta_coordinates g.x g.y d).1.x (delta_coordinates g.x g.y d).1.y
      = MAP_WALL
  · rw [if_pos hw] at he
    by_cases hu : g.use_agent = true
    · rw [if_pos hu] at he
      refine ⟨_, he, ?_, fun _ => ⟨?_, ?_, ?_, ?_, fun _ s x y => ?_, fun hf => ?_⟩,
        fun hn => absurd hw hn⟩
      · unfold kb_insert; split <;> rfl
      · rw [kb_insert_x]
      · rw [kb_insert_y]
      · rw [kb_insert_percepts]
        exact land_lor_bump g.percepts
      · unfold kb_insert; split <;> rfl
      · rw [kb_found_insert]
        unfold kb_found
        dsimp only
        exact or_comm
      · rw [hu] at hf
        exact Bool.noConfusion hf
    · rw [if_neg hu] at he
      refine ⟨_, he, rfl, fun _ => ⟨rfl, rfl, land_lor_bump g.percepts, rfl,
        fun hu' => absurd hu' hu, fun _ => rfl⟩, fun hn => absurd hw hn⟩
  · rw [if_neg hw] at he
    by_cases hf : g.map (delta_coordinates g.x g.y d).1.x (delta_coordinates g.x g.y d).1.y
        = MAP_SUPMUW ∧ g.has_food = false ∧ g.supmuw_neighbors_wumpus = false
    · rw [if_pos hf] at he
      refine ⟨_, he, rfl, fun hw' => absurd hw' hw, fun _ => ⟨rfl, rfl, rfl, rfl, ?_⟩⟩
      rw [if_pos hf]
      show g.score + SCORE_MOVE + SCORE_FOOD = g.score - 1 + SCORE_FOOD
      unfold SCORE_MOVE
      omega
    · rw [if_neg hf] at he
      refine ⟨_, he, rfl, fun hw' => absurd hw' hw, fun _ => ⟨rfl, rfl, rfl, rfl, ?_⟩⟩
      rw [if_neg hf]
      show g.score + SCORE_MOVE = g.score - 1 + 0
      unfold SCORE_MOVE
      omega

theorem action_move_wall_or_step_witness :
    in_map (delta_coordinates wall_first.x wall_first.y DIRECTION_EAST).1.x
      (delta_coordinates wall_first.x wall_first.y DIRECTION_EAST).1.y = true ∧
    wall_first.map (delta_coordinates wall_first.x wall_first.y DIRECTION_EAST).1.x
      (delta_coordinates wall_first.x wall_first.y DIRECTION_EAST).1.y = MAP_WALL ∧
    (∃ g', action_move wall_first DIRECTION_EAST = .ok g' ∧
      g'.steps_taken = wall_first.steps_taken + 1 ∧
      g'.x = wall_first.x ∧ g'.y = wall_first.y ∧ Int.land g'.percepts PERCEPT_BUMP ≠ 0 ∧
      g'.score = wall_first.score - 1) := by
  have hw : wall_first.map (delta_coordinates wall_first.x wall_first.y DIRECTION_EAST).1.x
      (delta_coordinates wall_first.x wall_first.y DIRECTION_EAST).1.y = MAP_WALL := by
    decide!
  refine ⟨by decide!, hw, ?_⟩
  obtain ⟨g', h1, h2, h3, -⟩ := action_move_wall_or_step wall_first DIRECTION_EAST (by decide!)
  obtain ⟨h4, h5, h6, h7, -⟩ := h3 hw
  exact ⟨g', h1, h2, h4, h5, h6, h7⟩

/-- Claim C29: for a player whose neighbour cell `c` is in the map and is no
wall of the map, the command character that `relative_direction` gives for
`c` moves the player to `c`, and that character minus 32, its upper-case
form, is a shoot command whose target cell is `c`: the shot returns with the
player where it was, and with an arrow and the wumpus or the supmuw on `c` it
empties the cell `c` of the map and no other cell. -/
theorem direction_characters_round_trip (g : WUMPLUS) (c : coordinate)
    (hc : c ∈ neighbours ⟨g.x, g.y⟩) (hin : in_map c.x c.y = true)
    (hw : g.map c.x c.y ≠ MAP_WALL) :
    (∃ g', process_player_command g (relative_direction g c.x c.y) = .ok (some g') ∧
      g'.x = c.x ∧ g'.y = c.y) ∧
    (∃ d g', shoot_direction (upper_case (relative_direction g c.x c.y)) = some d ∧
      (delta_coordinates g.x g.y d).1 = c ∧ action_shoot g d = .ok g' ∧
      process_player_command g (upper_case (relative_direction g c.x c.y)) = .ok (some g') ∧
      g'.x = g.x ∧ g'.y = g.y ∧
      (g.arrows ≠ 0 → (g.map c.x c.y = MAP_WUMPUS ∨ g.map c.x c.y = MAP_SUPMUW) →
        g'.map = fun i j => if i = c.x ∧ j = c.y then MAP_EMPTY else g.map i j)) ∧
    upper_case (relative_direction g c.x c.y) =
      Char.ofNat ((relative_direction g c.x c.y).toNat - 32) := by
  obtain ⟨d, hd, hm, hs, hsd⟩ := command_of_neighbour g c hc
  have hin' : in_map (delta_coordinates g.x g.y d).1.x (delta_coordinates g.x g.y d).1.y
      = true := by rw [hd]; exact hin
  have hw' : g.map (delta_coordinates g.x g.y d).1.x (delta_coordinates g.x g.y d).1.y
      ≠ MAP_WALL := by rw [hd]; exact hw
  refine ⟨?_, ?_, rfl⟩
  · have he := action_move_eq g d hin'
    rw [if_neg hw'] at he
    rw [hm, he, bind_of_ok]
    refine ⟨_, rfl, ?_, ?_⟩
    · rw [← hd]
      split <;> rfl
    · rw [← hd]
      split <;> rfl
  · have he := action_shoot_eq g d hin'
    obtain ⟨-, hx, hy, -, -⟩ := action_shoot_spec g _ d he
    rw [hs, he, bind_of_ok]
    refine ⟨d, _, hsd, hd, he, rfl, hx, hy, fun ha hk => ?_⟩
    have hk' : g.map (delta_coordinates g.x g.y d).1.x (delta_coordinates g.x g.y d).1.y
        = MAP_WUMPUS ∨
        g.map (delta_coordinates g.x g.y d).1.x (delta_coordinates g.x g.y d).1.y
        = MAP_SUPMUW := by rw [hd]; exact hk
    rw [if_neg ha, if_pos hk', ← hd]
    split
    · simp only [kb_delete_map]
    · rfl

theorem direction_characters_round_trip_witness :
    (⟨2, 3⟩ : coordinate) ∈ neighbours ⟨hunt_game.x, hunt_game.y⟩ ∧
    in_map 2 3 = true ∧ hunt_game.map 2 3 ≠ MAP_WALL ∧
    relative_direction hunt_game 2 3 = 's' ∧
    (∃ g', process_player_command hunt_game 's' = .ok (some g') ∧ g'.x = 2 ∧ g'.y = 3) ∧
    (∃ d g', shoot_direction 'S' = some d ∧
      (delta_coordinates hunt_game.x hunt_game.y d).1 = ⟨2, 3⟩ ∧
      action_shoot hunt_game d = .ok g' ∧
      process_player_command hunt_game 'S' = .ok (some g')) := by
  have hc : (⟨2, 3⟩ : coordinate) ∈ neighbours ⟨hunt_game.x, hunt_game.y⟩ := by decide
  have hw : hunt_game.map 2 3 ≠ MAP_WALL := by decide
  have e : relative_direction hunt_game 2 3 = 's' := by decide
  have u : upper_case 's' = 'S' := upper_case_values.2.1
  have hin : in_map 2 3 = true := by decide
  obtain ⟨h1, ⟨d, g', h2, h3, h4, h5, -⟩, -⟩ :=
    direction_characters_round_trip hunt_game ⟨2, 3⟩ hc hin hw
  rw [e] at h1
  rw [e, u] at h2 h5
  exact ⟨hc, hin, hw, e, h1, d, g', h2, h3, h4, h5⟩

/-- Claim C23: for every fact store and every order of the Safe rows,
`has_unvisited_safe_squares` returns true exactly when some cell holds a Safe
fact and neither a Visited nor a Bump fact; then the game it leaves is the one
`set_destination` gives for the first row of the enumeration whose cell is
neither Visited nor a known wall, so that the marker is present and the target
is that cell; and when it returns false the game is unchanged. -/
theorem has_unvisited_safe_squares_first_row (order : List Row → List Row)
    (hord : ∀ l, (order l).Perm l) (g : WUMPLUS) :
    ((has_unvisited_safe_squares order g).1 = true ↔
      ∃ x y, safe g x y = true ∧ visited g x y = false ∧ wall g x y = false) ∧
    ((has_unvisited_safe_squares order g).1 = true →
      ∃ (l1 : List Row) (r : Row) (l2 : List Row),
        order (g.db.kb.filter (fun r => r.sentence == PERCEPT_SAFE)) = l1 ++ r :: l2 ∧
        (∀ e ∈ l1, visited g e.x e.y = true ∨ wall g e.x e.y = true) ∧
        safe g r.x r.y = true ∧ visited g r.x r.y = false ∧ wall g r.x r.y = false ∧
        (has_unvisited_safe_squares order g).2 = set_destination g r.x r.y ∧
        has_destination (has_unvisited_safe_squares order g).2 = true ∧
        (has_unvisited_safe_squares order g).2.dest_x = r.x ∧
        (has_unvisited_safe_squares order g).2.dest_y = r.y) ∧
    ((has_unvisited_safe_squares order g).1 = false →
      (has_unvisited_safe_squares order g).2 = g ∧
      has_destination (has_unvisited_safe_squares order g).2 = has_destination g ∧
      (has_unvisited_safe_squares order g).2.dest_x = g.dest_x ∧
      (has_unvisited_safe_squares order g).2.dest_y = g.dest_y) := by
  refine ⟨has_unvisited_safe_squares_iff order hord g, ?_, ?_⟩
  · unfold has_unvisited_safe_squares
    rw [foldl_huss]
    cases hf : List.find? (fun r => !visited g r.x r.y && !wall g r.x r.y)
        (order (g.db.kb.filter (fun r => r.sentence == PERCEPT_SAFE))) with
    | none => exact fun h => absurd h (by simp)
    | some r =>
      intro _
      have hm := List.mem_of_find?_eq_some hf
      obtain ⟨hp, l1, l2, hl, hb⟩ := List.find?_eq_some.1 hf
      rw [(hord _).mem_iff, List.mem_filter] at hm
      simp only [beq_iff_eq] at hm
      simp only [Bool.and_eq_true, Bool.not_eq_true'] at hp
      have hs : safe g r.x r.y = true := by
        rw [safe, kb_found_iff]
        have : (⟨PERCEPT_SAFE, r.x, r.y⟩ : Row) = r := by
          cases r
          simp only at hm
          simp [hm.2]
        rw [this]
        exact hm.1
      refine ⟨l1, r, l2, hl, fun e he => ?_, hs, hp.1, hp.2, rfl,
        has_destination_set g r.x r.y, rfl, rfl⟩
      have := hb e he
      simp only [Bool.not_and, Bool.not_not, Bool.or_eq_true] at this
      exact this
  · intro h
    have := (has_unvisited_safe_squares_game order hord g).2 h
    rw [this]
    exact ⟨rfl, rfl, rfl, rfl⟩

theorem has_unvisited_safe_squares_first_row_witness :
    (∀ l : List Row, (id l).Perm l) ∧
    (has_unvisited_safe_squares id room_game).1 = true ∧
    (has_unvisited_safe_squares id room_game).2.dest_x = 2 ∧
    (has_unvisited_safe_squares id room_game).2.dest_y = 1 ∧
    (∃ (l1 : List Row) (r : Row) (l2 : List Row),
        id (room_game.db.kb.filter (fun r => r.sentence == PERCEPT_SAFE)) = l1 ++ r :: l2 ∧
        (∀ e ∈ l1, visited room_game e.x e.y = true ∨ wall room_game e.x e.y = true) ∧
        safe room_game r.x r.y = true ∧ visited room_game r.x r.y = false ∧
        wall room_game r.x r.y = false ∧
        (has_unvisited_safe_squares id room_game).2 = set_destination room_game r.x r.y ∧
        has_destination (has_unvisited_safe_squares id room_game).2 = true ∧
        (has_unvisited_safe_squares id room_game).2.dest_x = r.x ∧
        (has_unvisited_safe_squares id room_game).2.dest_y = r.y) :=
  ⟨fun l => List.Perm.refl l, by decide!, by decide!, by decide!,
    (has_unvisited_safe_squares_first_row id (fun l => List.Perm.refl l) room_game).2.1
      (by decide!)⟩

/-! ## The choice among the four neighbours -/

/-- The four neighbour tests keep the first cell of least nonzero weight: if
the pair kept so far is the first least one of the cells seen, the pair after
the list `L` is the first least one of the cells seen and `L`. -/
theorem foldl_better_first (w : Grid) (a : coordinate) :
    ∀ (L seen : List coordinate) (best : Int × coordinate),
      ((best.1 = 0 → best.2 = a ∧ ∀ n ∈ seen, w n.x n.y = 0) ∧
       (best.1 ≠ 0 → ∃ l1 l2, seen = l1 ++ best.2 :: l2 ∧ w best.2.x best.2.y = best.1 ∧
          (∀ n ∈ seen, w n.x n.y ≠ 0 → best.1 ≤ w n.x n.y) ∧
          (∀ m ∈ l1, w m.x m.y = 0 ∨ best.1 < w m.x m.y))) →
      (((L.foldl (better w) best).1 = 0 →
          (L.foldl (better w) best).2 = a ∧ ∀ n ∈ seen ++ L, w n.x n.y = 0) ∧
       ((L.foldl (better w) best).1 ≠ 0 →
          ∃ l1 l2, seen ++ L = l1 ++ (L.foldl (better w) best).2 :: l2 ∧
          w (L.foldl (better w) best).2.x (L.foldl (better w) best).2.y =
            (L.foldl (better w) best).1 ∧
          (∀ n ∈ seen ++ L, w n.x n.y ≠ 0 → (L.foldl (better w) best).1 ≤ w n.x n.y) ∧
          (∀ m ∈ l1, w m.x m.y = 0 ∨ (L.foldl (better w) best).1 < w m.x m.y))) := by
  intro L
  induction L with
  | nil =>
    intro seen best h
    simpa using h
  | cons m L ih =>
    intro seen best h
    rw [List.foldl_cons]
    have hstep := ih (seen ++ [m]) (better w best m) (by
      obtain ⟨h0, h1⟩ := h
      unfold better
      by_cases hc : (w m.x m.y < best.1 ∨ best.1 = 0) ∧ w m.x m.y ≠ 0
      · rw [if_pos hc]
        refine ⟨fun hz => absurd hz hc.2, fun _ => ⟨seen, [], rfl, rfl, ?_, ?_⟩⟩
        · intro n hn hnz
          rw [List.mem_append, List.mem_singleton] at hn
          rcases hn with hn | hn
          · by_cases hb : best.1 = 0
            · exact absurd ((h0 hb).2 n hn) hnz
            · obtain ⟨l1, l2, -, -, hmin, -⟩ := h1 hb
              have := hmin n hn hnz
              rcases hc.1 with hlt | hz
              · exact le_trans (le_of_lt hlt) this
              · exact absurd hz hb
          · rw [hn]
        · intro n hn
          by_cases hb : best.1 = 0
          · exact Or.inl ((h0 hb).2 n hn)
          · obtain ⟨l1, l2, -, -, hmin, -⟩ := h1 hb
            by_cases hnz : w n.x n.y = 0
            · exact Or.inl hnz
            · have := hmin n hn hnz
              rcases hc.1 with hlt | hz
              · exact Or.inr (lt_of_lt_of_le hlt this)
              · exact absurd hz hb
      · rw [if_neg hc]
        refine ⟨fun hz => ⟨(h0 hz).1, ?_⟩, fun hnz => ?_⟩
        · intro n hn
          rw [List.mem_append, List.mem_singleton] at hn
          rcases hn with hn | hn
          · exact (h0 hz).2 n hn
          · rw [hn]
            by_contra hm
            exact hc ⟨Or.inr hz, hm⟩
        · obtain ⟨l1, l2, hs, hv, hmin, hl⟩ := h1 hnz
          refine ⟨l1, l2 ++ [m], ?_, hv, ?_, hl⟩
          · rw [hs, List.append_assoc, List.cons_append]
          · intro n hn hn0
            rw [List.mem_append, List.mem_singleton] at hn
            rcases hn with hn | hn
            · exact hmin n hn hn0
            · rw [hn] at hn0 ⊢
              by_contra hlt
              exact hc ⟨Or.inl (lt_of_not_le hlt), hn0⟩)
    rw [List.append_assoc, List.singleton_append] at hstep
    exact hstep

/-- A neighbour test replaces the pair kept so far only by a cell of nonzero
weight, and when the pair kept has a nonzero weight only by a cell of strictly
smaller weight. -/
theorem pick_replaces (w : Grid) (x y : Int) (best b : Int × coordinate)
    (h : pick w x y best = .ok b) :
    b = best ∨ (b = (w x y, ⟨x, y⟩) ∧ w x y ≠ 0 ∧ (best.1 = 0 ∨ w x y < best.1)) := by
  unfold pick at h
  obtain ⟨v, hv, h1⟩ := bind_ok _ _ _ h
  clear h
  unfold grid_get at hv
  split at hv
  · have hv' := Except.ok.inj hv
    subst hv'
    by_cases hc : (w x y < best.1 ∨ best.1 = 0) ∧ w x y ≠ 0
    · rw [if_pos hc] at h1
      exact Or.inr ⟨(Except.ok.inj h1).symm, hc.2, hc.1.symm⟩
    · rw [if_neg hc] at h1
      exact Or.inl (Except.ok.inj h1).symm
  · exact Except.noConfusion hv

theorem room_weights_eq :
    filtered_weights search_fuel room_game = .ok (room_weights.1, room_weights.2) := by
  have h : (match filtered_weights search_fuel room_game with
      | .ok _ => true
      | .error _ => false) = true := by decide!
  rw [Prod.mk.eta]
  unfold room_weights
  cases hp : filtered_weights search_fuel room_game with
  | error e => rw [hp] at h; exact absurd h (by simp)
  | ok r => rfl

/-- Claim C21: when the search has left some neighbour of the agent a nonzero
weight, `shortest_path` returns the direction of the first cell, in the order
west, east, north, south, whose weight after the zeroing is the least nonzero
one among the four; and a neighbour test replaces the neighbour kept so far
only by a cell whose nonzero weight is strictly smaller. -/
theorem shortest_path_first_least_neighbour (g h : WUMPLUS) (w : Grid)
    (hw : filtered_weights search_fuel g = .ok (h, w))
    (hin : 1 ≤ h.x ∧ h.x ≤ 12 ∧ 1 ≤ h.y ∧ h.y ≤ 12)
    (hsome : ∃ n ∈ neighbours ⟨h.x, h.y⟩, w n.x n.y ≠ 0) :
    neighbours ⟨h.x, h.y⟩ =
      [⟨h.x - 1, h.y⟩, ⟨h.x + 1, h.y⟩, ⟨h.x, h.y - 1⟩, ⟨h.x, h.y + 1⟩] ∧
    (∃ (l1 : List coordinate) (n : coordinate) (l2 : List coordinate),
      neighbours ⟨h.x, h.y⟩ = l1 ++ n :: l2 ∧ w n.x n.y ≠ 0 ∧
      (∀ m ∈ neighbours ⟨h.x, h.y⟩, w m.x m.y ≠ 0 → w n.x n.y ≤ w m.x m.y) ∧
      (∀ m ∈ l1, w m.x m.y = 0 ∨ w n.x n.y < w m.x m.y) ∧
      shortest_path g = .ok (relative_direction h n.x n.y, h) ∧
      target_cell h (relative_direction h n.x n.y) = some n) ∧
    (∀ (x y : Int) (best b : Int × coordinate), pick w x y best = .ok b →
      b = best ∨ (b = (w x y, ⟨x, y⟩) ∧ w x y ≠ 0 ∧ (best.1 = 0 ∨ w x y < best.1))) := by
  refine ⟨rfl, ?_, fun x y best b hp => pick_replaces w x y best b hp⟩
  have hsp := shortest_path_of_weights g h _ hw hin
  have hr := foldl_better_first w ⟨h.x, h.y⟩ (neighbours ⟨h.x, h.y⟩) []
    (0, ⟨h.x, h.y⟩)
    ⟨fun _ => ⟨rfl, fun n hn => absurd hn (List.not_mem_nil _)⟩, fun h' => absurd rfl h'⟩
  rw [List.nil_append] at hr
  obtain ⟨m, hm, hmw⟩ := hsome
  have hr1 : ((neighbours ⟨h.x, h.y⟩).foldl (better w) (0, ⟨h.x, h.y⟩)).1 ≠ 0 :=
    fun h0 => hmw ((hr.1 h0).2 m hm)
  obtain ⟨l1, l2, hl, hval, hmin, hfirst⟩ := hr.2 hr1
  generalize (neighbours ⟨h.x, h.y⟩).foldl (better w) (0, ⟨h.x, h.y⟩) = r
    at hsp hr1 hl hval hmin hfirst
  have hmem : r.2 ∈ neighbours ⟨h.x, h.y⟩ := by
    rw [hl]
    exact List.mem_append_right _ (List.mem_cons_self _ _)
  refine ⟨l1, r.2, l2, hl, by rw [hval]; exact hr1, ?_, ?_, hsp,
    relative_direction_neighbour h r.2 hmem⟩
  · rw [hval]
    exact hmin
  · rw [hval]
    exact hfirst

theorem shortest_path_first_least_neighbour_witness :
    filtered_weights search_fuel room_game = .ok (room_weights.1, room_weights.2) ∧
    (room_weights.1.x = 1 ∧ room_weights.1.y = 1) ∧
    neighbour_weights room_game = some (0, 4, 0, 4) ∧
    direction_of (shortest_path room_game) = some 'e' ∧
    (∃ (l1 : List coordinate) (n : coordinate) (l2 : List coordinate),
      neighbours ⟨room_weights.1.x, room_weights.1.y⟩ = l1 ++ n :: l2 ∧
      room_weights.2 n.x n.y ≠ 0 ∧
      (∀ m ∈ neighbours ⟨room_weights.1.x, room_weights.1.y⟩,
        room_weights.2 m.x m.y ≠ 0 → room_weights.2 n.x n.y ≤ room_weights.2 m.x m.y) ∧
      (∀ m ∈ l1, room_weights.2 m.x m.y = 0 ∨ room_weights.2 n.x n.y < room_weights.2 m.x m.y) ∧
      shortest_path room_game = .ok (relative_direction room_weights.1 n.x n.y, room_weights.1) ∧
      target_cell room_weights.1 (relative_direction room_weights.1 n.x n.y) = some n) :=
  ⟨room_weights_eq, by decide!, by decide!, by decide!,
    (shortest_path_first_least_neighbour room_game room_weights.1 room_weights.2
      room_weights_eq (by decide!)
      ⟨⟨2, 1⟩, by decide!, by decide!⟩).2.1⟩

/-! ## The count of lowered weights -/

theorem map_bind_fst {α β γ δ : Type} (π : β → γ) (ρ : α → δ) (x : Except Err α)
    (x' : Except Err δ) (f : α → Except Err β) (f' : δ → Except Err γ)
    (hx : Except.map ρ x = x') (h : ∀ a, Except.map π (f a) = f' (ρ a)) :
    Except.map π (x >>= f) = (x' >>= f') := by
  subst hx
  cases x with
  | error e => rfl
  | ok a => exact h a

/-- The relaxation with the count does to the array what `relax` does. -/
theorem relax_count_erase (w : Grid) (x y nw : Int) (k : Nat) :
    Except.map Prod.fst (relax_count w x y nw k) = relax w x y nw := by
  unfold relax_count relax
  refine map_bind_congr _ _ _ _ (fun v => ?_)
  by_cases hc : v = 0 ∨ v > nw
  · rw [if_pos hc, if_pos hc]
    cases grid_set w x y nw <;> rfl
  · rw [if_neg hc, if_neg hc]
    rfl

/-- The search loop with the count goes through the same program states as
the search loop without it. -/
theorem search_loop_count_erase : ∀ (fuel : Nat) (g : WUMPLUS) (M W : Grid) (t : coordinate)
    (k : Nat),
    Except.map Prod.fst (search_loop_count fuel g M W t k) = search_loop fuel g M W t := by
  intro fuel
  induction fuel with
  | zero =>
    intro g M W t k
    rw [search_loop_count, search_loop]
    split <;> rfl
  | succ fuel ih =>
    intro g M W t k
    rw [search_loop_count, search_loop]
    by_cases hq : queue_empty g = true
    · rw [if_pos hq, if_pos hq]
      rfl
    rw [if_neg hq, if_neg hq]
    dsimp only
    by_cases hw : (wall (queue_dequeue g t).2 (queue_dequeue g t).1.x (queue_dequeue g t).1.y ||
        !safe (queue_dequeue g t).2 (queue_dequeue g t).1.x (queue_dequeue g t).1.y) = true
    · rw [if_pos hw, if_pos hw]
      exact ih _ _ _ _ _
    rw [if_neg hw, if_neg hw]
    refine map_bind_congr _ _ _ _ (fun m => ?_)
    by_cases hm : m ≠ 0
    · rw [if_pos hm, if_pos hm]
      exact ih _ _ _ _ _
    rw [if_neg hm, if_neg hm]
    refine map_bind_congr _ _ _ _ (fun M1 => ?_)
    refine map_bind_congr _ _ _ _ (fun p1 => ?_)
    refine map_bind_congr _ _ _ _ (fun p2 => ?_)
    refine map_bind_congr _ _ _ _ (fun p3 => ?_)
    refine map_bind_congr _ _ _ _ (fun p4 => ?_)
    refine map_bind_congr _ _ _ _ (fun w => ?_)
    refine map_bind_fst _ Prod.fst _ _ _ _ (relax_count_erase _ _ _ _ _) (fun r1 => ?_)
    refine map_bind_fst _ Prod.fst _ _ _ _ (relax_count_erase _ _ _ _ _) (fun r2 => ?_)
    refine map_bind_fst _ Prod.fst _ _ _ _ (relax_count_erase _ _ _ _ _) (fun r3 => ?_)
    refine map_bind_fst _ Prod.fst _ _ _ _ (relax_count_erase _ _ _ _ _) (fun r4 => ?_)
    exact ih _ _ _ _ _

/-- When no weight exceeds the new weight, the relaxation leaves the count as
it is. -/
theorem relax_count_eq (w : Grid) (x y nw : Int) (k : Nat) (hle : ∀ a b, w a b ≤ nw) :
    relax_count w x y nw k = (relax w x y nw >>= fun W => pure (W, k)) := by
  unfold relax_count relax
  cases hg : grid_get w x y with
  | error e => rfl
  | ok v =>
    obtain ⟨hin, rfl⟩ := grid_get_ok w x y v hg
    rw [bind_of_ok, bind_of_ok]
    by_cases h0 : w x y = 0
    · rw [if_pos (Or.inl h0), if_pos (Or.inl h0), grid_set_of_in_map w x y nw hin,
        bind_of_ok, bind_of_ok, if_pos h0]
    · have hng : ¬ (w x y = 0 ∨ w x y > nw) := by
        rintro (h | h)
        · exact h0 h
        · have := hle x y
          omega
      rw [if_neg hng, if_neg hng]
      rfl

theorem relax_count_relaxed_on (w : Grid) (S : List coordinate) (x y nw : Int) (k : Nat)
    (hin : in_map x y = true) (hle : ∀ a b, w a b ≤ nw) (hnw : nw ≠ 0) :
    relax_count (relaxed_on w S nw) x y nw k = .ok (relaxed_on w (S ++ [⟨x, y⟩]) nw, k) := by
  rw [relax_count_eq _ _ _ _ _ (relaxed_on_le w S nw hle), relax_relaxed_on w S x y nw hin hle hnw]
  rfl

theorem search_loop_count_nil (g : WUMPLUS) (fuel : Nat) (M W : Grid) (t : coordinate)
    (k : Nat) :
    search_loop_count fuel (set_queue g []) M W t k = .ok ((set_queue g [], M, W, t), k) := by
  cases fuel <;> rfl

theorem search_loop_count_skip (g : WUMPLUS) (fuel : Nat) (c : coordinate)
    (q : List coordinate) (M W : Grid) (t : coordinate) (k : Nat)
    (hin : in_map c.x c.y = true) (h : ¬ passable g c ∨ M c.x c.y ≠ 0) :
    search_loop_count (fuel + 1) (set_queue g (c :: q)) M W t k =
      search_loop_count fuel (set_queue g ((c :: q).filter (fun e => !(e == c)))) M W c k := by
  rw [search_loop_count]
  simp only [queue_empty_set_queue, List.isEmpty_cons, Bool.false_eq_true, if_false,
    queue_dequeue_set_queue, wall_set_queue, safe_set_queue]
  by_cases hp : (wall g c.x c.y || !safe g c.x c.y) = true
  · rw [if_pos hp]
  · rw [if_neg hp, grid_get_of_in_map M c.x c.y hin]
    have hm : M c.x c.y ≠ 0 := by
      rcases h with h | h
      · exfalso
        apply h
        unfold passable
        cases hw : wall g c.x c.y <;> cases hs : safe g c.x c.y <;> simp_all
      · exact h
    show (if M c.x c.y ≠ 0 then _ else _) = _
    rw [if_pos hm]

theorem search_loop_count_expand (g : WUMPLUS) (fuel : Nat) (c : coordinate)
    (q : List coordinate) (M W : Grid) (t : coordinate) (k : Nat) (hp : passable g c)
    (hin : 1 ≤ c.x ∧ c.x ≤ 12 ∧ 1 ≤ c.y ∧ c.y ≤ 12)
    (hm : M c.x c.y = 0) (hle : ∀ a b, W a b ≤ W c.x c.y + 1) (hnn : 0 ≤ W c.x c.y) :
    search_loop_count (fuel + 1) (set_queue g (c :: q)) M W t k =
      search_loop_count fuel
        (set_queue g ((c :: q).filter (fun e => !(e == c)) ++ neighbours c))
        (fun i j => if i = c.x ∧ j = c.y then 1 else M i j)
        (relaxed_on W (neighbours c) (W c.x c.y + 1)) c k := by
  have i0 : in_map c.x c.y = true := by rw [in_map_iff]; omega
  have i1 : in_map (c.x - 1) c.y = true := by rw [in_map_iff]; omega
  have i2 : in_map (c.x + 1) c.y = true := by rw [in_map_iff]; omega
  have i3 : in_map c.x (c.y - 1) = true := by rw [in_map_iff]; omega
  have i4 : in_map c.x (c.y + 1) = true := by rw [in_map_iff]; omega
  have hnw : W c.x c.y + 1 ≠ 0 := by omega
  rw [search_loop_count]
  simp only [queue_empty_set_queue, List.isEmpty_cons, Bool.false_eq_true, if_false,
    queue_dequeue_set_queue, wall_set_queue, safe_set_queue]
  have hnp : ¬ ((wall g c.x c.y || !safe g c.x c.y) = true) := by
    unfold passable at hp
    simp [hp.1, hp.2]
  rw [if_neg hnp, grid_get_of_in_map M c.x c.y i0]
  show (if M c.x c.y ≠ 0 then _ else _) = _
  rw [if_neg (by rw [hm]; simp)]
  rw [grid_set_of_in_map M c.x c.y 1 i0, possibles_of_in_map _ _ i1,
    possibles_of_in_map _ _ i2, possibles_of_in_map _ _ i3, possibles_of_in_map _ _ i4,
    grid_get_of_in_map W c.x c.y i0]
  simp only [bind, Except.bind, queue_enqueue_set_queue]
  have e0 : relax_count W (c.x - 1) c.y (W c.x c.y + 1) k =
      .ok (relaxed_on W ([] ++ [⟨c.x - 1, c.y⟩]) (W c.x c.y + 1), k) := by
    have := relax_count_relaxed_on W [] (c.x - 1) c.y _ k i1 hle hnw
    rwa [relaxed_on_nil] at this
  rw [e0]
  simp only []
  rw [relax_count_relaxed_on W _ (c.x + 1) c.y _ k i2 hle hnw]
  simp only []
  rw [relax_count_relaxed_on W _ c.x (c.y - 1) _ k i3 hle hnw]
  simp only []
  rw [relax_count_relaxed_on W _ c.x (c.y + 1) _ k i4 hle hnw]
  simp only []
  have hq : ∀ l : List coordinate, l ++ [⟨c.x - 1, c.y⟩] ++ [⟨c.x + 1, c.y⟩] ++
      [⟨c.x, c.y - 1⟩] ++ [⟨c.x, c.y + 1⟩] = l ++ neighbours c := by
    intro l
    simp [neighbours]
  rw [hq, hq, List.nil_append]

/-- The search loop with the count, from a state in which the invariant holds
and with fuel for the turns left, ends with the count it started with, and the
search loop without the count ends with the same arrays, whose weights are
exact. -/
theorem search_loop_count_correct (g : WUMPLUS) (hper : perimeter_walls g) (d : coordinate) :
    ∀ (fuel : Nat) (q : List coordinate) (M W : Grid) (t : coordinate) (h : Int) (k : Nat),
      search_inv g d q M W h → 4 * unmarked M + q.length ≤ fuel →
      ∃ M' W' t',
        search_loop_count fuel (set_queue g q) M W t k =
          .ok ((set_queue g [], M', W', t'), k) ∧
        search_loop fuel (set_queue g q) M W t = .ok (set_queue g [], M', W', t') ∧
        exact_weights g d W' := by
  intro fuel
  induction fuel with
  | zero =>
    intro q M W t h k hinv hfuel
    have hq : q = [] := List.length_eq_zero.1 (by omega)
    subst hq
    exact ⟨M, W, t, search_loop_count_nil g 0 M W t k, search_loop_nil g 0 M W t,
      exact_weights_of_inv g d M W h hinv⟩
  | succ fuel ih =>
    intro q M W t h k hinv hfuel
    cases q with
    | nil =>
      exact ⟨M, W, t, search_loop_count_nil g _ M W t k, search_loop_nil g _ M W t,
        exact_weights_of_inv g d M W h hinv⟩
    | cons c q =>
      have hq0 := hinv.queued c (List.mem_cons_self _ _)
      have hlen := length_filter_ne_cons q c
      rw [List.length_cons] at hfuel
      by_cases hpen : passable g c ∧ M c.x c.y = 0
      · obtain ⟨hp, hm⟩ := hpen
        have hab := hinv.above c ⟨hp, hm, hq0.2⟩
        have hbd := hinv.bounds
        have hint := passable_interior g hper c hq0.1 hp
        rw [search_loop_count_expand g fuel c q M W t k hp hint hm
          (fun a b => by have := (hbd a b).2; omega) (hbd c.x c.y).1,
          search_loop_expand g fuel c q M W t hp hint hm
          (fun a b => by have := (hbd a b).2; omega) (hbd c.x c.y).1]
        apply ih _ _ _ _ _ _ (search_inv_expand g hper d c q M W h hinv hp hm)
        have hu := unmarked_mark M c hq0.1 hm
        rw [List.length_append]
        have : (neighbours c).length = 4 := rfl
        omega
      · have hn : ¬ passable g c ∨ M c.x c.y ≠ 0 := by
          by_cases hp : passable g c
          · exact Or.inr (fun hm => hpen ⟨hp, hm⟩)
          · exact Or.inl hp
        rw [search_loop_count_skip g fuel c q M W t k hq0.1 hn,
          search_loop_skip g fuel c q M W t hq0.1 hn]
        apply ih _ _ _ _ _ _ (search_inv_skip g d c q M W h hinv
          (fun hpe => hpen ⟨hpe.1, hpe.2.1⟩))
        omega

/-- What exact weights say cell by cell: the weight is one more than the
length of a shortest walk, and 0 when there is no walk. -/
theorem exact_weights_values (g : WUMPLUS) (d : coordinate) (W : Grid)
    (hex : exact_weights g d W) :
    (∀ (c : coordinate) (n : Nat), Semi g d c n → (∀ m, Semi g d c m → n ≤ m) →
      W c.x c.y = n + 1) ∧
    (∀ c : coordinate, (¬ ∃ n, Semi g d c n) → W c.x c.y = 0) := by
  obtain ⟨h1, h2⟩ := hex
  constructor
  · intro c n hs hmin
    obtain ⟨hnz, hle⟩ := h1 c n hs
    obtain ⟨m, hm, hw⟩ := h2 c hnz
    have := hmin m hm
    omega
  · intro c hno
    by_contra hnz
    obtain ⟨m, hm, -⟩ := h2 c hnz
    exact hno ⟨m, hm⟩

/-- Claim C22: with all border cells known walls, the destination in the map
and the queue table empty on entry, the search of `shortest_path` ends; the
weight it leaves at a cell is one more than the number of steps of a shortest
walk from the destination to the cell through Safe cells that are no known
walls, the cell itself not counted among them, and 0 when there is no such
walk; and the search run with the count of lowered weights ends with the same
array and the count 0: no assignment of the loop overwrites a weight that was
already set. -/
theorem search_weights_exact_and_never_lowered (g : WUMPLUS) (hq : g.db.queue = [])
    (hper : perimeter_walls g) (hin : in_map g.dest_x g.dest_y = true) :
    ∃ W : Grid,
      search_weights search_fuel g = .ok (set_queue g [], W) ∧
      search_weights_count search_fuel g = .ok ((set_queue g [], W), 0) ∧
      (∀ (c : coordinate) (n : Nat), Semi g ⟨g.dest_x, g.dest_y⟩ c n →
        (∀ m, Semi g ⟨g.dest_x, g.dest_y⟩ c m → n ≤ m) → W c.x c.y = n + 1) ∧
      (∀ c : coordinate, (¬ ∃ n, Semi g ⟨g.dest_x, g.dest_y⟩ c n) → W c.x c.y = 0) := by
  obtain ⟨M', W', t', hcount, hrun, hex⟩ := search_loop_count_correct g hper
    ⟨g.dest_x, g.dest_y⟩ search_fuel [⟨g.dest_x, g.dest_y⟩] (fun _ _ => 0)
    (fun i j => if i = g.dest_x ∧ j = g.dest_y then 1 else 0) ⟨-1, -1⟩ 1 0
    (search_inv_init g ⟨g.dest_x, g.dest_y⟩ hin)
    (by rw [unmarked_init]; unfold search_fuel; simp)
  have hs : search_weights search_fuel g = .ok (set_queue g [], W') := by
    unfold search_weights
    dsimp only
    rw [grid_set_of_in_map _ _ _ _ hin, possibles_of_in_map _ _ hin]
    simp only [bind, Except.bind]
    rw [queue_enqueue_eq, hq, List.nil_append, hrun]
    rfl
  have hc : search_weights_count search_fuel g = .ok ((set_queue g [], W'), 0) := by
    unfold search_weights_count
    dsimp only
    rw [grid_set_of_in_map _ _ _ _ hin, possibles_of_in_map _ _ hin]
    simp only [bind, Except.bind]
    rw [queue_enqueue_eq, hq, List.nil_append, hcount]
    rfl
  obtain ⟨v1, v2⟩ := exact_weights_values g _ W' hex
  exact ⟨W', hs, hc, v1, v2⟩

theorem search_weights_exact_and_never_lowered_witness :
    room_game.db.queue = [] ∧ perimeter_walls room_game ∧
    in_map room_game.dest_x room_game.dest_y = true ∧
    (∃ W : Grid,
      search_weights search_fuel room_game = .ok (set_queue room_game [], W) ∧
      search_weights_count search_fuel room_game = .ok ((set_queue room_game [], W), 0) ∧
      (∀ (c : coordinate) (n : Nat),
        Semi room_game ⟨room_game.dest_x, room_game.dest_y⟩ c n →
        (∀ m, Semi room_game ⟨room_game.dest_x, room_game.dest_y⟩ c m → n ≤ m) →
        W c.x c.y = n + 1) ∧
      (∀ c : coordinate, (¬ ∃ n, Semi room_game ⟨room_game.dest_x, room_game.dest_y⟩ c n) →
        W c.x c.y = 0)) :=
  ⟨rfl, room_game_perimeter, by decide,
    search_weights_exact_and_never_lowered room_game rfl room_game_perimeter (by decide)⟩

/-! ## The search with a plain queue -/

theorem queue_dequeue_fifo_set_queue (g : WUMPLUS) (c : coordinate) (q : List coordinate)
    (t : coordinate) :
    queue_dequeue_fifo (set_queue g (c :: q)) t = (c, set_queue g q) := rfl

theorem search_loop_fifo_nil (g : WUMPLUS) (fuel : Nat) (M W : Grid) (t : coordinate) :
    search_loop_fifo fuel (set_queue g []) M W t = .ok (set_queue g [], M, W, t) := by
  cases fuel <;> rfl

theorem search_loop_fifo_skip (g : WUMPLUS) (fuel : Nat) (c : coordinate)
    (q : List coordinate) (M W : Grid) (t : coordinate) (hin : in_map c.x c.y = true)
    (h : ¬ passable g c ∨ M c.x c.y ≠ 0) :
    search_loop_fifo (fuel + 1) (set_queue g (c :: q)) M W t =
      search_loop_fifo fuel (set_queue g q) M W c := by
  rw [search_loop_fifo]
  simp only [queue_empty_set_queue, List.isEmpty_cons, Bool.false_eq_true, if_false,
    queue_dequeue_fifo_set_queue, wall_set_queue, safe_set_queue]
  by_cases hp : (wall g c.x c.y || !safe g c.x c.y) = true
  · rw [if_pos hp]
  · rw [if_neg hp, grid_get_of_in_map M c.x c.y hin]
    have hm : M c.x c.y ≠ 0 := by
      rcases h with h | h
      · exfalso
        apply h
        unfold passable
        cases hw : wall g c.x c.y <;> cases hs : safe g c.x c.y <;> simp_all
      · exact h
    show (if M c.x c.y ≠ 0 then _ else _) = _
    rw [if_pos hm]

theorem search_loop_fifo_expand (g : WUMPLUS) (fuel : Nat) (c : coordinate)
    (q : List coordinate) (M W : Grid) (t : coordinate) (hp : passable g c)
    (hin : 1 ≤ c.x ∧ c.x ≤ 12 ∧ 1 ≤ c.y ∧ c.y ≤ 12)
    (hm : M c.x c.y = 0) (hle : ∀ a b, W a b ≤ W c.x c.y + 1) (hnn : 0 ≤ W c.x c.y) :
    search_loop_fifo (fuel + 1) (set_queue g (c :: q)) M W t =
      search_loop_fifo fuel (set_queue g (q ++ neighbours c))
        (fun i j => if i = c.x ∧ j = c.y then 1 else M i j)
        (relaxed_on W (neighbours c) (W c.x c.y + 1)) c := by
  have i0 : in_map c.x c.y = true := by rw [in_map_iff]; omega
  have i1 : in_map (c.x - 1) c.y = true := by rw [in_map_iff]; omega
  have i2 : in_map (c.x + 1) c.y = true := by rw [in_map_iff]; omega
  have i3 : in_map c.x (c.y - 1) = true := by rw [in_map_iff]; omega
  have i4 : in_map c.x (c.y + 1) = true := by rw [in_map_iff]; omega
  have hnw : W c.x c.y + 1 ≠ 0 := by omega
  rw [search_loop_fifo]
  simp only [queue_empty_set_queue, List.isEmpty_cons, Bool.false_eq_true, if_false,
    queue_dequeue_fifo_set_queue, wall_set_queue, safe_set_queue]
  have hnp : ¬ ((wall g c.x c.y || !safe g c.x c.y) = true) := by
    unfold passable at hp
    simp [hp.1, hp.2]
  rw [if_neg hnp, grid_get_of_in_map M c.x c.y i0]
  show (if M c.x c.y ≠ 0 then _ else _) = _
  rw [if_neg (by rw [hm]; simp)]
  rw [grid_set_of_in_map M c.x c.y 1 i0, possibles_of_in_map _ _ i1,
    possibles_of_in_map _ _ i2, possibles_of_in_map _ _ i3, possibles_of_in_map _ _ i4,
    grid_get_of_in_map W c.x c.y i0]
  simp only [bind, Except.bind, queue_enqueue_set_queue]
  have e0 : relax W (c.x - 1) c.y (W c.x c.y + 1) =
      .ok (relaxed_on W ([] ++ [⟨c.x - 1, c.y⟩]) (W c.x c.y + 1)) := by
    have := relax_relaxed_on W [] (c.x - 1) c.y _ i1 hle hnw
    rwa [relaxed_on_nil] at this
  rw [e0]
  simp only []
  rw [relax_relaxed_on W _ (c.x + 1) c.y _ i2 hle hnw]
  simp only []
  rw [relax_relaxed_on W _ c.x (c.y - 1) _ i3 hle hnw]
  simp only []
  rw [relax_relaxed_on W _ c.x (c.y + 1) _ i4 hle hnw]
  simp only []
  have hq : ∀ l : List coordinate, l ++ [⟨c.x - 1, c.y⟩] ++ [⟨c.x + 1, c.y⟩] ++
      [⟨c.x, c.y - 1⟩] ++ [⟨c.x, c.y + 1⟩] = l ++ neighbours c := by
    intro l
    simp [neighbours]
  rw [hq, hq, List.nil_append]

/-- The invariant of the search loop does not mind the copies of a cell that
is weighted and will not be expanded: if it holds for the queue without them,
it holds for the queue with them. -/
theorem search_inv_of_filter (g : WUMPLUS) (d c : coordinate) (q rest : List coordinate)
    (M W : Grid) (h : Int)
    (hinv : search_inv g d (q.filter (fun e => !(e == c)) ++ rest) M W h)
    (hc : in_map c.x c.y = true ∧ W c.x c.y ≠ 0) (hnp : ¬ pending g M W c) :
    search_inv g d (q ++ rest) M W h := by
  obtain ⟨q1, q2, hq, ha, hb, hcc⟩ := hinv.split
  have hsub : ∀ (l : List coordinate) (e : coordinate), e ∈ l → pending g M W e →
      e ∈ l.filter (fun e => !(e == c)) := by
    intro l e he hp
    exact (mem_filter_ne _ _ _).2 ⟨he, fun hec => hnp (hec ▸ hp)⟩
  refine ⟨hinv.level, hinv.bounds, ?_, ?_, hinv.above, hinv.done, hinv.sound, hinv.seed⟩
  · intro e he
    rw [List.mem_append] at he
    rcases he with he | he
    · by_cases hec : e = c
      · rw [hec]
        exact hc
      · exact hinv.queued e (List.mem_append_left _ ((mem_filter_ne _ _ _).2 ⟨he, hec⟩))
    · exact hinv.queued e (List.mem_append_right _ he)
  · rcases List.append_eq_append_iff.1 hq with ⟨a', h1, h2⟩ | ⟨c', h1, h2⟩
    · refine ⟨q ++ a', q2, ?_, ?_, ?_, hcc⟩
      · rw [h2, List.append_assoc]
      · intro e he hp
        rw [List.mem_append] at he
        apply ha e _ hp
        rw [h1, List.mem_append]
        rcases he with he | he
        · exact Or.inl (hsub q e he hp)
        · exact Or.inr he
      · intro e hp hw
        have := hb e hp hw
        rw [h1, List.mem_append] at this
        rw [List.mem_append]
        rcases this with hm | hm
        · exact Or.inl ((mem_filter_ne _ _ _).1 hm).1
        · exact Or.inr hm
    · obtain ⟨l1, l2, hl, hf1, hf2⟩ := List.filter_eq_append_iff.1 h1
      refine ⟨l1, l2 ++ rest, ?_, ?_, ?_, ?_⟩
      · rw [hl, List.append_assoc]
      · intro e he hp
        apply ha e _ hp
        rw [← hf1]
        exact hsub l1 e he hp
      · intro e hp hw
        have := hb e hp hw
        rw [← hf1] at this
        exact ((mem_filter_ne _ _ _).1 this).1
      · intro e hp hw
        have := hcc e hp hw
        rw [h2, ← hf2, List.mem_append] at this
        rw [List.mem_append]
        rcases this with hm | hm
        · exact Or.inl ((mem_filter_ne _ _ _).1 hm).1
        · exact Or.inr hm

/-- The search loop with the plain queue, from a state in which the invariant
holds and with fuel for the turns left, ends with an empty queue and exact
weights. -/
theorem search_loop_fifo_correct (g : WUMPLUS) (hper : perimeter_walls g) (d : coordinate) :
    ∀ (fuel : Nat) (q : List coordinate) (M W : Grid) (t : coordinate) (h : Int),
      search_inv g d q M W h → 4 * unmarked M + q.length ≤ fuel →
      ∃ M' W' t',
        search_loop_fifo fuel (set_queue g q) M W t = .ok (set_queue g [], M', W', t') ∧
        exact_weights g d W' := by
  intro fuel
  induction fuel with
  | zero =>
    intro q M W t h hinv hfuel
    have hq : q = [] := List.length_eq_zero.1 (by omega)
    subst hq
    exact ⟨M, W, t, search_loop_fifo_nil g 0 M W t, exact_weights_of_inv g d M W h hinv⟩
  | succ fuel ih =>
    intro q M W t h hinv hfuel
    cases q with
    | nil =>
      exact ⟨M, W, t, search_loop_fifo_nil g _ M W t, exact_weights_of_inv g d M W h hinv⟩
    | cons c q =>
      have hq0 := hinv.queued c (List.mem_cons_self _ _)
      rw [List.length_cons] at hfuel
      by_cases hpen : passable g c ∧ M c.x c.y = 0
      · obtain ⟨hp, hm⟩ := hpen
        have hab := hinv.above c ⟨hp, hm, hq0.2⟩
        have hbd := hinv.bounds
        have hint := passable_interior g hper c hq0.1 hp
        rw [search_loop_fifo_expand g fuel c q M W t hp hint hm
          (fun a b => by have := (hbd a b).2; omega) (hbd c.x c.y).1]
        have hnext := search_inv_expand g hper d c q M W h hinv hp hm
        rw [filter_ne_cons_self] at hnext
        apply ih _ _ _ _ _ (search_inv_of_filter g d c q (neighbours c) _ _ _ hnext
          ⟨hq0.1, by rw [relaxed_on_of_ne _ _ _ _ hq0.2]; exact hq0.2⟩
          (fun hpe => absurd hpe.2.1 (by simp)))
        have hu := unmarked_mark M c hq0.1 hm
        rw [List.length_append]
        have : (neighbours c).length = 4 := rfl
        omega
      · have hn : ¬ passable g c ∨ M c.x c.y ≠ 0 := by
          by_cases hp : passable g c
          · exact Or.inr (fun hm => hpen ⟨hp, hm⟩)
          · exact Or.inl hp
        rw [search_loop_fifo_skip g fuel c q M W t hq0.1 hn]
        have hnp : ¬ pending g M W c := fun hpe => hpen ⟨hpe.1, hpe.2.1⟩
        have hnext := search_inv_skip g d c q M W h hinv hnp
        rw [filter_ne_cons_self] at hnext
        have hnext' := search_inv_of_filter g d c q [] M W h
          (by rw [List.append_nil]; exact hnext) hq0 hnp
        rw [List.append_nil] at hnext'
        apply ih _ _ _ _ _ hnext'
        omega

/-- Exact weights are determined by the fact store and the destination. -/
theorem exact_weights_unique (g : WUMPLUS) (d : coordinate) (W1 W2 : Grid)
    (h1 : exact_weights g d W1) (h2 : exact_weights g d W2) : W1 = W2 := by
  have key : ∀ (A B : Grid), exact_weights g d A → exact_weights g d B →
      ∀ c : coordinate, A c.x c.y ≤ B c.x c.y ∨ B c.x c.y = 0 := by
    intro A B hA hB c
    by_cases hb : B c.x c.y = 0
    · exact Or.inr hb
    · obtain ⟨n, hn, hv⟩ := hB.2 c hb
      have := (hA.1 c n hn).2
      exact Or.inl (by omega)
  have nz : ∀ (A B : Grid), exact_weights g d A → exact_weights g d B →
      ∀ c : coordinate, A c.x c.y ≠ 0 → B c.x c.y ≠ 0 := by
    intro A B hA hB c ha
    obtain ⟨n, hn, -⟩ := hA.2 c ha
    exact (hB.1 c n hn).1
  funext a b
  have k1 := key W1 W2 h1 h2 ⟨a, b⟩
  have k2 := key W2 W1 h2 h1 ⟨a, b⟩
  have n1 := nz W1 W2 h1 h2 ⟨a, b⟩
  have n2 := nz W2 W1 h2 h1 ⟨a, b⟩
  simp only at k1 k2 n1 n2
  by_cases h0 : W1 a b = 0
  · by_cases h0' : W2 a b = 0
    · rw [h0, h0']
    · exact absurd h0 (n2 h0')
  · have := n1 h0
    omega

/-- Claim C28: `queue_dequeue` returns the oldest queued coordinate and leaves
no copy of it in the queue, where a plain first-in first-out dequeue leaves
the rest of the queue as it is; and with all border cells known walls, the
destination in the map, the agent on an interior cell and the queue table
empty on entry, `shortest_path` and the same search run with the plain queue
both return, with the same weights from the search loop, the same weights
after the zeroing, and the same direction. -/
theorem plain_queue_gives_same_search (g : WUMPLUS) (hq : g.db.queue = [])
    (hper : perimeter_walls g) (hin : in_map g.dest_x g.dest_y = true)
    (hint : 1 ≤ g.x ∧ g.x ≤ 12 ∧ 1 ≤ g.y ∧ g.y ≤ 12) :
    (∀ (h : WUMPLUS) (c : coordinate) (q : List coordinate) (t : coordinate),
      h.db.queue = c :: q →
      (queue_dequeue h t).1 = c ∧
      (queue_dequeue h t).2.db.queue = q.filter (fun e => !(e == c)) ∧
      c ∉ (queue_dequeue h t).2.db.queue ∧
      (queue_dequeue_fifo h t).1 = c ∧ (queue_dequeue_fifo h t).2.db.queue = q) ∧
    (∃ (W : Grid) (ch : Char),
      search_weights search_fuel g = .ok (set_queue g [], W) ∧
      search_weights_fifo search_fuel g = .ok (set_queue g [], W) ∧
      filtered_weights search_fuel g = .ok (set_queue g [], zero_unknown g W) ∧
      shortest_path g = .ok (ch, set_queue g []) ∧
      shortest_path_fifo g = .ok (ch, set_queue g [], zero_unknown g W)) := by
  constructor
  · intro h c q t hh
    have e1 : queue_dequeue h t =
        (c, { h with db := { h.db with queue := (c :: q).filter (fun e => !(e == c)) } }) := by
      unfold queue_dequeue
      rw [hh]
    have e2 : queue_dequeue_fifo h t = (c, { h with db := { h.db with queue := q } }) := by
      unfold queue_dequeue_fifo
      rw [hh]
    rw [e1, e2]
    dsimp only
    rw [filter_ne_cons_self]
    refine ⟨rfl, rfl, ?_, rfl, rfl⟩
    intro hm
    exact ((mem_filter_ne _ _ _).1 hm).2 rfl
  · obtain ⟨W, hW, hex⟩ := search_weights_correct g hq hper hin
    obtain ⟨M', W', t', hrun, hex'⟩ := search_loop_fifo_correct g hper ⟨g.dest_x, g.dest_y⟩
      search_fuel [⟨g.dest_x, g.dest_y⟩] (fun _ _ => 0)
      (fun i j => if i = g.dest_x ∧ j = g.dest_y then 1 else 0) ⟨-1, -1⟩ 1
      (search_inv_init g ⟨g.dest_x, g.dest_y⟩ hin)
      (by rw [unmarked_init]; unfold search_fuel; simp)
    have hWW : W' = W := exact_weights_unique g _ W' W hex' hex
    subst hWW
    have hf : search_weights_fifo search_fuel g = .ok (set_queue g [], W') := by
      unfold search_weights_fifo
      dsimp only
      rw [grid_set_of_in_map _ _ _ _ hin, possibles_of_in_map _ _ hin]
      simp only [bind, Except.bind]
      rw [queue_enqueue_eq, hq, List.nil_append, hrun]
      rfl
    have hfw : filtered_weights search_fuel g = .ok (set_queue g [], zero_unknown g W') := by
      unfold filtered_weights
      rw [hW]
      rfl
    have i1 : in_map (g.x - 1) g.y = true := by rw [in_map_iff]; omega
    have i2 : in_map (g.x + 1) g.y = true := by rw [in_map_iff]; omega
    have i3 : in_map g.x (g.y - 1) = true := by rw [in_map_iff]; omega
    have i4 : in_map g.x (g.y + 1) = true := by rw [in_map_iff]; omega
    refine ⟨W', _, hW, hf, hfw, shortest_path_of_weights g (set_queue g []) _ hfw hint, ?_⟩
    unfold shortest_path_fifo
    rw [hf]
    simp only [bind, Except.bind]
    have hz : zero_unknown (queue_make_empty (set_queue g [])) W' = zero_unknown g W' := rfl
    have hm : queue_make_empty (set_queue g []) = set_queue g [] := rfl
    rw [hz, hm]
    have hx : (set_queue g []).x = g.x := rfl
    have hy : (set_queue g []).y = g.y := rfl
    rw [hx, hy, pick_of_in_map _ _ _ _ i1]
    simp only []
    rw [pick_of_in_map _ _ _ _ i2]
    simp only []
    rw [pick_of_in_map _ _ _ _ i3]
    simp only []
    rw [pick_of_in_map _ _ _ _ i4]
    rfl

theorem plain_queue_gives_same_search_witness :
    room_game.db.queue = [] ∧ perimeter_walls room_game ∧
    in_map room_game.dest_x room_game.dest_y = true ∧
    (1 ≤ room_game.x ∧ room_game.x ≤ 12 ∧ 1 ≤ room_game.y ∧ room_game.y ≤ 12) ∧
    (∃ (W : Grid) (ch : Char),
      search_weights search_fuel room_game = .ok (set_queue room_game [], W) ∧
      search_weights_fifo search_fuel room_game = .ok (set_queue room_game [], W) ∧
      filtered_weights search_fuel room_game =
        .ok (set_queue room_game [], zero_unknown room_game W) ∧
      shortest_path room_game = .ok (ch, set_queue room_game []) ∧
      shortest_path_fifo room_game =
        .ok (ch, set_queue room_game [], zero_unknown room_game W)) :=
  ⟨rfl, room_game_perimeter, by decide, by decide,
    (plain_queue_gives_same_search room_game rfl room_game_perimeter (by decide)
      (by decide)).2⟩

/-! ## The call of `shortest_path` by `kb_ask_action` -/

theorem shortest_path_call_eq (order : List Row → List Row) (g : WUMPLUS) :
    shortest_path_call order g =
      if glitter g g.x g.y = true then none
      else if (smell (check_destination g) (check_destination g).x (check_destination g).y &&
          decide ((check_destination g).arrows ≠ 0) &&
          (wumpus_nearby (check_destination g) ⟨g.x, g.y⟩).1) = true then none
      else if (has_destination (check_destination g) &&
          !at_destination (check_destination g)) = true then
        some (check_destination g)
      else if (has_unvisited_safe_squares order (check_destination g)).1 = true then
        some (has_unvisited_safe_squares order (check_destination g)).2
      else if (!at_start (has_unvisited_safe_squares order (check_destination g)).2) = true then
        some (set_destination
          (has_unvisited_safe_squares order (check_destination g)).2 1 1)
      else none := rfl

/-- When `kb_ask_action` calls `shortest_path`, what it returns is what the
call returns, and the game of the call is one of three: the game after the
check of the destination, with a destination that is not reached; the game
that `has_unvisited_safe_squares` leaves when it has found a cell; or the game
with the destination set to the start, for an agent that is elsewhere. -/
theorem shortest_path_call_some (order : List Row → List Row) (g s : WUMPLUS)
    (h : shortest_path_call order g = some s) :
    kb_ask_action order g = shortest_path s ∧
    ((s = check_destination g ∧ has_destination s = true ∧ at_destination s = false) ∨
     (¬ (has_destination (check_destination g) = true ∧
          at_destination (check_destination g) = false) ∧
        (has_unvisited_safe_squares order (check_destination g)).1 = true ∧
        s = (has_unvisited_safe_squares order (check_destination g)).2) ∨
     (¬ (has_destination (check_destination g) = true ∧
          at_destination (check_destination g) = false) ∧
        (has_unvisited_safe_squares order (check_destination g)).1 = false ∧
        ¬ (g.x = 1 ∧ g.y = 1) ∧ s = set_destination (check_destination g) 1 1)) := by
  obtain ⟨fx, fy, -, -, -, -, -, -⟩ := check_destination_frame g
  rw [shortest_path_call_eq] at h
  rw [kb_ask_action_eq]
  by_cases hg : glitter g g.x g.y = true
  · rw [if_pos hg] at h
    exact Option.noConfusion h
  rw [if_neg hg] at h ⊢
  by_cases hs : (smell (check_destination g) (check_destination g).x (check_destination g).y &&
      decide ((check_destination g).arrows ≠ 0) &&
      (wumpus_nearby (check_destination g) ⟨g.x, g.y⟩).1) = true
  · rw [if_pos hs] at h
    exact Option.noConfusion h
  rw [if_neg hs] at h ⊢
  by_cases hd : (has_destination (check_destination g) &&
      !at_destination (check_destination g)) = true
  · rw [if_pos hd] at h ⊢
    have e := Option.some.inj h
    subst e
    simp only [Bool.and_eq_true, Bool.not_eq_true'] at hd
    exact ⟨rfl, Or.inl ⟨rfl, hd.1, hd.2⟩⟩
  rw [if_neg hd] at h ⊢
  simp only [Bool.and_eq_true, Bool.not_eq_true'] at hd
  by_cases hu : (has_unvisited_safe_squares order (check_destination g)).1 = true
  · rw [if_pos hu] at h ⊢
    have e := Option.some.inj h
    subst e
    exact ⟨rfl, Or.inr (Or.inl ⟨hd, hu, rfl⟩)⟩
  rw [if_neg hu] at h ⊢
  simp only [Bool.not_eq_true] at hu
  have hg2 : (has_unvisited_safe_squares order (check_destination g)).2 =
      check_destination g := by
    unfold has_unvisited_safe_squares at hu ⊢
    rw [foldl_huss] at hu ⊢
    cases hf : List.find? (fun r => !visited (check_destination g) r.x r.y &&
        !wall (check_destination g) r.x r.y)
        (order ((check_destination g).db.kb.filter (fun r => r.sentence == PERCEPT_SAFE))) with
    | none => rfl
    | some r => rw [hf] at hu; exact absurd hu (by simp)
  rw [hg2] at h ⊢
  by_cases ha : (!at_start (check_destination g)) = true
  · rw [if_pos ha] at h ⊢
    have e := Option.some.inj h
    subst e
    simp only [Bool.not_eq_true'] at ha
    have hns : ¬ (g.x = 1 ∧ g.y = 1) := by
      rw [← fx, ← fy, ← at_start_iff, ha]
      simp
    exact ⟨rfl, Or.inr (Or.inr ⟨hd, hu, hns, rfl⟩)⟩
  rw [if_neg ha] at h
  exact Option.noConfusion h

/-- Function `kb_ask_action` leaves the position, the map and the
supmuw-neighbours-wumpus flag as they are. -/
theorem kb_ask_action_frame (order : List Row → List Row) (g g' : WUMPLUS) (c : Char)
    (h : kb_ask_action order g = .ok (c, g')) :
    g'.x = g.x ∧ g'.y = g.y ∧ g'.map = g.map ∧
    g'.supmuw_neighbors_wumpus = g.supmuw_neighbors_wumpus := by
  obtain ⟨c1, c2, c3, c4, -, -, -, -⟩ := check_destination_frame g
  have hset : ∀ (k : WUMPLUS) (x y : Int),
      (set_destination k x y).x = k.x ∧ (set_destination k x y).y = k.y ∧
      (set_destination k x y).map = k.map ∧
      (set_destination k x y).supmuw_neighbors_wumpus = k.supmuw_neighbors_wumpus := by
    intro k x y
    obtain ⟨s1, s2, s3, s4, -⟩ := set_destination_frame k x y
    exact ⟨s1, s2, s3, s4⟩
  have hcd : (check_destination g).x = g.x ∧ (check_destination g).y = g.y ∧
      (check_destination g).map = g.map ∧
      (check_destination g).supmuw_neighbors_wumpus = g.supmuw_neighbors_wumpus :=
    ⟨c1, c2, c3, c4⟩
  have htrans : ∀ (a b : WUMPLUS),
      (a.x = b.x ∧ a.y = b.y ∧ a.map = b.map ∧
        a.supmuw_neighbors_wumpus = b.supmuw_neighbors_wumpus) →
      (b.x = g.x ∧ b.y = g.y ∧ b.map = g.map ∧
        b.supmuw_neighbors_wumpus = g.supmuw_neighbors_wumpus) →
      (a.x = g.x ∧ a.y = g.y ∧ a.map = g.map ∧
        a.supmuw_neighbors_wumpus = g.supmuw_neighbors_wumpus) := by
    intro a b ⟨p1, p2, p3, p4⟩ ⟨q1, q2, q3, q4⟩
    exact ⟨p1.trans q1, p2.trans q2, p3.trans q3, p4.trans q4⟩
  rcases kb_ask_action_cases order g g' c h with
    ⟨-, -, e⟩ | ⟨-, -, -, e⟩ | ⟨-, -, s, hsp, hs⟩ | ⟨-, -, -, -, -, -, e⟩
  · rw [e]
    obtain ⟨r1, r2, r3, r4, -⟩ := remove_destination_frame g
    exact htrans _ _ (hset _ 1 1) ⟨r1, r2, r3, r4⟩
  · rw [e]
    exact hcd
  · obtain ⟨e, -⟩ := shortest_path_fuel_frame _ _ _ _ hsp
    rw [e]
    show s.x = g.x ∧ s.y = g.y ∧ s.map = g.map ∧
      s.supmuw_neighbors_wumpus = g.supmuw_neighbors_wumpus
    rcases hs with ⟨rfl, -, -⟩ | ⟨-, hu, rfl⟩ | ⟨-, -, -, rfl⟩
    · exact hcd
    · unfold has_unvisited_safe_squares
      rw [foldl_huss]
      split
      · exact htrans _ _ (hset _ _ _) hcd
      · exact hcd
    · exact htrans _ _ (hset _ _ _) hcd
  · rw [e]
    exact hcd

/-! ## Walks through the explored part of the map -/

theorem SafePath.snoc (g : WUMPLUS) (a v d : coordinate) (n : Nat)
    (h : SafePath g a v n) (hadj : adjacent v d) (hp : passable g d) :
    SafePath g a d (n + 1) := by
  induction h with
  | here v hv => exact SafePath.step v d d 0 hv hadj (SafePath.here d hp)
  | step a b v n hpa hab _ ih => exact SafePath.step a b d (n + 1) hpa hab (ih hadj)

/-- A Visited cell of the explored part is Safe and no known wall. -/
theorem visited_passable (g : WUMPLUS) (hg : game_inv g) (he : explored g)
    (x y : Int) (hv : visited g x y = true) : passable g ⟨x, y⟩ := by
  obtain ⟨hs, hm⟩ := he.1 x y hv
  refine ⟨hs, ?_⟩
  cases hw : wall g x y with
  | false => rfl
  | true => exact absurd (hg.2.2.2.2 x y hw).2 hm

theorem path_of_visited_steps (g : WUMPLUS) (hg : game_inv g) (he : explored g)
    (a b : coordinate) (h : Relation.ReflTransGen (visited_step g) a b)
    (hb : visited g b.x b.y = true) : ∃ n, SafePath g a b n := by
  induction h using Relation.ReflTransGen.head_induction_on with
  | refl => exact ⟨0, SafePath.here b (visited_passable g hg he b.x b.y hb)⟩
  | head hstep _ ih =>
    obtain ⟨n, hn⟩ := ih
    exact ⟨n + 1, SafePath.step _ _ _ n (visited_passable g hg he _ _ hstep.2.1) hstep.1 hn⟩

/-- In the explored part, a walk through Safe cells that are no known walls
leads from every Visited cell to every Safe cell that is no known wall. -/
theorem explored_path (g : WUMPLUS) (hg : game_inv g) (he : explored g)
    (a d : coordinate) (ha : visited g a.x a.y = true) (hd : passable g d) :
    ∃ n, SafePath g a d n := by
  rcases he.2.2 d.x d.y hd.1 with hv | ⟨v, hadj, hv⟩
  · exact path_of_visited_steps g hg he a d (he.2.1 a d ha hv) hv
  · obtain ⟨n, hn⟩ := path_of_visited_steps g hg he a v (he.2.1 a v ha hv) hv
    exact ⟨n + 1, SafePath.snoc g a v d n hn (adjacent_symm _ _ hadj) hd⟩

/-- The step that `shortest_path` chooses when a walk leads to the
destination: the neighbour it points at is Safe, no known wall, has a nonzero
weight after the zeroing, and is one step nearer to the destination. -/
theorem shortest_path_step (g : WUMPLUS)
    (hq : g.db.queue = []) (hper : perimeter_walls g)
    (hvs : ∀ x y, visited g x y = true → safe g x y = true)
    (hin : in_map g.x g.y = true)
    (hne : (⟨g.x, g.y⟩ : coordinate) ≠ ⟨g.dest_x, g.dest_y⟩)
    (k : Nat) (hpath : SafePath g ⟨g.x, g.y⟩ ⟨g.dest_x, g.dest_y⟩ k) :
    ∃ (c : Char) (n : coordinate) (j : Nat) (w : Grid),
      shortest_path g = .ok (c, g) ∧ target_cell g c = some n ∧
      adjacent ⟨g.x, g.y⟩ n ∧ safe g n.x n.y = true ∧ wall g n.x n.y = false ∧
      filtered_weights search_fuel g = .ok (g, w) ∧ w n.x n.y ≠ 0 ∧
      safe_dist g n ⟨g.dest_x, g.dest_y⟩ j ∧
      safe_dist g ⟨g.x, g.y⟩ ⟨g.dest_x, g.dest_y⟩ (j + 1) := by
  have hpa := SafePath.first_passable g _ _ k hpath
  have hint := passable_interior g hper ⟨g.x, g.y⟩ hin hpa
  have hind := SafePath.in_map g hper _ _ k hpath hin
  obtain ⟨W, hw, hex⟩ := filtered_weights_correct g hq hper hind
  have hg : set_queue g [] = g := by rw [← hq]; rfl
  rw [hg] at hw
  have hsp := shortest_path_of_weights g g (zero_unknown g W) hw hint
  have hr := foldl_better (zero_unknown g W) ⟨g.x, g.y⟩ (neighbours ⟨g.x, g.y⟩) []
    (0, ⟨g.x, g.y⟩)
    ⟨fun _ => ⟨rfl, fun n hn => absurd hn (List.not_mem_nil _)⟩, fun h => absurd rfl h⟩
  rw [List.nil_append] at hr
  have hWa := (hex.1 _ k (SafePath.to_semi g _ _ k hpath)).1
  obtain ⟨K, -, hK⟩ := safe_dist_of_weight g _ _ W hex hpa hWa
  rcases SafePath.inv g _ _ K hK.1 with ⟨-, h0⟩ | ⟨b, j, rfl, hadj, hb⟩
  · exact absurd h0 hne
  have hpb := SafePath.first_passable g b _ j hb
  have hWb := hex.1 b j (SafePath.to_semi g b _ j hb)
  have hbmem : b ∈ neighbours ⟨g.x, g.y⟩ := (mem_neighbours _ b).2 hadj
  have hbin := adjacent_in_map _ b hint hadj
  have hzb := zero_unknown_apply g W b hbin hvs
  have hr1 : ((neighbours ⟨g.x, g.y⟩).foldl (better (zero_unknown g W))
      (0, ⟨g.x, g.y⟩)).1 ≠ 0 := by
    intro h0
    have := (hr.1 h0).2 b hbmem
    exact (hzb.1.2 ⟨hpb, hWb.1⟩) this
  obtain ⟨hmem, hval, hmin⟩ := hr.2 hr1
  generalize (neighbours ⟨g.x, g.y⟩).foldl (better (zero_unknown g W))
      (0, ⟨g.x, g.y⟩) = r at hsp hr1 hmem hval hmin
  have hadjn := (mem_neighbours _ r.2).1 hmem
  have hnin := adjacent_in_map _ r.2 hint hadjn
  have hzn := zero_unknown_apply g W r.2 hnin hvs
  have hnz : zero_unknown g W r.2.x r.2.y ≠ 0 := by rw [hval]; exact hr1
  obtain ⟨hpn, hWn⟩ := hzn.1.1 hnz
  obtain ⟨kn, hkn, hdn⟩ := safe_dist_of_weight g _ _ W hex hpn hWn
  have hle : r.1 ≤ zero_unknown g W b.x b.y := hmin b hbmem (hzb.1.2 ⟨hpb, hWb.1⟩)
  rw [hzb.2 hpb] at hle
  rw [← hval, hzn.2 hpn, hkn] at hle
  have hup := hWb.2
  have hlow := hK.2 (kn + 1) (SafePath.step _ r.2 _ kn hpa hadjn hdn.1)
  have hkj : kn = j := by omega
  subst hkj
  exact ⟨relative_direction g r.2.x r.2.y, r.2, kn, zero_unknown g W, hsp,
    relative_direction_neighbour g r.2 hmem, hadjn, hpn.1, hpn.2, hw, hnz, hdn, hK⟩

/-! ## The invariant of the agent's tour -/

theorem explored_congr (g h : WUMPLUS)
    (hv : ∀ a b, visited h a b = visited g a b) (hs : ∀ a b, safe h a b = safe g a b)
    (hm : ∀ a b, g.map a b ≠ MAP_WALL → h.map a b ≠ MAP_WALL)
    (he : explored g) : explored h := by
  obtain ⟨e1, e2, e3⟩ := he
  refine ⟨fun x y hx => ?_, fun a b ha hb => ?_, fun x y hx => ?_⟩
  · rw [hv] at hx
    rw [hs]
    exact ⟨(e1 x y hx).1, hm x y (e1 x y hx).2⟩
  · rw [hv] at ha hb
    refine Relation.ReflTransGen.mono (fun p q hpq => ?_) (e2 a b ha hb)
    unfold visited_step at hpq ⊢
    rw [hv, hv]
    exact hpq
  · rw [hs] at hx
    rcases e3 x y hx with h1 | ⟨v, hadj, h1⟩
    · exact Or.inl (by rw [hv]; exact h1)
    · exact Or.inr ⟨v, hadj, by rw [hv]; exact h1⟩

theorem lethal_mono (g h : WUMPLUS)
    (hm : ∀ a b, h.map a b = g.map a b ∨ h.map a b = MAP_EMPTY)
    (hf : h.supmuw_neighbors_wumpus = true → g.supmuw_neighbors_wumpus = true)
    (x y : Int) (hl : lethal h x y) : lethal g x y := by
  unfold lethal at hl ⊢
  rcases hm x y with e | e
  · rw [e] at hl
    rcases hl with h1 | h1 | ⟨h1, h2⟩
    · exact Or.inl h1
    · exact Or.inr (Or.inl h1)
    · exact Or.inr (Or.inr ⟨h1, hf h2⟩)
  · rw [e] at hl
    rcases hl with h1 | h1 | ⟨h1, -⟩ <;> exact absurd h1 (by decide)

theorem map_not_wall_mono (g h : WUMPLUS)
    (hm : ∀ a b, h.map a b = g.map a b ∨ h.map a b = MAP_EMPTY) :
    ∀ a b, g.map a b ≠ MAP_WALL → h.map a b ≠ MAP_WALL := by
  intro a b hg
  rcases hm a b with e | e
  · rw [e]; exact hg
  · rw [e]; decide

/-- The invariant of the tour is kept when the player stays, the Visited and
Safe facts stay, and the map and the flag change at most by a cell becoming
empty and the flag being cleared. -/
theorem tour_inv_stay (g h : WUMPLUS)
    (hv : ∀ a b, visited h a b = visited g a b) (hs : ∀ a b, safe h a b = safe g a b)
    (hm : ∀ a b, h.map a b = g.map a b ∨ h.map a b = MAP_EMPTY)
    (hf : h.supmuw_neighbors_wumpus = true → g.supmuw_neighbors_wumpus = true)
    (hx : h.x = g.x) (hy : h.y = g.y) (ht : tour_inv g) : tour_inv h := by
  obtain ⟨t1, t2, t3, t4⟩ := ht
  refine ⟨explored_congr g h hv hs (map_not_wall_mono g h hm) t1, ?_, ?_, ?_⟩
  · rw [hx, hy]
    exact fun hl => t2 (lethal_mono g h hm hf _ _ hl)
  · rw [hx, hy]
    simp only [hv]
    exact t3
  · rw [hx, hy, hv]
    exact t4

/-- The invariant of the tour is kept when the player steps from a Visited
cell to a neighbour cell without lethal hazard, the facts and the map staying
as in `tour_inv_stay`. -/
theorem tour_inv_step (g h : WUMPLUS)
    (hv : ∀ a b, visited h a b = visited g a b) (hs : ∀ a b, safe h a b = safe g a b)
    (hm : ∀ a b, h.map a b = g.map a b ∨ h.map a b = MAP_EMPTY)
    (hf : h.supmuw_neighbors_wumpus = true → g.supmuw_neighbors_wumpus = true)
    (hvis : visited g g.x g.y = true) (hadj : adjacent ⟨g.x, g.y⟩ ⟨h.x, h.y⟩)
    (hl : ¬ lethal g h.x h.y) (ht : tour_inv g) : tour_inv h := by
  obtain ⟨t1, -, -, t4⟩ := ht
  refine ⟨explored_congr g h hv hs (map_not_wall_mono g h hm) t1, ?_, ?_, ?_⟩
  · exact fun hl' => hl (lethal_mono g h hm hf _ _ hl')
  · exact Or.inr (Or.inr ⟨⟨g.x, g.y⟩, adjacent_symm _ _ hadj, by rw [hv]; exact hvis⟩)
  · rw [hv]
    rcases t4 with t4 | ⟨e1, e2⟩
    · exact Or.inl t4
    · rw [e1, e2] at hvis
      exact Or.inl hvis

theorem kb_tell_percepts (g : WUMPLUS) : (kb_tell g).percepts = g.percepts :=
  kb_tell_keeps (fun h => h.percepts = g.percepts)
    (fun h s x y _ hh => by show (kb_insert h s x y).percepts = g.percepts
                            rw [kb_insert_percepts]; exact hh) g rfl

/-- The Visited facts after `kb_tell`: those before, and the agent's cell. -/
theorem kb_tell_visited_iff (g : WUMPLUS) (a b : Int) :
    visited (kb_tell g) a b = true ↔ (visited g a b = true ∨ (a = g.x ∧ b = g.y)) := by
  unfold visited
  rw [kb_tell_fact_iff g PERCEPT_VISITED a b ⟨by decide, by decide, by decide⟩]
  have e1 : ¬ (PERCEPT_VISITED = PERCEPT_SAFE) := by decide
  have e2 : ¬ (PERCEPT_VISITED = PERCEPT_SMELL) := by decide
  have e3 : ¬ (PERCEPT_VISITED = PERCEPT_BREEZE) := by decide
  have e4 : ¬ (PERCEPT_VISITED = PERCEPT_MOO) := by decide
  have e5 : ¬ (PERCEPT_VISITED = PERCEPT_GLITTER) := by decide
  simp only [e1, e2, e3, e4, e5, false_and, and_false, or_false, true_and]

theorem adjacent_of_side (x y a b : Int)
    (h : (a = x - 1 ∧ b = y) ∨ (a = x + 1 ∧ b = y) ∨ (a = x ∧ b = y - 1) ∨
      (a = x ∧ b = y + 1)) : adjacent ⟨a, b⟩ ⟨x, y⟩ := by
  unfold adjacent
  dsimp only
  omega

/-- From a state in which the invariant of the tour holds, in agent mode,
`process_percepts` leads to a state in which it holds, the agent's cell and
the start are Visited, and the Dead percept is absent. -/
theorem tour_inv_sense (k g3 : WUMPLUS) (hw : walk_inv k) (hu : k.use_agent = true)
    (ht : tour_inv k) (hp : process_percepts k = .ok g3) :
    tour_inv g3 ∧ visited g3 g3.x g3.y = true ∧ visited g3 1 1 = true ∧
      Int.land g3.percepts PERCEPT_DEAD = 0 := by
  obtain ⟨k0, e, -, ⟨kx, ky, km, kf, ku, kdb⟩, hdead, -, -⟩ := process_percepts_spec k g3 hp
  rw [ku, hu, if_pos rfl] at e
  subst e
  obtain ⟨t1, t2, t3, t4⟩ := ht
  have hd0 : Int.land k0.percepts PERCEPT_DEAD = 0 := hdead.2 t2
  obtain ⟨fx, fy, fm, ff, -, -⟩ := kb_tell_frame k0
  have hv0 : ∀ a b, visited k0 a b = visited k a b :=
    fun a b => kb_found_congr k k0 (by rw [kdb]) _ a b
  have hs0 : ∀ a b, safe k0 a b = safe k a b :=
    fun a b => kb_found_congr k k0 (by rw [kdb]) _ a b
  have hv : ∀ a b, visited (kb_tell k0) a b = true ↔
      (visited k a b = true ∨ (a = k.x ∧ b = k.y)) := by
    intro a b
    rw [kb_tell_visited_iff, hv0, kx, ky]
  have hs : ∀ a b, safe (kb_tell k0) a b = true ↔
      (safe k a b = true ∨ (a = k.x ∧ b = k.y) ∨
        (Int.land k0.percepts PERCEPT_SMELL = 0 ∧ Int.land k0.percepts PERCEPT_BREEZE = 0 ∧
          ((a = k.x - 1 ∧ b = k.y) ∨ (a = k.x + 1 ∧ b = k.y) ∨
           (a = k.x ∧ b = k.y - 1) ∨ (a = k.x ∧ b = k.y + 1)))) := by
    intro a b
    rw [kb_tell_safe_iff, hs0, kx, ky]
    simp only [hd0, true_and]
  have hhere : visited (kb_tell k0) k.x k.y = true := (hv _ _).2 (Or.inr ⟨rfl, rfl⟩)
  have hmono : ∀ p q, visited_step k p q → visited_step (kb_tell k0) p q := by
    intro p q ⟨h1, h2, h3⟩
    exact ⟨h1, (hv _ _).2 (Or.inl h2), (hv _ _).2 (Or.inl h3)⟩
  have hsym : Symmetric (visited_step (kb_tell k0)) := by
    intro p q ⟨h1, h2, h3⟩
    exact ⟨adjacent_symm _ _ h1, h3, h2⟩
  -- every Visited cell is joined to the agent's cell
  have hfrom : ∀ a : coordinate, visited (kb_tell k0) a.x a.y = true →
      Relation.ReflTransGen (visited_step (kb_tell k0)) ⟨k.x, k.y⟩ a := by
    intro a ha
    rcases (hv _ _).1 ha with hold | ⟨h1, h2⟩
    · rcases t3 with hnone | hvis | ⟨p, hadj, hpv⟩
      · rw [hnone] at hold
        exact absurd hold (by simp)
      · exact Relation.ReflTransGen.mono hmono (t1.2.1 ⟨k.x, k.y⟩ a hvis hold)
      · exact Relation.ReflTransGen.head ⟨hadj, hhere, (hv _ _).2 (Or.inl hpv)⟩
          (Relation.ReflTransGen.mono hmono (t1.2.1 p a hpv hold))
    · have : a = ⟨k.x, k.y⟩ := by
        cases a
        simp only at h1 h2
        rw [h1, h2]
      rw [this]
  refine ⟨⟨⟨fun x y hx => ?_, fun a b ha hb => ?_, fun x y hx => ?_⟩, ?_, ?_, ?_⟩, ?_, ?_, ?_⟩
  · rw [fm, km]
    rcases (hv _ _).1 hx with hold | ⟨h1, h2⟩
    · exact ⟨(hs _ _).2 (Or.inl (t1.1 x y hold).1), (t1.1 x y hold).2⟩
    · rw [h1, h2]
      exact ⟨(hs _ _).2 (Or.inr (Or.inl ⟨rfl, rfl⟩)), hw.2.1⟩
  · exact Relation.ReflTransGen.trans
      (Relation.ReflTransGen.symmetric hsym (hfrom a ha)) (hfrom b hb)
  · rcases (hs _ _).1 hx with hold | ⟨h1, h2⟩ | ⟨-, -, hside⟩
    · rcases t1.2.2 x y hold with h1 | ⟨v, hadj, h1⟩
      · exact Or.inl ((hv _ _).2 (Or.inl h1))
      · exact Or.inr ⟨v, hadj, (hv _ _).2 (Or.inl h1)⟩
    · exact Or.inl ((hv _ _).2 (Or.inr ⟨h1, h2⟩))
    · exact Or.inr ⟨⟨k.x, k.y⟩, adjacent_of_side _ _ _ _ hside, hhere⟩
  · rw [fx, fy, kx, ky]
    intro hl
    apply t2
    unfold lethal at hl ⊢
    rw [fm, km, ff, kf] at hl
    exact hl
  · rw [fx, fy, kx, ky]
    exact Or.inr (Or.inl hhere)
  · rcases t4 with h1 | ⟨h1, h2⟩
    · exact Or.inl ((hv _ _).2 (Or.inl h1))
    · exact Or.inl ((hv _ _).2 (Or.inr ⟨h1.symm, h2.symm⟩))
  · rw [fx, fy, kx, ky]
    exact hhere
  · rcases t4 with h1 | ⟨h1, h2⟩
    · exact (hv _ _).2 (Or.inl h1)
    · exact (hv _ _).2 (Or.inr ⟨h1.symm, h2.symm⟩)
  · rw [kb_tell_percepts]
    exact hd0

/-! ## The game that is handed to `shortest_path` -/

theorem tour_inv_check_destination (g : WUMPLUS) (ht : tour_inv g) :
    tour_inv (check_destination g) := by
  obtain ⟨c1, c2, c3, c4, -, -, -, c8⟩ := check_destination_frame g
  exact tour_inv_stay g _ (fun a b => c8 _ a b (by decide)) (fun a b => c8 _ a b (by decide))
    (fun a b => Or.inl (by rw [c3])) (fun h => by rw [← c4]; exact h) c1 c2 ht

theorem tour_inv_set_destination (g : WUMPLUS) (x y : Int) (ht : tour_inv g) :
    tour_inv (set_destination g x y) := by
  obtain ⟨s1, s2, s3, s4, -⟩ := set_destination_frame g x y
  exact tour_inv_stay g _ (fun a b => visited_set_destination g x y a b)
    (fun a b => safe_set_destination g x y a b)
    (fun a b => Or.inl (by rw [s3])) (fun h => by rw [← s4]; exact h) s1 s2 ht

/-- The game that `kb_ask_action` hands to `shortest_path`, in a state in
which the invariants hold and the agent's cell and the start are Visited: the
invariants hold in it, the player is where it was, a destination is active,
it is Safe and no known wall, and it is not the agent's cell. -/
theorem call_state (order : List Row → List Row) (hord : ∀ l, (order l).Perm l)
    (k s : WUMPLUS) (hi : walk_inv k ∧ game_inv k ∧ agent_inv k) (ht : tour_inv k)
    (hvis : visited k k.x k.y = true) (hv11 : visited k 1 1 = true)
    (h3 : (s = check_destination k ∧ has_destination s = true ∧ at_destination s = false) ∨
     (¬ (has_destination (check_destination k) = true ∧
          at_destination (check_destination k) = false) ∧
        (has_unvisited_safe_squares order (check_destination k)).1 = true ∧
        s = (has_unvisited_safe_squares order (check_destination k)).2) ∨
     (¬ (has_destination (check_destination k) = true ∧
          at_destination (check_destination k) = false) ∧
        (has_unvisited_safe_squares order (check_destination k)).1 = false ∧
        ¬ (k.x = 1 ∧ k.y = 1) ∧ s = set_destination (check_destination k) 1 1)) :
    (walk_inv s ∧ game_inv s ∧ agent_inv s) ∧ tour_inv s ∧
    visited s s.x s.y = true ∧ has_destination s = true ∧
    passable s ⟨s.dest_x, s.dest_y⟩ ∧ (⟨s.x, s.y⟩ : coordinate) ≠ ⟨s.dest_x, s.dest_y⟩ ∧
    s.x = k.x ∧ s.y = k.y ∧
    (∀ a b, safe s a b = safe k a b) ∧ (∀ a b, wall s a b = wall k a b) := by
  obtain ⟨c1, c2, c3, c4, -, -, -, c8⟩ := check_destination_frame k
  have hic := inv_check_destination k hi
  have htc := tour_inv_check_destination k ht
  have hvc : ∀ a b, visited (check_destination k) a b = visited k a b :=
    fun a b => c8 _ a b (by decide)
  have hsc : ∀ a b, safe (check_destination k) a b = safe k a b :=
    fun a b => c8 _ a b (by decide)
  have hwc : ∀ a b, wall (check_destination k) a b = wall k a b :=
    fun a b => c8 _ a b (by decide)
  -- the game with the destination set to a Safe cell that is no known wall
  have hset : ∀ x y : Int, safe k x y = true → wall k x y = false →
      ¬ (k.x = x ∧ k.y = y) →
      (walk_inv (set_destination (check_destination k) x y) ∧
        game_inv (set_destination (check_destination k) x y) ∧
        agent_inv (set_destination (check_destination k) x y)) ∧
      tour_inv (set_destination (check_destination k) x y) ∧
      visited (set_destination (check_destination k) x y)
        (set_destination (check_destination k) x y).x
        (set_destination (check_destination k) x y).y = true ∧
      has_destination (set_destination (check_destination k) x y) = true ∧
      passable (set_destination (check_destination k) x y)
        ⟨(set_destination (check_destination k) x y).dest_x,
         (set_destination (check_destination k) x y).dest_y⟩ ∧
      (⟨(set_destination (check_destination k) x y).x,
        (set_destination (check_destination k) x y).y⟩ : coordinate) ≠
        ⟨(set_destination (check_destination k) x y).dest_x,
         (set_destination (check_destination k) x y).dest_y⟩ ∧
      (set_destination (check_destination k) x y).x = k.x ∧
      (set_destination (check_destination k) x y).y = k.y ∧
      (∀ a b, safe (set_destination (check_destination k) x y) a b = safe k a b) ∧
      (∀ a b, wall (set_destination (check_destination k) x y) a b = wall k a b) := by
    intro x y hsx hwx hne
    obtain ⟨s1, s2, -, -, -, -, -, s8, s9⟩ := set_destination_frame (check_destination k) x y
    have hin : in_map x y = true := (hi.2.1.2.2.2.1 x y hsx).1
    refine ⟨inv_set_destination _ x y hin hic, tour_inv_set_destination _ x y htc, ?_,
      has_destination_set _ x y, ?_, ?_, s1.trans c1, s2.trans c2, ?_, ?_⟩
    · rw [visited_set_destination, hvc, s1, s2, c1, c2]
      exact hvis
    · unfold passable
      rw [s8, s9]
      dsimp only
      rw [safe_set_destination, wall_set_destination, hsc, hwc]
      exact ⟨hsx, hwx⟩
    · rw [s1, s2, s8, s9, c1, c2]
      intro he
      injection he with e1 e2
      exact hne ⟨e1, e2⟩
    · intro a b
      rw [safe_set_destination, hsc]
    · intro a b
      rw [wall_set_destination, hwc]
  rcases h3 with ⟨rfl, hd, had⟩ | ⟨-, hu, rfl⟩ | ⟨-, -, hns, rfl⟩
  · obtain ⟨e, hsd, hwd⟩ := check_destination_active k hd
    rw [e] at hd had ⊢
    refine ⟨hi, ht, hvis, hd, ⟨hsd, hwd⟩, ?_, rfl, rfl, fun _ _ => rfl, fun _ _ => rfl⟩
    intro he
    injection he with e1 e2
    have : at_destination k = true := (at_destination_iff k).2 ⟨hd, e1, e2⟩
    rw [had] at this
    exact Bool.noConfusion this
  · obtain ⟨x, y, hsx, hvx, hwx, e⟩ :=
      (has_unvisited_safe_squares_game order hord (check_destination k)).1 hu
    rw [e]
    rw [hsc] at hsx
    rw [hvc] at hvx
    rw [hwc] at hwx
    refine hset x y hsx hwx ?_
    rintro ⟨e1, e2⟩
    rw [e1, e2, hvx] at hvis
    exact Bool.noConfusion hvis
  · have hp := visited_passable k hi.2.1 ht.1 1 1 hv11
    exact hset 1 1 hp.1 hp.2 hns

/-- The call of `shortest_path` by `kb_ask_action`, in such a state: it
returns the direction of a neighbour of the agent's cell that is Safe, no
known wall, has a nonzero weight after the zeroing, and is one step nearer to
the destination. -/
theorem call_step (order : List Row → List Row) (hord : ∀ l, (order l).Perm l)
    (k s : WUMPLUS) (hi : walk_inv k ∧ game_inv k ∧ agent_inv k) (ht : tour_inv k)
    (hvis : visited k k.x k.y = true) (hv11 : visited k 1 1 = true)
    (h3 : (s = check_destination k ∧ has_destination s = true ∧ at_destination s = false) ∨
     (¬ (has_destination (check_destination k) = true ∧
          at_destination (check_destination k) = false) ∧
        (has_unvisited_safe_squares order (check_destination k)).1 = true ∧
        s = (has_unvisited_safe_squares order (check_destination k)).2) ∨
     (¬ (has_destination (check_destination k) = true ∧
          at_destination (check_destination k) = false) ∧
        (has_unvisited_safe_squares order (check_destination k)).1 = false ∧
        ¬ (k.x = 1 ∧ k.y = 1) ∧ s = set_destination (check_destination k) 1 1)) :
    ∃ (c : Char) (n : coordinate) (j : Nat) (w : Grid),
      shortest_path s = .ok (c, s) ∧ target_cell k c = some n ∧
      adjacent ⟨k.x, k.y⟩ n ∧ safe k n.x n.y = true ∧ wall k n.x n.y = false ∧
      filtered_weights search_fuel s = .ok (s, w) ∧ w n.x n.y ≠ 0 ∧
      safe_dist s n ⟨s.dest_x, s.dest_y⟩ j ∧
      safe_dist s ⟨s.x, s.y⟩ ⟨s.dest_x, s.dest_y⟩ (j + 1) := by
  obtain ⟨⟨sw, sg, sa⟩, st, sv, -, sp, sne, sx, sy, ss, swl⟩ :=
    call_state order hord k s hi ht hvis hv11 h3
  have hin : in_map s.x s.y = true := by
    have := sw.1
    unfold MAP_SIZE at this
    rw [in_map_iff]
    omega
  obtain ⟨n0, hpath⟩ := explored_path s sg st.1 ⟨s.x, s.y⟩ ⟨s.dest_x, s.dest_y⟩ sv sp
  obtain ⟨c, n, j, w, h1, h2, h4, h5, h6, h7, h8, h9, h10⟩ :=
    shortest_path_step s sa.1 sa.2.1 (fun x y hx => (st.1.1 x y hx).1) hin sne n0 hpath
  refine ⟨c, n, j, w, h1, ?_, ?_, ?_, ?_, h7, h8, h9, h10⟩
  · unfold target_cell at h2 ⊢
    rw [← sx, ← sy]
    exact h2
  · rw [← sx, ← sy]
    exact h4
  · rw [← ss]
    exact h5
  · rw [← swl]
    exact h6

/-! ## One turn of the agent -/

theorem clear_bump_frame (g : WUMPLUS) :
    (clear_bump g).x = g.x ∧ (clear_bump g).y = g.y ∧ (clear_bump g).map = g.map ∧
    (clear_bump g).supmuw_neighbors_wumpus = g.supmuw_neighbors_wumpus ∧
    (clear_bump g).use_agent = g.use_agent ∧ (clear_bump g).db = g.db := by
  unfold clear_bump
  split <;> exact ⟨rfl, rfl, rfl, rfl, rfl, rfl⟩

/-- What a command does, with the direction of a move read off the command
character. -/
theorem process_player_command_move (g g' : WUMPLUS) (c : Char)
    (h : process_player_command g c = .ok (some g')) :
    g' = g ∨
    (∃ d, move_direction c = some d ∧ action_move g d = .ok g') ∨
    (∃ d, action_shoot g d = .ok g') ∨
    action_grab g = .ok g' := by
  have step : ∀ (x : Except Err WUMPLUS),
      (x >>= fun k => pure (some k)) = Except.ok (some g') → x = .ok g' := by
    intro x hx
    obtain ⟨k, hk, hx⟩ := bind_ok _ _ _ hx
    have e := Option.some.inj (Except.ok.inj hx)
    rw [hk, e]
  unfold process_player_command at h
  unfold move_direction
  by_cases c1 : c = '?'
  · rw [if_pos c1] at h
    exact Or.inl (Option.some.inj (Except.ok.inj h)).symm
  rw [if_neg c1] at h
  by_cases c2 : c = 'q'
  · rw [if_pos c2] at h
    exact Option.noConfusion (Except.ok.inj h)
  rw [if_neg c2] at h
  by_cases c3 : c = 'n' ∨ c = 'k'
  · rw [if_pos c3] at h
    rw [if_pos c3]
    exact Or.inr (Or.inl ⟨_, rfl, step _ h⟩)
  rw [if_neg c3] at h
  rw [if_neg c3]
  by_cases c4 : c = 's' ∨ c = 'j'
  · rw [if_pos c4] at h
    rw [if_pos c4]
    exact Or.inr (Or.inl ⟨_, rfl, step _ h⟩)
  rw [if_neg c4] at h
  rw [if_neg c4]
  by_cases c5 : c = 'e' ∨ c = 'l'
  · rw [if_pos c5] at h
    rw [if_pos c5]
    exact Or.inr (Or.inl ⟨_, rfl, step _ h⟩)
  rw [if_neg c5] at h
  rw [if_neg c5]
  by_cases c6 : c = 'w' ∨ c = 'h'
  · rw [if_pos c6] at h
    rw [if_pos c6]
    exact Or.inr (Or.inl ⟨_, rfl, step _ h⟩)
  rw [if_neg c6] at h
  by_cases c7 : c = 'N'
  · rw [if_pos c7] at h
    exact Or.inr (Or.inr (Or.inl ⟨_, step _ h⟩))
  rw [if_neg c7] at h
  by_cases c8 : c = 'S'
  · rw [if_pos c8] at h
    exact Or.inr (Or.inr (Or.inl ⟨_, step _ h⟩))
  rw [if_neg c8] at h
  by_cases c9 : c = 'E'
  · rw [if_pos c9] at h
    exact Or.inr (Or.inr (Or.inl ⟨_, step _ h⟩))
  rw [if_neg c9] at h
  by_cases c10 : c = 'W'
  · rw [if_pos c10] at h
    exact Or.inr (Or.inr (Or.inl ⟨_, step _ h⟩))
  rw [if_neg c10] at h
  by_cases c11 : c = 'g'
  · rw [if_pos c11] at h
    exact Or.inr (Or.inr (Or.inr (step _ h)))
  rw [if_neg c11] at h
  exact Or.inl (Option.some.inj (Except.ok.inj h)).symm

/-- The facts other than Glitter, the position and the flag stay through
`action_grab`, and a cell of the map stays or becomes empty. -/
theorem action_grab_facts (g g' : WUMPLUS) (h : action_grab g = .ok g') :
    (∀ s a b, s ≠ PERCEPT_GLITTER → kb_found g' s a b = kb_found g s a b) ∧
    (∀ a b, g'.map a b = g.map a b ∨ g'.map a b = MAP_EMPTY) := by
  unfold action_grab at h
  obtain ⟨cell, hc, h1⟩ := bind_ok _ _ _ h
  clear h
  obtain ⟨hin, hcell⟩ := map_get_ok _ _ _ _ hc
  clear hc
  subst hcell
  by_cases hg : g.map g.x g.y = MAP_GOLD
  · rw [if_pos hg] at h1
    dsimp only [map_set, add_score] at h1
    have h' := Except.ok.inj h1
    clear h1
    subst h'
    have hmap : ∀ a b : Int,
        (if a = g.x ∧ b = g.y then MAP_EMPTY else g.map a b) = g.map a b ∨
        (if a = g.x ∧ b = g.y then MAP_EMPTY else g.map a b) = MAP_EMPTY := by
      intro a b
      split
      · exact Or.inr rfl
      · exact Or.inl rfl
    by_cases hu : g.use_agent = true
    · rw [if_pos hu]
      refine ⟨fun s a b hs => ?_, fun a b => ?_⟩
      · rw [kb_found_delete_ne _ _ _ _ _ _ _ hs]
        rfl
      · rw [kb_delete_map]
        exact hmap a b
    · rw [if_neg hu]
      exact ⟨fun _ _ _ _ => rfl, hmap⟩
  · rw [if_neg hg] at h1
    have h' := Except.ok.inj h1
    subst h'
    exact ⟨fun _ _ _ _ => rfl, fun _ _ => Or.inl rfl⟩

/-- The facts other than Wumpus, Supmuw and Smell stay through `action_shoot`,
a cell of the map stays or becomes empty, and the flag is not set by it. -/
theorem action_shoot_facts (g g' : WUMPLUS) (d : Int) (h : action_shoot g d = .ok g') :
    (∀ s a b, s ≠ PERCEPT_WUMPUS → s ≠ PERCEPT_SUPMUW → s ≠ PERCEPT_SMELL →
      kb_found g' s a b = kb_found g s a b) ∧
    (∀ a b, g'.map a b = g.map a b ∨ g'.map a b = MAP_EMPTY) ∧
    (g'.supmuw_neighbors_wumpus = true → g.supmuw_neighbors_wumpus = true) := by
  unfold action_shoot at h
  by_cases ha : g.arrows = 0
  · rw [if_pos ha] at h
    have h' := Except.ok.inj h
    subst h'
    exact ⟨fun _ _ _ _ _ _ => rfl, fun _ _ => Or.inl rfl, fun hf => hf⟩
  · rw [if_neg ha] at h
    dsimp only [add_score] at h
    obtain ⟨cell, hc, h1⟩ := bind_ok _ _ _ h
    clear h
    obtain ⟨hin, hcell⟩ := map_get_ok _ _ _ _ hc
    clear hc
    dsimp only at hcell
    subst hcell
    by_cases hk : g.map (delta_coordinates g.x g.y d).1.x (delta_coordinates g.x g.y d).1.y
        = MAP_WUMPUS ∨
        g.map (delta_coordinates g.x g.y d).1.x (delta_coordinates g.x g.y d).1.y = MAP_SUPMUW
    · rw [if_pos hk] at h1
      dsimp only [map_set] at h1
      have hmap : ∀ a b : Int,
          (if a = (delta_coordinates g.x g.y d).1.x ∧ b = (delta_coordinates g.x g.y d).1.y
            then MAP_EMPTY else g.map a b) = g.map a b ∨
          (if a = (delta_coordinates g.x g.y d).1.x ∧ b = (delta_coordinates g.x g.y d).1.y
            then MAP_EMPTY else g.map a b) = MAP_EMPTY := by
        intro a b
        split
        · exact Or.inr rfl
        · exact Or.inl rfl
      by_cases hu : g.use_agent = true
      · rw [if_pos hu] at h1
        have h' := Except.ok.inj h1
        clear h1
        subst h'
        refine ⟨fun s a b s1 s2 s3 => ?_, fun a b => ?_, fun hf => ?_⟩
        · rw [kb_found_delete_ne _ _ _ _ _ _ _ s3, kb_found_delete_ne _ _ _ _ _ _ _ s3,
            kb_found_delete_ne _ _ _ _ _ _ _ s3, kb_found_delete_ne _ _ _ _ _ _ _ s3,
            kb_found_delete_ne _ _ _ _ _ _ _ s2, kb_found_delete_ne _ _ _ _ _ _ _ s1]
          rfl
        · simp only [kb_delete_map]
          exact hmap a b
        · simp only [kb_delete_flag] at hf
          exact Bool.noConfusion hf
      · rw [if_neg hu] at h1
        have h' := Except.ok.inj h1
        clear h1
        subst h'
        exact ⟨fun _ _ _ _ _ _ => rfl, hmap, fun hf => Bool.noConfusion hf⟩
    · rw [if_neg hk] at h1
      have h' := Except.ok.inj h1
      clear h1
      subst h'
      exact ⟨fun _ _ _ _ _ _ => rfl, fun _ _ => Or.inl rfl, fun hf => hf⟩

/-- The invariant of the tour is kept by a move from a Visited cell towards a
neighbour cell that is Safe. -/
theorem tour_inv_move (g g' : WUMPLUS) (d : Int) (hg : game_inv g) (ht : tour_inv g)
    (hvis : visited g g.x g.y = true)
    (hadj : adjacent ⟨g.x, g.y⟩ (delta_coordinates g.x g.y d).1)
    (hsafe : safe g (delta_coordinates g.x g.y d).1.x (delta_coordinates g.x g.y d).1.y = true)
    (h : action_move g d = .ok g') : tour_inv g' := by
  obtain ⟨-, -, hm, hf, hcase⟩ := action_move_spec g g' d h
  have hmap : ∀ a b, g'.map a b = g.map a b ∨ g'.map a b = MAP_EMPTY :=
    fun a b => Or.inl (by rw [hm])
  have hflag : g'.supmuw_neighbors_wumpus = true → g.supmuw_neighbors_wumpus = true :=
    fun hh => by rw [← hf]; exact hh
  rcases hcase with ⟨-, hx, hy, hfacts⟩ | ⟨-, hx, hy, hdb⟩
  · have hsame : ∀ s a b, s ≠ PERCEPT_BUMP → kb_found g' s a b = kb_found g s a b := by
      intro s a b hs
      rw [Bool.eq_iff_iff, hfacts]
      constructor
      · rintro (h1 | ⟨-, h2, -⟩)
        · exact h1
        · exact absurd h2 hs
      · exact fun h1 => Or.inl h1
    exact tour_inv_stay g g' (fun a b => hsame _ a b (by decide))
      (fun a b => hsame _ a b (by decide)) hmap hflag hx hy ht
  · have hv : ∀ a b, visited g' a b = visited g a b :=
      fun a b => kb_found_congr g g' (by rw [hdb]) _ a b
    have hs : ∀ a b, safe g' a b = safe g a b :=
      fun a b => kb_found_congr g g' (by rw [hdb]) _ a b
    refine tour_inv_step g g' hv hs hmap hflag hvis ?_ ?_ ht
    · rw [hx, hy]
      exact hadj
    · rw [hx, hy]
      exact (hg.2.2.2.1 _ _ hsafe).2

/-- The action characters that are no move. -/
theorem no_move_of_shot (g : WUMPLUS) (n : coordinate) (hn : adjacent ⟨g.x, g.y⟩ n) :
    move_direction (upper_case (relative_direction g n.x n.y)) = none := by
  obtain ⟨u1, u2, u3, u4, -⟩ := upper_case_values
  rcases relative_direction_of_neighbour g n ((mem_neighbours _ _).2 hn) with
    ⟨-, e⟩ | ⟨-, e⟩ | ⟨-, e⟩ | ⟨-, e⟩
  · rw [e, u4]; decide
  · rw [e, u3]; decide
  · rw [e, u1]; decide
  · rw [e, u2]; decide

/-- A move that `kb_ask_action` returns, in a state in which the invariants
hold and the agent's cell and the start are Visited, comes from its call of
`shortest_path`, and goes to a neighbour of the agent's cell that is Safe, no
known wall, has a nonzero weight after the zeroing, and is one step nearer to
the destination. -/
theorem ask_move_target (order : List Row → List Row) (hord : ∀ l, (order l).Perm l)
    (k g1 : WUMPLUS) (c : Char) (d : Int)
    (hi : walk_inv k ∧ game_inv k ∧ agent_inv k) (ht : tour_inv k)
    (hvis : visited k k.x k.y = true) (hv11 : visited k 1 1 = true)
    (h : kb_ask_action order k = .ok (c, g1)) (hd : move_direction c = some d) :
    ∃ (j : Nat) (w : Grid),
      shortest_path g1 = .ok (c, g1) ∧
      adjacent ⟨k.x, k.y⟩ (delta_coordinates k.x k.y d).1 ∧
      safe k (delta_coordinates k.x k.y d).1.x (delta_coordinates k.x k.y d).1.y = true ∧
      wall k (delta_coordinates k.x k.y d).1.x (delta_coordinates k.x k.y d).1.y = false ∧
      filtered_weights search_fuel g1 = .ok (g1, w) ∧
      w (delta_coordinates k.x k.y d).1.x (delta_coordinates k.x k.y d).1.y ≠ 0 ∧
      safe_dist g1 (delta_coordinates k.x k.y d).1 ⟨g1.dest_x, g1.dest_y⟩ j ∧
      safe_dist g1 ⟨g1.x, g1.y⟩ ⟨g1.dest_x, g1.dest_y⟩ (j + 1) := by
  rcases kb_ask_action_cases order k g1 c h with
    ⟨-, e, -⟩ | ⟨-, -, ⟨n, hadj, -, e⟩, -⟩ | ⟨-, -, s, hsp, hs⟩ | ⟨-, -, -, -, -, e, -⟩
  · rw [e] at hd
    have h0 : move_direction 'g' = none := by decide
    rw [h0] at hd
    exact Option.noConfusion hd
  · rw [e, no_move_of_shot k n hadj] at hd
    exact Option.noConfusion hd
  · obtain ⟨c', n, j, w, h1, h2, h4, h5, h6, h7, h8, h9, h10⟩ :=
      call_step order hord k s hi ht hvis hv11 hs
    rw [h1] at hsp
    have e := Except.ok.inj hsp
    rw [Prod.mk.injEq] at e
    obtain ⟨rfl, rfl⟩ := e
    have hn : (delta_coordinates k.x k.y d).1 = n := by
      unfold target_cell at h2
      rw [hd] at h2
      exact Option.some.inj h2
    rw [hn]
    exact ⟨j, w, h1, h4, h5, h6, h7, h8, h9, h10⟩
  · rw [e] at hd
    have h0 : move_direction 'q' = none := by decide
    rw [h0] at hd
    exact Option.noConfusion hd

/-! ## The states at the top of the main loop -/

theorem process_percepts_use_agent (g g' : WUMPLUS) (h : process_percepts g = .ok g') :
    g'.use_agent = g.use_agent := by
  obtain ⟨k0, e, -, ⟨-, -, -, -, ku, -⟩, -⟩ := process_percepts_spec g g' h
  rw [e]
  split
  · rw [(kb_tell_frame k0).2.2.2.2.1, ku]
  · exact ku

theorem process_player_command_use_agent (g g' : WUMPLUS) (c : Char)
    (h : process_player_command g c = .ok (some g')) : g'.use_agent = g.use_agent := by
  rcases process_player_command_cases g g' c h with rfl | ⟨d, -, hm⟩ | ⟨d, -, hs⟩ | hg
  · rfl
  · exact (action_move_spec g g' d hm).2.1
  · exact (action_shoot_spec g g' d hs).1
  · exact (action_grab_spec g g' hg).1

/-- The start, right after `init_game`: the invariant of the tour holds. -/
theorem tour_inv_init (r : Draws) (g : WUMPLUS) (h : init_game true r = some g) :
    tour_inv g := by
  obtain ⟨-, hx, hy, -, hfacts⟩ := init_game_spec r g h
  obtain ⟨g0, e, -, -, -, -, -, -, -, -, -, h11⟩ := init_game_shape true r g h
  have hmap : g.map 1 1 = MAP_EMPTY := by
    rw [e, if_pos rfl]
    exact tell_outside_walls_keeps (fun k => k.map 1 1 = MAP_EMPTY)
      (fun k x y _ _ hk => by show (kb_insert k PERCEPT_BUMP x y).map 1 1 = MAP_EMPTY
                              rw [kb_insert_map]; exact hk) _ h11
  have hnv : ∀ x y, visited g x y = false := by
    intro x y
    cases hv : visited g x y with
    | false => rfl
    | true => exact absurd (hfacts _ x y hv).1 (by decide)
  have hns : ∀ x y, safe g x y = false := by
    intro x y
    cases hv : safe g x y with
    | false => rfl
    | true => exact absurd (hfacts _ x y hv).1 (by decide)
  refine ⟨⟨fun x y hv => ?_, fun a b ha _ => ?_, fun x y hs => ?_⟩, ?_, Or.inl hnv,
    Or.inr ⟨hx, hy⟩⟩
  · rw [hnv] at hv
    exact Bool.noConfusion hv
  · rw [hnv] at ha
    exact Bool.noConfusion ha
  · rw [hns] at hs
    exact Bool.noConfusion hs
  · rw [hx, hy]
    unfold lethal
    rw [hmap]
    rintro (h1 | h1 | ⟨h1, -⟩) <;> exact absurd h1 (by decide)

/-- What holds in every state at the top of the main loop in agent mode: it
is a state of a game in agent mode, the invariant of the tour holds, the
agent's cell and the start are Visited, and the Dead percept is absent. -/
theorem agent_run_inv (g : WUMPLUS) (h : AgentRun g) :
    Play g ∧ g.use_agent = true ∧ tour_inv g ∧ visited g g.x g.y = true ∧
      visited g 1 1 = true ∧ Int.land g.percepts PERCEPT_DEAD = 0 := by
  induction h with
  | start r g0 g h0 hp =>
    have hp0 : Play g0 := Play.init true r g0 h0
    have hu0 : g0.use_agent = true := (init_game_spec r g0 h0).1
    obtain ⟨t1, t2, t3, t4⟩ :=
      tour_inv_sense g0 g (play_inv g0 hp0).1 hu0 (tour_inv_init r g0 h0) hp
    exact ⟨Play.percepts g0 g hp0 hp, (process_percepts_use_agent g0 g hp).trans hu0,
      t1, t2, t3, t4⟩
  | turn order g g1 g2 g3 c _ hord hask hcmd hp ih =>
    obtain ⟨hP, hu, ht, hvis, hv11, -⟩ := ih
    obtain ⟨kx, ky, km, kf, ku, kdb⟩ := clear_bump_frame g
    -- after the removal of the Bump percept
    have hPk : Play (clear_bump g) := Play.unbump g hP
    have huk : (clear_bump g).use_agent = true := ku.trans hu
    have hvk : ∀ a b, visited (clear_bump g) a b = visited g a b :=
      fun a b => kb_found_congr g _ (by rw [kdb]) _ a b
    have hsk : ∀ a b, safe (clear_bump g) a b = safe g a b :=
      fun a b => kb_found_congr g _ (by rw [kdb]) _ a b
    have htk : tour_inv (clear_bump g) :=
      tour_inv_stay g _ hvk hsk (fun a b => Or.inl (by rw [km]))
        (fun hh => by rw [← kf]; exact hh) kx ky ht
    have hvisk : visited (clear_bump g) (clear_bump g).x (clear_bump g).y = true := by
      rw [hvk, kx, ky]; exact hvis
    have hv11k : visited (clear_bump g) 1 1 = true := by rw [hvk]; exact hv11
    obtain ⟨hwk, hrest⟩ := play_inv _ hPk
    obtain ⟨hgk, hak⟩ := hrest huk
    -- after the choice of the action
    have hP1 : Play g1 := Play.ask order _ g1 c hPk huk hord hask
    have hu1 : g1.use_agent = true := (kb_ask_action_use_agent order _ g1 c hask).trans huk
    obtain ⟨ax, ay, am, af⟩ := kb_ask_action_frame order _ g1 c hask
    have hv1 : ∀ a b, visited g1 a b = visited (clear_bump g) a b :=
      fun a b => kb_ask_action_found order _ g1 c hask _ (by decide) a b
    have hs1 : ∀ a b, safe g1 a b = safe (clear_bump g) a b :=
      fun a b => kb_ask_action_found order _ g1 c hask _ (by decide) a b
    have ht1 : tour_inv g1 :=
      tour_inv_stay _ g1 hv1 hs1 (fun a b => Or.inl (by rw [am]))
        (fun hh => by rw [← af]; exact hh) ax ay htk
    have hvis1 : visited g1 g1.x g1.y = true := by
      rw [hv1, ax, ay]; exact hvisk
    obtain ⟨-, hrest1⟩ := play_inv _ hP1
    obtain ⟨hg1, -⟩ := hrest1 hu1
    -- after the action
    have hP2 : Play g2 := Play.command g1 g2 c hP1 hcmd
    have hu2 : g2.use_agent = true := (process_player_command_use_agent g1 g2 c hcmd).trans hu1
    have ht2 : tour_inv g2 := by
      rcases process_player_command_move g1 g2 c hcmd with
        rfl | ⟨d, hd, hm⟩ | ⟨d, hsh⟩ | hgr
      · exact ht1
      · obtain ⟨j, w, -, hadj, hsafe, -, -, -, -, -⟩ :=
          ask_move_target order hord _ g1 c d ⟨hwk, hgk, hak⟩ htk hvisk hv11k hask hd
        rw [← ax, ← ay] at hadj hsafe
        rw [← hs1] at hsafe
        exact tour_inv_move g1 g2 d hg1 ht1 hvis1 hadj hsafe hm
      · obtain ⟨f1, f2, f3⟩ := action_shoot_facts g1 g2 d hsh
        obtain ⟨-, sx, sy, -, -⟩ := action_shoot_spec g1 g2 d hsh
        exact tour_inv_stay g1 g2
          (fun a b => f1 _ a b (by decide) (by decide) (by decide))
          (fun a b => f1 _ a b (by decide) (by decide) (by decide)) f2 f3 sx sy ht1
      · obtain ⟨f1, f2⟩ := action_grab_facts g1 g2 hgr
        obtain ⟨-, sx, sy, sf, -, -⟩ := action_grab_spec g1 g2 hgr
        exact tour_inv_stay g1 g2 (fun a b => f1 _ a b (by decide))
          (fun a b => f1 _ a b (by decide)) f2 (fun hh => by rw [← sf]; exact hh) sx sy ht1
    obtain ⟨t1, t2, t3, t4⟩ := tour_inv_sense g2 g3 (play_inv g2 hP2).1 hu2 ht2 hp
    exact ⟨Play.percepts g2 g3 hP2 hp, (process_percepts_use_agent g2 g3 hp).trans hu2,
      t1, t2, t3, t4⟩

/-! ## Claims on the runs of the agent -/

theorem action_grab_total (g : WUMPLUS) (h : 1 ≤ g.x ∧ g.x ≤ 12 ∧ 1 ≤ g.y ∧ g.y ≤ 12) :
    ∃ g', action_grab g = .ok g' := by
  have hin : in_map g.x g.y = true := by rw [in_map_iff]; omega
  unfold action_grab
  rw [map_get_of_in_map _ _ _ hin, bind_of_ok]
  split
  · exact ⟨_, rfl⟩
  · exact ⟨_, rfl⟩

/-- For a player on an interior cell every command returns: the quit with
nothing, every other character with a game. -/
theorem process_player_command_returns (g : WUMPLUS) (c : Char)
    (h : 1 ≤ g.x ∧ g.x ≤ 12 ∧ 1 ≤ g.y ∧ g.y ≤ 12) :
    c = 'q' ∨ ∃ g', process_player_command g c = .ok (some g') := by
  have step : ∀ (x : Except Err WUMPLUS), (∃ k, x = .ok k) →
      ∃ g', (x >>= fun k => pure (some k)) = Except.ok (some g') := by
    rintro x ⟨k, rfl⟩
    exact ⟨k, rfl⟩
  unfold process_player_command
  by_cases c1 : c = '?'
  · rw [if_pos c1]
    exact Or.inr ⟨g, rfl⟩
  rw [if_neg c1]
  by_cases c2 : c = 'q'
  · exact Or.inl c2
  rw [if_neg c2]
  right
  by_cases c3 : c = 'n' ∨ c = 'k'
  · rw [if_pos c3]
    exact step _ (action_move_total g _ h)
  rw [if_neg c3]
  by_cases c4 : c = 's' ∨ c = 'j'
  · rw [if_pos c4]
    exact step _ (action_move_total g _ h)
  rw [if_neg c4]
  by_cases c5 : c = 'e' ∨ c = 'l'
  · rw [if_pos c5]
    exact step _ (action_move_total g _ h)
  rw [if_neg c5]
  by_cases c6 : c = 'w' ∨ c = 'h'
  · rw [if_pos c6]
    exact step _ (action_move_total g _ h)
  rw [if_neg c6]
  by_cases c7 : c = 'N'
  · rw [if_pos c7]
    exact step _ (action_shoot_total g _ h)
  rw [if_neg c7]
  by_cases c8 : c = 'S'
  · rw [if_pos c8]
    exact step _ (action_shoot_total g _ h)
  rw [if_neg c8]
  by_cases c9 : c = 'E'
  · rw [if_pos c9]
    exact step _ (action_shoot_total g _ h)
  rw [if_neg c9]
  by_cases c10 : c = 'W'
  · rw [if_pos c10]
    exact step _ (action_shoot_total g _ h)
  rw [if_neg c10]
  by_cases c11 : c = 'g'
  · rw [if_pos c11]
    exact step _ (action_grab_total g h)
  rw [if_neg c11]
  exact ⟨g, rfl⟩

theorem interior_of_walk_inv (g : WUMPLUS) (h : walk_inv g) :
    1 ≤ g.x ∧ g.x ≤ 12 ∧ 1 ≤ g.y ∧ g.y ≤ 12 := by
  have := h.1
  unfold MAP_SIZE at this
  omega

/-- Claim C26: in every state at the top of the main loop of a run in agent
mode, from any map that `init_game` can leave and with each action the one
`kb_ask_action` returns, the Dead percept is absent and the agent's cell holds
no lethal hazard.  `kb_ask_action` returns an action there; a move it returns
comes from `shortest_path` and goes to a neighbour cell that is Safe, no known
wall and without lethal hazard, that has a nonzero weight after the zeroing
(so the answer is not the one given when no neighbour has a weight) and is one
step nearer to the destination; and unless the action is the quit, the turn
goes through and leads to such a state again. -/
theorem agent_never_dies (g : WUMPLUS) (h : AgentRun g) :
    Int.land g.percepts PERCEPT_DEAD = 0 ∧ ¬ lethal g g.x g.y ∧
    (∀ (order : List Row → List Row), (∀ l, (order l).Perm l) →
      (∃ c g1, kb_ask_action order (clear_bump g) = .ok (c, g1)) ∧
      (∀ c g1, kb_ask_action order (clear_bump g) = .ok (c, g1) →
        (∀ d, move_direction c = some d →
          ∃ (j : Nat) (w : Grid),
            shortest_path g1 = .ok (c, g1) ∧
            adjacent ⟨g.x, g.y⟩ (delta_coordinates g.x g.y d).1 ∧
            safe g (delta_coordinates g.x g.y d).1.x (delta_coordinates g.x g.y d).1.y = true ∧
            wall g (delta_coordinates g.x g.y d).1.x (delta_coordinates g.x g.y d).1.y = false ∧
            ¬ lethal g (delta_coordinates g.x g.y d).1.x (delta_coordinates g.x g.y d).1.y ∧
            filtered_weights search_fuel g1 = .ok (g1, w) ∧
            w (delta_coordinates g.x g.y d).1.x (delta_coordinates g.x g.y d).1.y ≠ 0 ∧
            safe_dist g1 (delta_coordinates g.x g.y d).1 ⟨g1.dest_x, g1.dest_y⟩ j ∧
            safe_dist g1 ⟨g1.x, g1.y⟩ ⟨g1.dest_x, g1.dest_y⟩ (j + 1)) ∧
        (c = 'q' ∨ ∃ g2 g3, process_player_command g1 c = .ok (some g2) ∧
          process_percepts g2 = .ok g3 ∧ AgentRun g3 ∧
          Int.land g3.percepts PERCEPT_DEAD = 0))) := by
  obtain ⟨hP, hu, ht, hvis, hv11, hdead⟩ := agent_run_inv g h
  refine ⟨hdead, ht.2.1, fun order hord => ?_⟩
  obtain ⟨kx, ky, km, kf, ku, kdb⟩ := clear_bump_frame g
  have hPk : Play (clear_bump g) := Play.unbump g hP
  have huk : (clear_bump g).use_agent = true := ku.trans hu
  have hvk : ∀ a b, visited (clear_bump g) a b = visited g a b :=
    fun a b => kb_found_congr g _ (by rw [kdb]) _ a b
  have hsk : ∀ a b, safe (clear_bump g) a b = safe g a b :=
    fun a b => kb_found_congr g _ (by rw [kdb]) _ a b
  have hwlk : ∀ a b, wall (clear_bump g) a b = wall g a b :=
    fun a b => kb_found_congr g _ (by rw [kdb]) _ a b
  have htk : tour_inv (clear_bump g) :=
    tour_inv_stay g _ hvk hsk (fun a b => Or.inl (by rw [km]))
      (fun hh => by rw [← kf]; exact hh) kx ky ht
  have hvisk : visited (clear_bump g) (clear_bump g).x (clear_bump g).y = true := by
    rw [hvk, kx, ky]; exact hvis
  have hv11k : visited (clear_bump g) 1 1 = true := by rw [hvk]; exact hv11
  obtain ⟨hwk, hrest⟩ := play_inv _ hPk
  obtain ⟨hgk, hak⟩ := hrest huk
  obtain ⟨-, hrestg⟩ := play_inv _ hP
  obtain ⟨hgg, -⟩ := hrestg hu
  refine ⟨kb_ask_action_total order hord _ hwk.1 hak.1 hak.2.1
    (fun x y hs => (hgk.2.2.2.1 x y hs).1), fun c g1 hask => ⟨fun d hd => ?_, ?_⟩⟩
  · obtain ⟨j, w, h1, h2, h3, h4, h5, h6, h7, h8⟩ :=
      ask_move_target order hord _ g1 c d ⟨hwk, hgk, hak⟩ htk hvisk hv11k hask hd
    rw [kx, ky] at h2 h3 h4 h6 h7
    rw [hsk] at h3
    rw [hwlk] at h4
    exact ⟨j, w, h1, h2, h3, h4, (hgg.2.2.2.1 _ _ h3).2, h5, h6, h7, h8⟩
  · have hP1 : Play g1 := Play.ask order _ g1 c hPk huk hord hask
    rcases process_player_command_returns g1 c
      (interior_of_walk_inv g1 (play_inv g1 hP1).1) with hq | ⟨g2, hcmd⟩
    · exact Or.inl hq
    · have hP2 : Play g2 := Play.command g1 g2 c hP1 hcmd
      obtain ⟨g3, hp⟩ := process_percepts_total g2 (interior_of_walk_inv g2 (play_inv g2 hP2).1)
      have hrun : AgentRun g3 := AgentRun.turn order g g1 g2 g3 c h hord hask hcmd hp
      exact Or.inr ⟨g2, g3, hcmd, hp, hrun, (agent_run_inv g3 hrun).2.2.2.2.2⟩

theorem clear_bump_demo_first : clear_bump demo_first = demo_first := by
  unfold clear_bump
  rw [if_neg (by decide!)]

theorem agent_never_dies_witness :
    AgentRun demo_first ∧
    Int.land demo_first.percepts PERCEPT_DEAD = 0 ∧
    ¬ lethal demo_first demo_first.x demo_first.y ∧
    kb_ask_action id (clear_bump demo_first) = .ok ('e', demo_asked) ∧
    (∃ g2 g3, process_player_command demo_asked 'e' = .ok (some g2) ∧
      process_percepts g2 = .ok g3 ∧ AgentRun g3 ∧
      Int.land g3.percepts PERCEPT_DEAD = 0) := by
  have hr : AgentRun demo_first :=
    AgentRun.start demo_draws demo_start demo_first demo_start_eq demo_first_eq
  have hask : kb_ask_action id (clear_bump demo_first) = .ok ('e', demo_asked) := by
    rw [clear_bump_demo_first]
    exact demo_asked_eq
  obtain ⟨h1, h2, h3⟩ := agent_never_dies demo_first hr
  exact ⟨hr, h1, h2, hask,
    (((h3 id (fun l => List.Perm.refl l)).2 'e' demo_asked hask).2).resolve_left (by decide)⟩

/-! ## The indices of the search -/

theorem possibles_in_map (x y : Int) (c : coordinate) (h : possibles x y = .ok c) :
    in_map c.x c.y = true := by
  unfold possibles at h
  split at h
  · rename_i hin
    rw [← Except.ok.inj h]
    exact hin
  · exact absurd h (by simp)

/-- Every coordinate that the search loop with the record has enqueued when
it ends is an index pair of the map. -/
theorem search_loop_log_pushed : ∀ (fuel : Nat) (g : WUMPLUS) (M W : Grid) (t : coordinate)
    (e p : List coordinate) (r : WUMPLUS × Grid × Grid × coordinate) (e' p' : List coordinate),
    search_loop_log fuel g M W t e p = .ok (r, e', p') →
    (∀ c ∈ p, in_map c.x c.y = true) → ∀ c ∈ p', in_map c.x c.y = true := by
  intro fuel
  induction fuel with
  | zero =>
    intro g M W t e p r e' p' h hp
    rw [search_loop_log] at h
    split at h
    · have h' := Except.ok.inj h
      rw [Prod.mk.injEq, Prod.mk.injEq] at h'
      obtain ⟨-, -, rfl⟩ := h'
      exact hp
    · exact absurd h (by simp)
  | succ fuel ih =>
    intro g M W t e p r e' p' h hp
    rw [search_loop_log] at h
    split at h
    · have h' := Except.ok.inj h
      rw [Prod.mk.injEq, Prod.mk.injEq] at h'
      obtain ⟨-, -, rfl⟩ := h'
      exact hp
    · dsimp only at h
      split at h
      · exact ih _ _ _ _ _ _ _ _ _ h hp
      · obtain ⟨m, -, h⟩ := bind_ok _ _ _ h
        split at h
        · exact ih _ _ _ _ _ _ _ _ _ h hp
        · obtain ⟨M1, -, h⟩ := bind_ok _ _ _ h
          obtain ⟨p1, hp1, h⟩ := bind_ok _ _ _ h
          obtain ⟨p2, hp2, h⟩ := bind_ok _ _ _ h
          obtain ⟨p3, hp3, h⟩ := bind_ok _ _ _ h
          obtain ⟨p4, hp4, h⟩ := bind_ok _ _ _ h
          obtain ⟨w, -, h⟩ := bind_ok _ _ _ h
          obtain ⟨W1, -, h⟩ := bind_ok _ _ _ h
          obtain ⟨W2, -, h⟩ := bind_ok _ _ _ h
          obtain ⟨W3, -, h⟩ := bind_ok _ _ _ h
          obtain ⟨W4, -, h⟩ := bind_ok _ _ _ h
          refine ih _ _ _ _ _ _ _ _ _ h ?_
          intro c hc
          simp only [List.mem_append, List.mem_singleton] at hc
          rcases hc with (((hc | rfl) | rfl) | rfl) | rfl
          · exact hp c hc
          · exact possibles_in_map _ _ _ hp1
          · exact possibles_in_map _ _ _ hp2
          · exact possibles_in_map _ _ _ hp3
          · exact possibles_in_map _ _ _ hp4

/-- The search with the record, on an empty queue table, with the border
known as wall and the destination in the map: it returns, and every
coordinate it has enqueued is an index pair of the map. -/
theorem search_weights_log_returns (g : WUMPLUS) (hq : g.db.queue = [])
    (hper : perimeter_walls g) (hin : in_map g.dest_x g.dest_y = true) :
    ∃ (W : Grid) (expanded pushed : List coordinate),
      search_weights_log search_fuel g = .ok ((set_queue g [], W), expanded, pushed) ∧
      (∀ c ∈ expanded, in_map c.x c.y = true) ∧ (∀ c ∈ pushed, in_map c.x c.y = true) := by
  obtain ⟨M', W', t', hrun, -⟩ := search_loop_correct g hper ⟨g.dest_x, g.dest_y⟩
    search_fuel [⟨g.dest_x, g.dest_y⟩] (fun _ _ => 0)
    (fun i j => if i = g.dest_x ∧ j = g.dest_y then 1 else 0) ⟨-1, -1⟩ 1
    (search_inv_init g ⟨g.dest_x, g.dest_y⟩ hin)
    (by rw [unmarked_init]; unfold search_fuel; simp)
  have her := search_loop_log_erase search_fuel (set_queue g [⟨g.dest_x, g.dest_y⟩])
    (fun _ _ => 0) (fun i j => if i = g.dest_x ∧ j = g.dest_y then 1 else 0) ⟨-1, -1⟩
    [] [⟨g.dest_x, g.dest_y⟩]
  rw [hrun] at her
  cases hlog : search_loop_log search_fuel (set_queue g [⟨g.dest_x, g.dest_y⟩])
      (fun _ _ => 0) (fun i j => if i = g.dest_x ∧ j = g.dest_y then 1 else 0) ⟨-1, -1⟩
      [] [⟨g.dest_x, g.dest_y⟩] with
  | error e =>
    rw [hlog] at her
    exact absurd her (by simp [Except.map])
  | ok x =>
    rw [hlog] at her
    have hx1 : x.1 = (set_queue g [], M', W', t') := Except.ok.inj her
    clear her
    obtain ⟨r, e', p'⟩ := x
    simp only at hx1
    subst hx1
    obtain ⟨-, q2, -⟩ := search_loop_log_record _ _ _ _ _ _ _ _ _ _ hlog
      (fun c hc => absurd hc (List.not_mem_nil _)) List.nodup_nil
    have q4 := search_loop_log_pushed _ _ _ _ _ _ _ _ _ _ hlog (by
      intro c hc
      rw [List.mem_singleton] at hc
      rw [hc]
      exact hin)
    have hl : search_weights_log search_fuel g = .ok ((set_queue g [], W'), e', p') := by
      unfold search_weights_log
      dsimp only
      rw [grid_set_of_in_map _ _ _ _ hin, possibles_of_in_map _ _ hin]
      simp only [bind, Except.bind]
      rw [queue_enqueue_eq, hq, List.nil_append, hlog]
      rfl
    exact ⟨W', e', p', hl, q2, q4⟩

/-- Claim C27: in every state at the top of the main loop of a run in agent
mode, when `kb_ask_action` calls `shortest_path` the game of the call has a
destination active, both coordinates of the destination are from 1 to
`MAP_SIZE - 2`, the destination is Safe, no known wall, and not the agent's
cell; the call returns, so no index of `weights`, `marked` or `possibles` is
outside the arrays, and every coordinate the search expands or enqueues is an
index pair of the map. -/
theorem shortest_path_called_with_valid_destination (g : WUMPLUS) (h : AgentRun g)
    (order : List Row → List Row) (hord : ∀ l, (order l).Perm l) (s : WUMPLUS)
    (hs : shortest_path_call order (clear_bump g) = some s) :
    kb_ask_action order (clear_bump g) = shortest_path s ∧
    has_destination s = true ∧
    (1 ≤ s.dest_x ∧ s.dest_x ≤ MAP_SIZE - 2 ∧ 1 ≤ s.dest_y ∧ s.dest_y ≤ MAP_SIZE - 2) ∧
    safe s s.dest_x s.dest_y = true ∧ wall s s.dest_x s.dest_y = false ∧
    ¬ (s.dest_x = s.x ∧ s.dest_y = s.y) ∧
    (s.x = g.x ∧ s.y = g.y) ∧
    in_map s.dest_x s.dest_y = true ∧
    (∃ c, shortest_path s = .ok (c, s)) ∧
    (∃ (W : Grid) (expanded pushed : List coordinate),
      search_weights_log search_fuel s = .ok ((s, W), expanded, pushed) ∧
      (∀ c ∈ expanded, in_map c.x c.y = true) ∧ (∀ c ∈ pushed, in_map c.x c.y = true)) := by
  obtain ⟨hP, hu, ht, hvis, hv11, -⟩ := agent_run_inv g h
  obtain ⟨kx, ky, km, kf, ku, kdb⟩ := clear_bump_frame g
  have hPk : Play (clear_bump g) := Play.unbump g hP
  have huk : (clear_bump g).use_agent = true := ku.trans hu
  have hvk : ∀ a b, visited (clear_bump g) a b = visited g a b :=
    fun a b => kb_found_congr g _ (by rw [kdb]) _ a b
  have hsk : ∀ a b, safe (clear_bump g) a b = safe g a b :=
    fun a b => kb_found_congr g _ (by rw [kdb]) _ a b
  have htk : tour_inv (clear_bump g) :=
    tour_inv_stay g _ hvk hsk (fun a b => Or.inl (by rw [km]))
      (fun hh => by rw [← kf]; exact hh) kx ky ht
  have hvisk : visited (clear_bump g) (clear_bump g).x (clear_bump g).y = true := by
    rw [hvk, kx, ky]; exact hvis
  have hv11k : visited (clear_bump g) 1 1 = true := by rw [hvk]; exact hv11
  obtain ⟨hwk, hrest⟩ := play_inv _ hPk
  obtain ⟨hgk, hak⟩ := hrest huk
  obtain ⟨hcall, h3⟩ := shortest_path_call_some order _ s hs
  obtain ⟨⟨sw, sg, sa⟩, -, -, shd, sp, sne, sx, sy, -, -⟩ :=
    call_state order hord _ s ⟨hwk, hgk, hak⟩ htk hvisk hv11k h3
  have hin : in_map s.dest_x s.dest_y = true := (sg.2.2.2.1 _ _ sp.1).1
  have hint := passable_interior s sa.2.1 ⟨s.dest_x, s.dest_y⟩ hin sp
  have hsq : set_queue s [] = s := by rw [← sa.1]; rfl
  obtain ⟨c, hc, -⟩ := shortest_path_returns s sa.1 sa.2.1 hin (interior_of_walk_inv s sw)
  obtain ⟨W, e, p, hl, he, hp⟩ := search_weights_log_returns s sa.1 sa.2.1 hin
  rw [hsq] at hl
  refine ⟨hcall, shd, ?_, sp.1, sp.2, ?_, ⟨sx.trans kx, sy.trans ky⟩, hin, ⟨c, hc⟩,
    W, e, p, hl, he, hp⟩
  · unfold MAP_SIZE
    dsimp only at hint
    omega
  · rintro ⟨e1, e2⟩
    apply sne
    rw [e1, e2]

theorem demo_call_eq : shortest_path_call id (clear_bump demo_first) = some demo_call :=
  getD_of_isSome (shortest_path_call id (clear_bump demo_first)) demo_first (by decide!)

theorem shortest_path_called_with_valid_destination_witness :
    AgentRun demo_first ∧ (∀ l : List Row, (id l).Perm l) ∧
    shortest_path_call id (clear_bump demo_first) = some demo_call ∧
    (demo_call.dest_x, demo_call.dest_y) = (2, 1) ∧
    kb_ask_action id (clear_bump demo_first) = shortest_path demo_call ∧
    has_destination demo_call = true ∧
    (1 ≤ demo_call.dest_x ∧ demo_call.dest_x ≤ MAP_SIZE - 2 ∧
      1 ≤ demo_call.dest_y ∧ demo_call.dest_y ≤ MAP_SIZE - 2) ∧
    safe demo_call demo_call.dest_x demo_call.dest_y = true ∧
    wall demo_call demo_call.dest_x demo_call.dest_y = false ∧
    ¬ (demo_call.dest_x = demo_call.x ∧ demo_call.dest_y = demo_call.y) ∧
    (∃ c, shortest_path demo_call = .ok (c, demo_call)) := by
  have hr : AgentRun demo_first :=
    AgentRun.start demo_draws demo_start demo_first demo_start_eq demo_first_eq
  obtain ⟨h1, h2, h3, h4, h5, h6, -, -, h9, -⟩ :=
    shortest_path_called_with_valid_destination demo_first hr id
      (fun l => List.Perm.refl l) demo_call demo_call_eq
  exact ⟨hr, fun l => List.Perm.refl l, demo_call_eq, by decide!, h1, h2, h3, h4, h5, h6, h9⟩

/-! ## The games outside the runs -/

/-- Every state at the top of the main loop of a run in agent mode is the
result of `kb_tell` on a state without the Dead percept: in a run `kb_tell`
is not handed the Dead percept. -/
theorem kb_tell_alive_in_runs (g : WUMPLUS) (h : AgentRun g) :
    ∃ k0 : WUMPLUS, g = kb_tell k0 ∧ Int.land k0.percepts PERCEPT_DEAD = 0 := by
  obtain ⟨-, hu, -, -, -, hdead⟩ := agent_run_inv g h
  have key : ∀ k, process_percepts k = .ok g →
      ∃ k0 : WUMPLUS, g = kb_tell k0 ∧ Int.land k0.percepts PERCEPT_DEAD = 0 := by
    intro k hp
    obtain ⟨k0, e, -⟩ := process_percepts_spec k g hp
    cases hk : k0.use_agent with
    | false =>
      rw [hk] at e
      rw [e, if_neg (by simp)] at hu
      rw [hu] at hk
      exact Bool.noConfusion hk
    | true =>
      rw [hk, if_pos rfl] at e
      refine ⟨k0, e, ?_⟩
      rw [← kb_tell_percepts k0, ← e]
      exact hdead
  cases h with
  | start r g0 _ _ hp => exact key g0 hp
  | turn order g' g1 g2 _ c _ _ _ _ hp => exact key g2 hp

/-- The cut-off game is outside the runs: no call of `shortest_path` by
`kb_ask_action` in a run in agent mode is on it, since its Safe cell (5,5) is
neither Visited nor next to a Visited cell. -/
theorem stuck_game_not_called (g : WUMPLUS) (h : AgentRun g)
    (order : List Row → List Row) (hord : ∀ l, (order l).Perm l) :
    shortest_path_call order (clear_bump g) ≠ some stuck_game := by
  intro hs
  obtain ⟨hP, hu, ht, hvis, hv11, -⟩ := agent_run_inv g h
  obtain ⟨kx, ky, km, kf, ku, kdb⟩ := clear_bump_frame g
  have hPk : Play (clear_bump g) := Play.unbump g hP
  have huk : (clear_bump g).use_agent = true := ku.trans hu
  have hvk : ∀ a b, visited (clear_bump g) a b = visited g a b :=
    fun a b => kb_found_congr g _ (by rw [kdb]) _ a b
  have hsk : ∀ a b, safe (clear_bump g) a b = safe g a b :=
    fun a b => kb_found_congr g _ (by rw [kdb]) _ a b
  have htk : tour_inv (clear_bump g) :=
    tour_inv_stay g _ hvk hsk (fun a b => Or.inl (by rw [km]))
      (fun hh => by rw [← kf]; exact hh) kx ky ht
  have hvisk : visited (clear_bump g) (clear_bump g).x (clear_bump g).y = true := by
    rw [hvk, kx, ky]; exact hvis
  have hv11k : visited (clear_bump g) 1 1 = true := by rw [hvk]; exact hv11
  obtain ⟨hwk, hrest⟩ := play_inv _ hPk
  obtain ⟨hgk, hak⟩ := hrest huk
  obtain ⟨-, h3⟩ := shortest_path_call_some order _ _ hs
  obtain ⟨-, st, -⟩ := call_state order hord _ _ ⟨hwk, hgk, hak⟩ htk hvisk hv11k h3
  rcases st.1.2.2 5 5 (by decide!) with hv | ⟨v, hadj, hv⟩
  · exact absurd hv (by decide!)
  · have hmem := (mem_neighbours ⟨5, 5⟩ v).2 hadj
    simp only [neighbours, List.mem_cons, List.mem_singleton, List.not_mem_nil, or_false] at hmem
    rcases hmem with rfl | rfl | rfl | rfl <;> exact absurd hv (by decide!)

/-! ## The target of every call of the search in a run -/

/-- Claim C2: in every state at the top of the main loop of a run in agent
mode, when `kb_ask_action` calls `shortest_path`, the call returns a direction
character, and the cell one step from the agent in that direction is a
neighbour of the agent's cell, is no cell marked as a wall, and is Safe, so it
is not a cell that is neither Safe nor Visited; its weight after the zeroing
is nonzero. -/
theorem shortest_path_target_never_wall_or_unknown (g : WUMPLUS) (h : AgentRun g)
    (order : List Row → List Row) (hord : ∀ l, (order l).Perm l) (s : WUMPLUS)
    (hs : shortest_path_call order (clear_bump g) = some s) :
    ∃ (c : Char) (n : coordinate) (w : Grid),
      kb_ask_action order (clear_bump g) = .ok (c, s) ∧
      shortest_path s = .ok (c, s) ∧ target_cell s c = some n ∧
      adjacent ⟨s.x, s.y⟩ n ∧ wall s n.x n.y = false ∧ safe s n.x n.y = true ∧
      ¬ (safe s n.x n.y = false ∧ visited s n.x n.y = false) ∧
      filtered_weights search_fuel s = .ok (s, w) ∧ w n.x n.y ≠ 0 := by
  obtain ⟨hP, hu, ht, hvis, hv11, -⟩ := agent_run_inv g h
  obtain ⟨kx, ky, km, kf, ku, kdb⟩ := clear_bump_frame g
  have hPk : Play (clear_bump g) := Play.unbump g hP
  have huk : (clear_bump g).use_agent = true := ku.trans hu
  have hvk : ∀ a b, visited (clear_bump g) a b = visited g a b :=
    fun a b => kb_found_congr g _ (by rw [kdb]) _ a b
  have hsk : ∀ a b, safe (clear_bump g) a b = safe g a b :=
    fun a b => kb_found_congr g _ (by rw [kdb]) _ a b
  have htk : tour_inv (clear_bump g) :=
    tour_inv_stay g _ hvk hsk (fun a b => Or.inl (by rw [km]))
      (fun hh => by rw [← kf]; exact hh) kx ky ht
  have hvisk : visited (clear_bump g) (clear_bump g).x (clear_bump g).y = true := by
    rw [hvk, kx, ky]; exact hvis
  have hv11k : visited (clear_bump g) 1 1 = true := by rw [hvk]; exact hv11
  obtain ⟨hwk, hrest⟩ := play_inv _ hPk
  obtain ⟨hgk, hak⟩ := hrest huk
  obtain ⟨hcall, h3⟩ := shortest_path_call_some order _ s hs
  obtain ⟨-, -, -, -, -, -, sx, sy, ss, swl⟩ :=
    call_state order hord _ s ⟨hwk, hgk, hak⟩ htk hvisk hv11k h3
  obtain ⟨c, n, -, w, h1, h2, h4, h5, h6, h7, h8, -, -⟩ :=
    call_step order hord _ s ⟨hwk, hgk, hak⟩ htk hvisk hv11k h3
  have hsn : safe s n.x n.y = true := by rw [ss]; exact h5
  refine ⟨c, n, w, hcall.trans h1, h1, ?_, ?_, ?_, hsn, ?_, h7, h8⟩
  · unfold target_cell at h2 ⊢
    rw [sx, sy]
    exact h2
  · rw [sx, sy]
    exact h4
  · rw [swl]
    exact h6
  · intro hh
    rw [hsn] at hh
    exact Bool.noConfusion hh.1

theorem shortest_path_target_never_wall_or_unknown_witness :
    AgentRun demo_first ∧ (∀ l : List Row, (id l).Perm l) ∧
    shortest_path_call id (clear_bump demo_first) = some demo_call ∧
    direction_of (shortest_path demo_call) = some 'e' ∧
    target_cell demo_call 'e' = some ⟨2, 1⟩ ∧
    (∃ (c : Char) (n : coordinate) (w : Grid),
      kb_ask_action id (clear_bump demo_first) = .ok (c, demo_call) ∧
      shortest_path demo_call = .ok (c, demo_call) ∧ target_cell demo_call c = some n ∧
      adjacent ⟨demo_call.x, demo_call.y⟩ n ∧ wall demo_call n.x n.y = false ∧
      safe demo_call n.x n.y = true ∧
      ¬ (safe demo_call n.x n.y = false ∧ visited demo_call n.x n.y = false) ∧
      filtered_weights search_fuel demo_call = .ok (demo_call, w) ∧ w n.x n.y ≠ 0) :=
  ⟨AgentRun.start demo_draws demo_start demo_first demo_start_eq demo_first_eq,
    fun l => List.Perm.refl l, demo_call_eq, by decide!, by decide!,
    shortest_path_target_never_wall_or_unknown demo_first
      (AgentRun.start demo_draws demo_start demo_first demo_start_eq demo_first_eq) id
      (fun l => List.Perm.refl l) demo_call demo_call_eq⟩

end Wumpus
